import Mathlib



/-!
Weighted red-black tree (`red_black_tree.c`): shallow embedding and verification.

The C program keeps its nodes in heap cells linked by `left`/`right`/`parent`
pointers, with two sentinel cells (`nil` and the root sentinel).  The embedding
models the heap as a total map from addresses to node records, pointers as
natural numbers, keys and payloads (`void*`) as integers, and the `double`
aggregate `children` in exact integer arithmetic.  Every `while` loop of the
source becomes a recursive function with a fuel argument that returns `none`
when the fuel runs out.
-/

namespace RBTree

/-! ## The data model (`red_black_tree.h`) -/

/-- Node record `rb_red_blk_node`. -/
structure rb_red_blk_node where
  key : Int
  info : Int
  red : Bool
  left : Nat
  right : Nat
  parent : Nat
  children : Int
deriving DecidableEq

/-- The heap: a cell for every address. -/
abbrev Mem := Nat → rb_red_blk_node

/-- Tree descriptor `rb_red_blk_tree`: the comparator, the weight function
(with its parameter `dfparam` already applied) and the two sentinel pointers.
The destructor and print callbacks do not touch the node cells and are left out. -/
structure rb_red_blk_tree where
  Compare : Int → Int → Int
  DistFunc : Int → Int
  root : Nat
  nil : Nat

/-- Store the cell `n` at address `a`. -/
def upd (m : Mem) (a : Nat) (n : rb_red_blk_node) : Mem :=
  fun b => if b = a then n else m b

/-- Assignment `a->key = v`. -/
def setKey (m : Mem) (a : Nat) (v : Int) : Mem := upd m a { m a with key := v }

/-- Assignment `a->info = v`. -/
def setInfo (m : Mem) (a : Nat) (v : Int) : Mem := upd m a { m a with info := v }

/-- Assignment `a->red = v`. -/
def setRed (m : Mem) (a : Nat) (v : Bool) : Mem := upd m a { m a with red := v }

/-- Assignment `a->left = v`. -/
def setLeft (m : Mem) (a : Nat) (v : Nat) : Mem := upd m a { m a with left := v }

/-- Assignment `a->right = v`. -/
def setRight (m : Mem) (a : Nat) (v : Nat) : Mem := upd m a { m a with right := v }

/-- Assignment `a->parent = v`. -/
def setParent (m : Mem) (a : Nat) (v : Nat) : Mem := upd m a { m a with parent := v }

/-- Assignment `a->children = v`. -/
def setChildren (m : Mem) (a : Nat) (v : Int) : Mem := upd m a { m a with children := v }

/-! ## The operations (`red_black_tree.c`) -/

/-- `CmpInt64` of `red_black_tree.h`, the comparator the rank test uses (keys are the
integers themselves). -/
def CmpInt64 (a b : Int) : Int :=
  if a > b then 1 else if a < b then -1 else 0

/-- `RBTreeCreate`: `nilp` and `rootp` are the two cells handed out by the
allocator, `m` is the heap before the call. -/
def RBTreeCreate (CompFunc : Int → Int → Int) (DistFunc : Int → Int)
    (nilp rootp : Nat) (m : Mem) : rb_red_blk_tree × Mem :=
  let m := setParent m nilp nilp
  let m := setLeft m nilp nilp
  let m := setRight m nilp nilp
  let m := setRed m nilp false
  let m := setKey m nilp 0
  let m := setChildren m nilp 0
  let m := setParent m rootp nilp
  let m := setLeft m rootp nilp
  let m := setRight m rootp nilp
  let m := setKey m rootp 0
  let m := setRed m rootp false
  let m := setChildren m rootp 0
  (⟨CompFunc, DistFunc, rootp, nilp⟩, m)

/-- `TreeUpdateSum`. -/
def TreeUpdateSum (tree : rb_red_blk_tree) (m : Mem) (x : Nat) : Mem :=
  setChildren m x
    ((m (m x).left).children + (m (m x).right).children + tree.DistFunc (m x).key)

/-- `LeftRotate`. -/
def LeftRotate (tree : rb_red_blk_tree) (m : Mem) (x : Nat) : Mem :=
  let y := (m x).right
  let m := setRight m x (m y).left
  let m := if (m y).left ≠ tree.nil then setParent m (m y).left x else m
  let m := setParent m y (m x).parent
  let m := if x = (m (m x).parent).left then setLeft m (m x).parent y
           else setRight m (m x).parent y
  let m := setLeft m y x
  let m := setParent m x y
  let m := TreeUpdateSum tree m x
  TreeUpdateSum tree m y

/-- `RightRotate`. -/
def RightRotate (tree : rb_red_blk_tree) (m : Mem) (y : Nat) : Mem :=
  let x := (m y).left
  let m := setLeft m y (m x).right
  let m := if tree.nil ≠ (m x).right then setParent m (m x).right y else m
  let m := setParent m x (m y).parent
  let m := if y = (m (m y).parent).left then setLeft m (m y).parent x
           else setRight m (m y).parent x
  let m := setRight m x y
  let m := setParent m y x
  let m := TreeUpdateSum tree m y
  TreeUpdateSum tree m x

/-- The descent loop of `TreeInsertHelp`: returns the final `y`. -/
def TreeInsertHelp.descend (tree : rb_red_blk_tree) (m : Mem) (z : Nat) :
    Nat → Nat → Nat → Option Nat
  | 0, _, _ => none
  | fuel + 1, y, x =>
    if x ≠ tree.nil then
      if tree.Compare (m x).key (m z).key = 1 then
        TreeInsertHelp.descend tree m z fuel x (m x).left
      else
        TreeInsertHelp.descend tree m z fuel x (m x).right
    else some y

/-- The weight loop of `TreeInsertHelp`: `w->children += z->children` up to the
root sentinel. -/
def TreeInsertHelp.propagate (tree : rb_red_blk_tree) (z : Nat) :
    Nat → Mem → Nat → Option Mem
  | 0, _, _ => none
  | fuel + 1, m, w =>
    if w ≠ tree.root then
      TreeInsertHelp.propagate tree z fuel
        (setChildren m w ((m w).children + (m z).children)) (m w).parent
    else some m

/-- `TreeInsertHelp`. -/
def TreeInsertHelp (fuel : Nat) (tree : rb_red_blk_tree) (m : Mem) (z : Nat) : Option Mem :=
  let m := setRight m z tree.nil
  let m := setLeft m z tree.nil
  match TreeInsertHelp.descend tree m z fuel tree.root (m tree.root).left with
  | none => none
  | some y =>
    let m := setParent m z y
    let m := if y = tree.root ∨ tree.Compare (m y).key (m z).key = 1 then setLeft m y z
             else setRight m y z
    let m := setChildren m z (tree.DistFunc (m z).key)
    TreeInsertHelp.propagate tree z fuel m (m z).parent

/-- The repair loop of `RBTreeInsert`. -/
def RBTreeInsert.loop (tree : rb_red_blk_tree) : Nat → Mem → Nat → Option Mem
  | 0, _, _ => none
  | fuel + 1, m, x =>
    if (m (m x).parent).red then
      if (m x).parent = (m (m (m x).parent).parent).left then
        let y := (m (m (m x).parent).parent).right
        if (m y).red then
          let m := setRed m (m x).parent false
          let m := setRed m y false
          let m := setRed m (m (m x).parent).parent true
          RBTreeInsert.loop tree fuel m (m (m x).parent).parent
        else
          let (m, x) :=
            if x = (m (m x).parent).right then
              let x := (m x).parent
              (LeftRotate tree m x, x)
            else (m, x)
          let m := setRed m (m x).parent false
          let m := setRed m (m (m x).parent).parent true
          let m := RightRotate tree m (m (m x).parent).parent
          RBTreeInsert.loop tree fuel m x
      else
        let y := (m (m (m x).parent).parent).left
        if (m y).red then
          let m := setRed m (m x).parent false
          let m := setRed m y false
          let m := setRed m (m (m x).parent).parent true
          RBTreeInsert.loop tree fuel m (m (m x).parent).parent
        else
          let (m, x) :=
            if x = (m (m x).parent).left then
              let x := (m x).parent
              (RightRotate tree m x, x)
            else (m, x)
          let m := setRed m (m x).parent false
          let m := setRed m (m (m x).parent).parent true
          let m := LeftRotate tree m (m (m x).parent).parent
          RBTreeInsert.loop tree fuel m x
    else some m

/-- `RBTreeInsert`: `x` is the cell handed out by the allocator for the new
node; the result is the new heap and the returned handle. -/
def RBTreeInsert (fuel : Nat) (tree : rb_red_blk_tree) (m : Mem) (x : Nat)
    (key info : Int) : Option (Mem × Nat) :=
  let m := setKey m x key
  let m := setInfo m x info
  match TreeInsertHelp fuel tree m x with
  | none => none
  | some m =>
    let newNode := x
    let m := setRed m x true
    match RBTreeInsert.loop tree fuel m x with
    | none => none
    | some m =>
      let m := setRed m (m tree.root).left false
      some (m, newNode)

/-- The ascent loop of `GetNodeRank`. -/
def GetNodeRank.loop (tree : rb_red_blk_tree) (m : Mem) : Nat → Nat → Int → Option Int
  | 0, _, _ => none
  | fuel + 1, w, ret =>
    if (m w).parent ≠ tree.root then
      let ret :=
        if w = (m (m w).parent).right then
          ret + ((m (m (m w).parent).left).children + tree.DistFunc (m (m w).parent).key)
        else ret
      GetNodeRank.loop tree m fuel (m w).parent ret
    else some ret

/-- `GetNodeRank` (the debug assertions are compiled out in the source). -/
def GetNodeRank (fuel : Nat) (tree : rb_red_blk_tree) (m : Mem) (x : Nat) : Option Int :=
  GetNodeRank.loop tree m fuel x (m (m x).left).children

/-- First loop of `TreeSuccessor`: the minimum of a subtree. -/
def TreeSuccessor.down (tree : rb_red_blk_tree) (m : Mem) : Nat → Nat → Option Nat
  | 0, _ => none
  | fuel + 1, y =>
    if (m y).left ≠ tree.nil then TreeSuccessor.down tree m fuel (m y).left else some y

/-- Second loop of `TreeSuccessor`: the ascent; returns the final `y`. -/
def TreeSuccessor.up (m : Mem) : Nat → Nat → Nat → Option Nat
  | 0, _, _ => none
  | fuel + 1, x, y =>
    if x = (m y).right then TreeSuccessor.up m fuel y (m y).parent else some y

/-- `TreeSuccessor`. -/
def TreeSuccessor (fuel : Nat) (tree : rb_red_blk_tree) (m : Mem) (x : Nat) : Option Nat :=
  if tree.nil ≠ (m x).right then
    TreeSuccessor.down tree m fuel (m x).right
  else
    match TreeSuccessor.up m fuel x (m x).parent with
    | none => none
    | some y => if y = tree.root then some tree.nil else some y

/-- The loop of `RBExactQuery`; the inner `none` is the `NULL` result. -/
def RBExactQuery.loop (tree : rb_red_blk_tree) (m : Mem) (q : Int) :
    Nat → Nat → Int → Option (Option Nat)
  | 0, _, _ => none
  | fuel + 1, x, compVal =>
    if 0 ≠ compVal then
      let x := if 1 = compVal then (m x).left else (m x).right
      if x = tree.nil then some none
      else RBExactQuery.loop tree m q fuel x (tree.Compare (m x).key q)
    else some (some x)

/-- `RBExactQuery`; the inner `none` is the `NULL` result. -/
def RBExactQuery (fuel : Nat) (tree : rb_red_blk_tree) (m : Mem) (q : Int) :
    Option (Option Nat) :=
  let x := (m tree.root).left
  if x = tree.nil then some none
  else RBExactQuery.loop tree m q fuel x (tree.Compare (m x).key q)

/-- The loop of `RBDeleteFixUp`; `root` is the real root read on entry.
Returns the heap and the final `x`. -/
def RBDeleteFixUp.loop (tree : rb_red_blk_tree) (root : Nat) :
    Nat → Mem → Nat → Option (Mem × Nat)
  | 0, _, _ => none
  | fuel + 1, m, x =>
    if (!(m x).red) ∧ root ≠ x then
      if x = (m (m x).parent).left then
        let w := (m (m x).parent).right
        let (m, w) :=
          if (m w).red then
            let m := setRed m w false
            let m := setRed m (m x).parent true
            let m := LeftRotate tree m (m x).parent
            (m, (m (m x).parent).right)
          else (m, w)
        if (!(m (m w).right).red) ∧ (!(m (m w).left).red) then
          let m := setRed m w true
          RBDeleteFixUp.loop tree root fuel m (m x).parent
        else
          let (m, w) :=
            if !(m (m w).right).red then
              let m := setRed m (m w).left false
              let m := setRed m w true
              let m := RightRotate tree m w
              (m, (m (m x).parent).right)
            else (m, w)
          let m := setRed m w (m (m x).parent).red
          let m := setRed m (m x).parent false
          let m := setRed m (m w).right false
          let m := LeftRotate tree m (m x).parent
          RBDeleteFixUp.loop tree root fuel m root
      else
        let w := (m (m x).parent).left
        let (m, w) :=
          if (m w).red then
            let m := setRed m w false
            let m := setRed m (m x).parent true
            let m := RightRotate tree m (m x).parent
            (m, (m (m x).parent).left)
          else (m, w)
        if (!(m (m w).right).red) ∧ (!(m (m w).left).red) then
          let m := setRed m w true
          RBDeleteFixUp.loop tree root fuel m (m x).parent
        else
          let (m, w) :=
            if !(m (m w).left).red then
              let m := setRed m (m w).right false
              let m := setRed m w true
              let m := LeftRotate tree m w
              (m, (m (m x).parent).left)
            else (m, w)
          let m := setRed m w (m (m x).parent).red
          let m := setRed m (m x).parent false
          let m := setRed m (m w).left false
          let m := RightRotate tree m (m x).parent
          RBDeleteFixUp.loop tree root fuel m root
    else some (m, x)

/-- `RBDeleteFixUp`. -/
def RBDeleteFixUp (fuel : Nat) (tree : rb_red_blk_tree) (m : Mem) (x : Nat) : Option Mem :=
  let root := (m tree.root).left
  match RBDeleteFixUp.loop tree root fuel m x with
  | none => none
  | some (m, x) => some (setRed m x false)

/-- The two weight loops of `RBDelete`: `w->children += d` up to the root
sentinel (`d` is `-ydval` in the first loop and `ydval - zdval` in the second). -/
def RBDelete.propagate (tree : rb_red_blk_tree) (d : Int) : Nat → Mem → Nat → Option Mem
  | 0, _, _ => none
  | fuel + 1, m, w =>
    if w ≠ tree.root then
      RBDelete.propagate tree d fuel (setChildren m w ((m w).children + d)) (m w).parent
    else some m

/-- The splice of `RBDelete`: `x->parent = y->parent`, then the parent of `y` is
pointed at `x` (`y` is the node that leaves its position, `x` its only child or `nil`). -/
def RBDelete.splice (tree : rb_red_blk_tree) (m : Mem) (x y : Nat) : Mem :=
  let m := setParent m x (m y).parent
  if tree.root = (m x).parent then setLeft m tree.root x
  else if y = (m (m y).parent).left then setLeft m (m y).parent x
  else setRight m (m y).parent x

/-- The block of `RBDelete` that puts `y` into the position of `z` (the branch
`y != z`, after the fix-up): `y` takes the links and colour of `z`, its aggregate is
recomputed, and the children and the parent of `z` are pointed at `y`. -/
def RBDelete.replace (tree : rb_red_blk_tree) (m : Mem) (y z : Nat) (ydval : Int) : Mem :=
  let m := setLeft m y (m z).left
  let m := setRight m y (m z).right
  let m := setParent m y (m z).parent
  let m := setRed m y (m z).red
  let m := setChildren m y
    ((m (m y).left).children + (m (m y).right).children + ydval)
  let m := setParent m (m z).right y
  let m := setParent m (m z).left y
  if z = (m (m z).parent).left then setLeft m (m z).parent y
  else setRight m (m z).parent y

/-- `RBDelete`.  The destructor callbacks and `free` do not change the cells
that stay in the tree and are left out. -/
def RBDelete (fuel : Nat) (tree : rb_red_blk_tree) (m : Mem) (z : Nat) : Option Mem :=
  let nil := tree.nil
  match (if (m z).left = nil ∨ (m z).right = nil then some z
         else TreeSuccessor fuel tree m z) with
  | none => none
  | some y =>
    let x := if (m y).left = nil then (m y).right else (m y).left
    let ydval := tree.DistFunc (m y).key
    match RBDelete.propagate tree (-ydval) fuel m (m y).parent with
    | none => none
    | some m =>
      let m := RBDelete.splice tree m x y
      if y ≠ z then
        let zdval := tree.DistFunc (m z).key
        match (if !(m y).red then RBDeleteFixUp fuel tree m x else some m) with
        | none => none
        | some m =>
          let m := RBDelete.replace tree m y z ydval
          RBDelete.propagate tree (ydval - zdval) fuel m (m y).parent
      else
        if !(m y).red then RBDeleteFixUp fuel tree m x else some m

/-! ## Abstract view: trees with addresses, and zippers -/

/-- The contents of a real node that do not depend on its position. -/
structure Data where
  key : Int
  info : Int
  red : Bool
  children : Int

/-- The tree a heap represents: every node carries its address and contents. -/
inductive Tree where
  | leaf : Tree
  | node (l : Tree) (a : Nat) (d : Data) (r : Tree) : Tree

/-- One step of a path from a node up to the root: `L a d r` says the hole is
the left child of node `a` (whose right subtree is `r`), `R l a d` that it is
the right child of `a`. -/
inductive Frame where
  | L (a : Nat) (d : Data) (r : Tree) : Frame
  | R (l : Tree) (a : Nat) (d : Data) : Frame

/-- A path from a position up to the real root, nearest ancestor first. -/
abbrev Path := List Frame

/-- What a traversal sees of a node: its handle, key and payload. -/
abbrev Entry := Nat × Int × Int

/-- Pointer to the root of a subtree (`nil` for the empty one). -/
def Tree.addr (nil : Nat) : Tree → Nat
  | .leaf => nil
  | .node _ a _ _ => a

/-- The `children` field seen through a pointer to the subtree. -/
def Tree.ch : Tree → Int
  | .leaf => 0
  | .node _ _ d _ => d.children

/-- The `red` field seen through a pointer to the subtree. -/
def Tree.isRed : Tree → Bool
  | .leaf => false
  | .node _ _ d _ => d.red

/-- The nodes in in-order (the order of `InorderTreePrint`). -/
def Tree.entries : Tree → List Entry
  | .leaf => []
  | .node l a d r => l.entries ++ (a, d.key, d.info) :: r.entries

/-- Addresses of the nodes, in in-order. -/
def Tree.addrs (t : Tree) : List Nat := t.entries.map (fun e => e.1)

/-- Keys of the nodes, in in-order. -/
def Tree.keys (t : Tree) : List Int := t.entries.map (fun e => e.2.1)

/-- Number of nodes. -/
def Tree.size : Tree → Nat
  | .leaf => 0
  | .node l _ _ r => l.size + 1 + r.size

/-- Address of the node of a frame. -/
def Frame.a : Frame → Nat
  | .L a _ _ => a
  | .R _ a _ => a

/-- Contents of the node of a frame. -/
def Frame.d : Frame → Data
  | .L _ d _ => d
  | .R _ _ d => d

/-- Put a subtree into the hole of a frame. -/
def Frame.plug : Frame → Tree → Tree
  | .L a d r, t => .node t a d r
  | .R l a d, t => .node l a d t

/-- Put a subtree into the hole of a path. -/
def fill : Path → Tree → Tree
  | [], t => t
  | f :: p, t => fill p (f.plug t)

/-- Pointer to the parent of the hole (the root sentinel at the top). -/
def Path.addr (root : Nat) : Path → Nat
  | [] => root
  | f :: _ => f.a

/-- Nodes that precede the hole in in-order. -/
def Path.before : Path → List Entry
  | [] => []
  | .L _ _ _ :: p => Path.before p
  | .R l a d :: p => Path.before p ++ (l.entries ++ [(a, d.key, d.info)])

/-- Nodes that follow the hole in in-order. -/
def Path.after : Path → List Entry
  | [] => []
  | .L a d r :: p => ((a, d.key, d.info) :: r.entries) ++ Path.after p
  | .R _ _ _ :: p => Path.after p

/-- The heap cell of a real node. -/
def mkCell (d : Data) (left right parent : Nat) : rb_red_blk_node :=
  { key := d.key, info := d.info, red := d.red, left := left, right := right,
    parent := parent, children := d.children }

/-- The heap holds subtree `t` below parent pointer `p`. -/
def Rep (nil : Nat) (m : Mem) : Tree → Nat → Prop
  | .leaf, _ => True
  | .node l a d r, p =>
    m a = mkCell d (l.addr nil) (r.addr nil) p ∧ Rep nil m l a ∧ Rep nil m r a

/-- The heap holds the path `p` above a hole whose pointer is `c`. -/
def RepPath (tree : rb_red_blk_tree) (m : Mem) : Path → Nat → Prop
  | [], _ => True
  | .L a d r :: p, c =>
    m a = mkCell d c (r.addr tree.nil) (Path.addr tree.root p) ∧ Rep tree.nil m r a ∧
      RepPath tree m p a
  | .R l a d :: p, c =>
    m a = mkCell d (l.addr tree.nil) c (Path.addr tree.root p) ∧ Rep tree.nil m l a ∧
      RepPath tree m p a

/-- The `nil` sentinel cell: black, weight 0, no key, children pointing at itself
(its parent pointer is scratch space). -/
def NilCell (tree : rb_red_blk_tree) (n : rb_red_blk_node) : Prop :=
  n.key = 0 ∧ n.red = false ∧ n.left = tree.nil ∧ n.right = tree.nil ∧ n.children = 0

/-- The root sentinel cell: black, weight 0, no key, left child `top`. -/
def RootCell (tree : rb_red_blk_tree) (n : rb_red_blk_node) (top : Nat) : Prop :=
  n.key = 0 ∧ n.red = false ∧ n.left = top ∧ n.right = tree.nil ∧ n.parent = tree.nil ∧
    n.children = 0

/-- The heap `m` represents the tree `fill p t`, seen at the position of `t`. -/
structure RepZ (tree : rb_red_blk_tree) (m : Mem) (p : Path) (t : Tree) : Prop where
  nodup : (tree.nil :: tree.root :: (fill p t).addrs).Nodup
  nilc : NilCell tree (m tree.nil)
  rootc : RootCell tree (m tree.root) ((fill p t).addr tree.nil)
  path : RepPath tree m p (t.addr tree.nil)
  sub : Rep tree.nil m t (Path.addr tree.root p)

/-- The heap `m` represents the tree `T`. -/
def RepTree (tree : rb_red_blk_tree) (m : Mem) (T : Tree) : Prop := RepZ tree m [] T

/-- A call terminates with result `r`: every sufficiently large fuel gives `r`. -/
def Returns {α : Type} (f : Nat → Option α) (r : α) : Prop :=
  ∃ N, ∀ fuel, N ≤ fuel → f fuel = some r

/-- The idiom `if (c == pa->left) pa->left = c'; else pa->right = c';` that relinks
the parent `pa` of `c` to a new child `c'`.  The test reads the heap `m`, the
write goes to the heap `m3`. -/
def relink (m m3 : Mem) (pa c c' : Nat) : Mem :=
  if (m pa).left = c then setLeft m3 pa c' else setRight m3 pa c'

/-! ## The operations on the abstract view -/

/-- Set the colour in the contents of a node. -/
def Data.setRed (d : Data) (b : Bool) : Data := { d with red := b }

/-- Set the aggregate in the contents of a node. -/
def Data.setCh (d : Data) (v : Int) : Data := { d with children := v }

/-- Recolour the root of a subtree (nothing happens on the empty tree: the `nil`
sentinel is black already). -/
def Tree.setRed : Tree → Bool → Tree
  | .leaf, _ => .leaf
  | .node l a d r, b => .node l a (d.setRed b) r

/-- Abstract `TreeUpdateSum` at the root of a subtree. -/
def Tree.updSum (w : Int → Int) : Tree → Tree
  | .leaf => .leaf
  | .node l a d r => .node l a (d.setCh (l.ch + r.ch + w d.key)) r

/-- Abstract `LeftRotate` at the root of a subtree. -/
def Tree.rotL (w : Int → Int) : Tree → Tree
  | .node l x dx (.node ml y dy r) =>
    Tree.updSum w (.node (Tree.updSum w (.node l x dx ml)) y dy r)
  | t => t

/-- Abstract `RightRotate` at the root of a subtree. -/
def Tree.rotR (w : Int → Int) : Tree → Tree
  | .node (.node l x dx mr) y dy r =>
    Tree.updSum w (.node l x dx (Tree.updSum w (.node mr y dy r)))
  | t => t

/-- Recolour the node of a frame. -/
def Frame.setRed : Frame → Bool → Frame
  | .L a d r, b => .L a (d.setRed b) r
  | .R l a d, b => .R l a (d.setRed b)

/-- Change the aggregate of the node of a frame by `v`. -/
def Frame.addCh : Frame → Int → Frame
  | .L a d r, v => .L a (d.setCh (d.children + v)) r
  | .R l a d, v => .R l a (d.setCh (d.children + v))

/-- Abstract weight loop: add `v` to the aggregate of every ancestor. -/
def Path.addCh (v : Int) (p : Path) : Path := p.map (fun f => f.addCh v)

/-- The real root (the last frame of a path) is black. -/
def Path.topBlack : Path → Prop
  | [] => True
  | [f] => f.d.red = false
  | _ :: g :: p => Path.topBlack (g :: p)

/-- Abstract descent loop of `TreeInsertHelp`: the path from the place where the
key `k` belongs up to the root. -/
def descend (cmp : Int → Int → Int) (k : Int) : Tree → Path → Path
  | .leaf, p => p
  | .node l a d r, p =>
    if cmp d.key k = 1 then descend cmp k l (.L a d r :: p)
    else descend cmp k r (.R l a d :: p)

/-- The nearest ancestor on a path agrees with the side on which the key `k`
was sent by the comparator. -/
def Path.headOK (cmp : Int → Int → Int) (k : Int) : Path → Prop
  | [] => True
  | .L _ d _ :: _ => cmp d.key k = 1
  | .R _ _ d :: _ => cmp d.key k ≠ 1

/-- Abstract repair loop of `RBTreeInsert`: `t` is the subtree rooted at the
current red node `x`, the path leads from `x` to the root; the result is the
whole tree when the loop exits. -/
def insFix (w : Int → Int) : Path → Tree → Tree
  | [], t => t
  | [f], t => f.plug t
  | f1 :: f2 :: rest, t =>
    if f1.d.red then
      match f2 with
      | .L g dg u =>
        if u.isRed then
          insFix w rest (.node ((f1.setRed false).plug t) g (dg.setRed true) (u.setRed false))
        else
          match f1 with
          | .R sp p dp =>
            fill rest (Tree.rotR w
              (.node ((Tree.rotL w (.node sp p dp t)).setRed false) g (dg.setRed true) u))
          | .L p dp sp =>
            fill rest (Tree.rotR w (.node (.node t p (dp.setRed false) sp) g (dg.setRed true) u))
      | .R u g dg =>
        if u.isRed then
          insFix w rest (.node (u.setRed false) g (dg.setRed true) ((f1.setRed false).plug t))
        else
          match f1 with
          | .L p dp sp =>
            fill rest (Tree.rotL w
              (.node u g (dg.setRed true) ((Tree.rotR w (.node t p dp sp)).setRed false)))
          | .R sp p dp =>
            fill rest (Tree.rotL w (.node u g (dg.setRed true) (.node sp p (dp.setRed false) t)))
    else fill (f1 :: f2 :: rest) t

/-- Abstract `RBTreeInsert`: the tree after inserting the new node `x` with the
given key and payload. -/
def Tree.insert (cmp : Int → Int → Int) (w : Int → Int) (T : Tree) (x : Nat)
    (key info : Int) : Tree :=
  (insFix w (Path.addCh (w key) (descend cmp key T []))
    (.node .leaf x ⟨key, info, true, w key⟩ .leaf)).setRed false

/-- Cases 2 to 4 of `RBDeleteFixUp` when `x` is a left child: `t` is the subtree
at `x`, `p` its parent and `ws` the sibling.  The result is the subtree that
replaces the one rooted at `p`, with `true` when the loop goes on from `p`
(case 2) and `false` when it is finished (case 4).  `none` marks a missing sibling. -/
def delCaseL (w : Int → Int) (t : Tree) (p : Nat) (dp : Data) : Tree → Option (Bool × Tree)
  | .leaf => none
  | .node wl wa wd wr =>
    if wr.isRed = false ∧ wl.isRed = false then
      some (true, .node t p dp (.node wl wa (wd.setRed true) wr))
    else if wr.isRed = false then
      match Tree.rotR w (.node (wl.setRed false) wa (wd.setRed true) wr) with
      | .leaf => none
      | .node wl' wa' wd' wr' =>
        some (false, Tree.rotL w
          (.node t p (dp.setRed false) (.node wl' wa' (wd'.setRed dp.red) (wr'.setRed false))))
    else
      some (false, Tree.rotL w
        (.node t p (dp.setRed false) (.node wl wa (wd.setRed dp.red) (wr.setRed false))))

/-- Cases 2 to 4 of `RBDeleteFixUp` when `x` is a right child (mirror image). -/
def delCaseR (w : Int → Int) (t : Tree) (p : Nat) (dp : Data) : Tree → Option (Bool × Tree)
  | .leaf => none
  | .node wl wa wd wr =>
    if wr.isRed = false ∧ wl.isRed = false then
      some (true, .node (.node wl wa (wd.setRed true) wr) p dp t)
    else if wl.isRed = false then
      match Tree.rotL w (.node wl wa (wd.setRed true) (wr.setRed false)) with
      | .leaf => none
      | .node wl' wa' wd' wr' =>
        some (false, Tree.rotR w
          (.node (.node (wl'.setRed false) wa' (wd'.setRed dp.red) wr') p (dp.setRed false) t))
    else
      some (false, Tree.rotR w
        (.node (.node (wl.setRed false) wa (wd.setRed dp.red) wr) p (dp.setRed false) t))

/-- Abstract `RBDeleteFixUp`: `t` is the subtree at `x` (possibly empty), the path
leads from `x` to the root; the result is the whole tree after the final
`x->red = 0`. -/
def delFix (w : Int → Int) : Path → Tree → Option Tree
  | [], t => some (t.setRed false)
  | .L p dp ws :: rest, t =>
    if t.isRed then some (fill (.L p dp ws :: rest) (t.setRed false))
    else
      match ws with
      | .leaf => none
      | .node wl wa wd wr =>
        if wd.red then
          let dp1 := (dp.setRed true).setCh (t.ch + wl.ch + w dp.key)
          let wd1 := (wd.setRed false).setCh (dp1.children + wr.ch + w wd.key)
          match delCaseL w t p dp1 wl with
          | none => none
          | some (true, s) => some (fill (.L wa wd1 wr :: rest) (s.setRed false))
          | some (false, s) => some (fill (.L wa wd1 wr :: rest) s)
        else
          match delCaseL w t p dp (.node wl wa wd wr) with
          | none => none
          | some (true, s) => delFix w rest s
          | some (false, s) => some (fill rest s)
  | .R ws p dp :: rest, t =>
    if t.isRed then some (fill (.R ws p dp :: rest) (t.setRed false))
    else
      match ws with
      | .leaf => none
      | .node wl wa wd wr =>
        if wd.red then
          let dp1 := (dp.setRed true).setCh (wr.ch + t.ch + w dp.key)
          let wd1 := (wd.setRed false).setCh (wl.ch + dp1.children + w wd.key)
          match delCaseR w t p dp1 wr with
          | none => none
          | some (true, s) => some (fill (.R wl wa wd1 :: rest) (s.setRed false))
          | some (false, s) => some (fill (.R wl wa wd1 :: rest) s)
        else
          match delCaseR w t p dp (.node wl wa wd wr) with
          | none => none
          | some (true, s) => delFix w rest s
          | some (false, s) => some (fill rest s)

/-- Search for the node with address `z`: the path to it and the subtree below it. -/
def Tree.find (z : Nat) : Tree → Path → Option (Path × Tree)
  | .leaf, _ => none
  | .node l a d r, p =>
    if a = z then some (p, .node l a d r)
    else
      match Tree.find z l (.L a d r :: p) with
      | some res => some res
      | none => Tree.find z r (.R l a d :: p)

/-- Abstract first loop of `TreeSuccessor`: the leftmost node of a subtree, with the
path to it, its address, contents and right subtree. -/
def splitMin : Tree → Path → Option (Path × Nat × Data × Tree)
  | .leaf, _ => none
  | .node l a d r, p =>
    match l with
    | .leaf => some (p, a, d, r)
    | .node _ _ _ _ => splitMin l (.L a d r :: p)

/-- The subtree is empty. -/
def Tree.isLeaf : Tree → Bool
  | .leaf => true
  | .node _ _ _ _ => false

/-- Abstract splice of `RBDelete`: the node whose weight is `v` and colour `red`
is removed from the hole of `path`, its only child `xt` takes its place. -/
def spliceFix (w : Int → Int) (red : Bool) (path : Path) (xt : Tree) (v : Int) : Option Tree :=
  if red then some (fill (Path.addCh (-v) path) xt) else delFix w (Path.addCh (-v) path) xt

/-- Abstract `RBDelete` of the node with address `z`. -/
def Tree.delete (w : Int → Int) (T : Tree) (z : Nat) : Option Tree :=
  match T.find z [] with
  | none => none
  | some (_, .leaf) => none
  | some (pz, .node zl _ dz zr) =>
    if zl.isLeaf ∨ zr.isLeaf then
      spliceFix w dz.red pz (if zl.isLeaf then zr else zl) (w dz.key)
    else
      match splitMin zr (.R zl z dz :: pz) with
      | none => none
      | some (py, y, dy, yr) =>
        match spliceFix w dy.red py yr (w dy.key) with
        | none => none
        | some T2 =>
          match T2.find z [] with
          | some (pz2, .node l2 _ dz2 r2) =>
            some (fill (Path.addCh (w dy.key - w dz.key) pz2)
              (.node l2 y ⟨dy.key, dy.info, dz2.red, l2.ch + r2.ch + w dy.key⟩ r2))
          | _ => none

/-! ## Invariants of the abstract view -/

/-- The aggregate equation at every node of a tree:
`children = left.children + right.children + DistFunc(key)`. -/
def Tree.Agg (w : Int → Int) : Tree → Prop
  | .leaf => True
  | .node l _ d r => d.children = l.ch + r.ch + w d.key ∧ Tree.Agg w l ∧ Tree.Agg w r

/-- The aggregate equation along a path, when the subtree in the hole has aggregate `c`. -/
def Path.Agg (w : Int → Int) : Path → Int → Prop
  | [], _ => True
  | .L _ d r :: p, c => d.children = c + r.ch + w d.key ∧ Tree.Agg w r ∧ Path.Agg w p d.children
  | .R l _ d :: p, c => d.children = l.ch + c + w d.key ∧ Tree.Agg w l ∧ Path.Agg w p d.children

/-- Number of black nodes on the leftmost path from the root of a subtree to `nil`. -/
def Tree.bh : Tree → Nat
  | .leaf => 0
  | .node l _ d _ => l.bh + (if d.red then 0 else 1)

/-- Red-black shape, stated node by node: both subtrees have the same black height
and a red node has black children. -/
def Tree.RB : Tree → Prop
  | .leaf => True
  | .node l _ d r =>
    Tree.RB l ∧ Tree.RB r ∧ l.bh = r.bh ∧ (d.red = true → l.isRed = false ∧ r.isRed = false)

/-- Red-black shape of a path, for a hole of black height `n` whose root has colour `c`. -/
def Path.RB : Path → Nat → Bool → Prop
  | [], _, _ => True
  | .L _ d r :: p, n, c =>
    Tree.RB r ∧ r.bh = n ∧ (d.red = true → c = false ∧ r.isRed = false) ∧
      Path.RB p (n + (if d.red then 0 else 1)) d.red
  | .R l _ d :: p, n, c =>
    Tree.RB l ∧ l.bh = n ∧ (d.red = true → l.isRed = false ∧ c = false) ∧
      Path.RB p (n + (if d.red then 0 else 1)) d.red

/-- No red node has a red child. -/
def Tree.NoRedRed : Tree → Prop
  | .leaf => True
  | .node l _ d r =>
    (d.red = true → l.isRed = false ∧ r.isRed = false) ∧ Tree.NoRedRed l ∧ Tree.NoRedRed r

/-- The number of black nodes on every path from the root of a subtree down to `nil`,
one entry per path. -/
def Tree.blackCounts : Tree → List Nat
  | .leaf => [0]
  | .node l _ d r => (l.blackCounts ++ r.blackCounts).map (fun n => n + (if d.red then 0 else 1))

/-- Every path from the root to `nil` holds the same number of black nodes. -/
def Tree.Balanced (t : Tree) : Prop := ∀ a ∈ t.blackCounts, ∀ b ∈ t.blackCounts, a = b

/-- The red-black properties: black real root, no red node with a red child, the same
number of black nodes on every path from the real root to `nil`. -/
def Tree.RBValid (t : Tree) : Prop := t.isRed = false ∧ t.NoRedRed ∧ t.Balanced

/-- A three-way comparator (`1` greater, `-1` less, `0` equal) of a total preorder. -/
structure TotalPreorder (cmp : Int → Int → Int) : Prop where
  range : ∀ a b, cmp a b = 1 ∨ cmp a b = -1 ∨ cmp a b = 0
  swap : ∀ a b, cmp a b = 1 ↔ cmp b a = -1
  trans : ∀ a b c, cmp a b ≠ 1 → cmp b c ≠ 1 → cmp a c ≠ 1

/-- Keys in non-decreasing comparator order: no key is greater than a later one. -/
def SortedKeys (cmp : Int → Int → Int) (ks : List Int) : Prop :=
  ks.Pairwise (fun a b => cmp a b ≠ 1)

/-- The aggregate equation read from the heap at the node `a`. -/
def AggAt (tree : rb_red_blk_tree) (m : Mem) (a : Nat) : Prop :=
  (m a).children = (m (m a).left).children + (m (m a).right).children + tree.DistFunc (m a).key

/-- Sum of the weights of the nodes that precede the node `x` in an in-order sequence. -/
def weightBefore (w : Int → Int) (es : List Entry) (x : Nat) : Int :=
  ((es.takeWhile (fun e => decide (e.1 ≠ x))).map (fun e => w e.2.1)).sum

/-- Sum of the weights of all nodes of an in-order sequence. -/
def totalWeight (w : Int → Int) (es : List Entry) : Int := (es.map (fun e => w e.2.1)).sum

/-- The states a client can reach: `RBTreeCreate`, then any sequence of `RBTreeInsert`
(the allocator hands out an address that is not in use) and `RBDelete` of a live
handle.  The list holds the live handles. -/
inductive Reachable : rb_red_blk_tree → Mem → List Nat → Prop
  | create (CompFunc : Int → Int → Int) (DistFunc : Int → Int) (nilp rootp : Nat) (m0 : Mem)
      (h : nilp ≠ rootp) :
      Reachable (RBTreeCreate CompFunc DistFunc nilp rootp m0).1
        (RBTreeCreate CompFunc DistFunc nilp rootp m0).2 []
  | insert {tree : rb_red_blk_tree} {m m' : Mem} {hs : List Nat} {x x' : Nat} (key info : Int)
      (h : Reachable tree m hs) (hxn : x ≠ tree.nil) (hxr : x ≠ tree.root) (hx : x ∉ hs)
      (hret : Returns (fun fuel => RBTreeInsert fuel tree m x key info) (m', x')) :
      Reachable tree m' (x' :: hs)
  | delete {tree : rb_red_blk_tree} {m m' : Mem} {hs : List Nat} {z : Nat}
      (h : Reachable tree m hs) (hz : z ∈ hs)
      (hret : Returns (fun fuel => RBDelete fuel tree m z) m') :
      Reachable tree m' (hs.erase z)

/-- What the loop of `GetNodeRank` adds on the way up: for every ancestor reached from
its right child, the aggregate of its left subtree and its own weight. -/
def Path.rank (w : Int → Int) : Path → Int
  | [] => 0
  | .L _ _ _ :: p => Path.rank w p
  | .R l _ d :: p => l.ch + w d.key + Path.rank w p

/-- Abstract `RBExactQuery`: the descent by the comparator, `none` when it reaches `nil`. -/
def Tree.lookup (cmp : Int → Int → Int) (q : Int) : Tree → Option Nat
  | .leaf => none
  | .node l a d r =>
    if cmp d.key q = 0 then some a
    else if cmp d.key q = 1 then Tree.lookup cmp q l
    else Tree.lookup cmp q r

/-- Two heaps hold the same key and payload in every cell. -/
def KeysEq (m m' : Mem) : Prop := ∀ a, (m' a).key = (m a).key ∧ (m' a).info = (m a).info

/-- The part of one iteration of `RBDeleteFixUp` that follows case 1, for `x` a
left child with sibling `w`. -/
def RBDeleteFixUp.restL (tree : rb_red_blk_tree) (root : Nat) (fuel : Nat) (m : Mem)
    (x w : Nat) : Option (Mem × Nat) :=
  if (!(m (m w).right).red) ∧ (!(m (m w).left).red) then
    let m := setRed m w true
    RBDeleteFixUp.loop tree root fuel m (m x).parent
  else
    let (m, w) :=
      if !(m (m w).right).red then
        let m := setRed m (m w).left false
        let m := setRed m w true
        let m := RightRotate tree m w
        (m, (m (m x).parent).right)
      else (m, w)
    let m := setRed m w (m (m x).parent).red
    let m := setRed m (m x).parent false
    let m := setRed m (m w).right false
    let m := LeftRotate tree m (m x).parent
    RBDeleteFixUp.loop tree root fuel m root

/-- The part of one iteration of `RBDeleteFixUp` that follows case 1, for `x` a
right child with sibling `w`. -/
def RBDeleteFixUp.restR (tree : rb_red_blk_tree) (root : Nat) (fuel : Nat) (m : Mem)
    (x w : Nat) : Option (Mem × Nat) :=
  if (!(m (m w).right).red) ∧ (!(m (m w).left).red) then
    let m := setRed m w true
    RBDeleteFixUp.loop tree root fuel m (m x).parent
  else
    let (m, w) :=
      if !(m (m w).left).red then
        let m := setRed m (m w).right false
        let m := setRed m w true
        let m := LeftRotate tree m w
        (m, (m (m x).parent).left)
      else (m, w)
    let m := setRed m w (m (m x).parent).red
    let m := setRed m (m x).parent false
    let m := setRed m (m w).left false
    let m := RightRotate tree m (m x).parent
    RBDeleteFixUp.loop tree root fuel m root

/-! ## A small concrete run -/

/-- A heap with nothing in it. -/
def exMem0 : Mem := fun _ => ⟨0, 0, false, 0, 0, 0, 0⟩

/-- The tree descriptor of `RBTreeCreate(CmpInt64, ...)` with the weight of a key being
the key itself; the sentinels are the cells 0 (`nil`) and 1 (`root`). -/
def exTree : rb_red_blk_tree := (RBTreeCreate CmpInt64 (fun k => k) 0 1 exMem0).1

/-- The heap after `RBTreeCreate`. -/
def exMemA : Mem := (RBTreeCreate CmpInt64 (fun k => k) 0 1 exMem0).2

/-- The heap after inserting key 5 (payload 0) into the cell 2. -/
def exMemB : Mem :=
  match RBTreeInsert 4 exTree exMemA 2 5 0 with
  | some r => r.1
  | none => exMemA

/-- The heap after inserting key 3 (payload 0) into the cell 3. -/
def exMemC : Mem :=
  match RBTreeInsert 5 exTree exMemB 3 3 0 with
  | some r => r.1
  | none => exMemB

/-- The tree held by `exMemB`. -/
def exTreeB : Tree := Tree.insert CmpInt64 (fun k => k) .leaf 2 5 0

/-- The tree held by `exMemC`. -/
def exTreeC : Tree := Tree.insert CmpInt64 (fun k => k) exTreeB 3 3 0

end RBTree


namespace RBTree

/-! ## Traversal functions -/

/-- First loop of `TreePredecessor`: the maximum of a subtree. -/
def TreePredecessor.down (tree : rb_red_blk_tree) (m : Mem) : Nat → Nat → Option Nat
  | 0, _ => none
  | fuel + 1, y =>
    if (m y).right ≠ tree.nil then TreePredecessor.down tree m fuel (m y).right else some y

/-- Second loop of `TreePredecessor`: the ascent, which returns `nil` from inside the
loop when it arrives at the root sentinel. -/
def TreePredecessor.up (tree : rb_red_blk_tree) (m : Mem) : Nat → Nat → Nat → Option Nat
  | 0, _, _ => none
  | fuel + 1, x, y =>
    if x = (m y).left then
      if y = tree.root then some tree.nil
      else TreePredecessor.up tree m fuel y (m y).parent
    else some y

/-- `TreePredecessor`. -/
def TreePredecessor (fuel : Nat) (tree : rb_red_blk_tree) (m : Mem) (x : Nat) : Option Nat :=
  if tree.nil ≠ (m x).left then
    TreePredecessor.down tree m fuel (m x).left
  else
    TreePredecessor.up tree m fuel x (m x).parent

/-- The loop of `TreeFirst`. -/
def TreeFirst.loop (tree : rb_red_blk_tree) (m : Mem) : Nat → Nat → Option Nat
  | 0, _ => none
  | fuel + 1, x =>
    if (m x).left ≠ tree.nil then TreeFirst.loop tree m fuel (m x).left else some x

/-- `TreeFirst`: starts at the root sentinel. -/
def TreeFirst (fuel : Nat) (tree : rb_red_blk_tree) (m : Mem) : Option Nat :=
  if (m tree.root).left = tree.nil then some tree.nil
  else TreeFirst.loop tree m fuel tree.root

/-- The loop of `TreeLast`. -/
def TreeLast.loop (tree : rb_red_blk_tree) (m : Mem) : Nat → Nat → Option Nat
  | 0, _ => none
  | fuel + 1, x =>
    if (m x).right ≠ tree.nil then TreeLast.loop tree m fuel (m x).right else some x

/-- `TreeLast`: starts at the real root. -/
def TreeLast (fuel : Nat) (tree : rb_red_blk_tree) (m : Mem) : Option Nat :=
  if (m tree.root).left = tree.nil then some tree.nil
  else TreeLast.loop tree m fuel (m tree.root).left

/-! ## Vocabulary of the statements about traversal, search and rank -/

/-- The node `x` is `a` or an ancestor of `a`: following parent pointers from `a`
arrives at `x`, and no cell on the way from `a` to `x`, both ends included, is the root
sentinel or `nil`. -/
def AncestorOrSelf (tree : rb_red_blk_tree) (m : Mem) (x a : Nat) : Prop :=
  ∃ n : Nat, Nat.iterate (fun b => (m b).parent) n a = x ∧
    ∀ k, k ≤ n → Nat.iterate (fun b => (m b).parent) k a ≠ tree.root ∧
      Nat.iterate (fun b => (m b).parent) k a ≠ tree.nil

/-- Total weight of a list of nodes. -/
def weightOf (tree : rb_red_blk_tree) (m : Mem) (l : List Nat) : Int :=
  (l.map (fun a => tree.DistFunc (m a).key)).sum

/-- The nodes of `l` whose key compares strictly less than the key of `x`. -/
def strictlySmaller (tree : rb_red_blk_tree) (m : Mem) (l : List Nat) (x : Nat) : List Nat :=
  l.filter (fun a => decide (tree.Compare (m a).key (m x).key = -1))

/-- The nodes of `l` whose key compares equal to the key of `x`. -/
def equalTo (tree : rb_red_blk_tree) (m : Mem) (l : List Nat) (x : Nat) : List Nat :=
  l.filter (fun a => decide (tree.Compare (m a).key (m x).key = 0))

/-- A sequence of `RBTreeInsert` calls, each with the cell for the new node, its key and
its payload, leads from the heap `m` to the heap `m'`. -/
def InsertAll (tree : rb_red_blk_tree) : List (Nat × Int × Int) → Mem → Mem → Prop
  | [], m, m' => m' = m
  | e :: rest, m, m' =>
    ∃ m1, Returns (fun fuel => RBTreeInsert fuel tree m e.1 e.2.1 e.2.2) (m1, e.1) ∧
      InsertAll tree rest m1 m'

/-- Abstract view of a sequence of `RBTreeInsert` calls. -/
def Tree.insertAll (cmp : Int → Int → Int) (w : Int → Int) : Tree → List (Nat × Int × Int) → Tree
  | T, [] => T
  | T, e :: rest => Tree.insertAll cmp w (T.insert cmp w e.1 e.2.1 e.2.2) rest

/-! ## A run with two equal keys -/

/-- The heap after inserting key 5 (payload 0) into the cell 3 of `exMemB`, which holds
the key 5 in the cell 2. -/
def exMemD : Mem :=
  match RBTreeInsert 5 exTree exMemB 3 5 0 with
  | some r => r.1
  | none => exMemB

/-- The tree held by `exMemD`. -/
def exTreeD : Tree := Tree.insert CmpInt64 (fun k => k) exTreeB 3 5 0

/-! ## The runs with uniform weight 1 -/

/-- The tree descriptor of `RBTreeCreate(CmpInt64, ...)` with every key of weight 1; the
sentinels are the cells 0 (`nil`) and 1 (`root`). -/
def scTree : rb_red_blk_tree := (RBTreeCreate CmpInt64 (fun _ => 1) 0 1 exMem0).1

/-- The heap after that `RBTreeCreate`. -/
def scMem0 : Mem := (RBTreeCreate CmpInt64 (fun _ => 1) 0 1 exMem0).2

/-- Keys 5, 1, 3, 8, 2 for the cells 2, 3, 4, 5, 6, payload 0. -/
def scKeys : List (Nat × Int × Int) := [(2, 5, 0), (3, 1, 0), (4, 3, 0), (5, 8, 0), (6, 2, 0)]

/-- The tree after inserting `scKeys` in order. -/
def scTreeA : Tree := Tree.insertAll CmpInt64 (fun _ => 1) .leaf scKeys

end RBTree


namespace RBTree

/-! ## Further functions and settings of the sources -/

/-- `DFInt64` of `red_black_tree.h`, the weight `pow(key, par)`, for a natural exponent
and in exact arithmetic. -/
def DFInt64 (par : Nat) (a : Int) : Int := a ^ par

/-- The switch `DEBUG_ASSERT` of `red_black_tree.h`: the line that defines it is
commented out there, so the assertions are not compiled. -/
def DEBUG_ASSERT : Bool := false

/-- What a call of `GetNodeRank` with its assertions gives: a failed assertion or the
rank. -/
inductive RankResult where
  | assertFailed : RankResult
  | value (r : Int) : RankResult


/-- Modelled from the spec: `Assert` is declared in `misc.h`, which is not among the
sources; a failed assertion is taken to reject the call.  This is `GetNodeRank` with its
two assertions, which are compiled only when `debug` is set. -/
def GetNodeRank.asserted (debug : Bool) (fuel : Nat) (tree : rb_red_blk_tree) (m : Mem)
    (x : Nat) : Option RankResult :=
  if debug = true ∧ x = tree.nil then some .assertFailed
  else if debug = true ∧ x = tree.root then some .assertFailed
  else (GetNodeRank fuel tree m x).map RankResult.value

/-- The choice of the node `y` that `RBDelete` takes out of its position: `z` itself if
it has a `nil` child, else `TreeSuccessor(tree, z)`. -/
def RBDelete.candidate (fuel : Nat) (tree : rb_red_blk_tree) (m : Mem) (z : Nat) : Option Nat :=
  if (m z).left = tree.nil ∨ (m z).right = tree.nil then some z
  else TreeSuccessor fuel tree m z

/-- The choice of the node `x` that `RBDelete` puts into the position of `y`. -/
def RBDelete.child (tree : rb_red_blk_tree) (m : Mem) (y : Nat) : Nat :=
  if (m y).left = tree.nil then (m y).right else (m y).left

/-- The part of `RBDelete` after the choice of `y` and `x`. -/
def RBDelete.rest (fuel : Nat) (tree : rb_red_blk_tree) (m : Mem) (z y x : Nat) : Option Mem :=
  let ydval := tree.DistFunc (m y).key
  match RBDelete.propagate tree (-ydval) fuel m (m y).parent with
  | none => none
  | some m =>
    let m := RBDelete.splice tree m x y
    if y ≠ z then
      let zdval := tree.DistFunc (m z).key
      match (if !(m y).red then RBDeleteFixUp fuel tree m x else some m) with
      | none => none
      | some m =>
        let m := RBDelete.replace tree m y z ydval
        RBDelete.propagate tree (ydval - zdval) fuel m (m y).parent
    else
      if !(m y).red then RBDeleteFixUp fuel tree m x else some m

/-- Number of nodes on the longest path from the root of a subtree down to `nil`. -/
def Tree.height : Tree → Nat
  | .leaf => 0
  | .node l _ _ r => max l.height r.height + 1

/-- How the verification loop of `ranktest.c` ends. -/
inductive ranktest.Outcome where
  | keyMismatch (j : Nat) : ranktest.Outcome
  | wrongCdf (j : Nat) (cdf cdf2 : Int) : ranktest.Outcome
  | finished (j : Nat) (node : Nat) : ranktest.Outcome


/-- The verification loop of `ranktest.c` (`do ... while(newNode != tree->nil && j<N)`),
with the sorted array `array2` as a function of the index and in exact arithmetic, where
`fabs(cdf2-cdf) > EPSILON` on integer weights is `cdf2 ≠ cdf`.  The first fuel bounds the
iterations of this loop, the second those of the library calls. -/
def ranktest.verify (tree : rb_red_blk_tree) (m : Mem) (array2 : Nat → Int) (N : Nat)
    (fuel : Nat) : Nat → Nat → Int → Nat → Option ranktest.Outcome
  | 0, _, _, _ => none
  | n + 1, j, cdf, newNode =>
    if (m newNode).key ≠ array2 j then some (.keyMismatch j)
    else
      match GetNodeRank fuel tree m newNode with
      | none => none
      | some cdf2 =>
        if cdf2 ≠ cdf then some (.wrongCdf j cdf cdf2)
        else
          let j := j + 1
          let cdf := cdf + tree.DistFunc (array2 j)
          match TreeSuccessor fuel tree m newNode with
          | none => none
          | some newNode =>
            if newNode ≠ tree.nil ∧ j < N then ranktest.verify tree m array2 N fuel n j cdf newNode
            else some (.finished j newNode)

/-- The reference value `cdf` of the verification loop of `ranktest.c` when iteration
`j` compares it with `GetNodeRank`: it starts at 0, and every iteration before has first
incremented `j` and then added `DFInt64(array2[j])`. -/
def ranktest.cdf (w : Int → Int) (array2 : Nat → Int) : Nat → Int
  | 0 => 0
  | j + 1 => ranktest.cdf w array2 j + w (array2 (j + 1))

/-! ## Further concrete runs -/

/-- The heap after `RBDelete` of the only node (cell 2) of `exMemB`. -/
def exMemE : Mem :=
  match RBDelete 4 exTree exMemB 2 with
  | some r => r
  | none => exMemB

/-- The tree descriptor of `RBTreeCreate(CmpInt64, ..., DFInt64, &par)` with `par = 2`;
the sentinels are the cells 0 (`nil`) and 1 (`root`). -/
def pwTree : rb_red_blk_tree := (RBTreeCreate CmpInt64 (DFInt64 2) 0 1 exMem0).1

/-- The heap after that `RBTreeCreate`. -/
def pwMem0 : Mem := (RBTreeCreate CmpInt64 (DFInt64 2) 0 1 exMem0).2

/-- Keys 1, 2 for the cells 2, 3, payload 0. -/
def pwKeys2 : List (Nat × Int × Int) := [(2, 1, 0), (3, 2, 0)]

/-- Keys 1, 2, 3 for the cells 2, 3, 4, payload 0. -/
def pwKeys : List (Nat × Int × Int) := [(2, 1, 0), (3, 2, 0), (4, 3, 0)]

/-- The tree after inserting `pwKeys2` in order. -/
def pwTree2 : Tree := Tree.insertAll CmpInt64 (DFInt64 2) .leaf pwKeys2

/-- The tree after inserting `pwKeys` in order. -/
def pwTreeA : Tree := Tree.insertAll CmpInt64 (DFInt64 2) .leaf pwKeys

/-- The heap after inserting key 1 into the cell 2 of `pwMem0`. -/
def pwMem1 : Mem :=
  match RBTreeInsert 4 pwTree pwMem0 2 1 0 with
  | some r => r.1
  | none => pwMem0

/-- The heap after inserting key 2 into the cell 3 of `pwMem1`. -/
def pwMem2 : Mem :=
  match RBTreeInsert 5 pwTree pwMem1 3 2 0 with
  | some r => r.1
  | none => pwMem1

/-- The heap after inserting key 3 into the cell 4 of `pwMem2`. -/
def pwMemA : Mem :=
  match RBTreeInsert 6 pwTree pwMem2 4 3 0 with
  | some r => r.1
  | none => pwMem2

/-- The sorted key array of the tree held by `exMemC`: 3, 5. -/
def exArray : Nat → Int
  | 0 => 3
  | 1 => 5
  | _ => 0

end RBTree


namespace RBTree

/-! ## The heaps that the loops write -/

/-- The fields of the two sentinels that stay constant: `nil` is black with `children` 0
and the root sentinel is black with `children` 0. -/
def SentinelsIntact (tree : rb_red_blk_tree) (m : Mem) : Prop :=
  (m tree.nil).red = false ∧ (m tree.nil).children = 0 ∧
    (m tree.root).red = false ∧ (m tree.root).children = 0

/-- `TreeInsertHelp` up to its weight loop: the heap on which that loop starts. -/
def TreeInsertHelp.place (fuel : Nat) (tree : rb_red_blk_tree) (m : Mem) (z : Nat) :
    Option Mem :=
  let m := setRight m z tree.nil
  let m := setLeft m z tree.nil
  match TreeInsertHelp.descend tree m z fuel tree.root (m tree.root).left with
  | none => none
  | some y =>
    let m := setParent m z y
    let m := if y = tree.root ∨ tree.Compare (m y).key (m z).key = 1 then setLeft m y z
             else setRight m y z
    some (setChildren m z (tree.DistFunc (m z).key))

/-- The weight loop of `TreeInsertHelp` again, returning the heaps it writes: the heap
after the assignment of each iteration, in order. -/
def TreeInsertHelp.propagate.heaps (tree : rb_red_blk_tree) (z : Nat) :
    Nat → Mem → Nat → List Mem
  | 0, _, _ => []
  | fuel + 1, m, w =>
    if w ≠ tree.root then
      let m1 := setChildren m w ((m w).children + (m z).children)
      m1 :: TreeInsertHelp.propagate.heaps tree z fuel m1 (m w).parent
    else []

/-- The repair loop of `RBTreeInsert` again, returning the heaps it writes: the heap
after each assignment and after each rotation, in order. -/
def RBTreeInsert.loop.heaps (tree : rb_red_blk_tree) : Nat → Mem → Nat → List Mem
  | 0, _, _ => []
  | fuel + 1, m, x =>
    if (m (m x).parent).red then
      if (m x).parent = (m (m (m x).parent).parent).left then
        let y := (m (m (m x).parent).parent).right
        if (m y).red then
          let m1 := setRed m (m x).parent false
          let m2 := setRed m1 y false
          let m3 := setRed m2 (m2 (m2 x).parent).parent true
          m1 :: m2 :: m3 :: RBTreeInsert.loop.heaps tree fuel m3 (m3 (m3 x).parent).parent
        else
          let (m0, x, log) :=
            if x = (m (m x).parent).right then
              let x := (m x).parent
              (LeftRotate tree m x, x, [LeftRotate tree m x])
            else (m, x, [])
          let m1 := setRed m0 (m0 x).parent false
          let m2 := setRed m1 (m1 (m1 x).parent).parent true
          let m3 := RightRotate tree m2 (m2 (m2 x).parent).parent
          log ++ m1 :: m2 :: m3 :: RBTreeInsert.loop.heaps tree fuel m3 x
      else
        let y := (m (m (m x).parent).parent).left
        if (m y).red then
          let m1 := setRed m (m x).parent false
          let m2 := setRed m1 y false
          let m3 := setRed m2 (m2 (m2 x).parent).parent true
          m1 :: m2 :: m3 :: RBTreeInsert.loop.heaps tree fuel m3 (m3 (m3 x).parent).parent
        else
          let (m0, x, log) :=
            if x = (m (m x).parent).left then
              let x := (m x).parent
              (RightRotate tree m x, x, [RightRotate tree m x])
            else (m, x, [])
          let m1 := setRed m0 (m0 x).parent false
          let m2 := setRed m1 (m1 (m1 x).parent).parent true
          let m3 := LeftRotate tree m2 (m2 (m2 x).parent).parent
          log ++ m1 :: m2 :: m3 :: RBTreeInsert.loop.heaps tree fuel m3 x
    else []

/-- The loop of `RBDeleteFixUp` again, returning the heaps it writes: the heap after each
assignment and after each rotation, in order. -/
def RBDeleteFixUp.loop.heaps (tree : rb_red_blk_tree) (root : Nat) :
    Nat → Mem → Nat → List Mem
  | 0, _, _ => []
  | fuel + 1, m, x =>
    if (!(m x).red) ∧ root ≠ x then
      if x = (m (m x).parent).left then
        let w := (m (m x).parent).right
        let (m, w, log1) :=
          if (m w).red then
            let m1 := setRed m w false
            let m2 := setRed m1 (m1 x).parent true
            let m3 := LeftRotate tree m2 (m2 x).parent
            (m3, (m3 (m3 x).parent).right, [m1, m2, m3])
          else (m, w, [])
        if (!(m (m w).right).red) ∧ (!(m (m w).left).red) then
          let m1 := setRed m w true
          log1 ++ m1 :: RBDeleteFixUp.loop.heaps tree root fuel m1 (m1 x).parent
        else
          let (m, w, log2) :=
            if !(m (m w).right).red then
              let m1 := setRed m (m w).left false
              let m2 := setRed m1 w true
              let m3 := RightRotate tree m2 w
              (m3, (m3 (m3 x).parent).right, [m1, m2, m3])
            else (m, w, [])
          let m1 := setRed m w (m (m x).parent).red
          let m2 := setRed m1 (m1 x).parent false
          let m3 := setRed m2 (m2 w).right false
          let m4 := LeftRotate tree m3 (m3 x).parent
          log1 ++ (log2 ++ m1 :: m2 :: m3 :: m4 :: RBDeleteFixUp.loop.heaps tree root fuel m4 root)
      else
        let w := (m (m x).parent).left
        let (m, w, log1) :=
          if (m w).red then
            let m1 := setRed m w false
            let m2 := setRed m1 (m1 x).parent true
            let m3 := RightRotate tree m2 (m2 x).parent
            (m3, (m3 (m3 x).parent).left, [m1, m2, m3])
          else (m, w, [])
        if (!(m (m w).right).red) ∧ (!(m (m w).left).red) then
          let m1 := setRed m w true
          log1 ++ m1 :: RBDeleteFixUp.loop.heaps tree root fuel m1 (m1 x).parent
        else
          let (m, w, log2) :=
            if !(m (m w).left).red then
              let m1 := setRed m (m w).right false
              let m2 := setRed m1 w true
              let m3 := LeftRotate tree m2 w
              (m3, (m3 (m3 x).parent).left, [m1, m2, m3])
            else (m, w, [])
          let m1 := setRed m w (m (m x).parent).red
          let m2 := setRed m1 (m1 x).parent false
          let m3 := setRed m2 (m2 w).left false
          let m4 := RightRotate tree m3 (m3 x).parent
          log1 ++ (log2 ++ m1 :: m2 :: m3 :: m4 :: RBDeleteFixUp.loop.heaps tree root fuel m4 root)
    else []

/-- The heaps written by one iteration of `RBDeleteFixUp` after case 1, and by the
iterations that follow, for `x` a left child with sibling `w`. -/
def RBDeleteFixUp.restL.heaps (tree : rb_red_blk_tree) (root : Nat) (fuel : Nat) (m : Mem)
    (x w : Nat) : List Mem :=
  if (!(m (m w).right).red) ∧ (!(m (m w).left).red) then
    let m1 := setRed m w true
    m1 :: RBDeleteFixUp.loop.heaps tree root fuel m1 (m1 x).parent
  else
    let (m, w, log2) :=
      if !(m (m w).right).red then
        let m1 := setRed m (m w).left false
        let m2 := setRed m1 w true
        let m3 := RightRotate tree m2 w
        (m3, (m3 (m3 x).parent).right, [m1, m2, m3])
      else (m, w, [])
    let m1 := setRed m w (m (m x).parent).red
    let m2 := setRed m1 (m1 x).parent false
    let m3 := setRed m2 (m2 w).right false
    let m4 := LeftRotate tree m3 (m3 x).parent
    log2 ++ m1 :: m2 :: m3 :: m4 :: RBDeleteFixUp.loop.heaps tree root fuel m4 root

/-- The heaps written by one iteration of `RBDeleteFixUp` after case 1, and by the
iterations that follow, for `x` a right child with sibling `w`. -/
def RBDeleteFixUp.restR.heaps (tree : rb_red_blk_tree) (root : Nat) (fuel : Nat) (m : Mem)
    (x w : Nat) : List Mem :=
  if (!(m (m w).right).red) ∧ (!(m (m w).left).red) then
    let m1 := setRed m w true
    m1 :: RBDeleteFixUp.loop.heaps tree root fuel m1 (m1 x).parent
  else
    let (m, w, log2) :=
      if !(m (m w).left).red then
        let m1 := setRed m (m w).right false
        let m2 := setRed m1 w true
        let m3 := LeftRotate tree m2 w
        (m3, (m3 (m3 x).parent).left, [m1, m2, m3])
      else (m, w, [])
    let m1 := setRed m w (m (m x).parent).red
    let m2 := setRed m1 (m1 x).parent false
    let m3 := setRed m2 (m2 w).left false
    let m4 := RightRotate tree m3 (m3 x).parent
    log2 ++ m1 :: m2 :: m3 :: m4 :: RBDeleteFixUp.loop.heaps tree root fuel m4 root

/-- The heaps written by `RBDeleteFixUp`: those of its loop, then the heap after the final
`x->red = 0`. -/
def RBDeleteFixUp.heaps (fuel : Nat) (tree : rb_red_blk_tree) (m : Mem) (x : Nat) : List Mem :=
  let root := (m tree.root).left
  RBDeleteFixUp.loop.heaps tree root fuel m x ++
    match RBDeleteFixUp.loop tree root fuel m x with
    | none => []
    | some (m, x) => [setRed m x false]

/-- The weight loops of `RBDelete` again, returning the heaps they write: the heap after
the assignment of each iteration, in order. -/
def RBDelete.propagate.heaps (tree : rb_red_blk_tree) (d : Int) :
    Nat → Mem → Nat → List Mem
  | 0, _, _ => []
  | fuel + 1, m, w =>
    if w ≠ tree.root then
      let m1 := setChildren m w ((m w).children + d)
      m1 :: RBDelete.propagate.heaps tree d fuel m1 (m w).parent
    else []

end RBTree


namespace RBTree

/-! ## Basic facts -/

section Basic

variable {tree : rb_red_blk_tree} {m : Mem}

theorem setKey_key_same (m : Mem) (a : Nat) (v : Int) : (setKey m a v a).key = v := by
  simp [setKey, upd]
theorem setKey_key_ne (m : Mem) (a : Nat) (v : Int) (b : Nat) (h : b ≠ a) :
    (setKey m a v b).key = (m b).key := by
  simp [setKey, upd, h]
@[simp] theorem setKey_info (m : Mem) (a : Nat) (v : Int) (b : Nat) :
    (setKey m a v b).info = (m b).info := by
  unfold setKey upd; split <;> simp_all
@[simp] theorem setKey_red (m : Mem) (a : Nat) (v : Int) (b : Nat) :
    (setKey m a v b).red = (m b).red := by
  unfold setKey upd; split <;> simp_all
@[simp] theorem setKey_left (m : Mem) (a : Nat) (v : Int) (b : Nat) :
    (setKey m a v b).left = (m b).left := by
  unfold setKey upd; split <;> simp_all
@[simp] theorem setKey_right (m : Mem) (a : Nat) (v : Int) (b : Nat) :
    (setKey m a v b).right = (m b).right := by
  unfold setKey upd; split <;> simp_all
@[simp] theorem setKey_parent (m : Mem) (a : Nat) (v : Int) (b : Nat) :
    (setKey m a v b).parent = (m b).parent := by
  unfold setKey upd; split <;> simp_all
@[simp] theorem setKey_children (m : Mem) (a : Nat) (v : Int) (b : Nat) :
    (setKey m a v b).children = (m b).children := by
  unfold setKey upd; split <;> simp_all
@[simp] theorem setInfo_key (m : Mem) (a : Nat) (v : Int) (b : Nat) :
    (setInfo m a v b).key = (m b).key := by
  unfold setInfo upd; split <;> simp_all
theorem setInfo_info_same (m : Mem) (a : Nat) (v : Int) : (setInfo m a v a).info = v := by
  simp [setInfo, upd]
theorem setInfo_info_ne (m : Mem) (a : Nat) (v : Int) (b : Nat) (h : b ≠ a) :
    (setInfo m a v b).info = (m b).info := by
  simp [setInfo, upd, h]
@[simp] theorem setInfo_red (m : Mem) (a : Nat) (v : Int) (b : Nat) :
    (setInfo m a v b).red = (m b).red := by
  unfold setInfo upd; split <;> simp_all
@[simp] theorem setInfo_left (m : Mem) (a : Nat) (v : Int) (b : Nat) :
    (setInfo m a v b).left = (m b).left := by
  unfold setInfo upd; split <;> simp_all
@[simp] theorem setInfo_right (m : Mem) (a : Nat) (v : Int) (b : Nat) :
    (setInfo m a v b).right = (m b).right := by
  unfold setInfo upd; split <;> simp_all
@[simp] theorem setInfo_parent (m : Mem) (a : Nat) (v : Int) (b : Nat) :
    (setInfo m a v b).parent = (m b).parent := by
  unfold setInfo upd; split <;> simp_all
@[simp] theorem setInfo_children (m : Mem) (a : Nat) (v : Int) (b : Nat) :
    (setInfo m a v b).children = (m b).children := by
  unfold setInfo upd; split <;> simp_all
@[simp] theorem setRed_key (m : Mem) (a : Nat) (v : Bool) (b : Nat) :
    (setRed m a v b).key = (m b).key := by
  unfold setRed upd; split <;> simp_all
@[simp] theorem setRed_info (m : Mem) (a : Nat) (v : Bool) (b : Nat) :
    (setRed m a v b).info = (m b).info := by
  unfold setRed upd; split <;> simp_all
theorem setRed_red_same (m : Mem) (a : Nat) (v : Bool) : (setRed m a v a).red = v := by
  simp [setRed, upd]
theorem setRed_red_ne (m : Mem) (a : Nat) (v : Bool) (b : Nat) (h : b ≠ a) :
    (setRed m a v b).red = (m b).red := by
  simp [setRed, upd, h]
@[simp] theorem setRed_left (m : Mem) (a : Nat) (v : Bool) (b : Nat) :
    (setRed m a v b).left = (m b).left := by
  unfold setRed upd; split <;> simp_all
@[simp] theorem setRed_right (m : Mem) (a : Nat) (v : Bool) (b : Nat) :
    (setRed m a v b).right = (m b).right := by
  unfold setRed upd; split <;> simp_all
@[simp] theorem setRed_parent (m : Mem) (a : Nat) (v : Bool) (b : Nat) :
    (setRed m a v b).parent = (m b).parent := by
  unfold setRed upd; split <;> simp_all
@[simp] theorem setRed_children (m : Mem) (a : Nat) (v : Bool) (b : Nat) :
    (setRed m a v b).children = (m b).children := by
  unfold setRed upd; split <;> simp_all
@[simp] theorem setLeft_key (m : Mem) (a : Nat) (v : Nat) (b : Nat) :
    (setLeft m a v b).key = (m b).key := by
  unfold setLeft upd; split <;> simp_all
@[simp] theorem setLeft_info (m : Mem) (a : Nat) (v : Nat) (b : Nat) :
    (setLeft m a v b).info = (m b).info := by
  unfold setLeft upd; split <;> simp_all
@[simp] theorem setLeft_red (m : Mem) (a : Nat) (v : Nat) (b : Nat) :
    (setLeft m a v b).red = (m b).red := by
  unfold setLeft upd; split <;> simp_all
theorem setLeft_left_same (m : Mem) (a : Nat) (v : Nat) : (setLeft m a v a).left = v := by
  simp [setLeft, upd]
theorem setLeft_left_ne (m : Mem) (a : Nat) (v : Nat) (b : Nat) (h : b ≠ a) :
    (setLeft m a v b).left = (m b).left := by
  simp [setLeft, upd, h]
@[simp] theorem setLeft_right (m : Mem) (a : Nat) (v : Nat) (b : Nat) :
    (setLeft m a v b).right = (m b).right := by
  unfold setLeft upd; split <;> simp_all
@[simp] theorem setLeft_parent (m : Mem) (a : Nat) (v : Nat) (b : Nat) :
    (setLeft m a v b).parent = (m b).parent := by
  unfold setLeft upd; split <;> simp_all
@[simp] theorem setLeft_children (m : Mem) (a : Nat) (v : Nat) (b : Nat) :
    (setLeft m a v b).children = (m b).children := by
  unfold setLeft upd; split <;> simp_all
@[simp] theorem setRight_key (m : Mem) (a : Nat) (v : Nat) (b : Nat) :
    (setRight m a v b).key = (m b).key := by
  unfold setRight upd; split <;> simp_all
@[simp] theorem setRight_info (m : Mem) (a : Nat) (v : Nat) (b : Nat) :
    (setRight m a v b).info = (m b).info := by
  unfold setRight upd; split <;> simp_all
@[simp] theorem setRight_red (m : Mem) (a : Nat) (v : Nat) (b : Nat) :
    (setRight m a v b).red = (m b).red := by
  unfold setRight upd; split <;> simp_all
@[simp] theorem setRight_left (m : Mem) (a : Nat) (v : Nat) (b : Nat) :
    (setRight m a v b).left = (m b).left := by
  unfold setRight upd; split <;> simp_all
theorem setRight_right_same (m : Mem) (a : Nat) (v : Nat) : (setRight m a v a).right = v := by
  simp [setRight, upd]
theorem setRight_right_ne (m : Mem) (a : Nat) (v : Nat) (b : Nat) (h : b ≠ a) :
    (setRight m a v b).right = (m b).right := by
  simp [setRight, upd, h]
@[simp] theorem setRight_parent (m : Mem) (a : Nat) (v : Nat) (b : Nat) :
    (setRight m a v b).parent = (m b).parent := by
  unfold setRight upd; split <;> simp_all
@[simp] theorem setRight_children (m : Mem) (a : Nat) (v : Nat) (b : Nat) :
    (setRight m a v b).children = (m b).children := by
  unfold setRight upd; split <;> simp_all
@[simp] theorem setParent_key (m : Mem) (a : Nat) (v : Nat) (b : Nat) :
    (setParent m a v b).key = (m b).key := by
  unfold setParent upd; split <;> simp_all
@[simp] theorem setParent_info (m : Mem) (a : Nat) (v : Nat) (b : Nat) :
    (setParent m a v b).info = (m b).info := by
  unfold setParent upd; split <;> simp_all
@[simp] theorem setParent_red (m : Mem) (a : Nat) (v : Nat) (b : Nat) :
    (setParent m a v b).red = (m b).red := by
  unfold setParent upd; split <;> simp_all
@[simp] theorem setParent_left (m : Mem) (a : Nat) (v : Nat) (b : Nat) :
    (setParent m a v b).left = (m b).left := by
  unfold setParent upd; split <;> simp_all
@[simp] theorem setParent_right (m : Mem) (a : Nat) (v : Nat) (b : Nat) :
    (setParent m a v b).right = (m b).right := by
  unfold setParent upd; split <;> simp_all
theorem setParent_parent_same (m : Mem) (a : Nat) (v : Nat) : (setParent m a v a).parent = v := by
  simp [setParent, upd]
theorem setParent_parent_ne (m : Mem) (a : Nat) (v : Nat) (b : Nat) (h : b ≠ a) :
    (setParent m a v b).parent = (m b).parent := by
  simp [setParent, upd, h]
@[simp] theorem setParent_children (m : Mem) (a : Nat) (v : Nat) (b : Nat) :
    (setParent m a v b).children = (m b).children := by
  unfold setParent upd; split <;> simp_all
@[simp] theorem setChildren_key (m : Mem) (a : Nat) (v : Int) (b : Nat) :
    (setChildren m a v b).key = (m b).key := by
  unfold setChildren upd; split <;> simp_all
@[simp] theorem setChildren_info (m : Mem) (a : Nat) (v : Int) (b : Nat) :
    (setChildren m a v b).info = (m b).info := by
  unfold setChildren upd; split <;> simp_all
@[simp] theorem setChildren_red (m : Mem) (a : Nat) (v : Int) (b : Nat) :
    (setChildren m a v b).red = (m b).red := by
  unfold setChildren upd; split <;> simp_all
@[simp] theorem setChildren_left (m : Mem) (a : Nat) (v : Int) (b : Nat) :
    (setChildren m a v b).left = (m b).left := by
  unfold setChildren upd; split <;> simp_all
@[simp] theorem setChildren_right (m : Mem) (a : Nat) (v : Int) (b : Nat) :
    (setChildren m a v b).right = (m b).right := by
  unfold setChildren upd; split <;> simp_all
@[simp] theorem setChildren_parent (m : Mem) (a : Nat) (v : Int) (b : Nat) :
    (setChildren m a v b).parent = (m b).parent := by
  unfold setChildren upd; split <;> simp_all
theorem setChildren_children_same (m : Mem) (a : Nat) (v : Int) : (setChildren m a v a).children = v := by
  simp [setChildren, upd]
theorem setChildren_children_ne (m : Mem) (a : Nat) (v : Int) (b : Nat) (h : b ≠ a) :
    (setChildren m a v b).children = (m b).children := by
  simp [setChildren, upd, h]

theorem setKey_key_ite (m : Mem) (a : Nat) (v : Int) (b : Nat) :
    (setKey m a v b).key = if b = a then v else (m b).key := by
  unfold setKey upd; split <;> simp_all
theorem setInfo_info_ite (m : Mem) (a : Nat) (v : Int) (b : Nat) :
    (setInfo m a v b).info = if b = a then v else (m b).info := by
  unfold setInfo upd; split <;> simp_all
theorem setRed_red_ite (m : Mem) (a : Nat) (v : Bool) (b : Nat) :
    (setRed m a v b).red = if b = a then v else (m b).red := by
  unfold setRed upd; split <;> simp_all
theorem setLeft_left_ite (m : Mem) (a : Nat) (v : Nat) (b : Nat) :
    (setLeft m a v b).left = if b = a then v else (m b).left := by
  unfold setLeft upd; split <;> simp_all
theorem setRight_right_ite (m : Mem) (a : Nat) (v : Nat) (b : Nat) :
    (setRight m a v b).right = if b = a then v else (m b).right := by
  unfold setRight upd; split <;> simp_all
theorem setParent_parent_ite (m : Mem) (a : Nat) (v : Nat) (b : Nat) :
    (setParent m a v b).parent = if b = a then v else (m b).parent := by
  unfold setParent upd; split <;> simp_all
theorem setChildren_children_ite (m : Mem) (a : Nat) (v : Int) (b : Nat) :
    (setChildren m a v b).children = if b = a then v else (m b).children := by
  unfold setChildren upd; split <;> simp_all

theorem upd_same (m : Mem) (a : Nat) (n : rb_red_blk_node) : upd m a n a = n := by
  simp [upd]

theorem upd_ne (m : Mem) (a : Nat) (n : rb_red_blk_node) (b : Nat) (h : b ≠ a) :
    upd m a n b = m b := by
  simp [upd, h]

theorem node_ext {n n' : rb_red_blk_node} (h1 : n.key = n'.key) (h2 : n.info = n'.info)
    (h3 : n.red = n'.red) (h4 : n.left = n'.left) (h5 : n.right = n'.right)
    (h6 : n.parent = n'.parent) (h7 : n.children = n'.children) : n = n' := by
  cases n; cases n'; simp_all

@[simp] theorem mkCell_key (d : Data) (l r p : Nat) : (mkCell d l r p).key = d.key := rfl
@[simp] theorem mkCell_info (d : Data) (l r p : Nat) : (mkCell d l r p).info = d.info := rfl
@[simp] theorem mkCell_red (d : Data) (l r p : Nat) : (mkCell d l r p).red = d.red := rfl
@[simp] theorem mkCell_left (d : Data) (l r p : Nat) : (mkCell d l r p).left = l := rfl
@[simp] theorem mkCell_right (d : Data) (l r p : Nat) : (mkCell d l r p).right = r := rfl
@[simp] theorem mkCell_parent (d : Data) (l r p : Nat) : (mkCell d l r p).parent = p := rfl
@[simp] theorem mkCell_children (d : Data) (l r p : Nat) :
    (mkCell d l r p).children = d.children := rfl

@[simp] theorem fill_nil (t : Tree) : fill [] t = t := rfl
@[simp] theorem fill_cons (f : Frame) (p : Path) (t : Tree) :
    fill (f :: p) t = fill p (f.plug t) := rfl

@[simp] theorem entries_leaf : Tree.leaf.entries = [] := rfl
@[simp] theorem entries_node (l : Tree) (a : Nat) (d : Data) (r : Tree) :
    (Tree.node l a d r).entries = l.entries ++ (a, d.key, d.info) :: r.entries := rfl
@[simp] theorem addrs_leaf : Tree.leaf.addrs = [] := rfl
@[simp] theorem addrs_node (l : Tree) (a : Nat) (d : Data) (r : Tree) :
    (Tree.node l a d r).addrs = l.addrs ++ a :: r.addrs := by
  simp [Tree.addrs]
@[simp] theorem keys_leaf : Tree.leaf.keys = [] := rfl
@[simp] theorem keys_node (l : Tree) (a : Nat) (d : Data) (r : Tree) :
    (Tree.node l a d r).keys = l.keys ++ d.key :: r.keys := by
  simp [Tree.keys]

@[simp] theorem Path.addr_nil (root : Nat) : Path.addr root [] = root := rfl
@[simp] theorem Path.addr_cons (root : Nat) (f : Frame) (p : Path) :
    Path.addr root (f :: p) = f.a := rfl
@[simp] theorem Frame.a_L (a : Nat) (d : Data) (r : Tree) : (Frame.L a d r).a = a := rfl
@[simp] theorem Frame.a_R (l : Tree) (a : Nat) (d : Data) : (Frame.R l a d).a = a := rfl
@[simp] theorem Frame.d_L (a : Nat) (d : Data) (r : Tree) : (Frame.L a d r).d = d := rfl
@[simp] theorem Frame.d_R (l : Tree) (a : Nat) (d : Data) : (Frame.R l a d).d = d := rfl
@[simp] theorem Tree.addr_leaf (nil : Nat) : Tree.leaf.addr nil = nil := rfl
@[simp] theorem Tree.addr_node (nil : Nat) (l : Tree) (a : Nat) (d : Data) (r : Tree) :
    (Tree.node l a d r).addr nil = a := rfl

@[simp] theorem Frame.plug_addr (nil : Nat) (f : Frame) (t : Tree) :
    (f.plug t).addr nil = f.a := by
  cases f <;> rfl
@[simp] theorem Frame.setRed_a (f : Frame) (b : Bool) : (f.setRed b).a = f.a := by
  cases f <;> rfl
@[simp] theorem Tree.isRed_leaf : Tree.leaf.isRed = false := rfl
@[simp] theorem Tree.isRed_node (l : Tree) (a : Nat) (d : Data) (r : Tree) :
    (Tree.node l a d r).isRed = d.red := rfl
@[simp] theorem Tree.ch_leaf : Tree.leaf.ch = 0 := rfl
@[simp] theorem Tree.ch_node (l : Tree) (a : Nat) (d : Data) (r : Tree) :
    (Tree.node l a d r).ch = d.children := rfl
@[simp] theorem Data.setRed_red (d : Data) (b : Bool) : (d.setRed b).red = b := rfl
@[simp] theorem Data.recolor_key (d : Data) (b : Bool) : (d.setRed b).key = d.key := rfl
@[simp] theorem Data.recolor_info (d : Data) (b : Bool) : (d.setRed b).info = d.info := rfl
@[simp] theorem Data.recolor_children (d : Data) (b : Bool) :
    (d.setRed b).children = d.children := rfl
@[simp] theorem Data.setCh_red (d : Data) (v : Int) : (d.setCh v).red = d.red := rfl
@[simp] theorem Data.setCh_key (d : Data) (v : Int) : (d.setCh v).key = d.key := rfl
@[simp] theorem Data.setCh_info (d : Data) (v : Int) : (d.setCh v).info = d.info := rfl
@[simp] theorem Data.setCh_children (d : Data) (v : Int) : (d.setCh v).children = v := rfl

theorem entries_fill (p : Path) (t : Tree) :
    (fill p t).entries = p.before ++ t.entries ++ p.after := by
  induction p generalizing t with
  | nil => simp [Path.before, Path.after]
  | cons f p ih =>
    cases f <;> simp [ih, Frame.plug, Path.before, Path.after]

theorem addrs_fill (p : Path) (t : Tree) :
    (fill p t).addrs =
      p.before.map (fun e => e.1) ++ t.addrs ++ p.after.map (fun e => e.1) := by
  simp [Tree.addrs, entries_fill]

theorem fill_addr_cons (nil : Nat) (f : Frame) (p : Path) (t t' : Tree) :
    (fill (f :: p) t).addr nil = (fill (f :: p) t').addr nil := by
  induction p generalizing f t t' with
  | nil => cases f <;> rfl
  | cons g p ih => exact ih g _ _

/-- Cells outside a subtree do not matter for its representation. -/
theorem Rep.congr {nil : Nat} {m m' : Mem} {t : Tree} {q : Nat}
    (h : ∀ a ∈ t.addrs, m' a = m a) : Rep nil m t q → Rep nil m' t q := by
  induction t generalizing q with
  | leaf => intro _; trivial
  | node l a d r ihl ihr =>
    intro ⟨h1, h2, h3⟩
    refine ⟨?_, ihl (fun b hb => h b ?_) h2, ihr (fun b hb => h b ?_) h3⟩
    · rw [h a (by simp)]; exact h1
    · simp [hb]
    · simp [hb]

end Basic

end RBTree


namespace RBTree

/-! ## Frame rules -/

section Frames

variable {tree : rb_red_blk_tree} {m : Mem}

theorem Rep.congr_iff {nil : Nat} {m m' : Mem} {t : Tree} {q : Nat}
    (h : ∀ a ∈ t.addrs, m' a = m a) : Rep nil m' t q ↔ Rep nil m t q :=
  ⟨Rep.congr fun a ha => (h a ha).symm, Rep.congr h⟩

theorem Rep.upd {nil : Nat} {m : Mem} {t : Tree} {q a : Nat} {n : rb_red_blk_node}
    (ha : a ∉ t.addrs) : Rep nil (upd m a n) t q ↔ Rep nil m t q := by
  constructor
  · refine @Rep.congr nil (RBTree.upd m a n) m t q fun b hb => ?_
    rw [upd_ne]; rintro rfl; exact ha hb
  · refine Rep.congr fun b hb => ?_
    rw [upd_ne]; rintro rfl; exact ha hb

theorem RepPath.upd_path {p : Path} {c a : Nat} {n : rb_red_blk_node}
    (hb : a ∉ p.before.map (fun e => e.1)) (ha : a ∉ p.after.map (fun e => e.1)) :
    RepPath tree (upd m a n) p c ↔ RepPath tree m p c := by
  induction p generalizing c with
  | nil => simp [RepPath]
  | cons f p ih =>
    cases f with
    | L b d r =>
      simp only [Path.before, Path.after, List.map_append, List.map_cons, List.mem_append,
        List.mem_cons, not_or, List.cons_append] at hb ha
      have hr : a ∉ r.addrs := ha.2.1
      simp only [RepPath, Rep.upd hr, ih hb ha.2.2, upd_ne _ _ _ _ (Ne.symm ha.1)]
    | R l b d =>
      simp only [Path.before, Path.after, List.map_append, List.map_cons, List.mem_append,
        List.mem_cons, not_or, List.map_nil, List.not_mem_nil, or_false] at hb ha
      have hl : a ∉ l.addrs := hb.2.1
      simp only [RepPath, Rep.upd hl, ih hb.1 ha, upd_ne _ _ _ _ (Ne.symm hb.2.2)]

/-- Reading `children` through a child pointer. -/
theorem Rep.ch_eq {t : Tree} {q : Nat} (h : Rep tree.nil m t q) (hn : NilCell tree (m tree.nil)) :
    (m (t.addr tree.nil)).children = t.ch := by
  cases t with
  | leaf => exact hn.2.2.2.2
  | node l a d r => rw [Tree.addr, h.1]; rfl

/-- Reading `red` through a child pointer. -/
theorem Rep.red_eq {t : Tree} {q : Nat} (h : Rep tree.nil m t q) (hn : NilCell tree (m tree.nil)) :
    (m (t.addr tree.nil)).red = t.isRed := by
  cases t with
  | leaf => exact hn.2.1
  | node l a d r => rw [Tree.addr, h.1]; rfl

theorem Tree.addr_eq_or (nil : Nat) (t : Tree) : t.addr nil = nil ∨ t.addr nil ∈ t.addrs := by
  cases t <;> simp [Tree.addr]

theorem Tree.addr_ne {t : Tree} {nil x : Nat} (h1 : nil ≠ x) (h2 : x ∉ t.addrs) :
    t.addr nil ≠ x := by
  rcases Tree.addr_eq_or nil t with h | h
  · rw [h]; exact h1
  · rintro rfl; exact h2 h

theorem Path.paddr_eq_or (root : Nat) (p : Path) :
    Path.addr root p = root ∨ Path.addr root p ∈ p.before.map (fun e => e.1) ∨
      Path.addr root p ∈ p.after.map (fun e => e.1) := by
  rcases p with _ | ⟨f, p⟩
  · simp [Path.addr]
  · cases f <;> simp [Path.addr, Frame.a, Path.before, Path.after]

theorem RepZ.nodup' {p : Path} {t : Tree} (h : RepZ tree m p t) :
    tree.nil ≠ tree.root ∧
    (∀ a, a ∈ p.before.map (fun e => e.1) ∨ a ∈ t.addrs ∨ a ∈ p.after.map (fun e => e.1) →
      tree.nil ≠ a ∧ tree.root ≠ a) ∧
    t.addrs.Nodup ∧ (p.before.map (fun e => e.1)).Nodup ∧ (p.after.map (fun e => e.1)).Nodup ∧
    (∀ a, a ∈ t.addrs → a ∉ p.before.map (fun e => e.1) ∧ a ∉ p.after.map (fun e => e.1)) ∧
    (∀ a, a ∈ p.before.map (fun e => e.1) → a ∉ p.after.map (fun e => e.1)) := by
  have hn := h.nodup
  rw [addrs_fill] at hn
  simp only [List.nodup_cons, List.nodup_append, List.mem_append, List.mem_cons, not_or,
    List.disjoint_left, List.append_assoc] at hn
  obtain ⟨⟨h1, h2, h3, h4⟩, ⟨h5, h6, h7⟩, h8, ⟨h9, h10, h11⟩, h12⟩ := hn
  refine ⟨h1, ?_, h9, h8, h10, ?_, fun a ha => (h12 ha).2⟩
  · rintro a (ha | ha | ha)
    · exact ⟨fun e => h2 (e ▸ ha), fun e => h5 (e ▸ ha)⟩
    · exact ⟨fun e => h3 (e ▸ ha), fun e => h6 (e ▸ ha)⟩
    · exact ⟨fun e => h4 (e ▸ ha), fun e => h7 (e ▸ ha)⟩
  · intro a ha
    exact ⟨fun hb => (h12 hb).1 ha, fun hb => h11 ha hb⟩

theorem RepZ.nil_ne_root {p : Path} {t : Tree} (h : RepZ tree m p t) : tree.nil ≠ tree.root :=
  h.nodup'.1

theorem RepZ.sub_ne {p : Path} {t : Tree} (h : RepZ tree m p t) {a : Nat} (ha : a ∈ t.addrs) :
    tree.nil ≠ a ∧ tree.root ≠ a ∧ Path.addr tree.root p ≠ a := by
  obtain ⟨_, h2, _, _, _, h6, _⟩ := h.nodup'
  refine ⟨(h2 a (Or.inr (Or.inl ha))).1, (h2 a (Or.inr (Or.inl ha))).2, ?_⟩
  rcases Path.paddr_eq_or tree.root p with e | e | e
  · rw [e]; exact (h2 a (Or.inr (Or.inl ha))).2
  · rintro rfl; exact (h6 _ ha).1 e
  · rintro rfl; exact (h6 _ ha).2 e

theorem RepZ.paddr_ne_nil {p : Path} {t : Tree} (h : RepZ tree m p t) :
    Path.addr tree.root p ≠ tree.nil := by
  obtain ⟨h1, h2, _⟩ := h.nodup'
  rcases Path.paddr_eq_or tree.root p with e | e | e
  · rw [e]; exact h1.symm
  · exact fun e' => (h2 _ (Or.inl e)).1 e'.symm
  · exact fun e' => (h2 _ (Or.inr (Or.inr e))).1 e'.symm

theorem RepPath.child_L {p : Path} {a : Nat} {d : Data} {r : Tree} {m3 : Mem} {c c' : Nat}
    (hna : ((Path.after (Frame.L a d r :: p)).map (fun e => e.1)).Nodup)
    (hba : ∀ b ∈ (Path.before (Frame.L a d r :: p)).map (fun e => e.1),
      b ∉ (Path.after (Frame.L a d r :: p)).map (fun e => e.1))
    (h : RepPath tree m3 (Frame.L a d r :: p) c) :
    RepPath tree (setLeft m3 a c') (Frame.L a d r :: p) c' := by
  simp only [Path.before, Path.after, List.map_append, List.map_cons, List.cons_append,
    List.nodup_cons, List.mem_append, not_or, List.mem_cons] at hna hba
  obtain ⟨h1, h2, h3⟩ := h
  have har : a ∉ r.addrs := hna.1.1
  have hab : a ∉ p.before.map (fun e => e.1) := fun e => (hba a e).1 rfl
  refine ⟨?_, ?_, ?_⟩
  · simp only [setLeft, upd_same, h1]; rfl
  · simp only [setLeft, Rep.upd har]; exact h2
  · simp only [setLeft, RepPath.upd_path hab hna.1.2]; exact h3

theorem RepPath.child_R {p : Path} {a : Nat} {d : Data} {l : Tree} {m3 : Mem} {c c' : Nat}
    (hnb : ((Path.before (Frame.R l a d :: p)).map (fun e => e.1)).Nodup)
    (hba : ∀ b ∈ (Path.before (Frame.R l a d :: p)).map (fun e => e.1),
      b ∉ (Path.after (Frame.R l a d :: p)).map (fun e => e.1))
    (h : RepPath tree m3 (Frame.R l a d :: p) c) :
    RepPath tree (setRight m3 a c') (Frame.R l a d :: p) c' := by
  simp only [Path.before, Path.after, List.map_append, List.map_cons, List.cons_append,
    List.nodup_cons, List.mem_append, not_or, List.mem_cons, List.nodup_append,
    List.map_nil, List.disjoint_left, List.not_mem_nil, or_false, List.nodup_nil, and_true,
    List.mem_singleton, not_false_eq_true] at hnb hba
  obtain ⟨h1, h2, h3⟩ := h
  obtain ⟨_, ⟨_, _, hla⟩, hbl⟩ := hnb
  have hal : a ∉ l.addrs := fun e => hla e rfl
  have hab : a ∉ p.before.map (fun e => e.1) := fun e => (hbl e).2 rfl
  have haa : a ∉ p.after.map (fun e => e.1) := hba a (Or.inr (Or.inr rfl))
  refine ⟨?_, ?_, ?_⟩
  · simp only [setRight, upd_same, h1]; rfl
  · simp only [setRight, Rep.upd hal]; exact h2
  · simp only [setRight, RepPath.upd_path hab haa]; exact h3

/-- Relinking the parent of the focus to a new child `c'`: what the path and the
sentinels look like afterwards.  `m3` is any heap that still holds the path. -/
theorem RepZ.relink_spec {p : Path} {t : Tree} (h : RepZ tree m p t)
    (hc : t.addr tree.nil ∈ t.addrs) {m3 : Mem}
    (h3 : RepPath tree m3 p (t.addr tree.nil)) (h3r : m3 tree.root = m tree.root)
    (t' : Tree) :
    RepPath tree (relink m m3 (Path.addr tree.root p) (t.addr tree.nil) (t'.addr tree.nil)) p
        (t'.addr tree.nil) ∧
      RootCell tree
        (relink m m3 (Path.addr tree.root p) (t.addr tree.nil) (t'.addr tree.nil) tree.root)
        ((fill p t').addr tree.nil) ∧
      ∀ b, b ≠ Path.addr tree.root p →
        relink m m3 (Path.addr tree.root p) (t.addr tree.nil) (t'.addr tree.nil) b = m3 b := by
  obtain ⟨hnr, hnn, _, hnb, hna, hsp, hba⟩ := h.nodup'
  have hroot := h.rootc
  have hfr : ∀ (pa c c' b : Nat), b ≠ pa → relink m m3 pa c c' b = m3 b := by
    intro pa c c' b hb
    unfold relink; split <;> simp only [setLeft, setRight, upd_ne _ _ _ _ hb]
  refine ⟨?_, ?_, fun b hb => hfr _ _ _ b hb⟩
  · rcases p with _ | ⟨f, p⟩
    · trivial
    · cases f with
      | L a d r =>
        have e : (m a).left = t.addr tree.nil := by rw [h.path.1]; rfl
        simp only [relink, Path.addr, Frame.a, e, if_true]
        exact RepPath.child_L hna hba h3
      | R l a d =>
        have hne : l.addr tree.nil ≠ t.addr tree.nil := by
          have h1 := (hnn _ (Or.inr (Or.inl hc))).1
          refine Tree.addr_ne h1 fun e => (hsp _ hc).1 ?_
          simp only [Path.before, List.map_append, List.mem_append]
          exact Or.inr (Or.inl e)
        have e : (m a).left = l.addr tree.nil := by rw [h.path.1]; rfl
        simp only [relink, Path.addr, Frame.a, e, hne, if_false]
        exact RepPath.child_R hnb hba h3
  · rcases p with _ | ⟨f, p⟩
    · have e : (m tree.root).left = t.addr tree.nil := hroot.2.2.1
      simp only [relink, Path.addr, e, if_true, setLeft, upd_same, h3r, fill_nil]
      exact ⟨hroot.1, hroot.2.1, rfl, hroot.2.2.2⟩
    · have hne : tree.root ≠ f.a := by
        cases f with
        | L a d r =>
          exact (hnn a (Or.inr (Or.inr (by simp [Path.after])))).2
        | R l a d =>
          exact (hnn a (Or.inl (by simp [Path.before]))).2
      rw [hfr (Path.addr tree.root (f :: p)) _ _ _ hne, h3r, fill_addr_cons tree.nil f p t' t]
      exact hroot

end Frames

end RBTree


namespace RBTree

/-! ## Rotations -/

section Rotations

variable {tree : rb_red_blk_tree} {m : Mem}

/-- `LeftRotate` with every read replaced by its value. -/
theorem LeftRotate_resolve {x y la mla ra pa : Nat} {dx dy : Data}
    (hx : m x = mkCell dx la y pa) (hy : m y = mkCell dy mla ra x)
    (hxy : x ≠ y) (hpx : pa ≠ x) (hpy : pa ≠ y)
    (hmx : mla ≠ x) (hmy : mla ≠ y) (hmp : mla ≠ pa) (hrx : ra ≠ x) :
    LeftRotate tree m x =
      setChildren (setChildren (setParent (setLeft
        (relink m (setParent (if mla = tree.nil then setRight m x mla
            else setParent (setRight m x mla) mla x) y pa) pa x y) y x) x y) x
        ((m la).children + (m mla).children + tree.DistFunc dx.key)) y
        ((m la).children + (m mla).children + tree.DistFunc dx.key + (m ra).children +
          tree.DistFunc dy.key) := by
  have e1 : (m x).right = y := by rw [hx]; rfl
  have e2 : (m x).parent = pa := by rw [hx]; rfl
  have e3 : (m y).left = mla := by rw [hy]; rfl
  have e4 : (m y).right = ra := by rw [hy]; rfl
  have e5 : (m x).left = la := by rw [hx]; rfl
  have e6 : (m x).key = dx.key := by rw [hx]; rfl
  have e7 : (m y).key = dy.key := by rw [hy]; rfl
  have hpl' : (x = (m pa).left) = ((m pa).left = x) := propext eq_comm
  unfold LeftRotate TreeUpdateSum relink
  by_cases hmn : mla = tree.nil <;> by_cases hpl : (m pa).left = x <;>
  simp only [setLeft_left_ite, setRight_right_ite, setParent_parent_ite,
    setChildren_children_ite, e1, e2, e3, e4, e5, e6, e7, hmn, hpl, hpl',
    hxy, hpx, hpy, hmx, hmy, hmp, hrx, hxy.symm, hpx.symm, hpy.symm, hmx.symm, hmy.symm,
    hmp.symm, hrx.symm,
    setChildren_left, setParent_left, setLeft_parent, setRight_parent, setChildren_parent,
    ne_eq, not_true, if_false, ite_false, ite_true, if_true, not_true_eq_false,
    setRight_left, setParent_key, setLeft_key, setRight_key, setChildren_key,
    setParent_right, setLeft_right, setChildren_right,
    setParent_children, setLeft_children, setRight_children, not_false_eq_true]

theorem RepZ.rotL_aux {p : Path} {l ml r : Tree} {x y : Nat} {dx dy : Data}
    (h : RepZ tree m p (.node l x dx (.node ml y dy r))) :
    RepZ tree (LeftRotate tree m x) p
      (Tree.rotL tree.DistFunc (.node l x dx (.node ml y dy r))) ∧
      LeftRotate tree m x tree.nil = m tree.nil := by
  obtain ⟨hnr, hnn, hnt, hnb, hna, hsp, hba⟩ := h.nodup'
  simp only [addrs_node, List.nodup_append, List.nodup_cons, List.mem_append, List.mem_cons,
    not_or, List.disjoint_left] at hnt
  obtain ⟨hln, ⟨⟨hxml, hxy', hxr⟩, hmln, ⟨hyr, hrn⟩, hmly⟩, hlx⟩ := hnt
  have hxy : x ≠ y := hxy'
  have hxl : x ∉ l.addrs := fun e => (hlx e).1 rfl
  have hyl : y ∉ l.addrs := fun e => (hlx e).2.2.1 rfl
  have hyml : y ∉ ml.addrs := fun e => (hmly e).1 rfl
  have hxm : x ∈ (Tree.node l x dx (.node ml y dy r)).addrs := by simp
  have hym : y ∈ (Tree.node l x dx (.node ml y dy r)).addrs := by simp
  have hlm : ∀ a ∈ l.addrs, a ∈ (Tree.node l x dx (.node ml y dy r)).addrs := by
    intro a ha; simp [ha]
  have hmm : ∀ a ∈ ml.addrs, a ∈ (Tree.node l x dx (.node ml y dy r)).addrs := by
    intro a ha; simp [ha]
  have hrm : ∀ a ∈ r.addrs, a ∈ (Tree.node l x dx (.node ml y dy r)).addrs := by
    intro a ha; simp [ha]
  obtain ⟨hnx, hrx, hpx⟩ := h.sub_ne hxm
  obtain ⟨hny, hry, hpy⟩ := h.sub_ne hym
  have hpn := h.paddr_ne_nil
  obtain ⟨hcx', hl, hcy, hml, hr⟩ := h.sub
  have hcx : m x = mkCell dx (l.addr tree.nil) y (Path.addr tree.root p) := hcx'
  have cl := hl.ch_eq h.nilc
  have cml := hml.ch_eq h.nilc
  have cr := hr.ch_eq h.nilc
  have hpl : Path.addr tree.root p ∉ l.addrs := fun e => (h.sub_ne (hlm _ e)).2.2 rfl
  have hpml : Path.addr tree.root p ∉ ml.addrs := fun e => (h.sub_ne (hmm _ e)).2.2 rfl
  have hpr : Path.addr tree.root p ∉ r.addrs := fun e => (h.sub_ne (hrm _ e)).2.2 rfl
  have hmx : ml.addr tree.nil ≠ x := Tree.addr_ne hnx hxml
  have hmy : ml.addr tree.nil ≠ y := Tree.addr_ne hny hyml
  have hmp : ml.addr tree.nil ≠ Path.addr tree.root p := Tree.addr_ne hpn.symm hpml
  have hrax : r.addr tree.nil ≠ x := Tree.addr_ne hnx hxr
  rw [LeftRotate_resolve hcx hcy hxy hpx hpy hmx hmy hmp hrax, cl, cml, cr]
  obtain ⟨hxb, hxa⟩ := hsp x hxm
  obtain ⟨hyb, hya⟩ := hsp y hym
  -- the heap before relinking the parent
  have h3 : ∃ m3, m3 = setParent (if ml.addr tree.nil = tree.nil then
        setRight m x (ml.addr tree.nil)
      else setParent (setRight m x (ml.addr tree.nil)) (ml.addr tree.nil) x) y
      (Path.addr tree.root p) ∧ RepPath tree m3 p x ∧
      (∀ b, b ≠ x → b ≠ y → b ≠ ml.addr tree.nil → m3 b = m b) ∧
      m3 tree.nil = m tree.nil ∧
      m3 x = mkCell dx (l.addr tree.nil) (ml.addr tree.nil) (Path.addr tree.root p) ∧
      m3 y = mkCell dy (ml.addr tree.nil) (r.addr tree.nil) (Path.addr tree.root p) ∧
      Rep tree.nil m3 ml x := by
    refine ⟨_, rfl, ?_⟩
    cases ml with
    | leaf =>
      simp only [Tree.addr, if_true, setParent, setRight, RepPath.upd_path hxb hxa,
        RepPath.upd_path hyb hya]
      refine ⟨h.path, fun b h1 h2 _ => ?_, ?_, ?_, ?_, trivial⟩
      · rw [upd_ne _ _ _ _ h2, upd_ne _ _ _ _ h1]
      · rw [upd_ne _ _ _ _ hny, upd_ne _ _ _ _ hnx]
      · rw [upd_ne _ _ _ _ hxy, upd_same, hcx]; rfl
      · rw [upd_same, upd_ne _ _ _ _ hxy.symm, hcy]; rfl
    | node ml1 ma md ml2 =>
      have hma : ma ∈ (Tree.node l x dx (.node (.node ml1 ma md ml2) y dy r)).addrs := by simp
      obtain ⟨hnm, _, _⟩ := h.sub_ne hma
      obtain ⟨hmb, hmaa⟩ := hsp ma hma
      simp only [addrs_node, List.nodup_append, List.nodup_cons, List.mem_append,
        List.mem_cons, not_or, List.disjoint_left] at hmln hxml hyml
      have hm1 : ma ∉ ml1.addrs := fun e => (hmln.2.2 e).1 rfl
      simp only [Tree.addr, hnm.symm, if_false, setParent, setRight, RepPath.upd_path hxb hxa,
        RepPath.upd_path hyb hya, RepPath.upd_path hmb hmaa] at hmx hmy ⊢
      refine ⟨h.path, fun b h1 h2 h3 => ?_, ?_, ?_, ?_, ?_, ?_, ?_⟩
      · rw [upd_ne _ _ _ _ h2, upd_ne _ _ _ _ h3, upd_ne _ _ _ _ h1]
      · rw [upd_ne _ _ _ _ hny, upd_ne _ _ _ _ hnm, upd_ne _ _ _ _ hnx]
      · rw [upd_ne _ _ _ _ hxy, upd_ne _ _ _ _ hmx.symm, upd_same, hcx]; rfl
      · rw [upd_same, upd_ne _ _ _ _ hmy.symm, upd_ne _ _ _ _ hxy.symm, hcy]; rfl
      · rw [upd_ne _ _ _ _ hmy, upd_same, upd_ne _ _ _ _ hmx, hml.1]; rfl
      · simp only [Rep.upd hyml.1, Rep.upd hm1, Rep.upd hxml.1]; exact hml.2.1
      · simp only [Rep.upd hyml.2.2, Rep.upd hmln.2.1.1, Rep.upd hxml.2.2]; exact hml.2.2
  obtain ⟨m3, hm3, h3p, h3f, h3n, h3x, h3y, h3ml⟩ := h3
  rw [← hm3]
  clear hm3
  have h3r := h3f tree.root hrx hry (Tree.addr_ne hnr (fun e => (h.sub_ne (hmm _ e)).2.1 rfl)).symm
  have hxaddr : (Tree.node l x dx (.node ml y dy r)).addr tree.nil = x := rfl
  obtain ⟨h4p, h4r, h4f⟩ := h.relink_spec (by rw [hxaddr]; exact hxm)
    (by rw [hxaddr]; exact h3p) h3r
    (Tree.rotL tree.DistFunc (.node l x dx (.node ml y dy r)))
  rw [hxaddr] at h4p h4r h4f
  simp only [Tree.rotL, Tree.updSum, Tree.addr] at h4p h4r h4f ⊢
  generalize relink m m3 (Path.addr tree.root p) x y = m4 at *
  have h4l : Rep tree.nil m4 l x := by
    refine (Rep.congr_iff fun a ha => ?_).2 hl
    have h1 : a ≠ x := fun e => hxl (e ▸ ha)
    have h2 : a ≠ y := fun e => hyl (e ▸ ha)
    have h3 : a ≠ Path.addr tree.root p := fun e => hpl (e ▸ ha)
    have h4 : a ≠ ml.addr tree.nil := by
      refine (Tree.addr_ne (h.sub_ne (hlm _ ha)).1 fun e => (hlx ha).2.1 e).symm
    rw [h4f a h3, h3f a h1 h2 h4]
  have h4m : Rep tree.nil m4 ml x := by
    refine (Rep.congr_iff fun a ha => ?_).2 h3ml
    have h3 : a ≠ Path.addr tree.root p := fun e => hpml (e ▸ ha)
    rw [h4f a h3]
  have h4rr : Rep tree.nil m4 r y := by
    refine (Rep.congr_iff fun a ha => ?_).2 hr
    have h1 : a ≠ x := fun e => hxr (e ▸ ha)
    have h2 : a ≠ y := fun e => hyr (e ▸ ha)
    have h3 : a ≠ Path.addr tree.root p := fun e => hpr (e ▸ ha)
    have h4 : a ≠ ml.addr tree.nil := by
      refine (Tree.addr_ne (h.sub_ne (hrm _ ha)).1 fun e => (hmly e).2 ha).symm
    rw [h4f a h3, h3f a h1 h2 h4]
  refine ⟨⟨?_, ?_, ?_, ?_, ?_, ⟨?_, ?_, ?_⟩, ?_⟩, ?_⟩
  · have hn := h.nodup
    simp only [addrs_fill, addrs_node, List.append_assoc, List.cons_append] at hn ⊢
    exact hn
  · simp only [setChildren, setParent, setLeft, upd_ne _ _ _ _ hny, upd_ne _ _ _ _ hnx,
      h4f _ hpn.symm, h3n]
    exact h.nilc
  · simp only [setChildren, setParent, setLeft, upd_ne _ _ _ _ hry, upd_ne _ _ _ _ hrx]
    exact h4r
  · simp only [setChildren, setParent, setLeft, RepPath.upd_path hxb hxa, RepPath.upd_path hyb hya]
    exact h4p
  · simp only [setChildren, setParent, setLeft, upd_same, upd_ne _ _ _ _ hxy.symm,
      h4f _ hpy.symm, h3y]
    rfl
  · simp only [setChildren, setParent, setLeft, upd_same, upd_ne _ _ _ _ hxy,
      h4f _ hpx.symm, h3x]
    rfl
  · simp only [setChildren, setParent, setLeft, Rep.upd hxl, Rep.upd hyl]
    exact h4l
  · simp only [setChildren, setParent, setLeft, Rep.upd hxml, Rep.upd hyml]
    exact h4m
  · simp only [setChildren, setParent, setLeft, Rep.upd hxr, Rep.upd hyr]
    exact h4rr
  · simp only [setChildren, setParent, setLeft, upd_ne _ _ _ _ hny, upd_ne _ _ _ _ hnx,
      h4f _ hpn.symm, h3n]

theorem RepZ.rotL {p : Path} {l ml r : Tree} {x y : Nat} {dx dy : Data}
    (h : RepZ tree m p (.node l x dx (.node ml y dy r))) :
    RepZ tree (LeftRotate tree m x) p
      (Tree.rotL tree.DistFunc (.node l x dx (.node ml y dy r))) := h.rotL_aux.1

theorem RepZ.rotL_nil {p : Path} {l ml r : Tree} {x y : Nat} {dx dy : Data}
    (h : RepZ tree m p (.node l x dx (.node ml y dy r))) :
    LeftRotate tree m x tree.nil = m tree.nil := h.rotL_aux.2

/-- `RightRotate` with every read replaced by its value. -/
theorem RightRotate_resolve {x y la mra ra pa : Nat} {dx dy : Data}
    (hy : m y = mkCell dy x ra pa) (hx : m x = mkCell dx la mra y)
    (hxy : x ≠ y) (hpx : pa ≠ x) (hpy : pa ≠ y)
    (hmx : mra ≠ x) (hmy : mra ≠ y) (hmp : mra ≠ pa) (hly : la ≠ y) :
    RightRotate tree m y =
      setChildren (setChildren (setParent (setRight
        (relink m (setParent (if mra = tree.nil then setLeft m y mra
            else setParent (setLeft m y mra) mra y) x pa) pa y x) x y) y x) y
        ((m mra).children + (m ra).children + tree.DistFunc dy.key)) x
        ((m la).children + ((m mra).children + (m ra).children + tree.DistFunc dy.key) +
          tree.DistFunc dx.key) := by
  have e1 : (m y).left = x := by rw [hy]; rfl
  have e2 : (m y).parent = pa := by rw [hy]; rfl
  have e3 : (m x).right = mra := by rw [hx]; rfl
  have e4 : (m y).right = ra := by rw [hy]; rfl
  have e5 : (m x).left = la := by rw [hx]; rfl
  have e6 : (m x).key = dx.key := by rw [hx]; rfl
  have e7 : (m y).key = dy.key := by rw [hy]; rfl
  have hpl' : (y = (m pa).left) = ((m pa).left = y) := propext eq_comm
  have hnm : (tree.nil = mra) = (mra = tree.nil) := propext eq_comm
  unfold RightRotate TreeUpdateSum relink
  by_cases hmn : mra = tree.nil <;> by_cases hpl : (m pa).left = y <;>
  simp only [setLeft_left_ite, setRight_right_ite, setParent_parent_ite,
    setChildren_children_ite, e1, e2, e3, e4, e5, e6, e7, hnm, hmn, hpl, hpl',
    hxy, hpx, hpy, hmx, hmy, hmp, hly, hxy.symm, hpx.symm, hpy.symm, hmx.symm, hmy.symm,
    hmp.symm, hly.symm,
    setChildren_left, setParent_left, setLeft_parent, setRight_parent, setChildren_parent,
    ne_eq, not_true, if_false, ite_false, ite_true, if_true, not_true_eq_false,
    setRight_left, setParent_key, setLeft_key, setRight_key, setChildren_key,
    setParent_right, setLeft_right, setChildren_right,
    setParent_children, setLeft_children, setRight_children, not_false_eq_true]

theorem RepZ.rotR_aux {p : Path} {l mr r : Tree} {x y : Nat} {dx dy : Data}
    (h : RepZ tree m p (.node (.node l x dx mr) y dy r)) :
    RepZ tree (RightRotate tree m y) p
      (Tree.rotR tree.DistFunc (.node (.node l x dx mr) y dy r)) ∧
      RightRotate tree m y tree.nil = m tree.nil := by
  obtain ⟨hnr, hnn, hnt, hnb, hna, hsp, hba⟩ := h.nodup'
  simp only [addrs_node, List.nodup_append, List.nodup_cons, List.mem_append, List.mem_cons,
    not_or, List.disjoint_left] at hnt
  obtain ⟨⟨hln, ⟨hxmr, hmrn⟩, hlx⟩, ⟨hyr, hrn⟩, hly⟩ := hnt
  have hxy : x ≠ y := (hly (Or.inr (Or.inl rfl))).1
  have hxr : x ∉ r.addrs := (hly (Or.inr (Or.inl rfl))).2
  have hxl : x ∉ l.addrs := fun e => (hlx e).1 rfl
  have hyl : y ∉ l.addrs := fun e => (hly (Or.inl e)).1 rfl
  have hymr : y ∉ mr.addrs := fun e => (hly (Or.inr (Or.inr e))).1 rfl
  have hxm : x ∈ (Tree.node (.node l x dx mr) y dy r).addrs := by simp
  have hym : y ∈ (Tree.node (.node l x dx mr) y dy r).addrs := by simp
  have hlm : ∀ a ∈ l.addrs, a ∈ (Tree.node (.node l x dx mr) y dy r).addrs := by
    intro a ha; simp [ha]
  have hmm : ∀ a ∈ mr.addrs, a ∈ (Tree.node (.node l x dx mr) y dy r).addrs := by
    intro a ha; simp [ha]
  have hrm : ∀ a ∈ r.addrs, a ∈ (Tree.node (.node l x dx mr) y dy r).addrs := by
    intro a ha; simp [ha]
  obtain ⟨hnx, hrx, hpx⟩ := h.sub_ne hxm
  obtain ⟨hny, hry, hpy⟩ := h.sub_ne hym
  have hpn := h.paddr_ne_nil
  obtain ⟨hcy', ⟨hcx, hl, hmr⟩, hr⟩ := h.sub
  have hcy : m y = mkCell dy x (r.addr tree.nil) (Path.addr tree.root p) := hcy'
  have cl := hl.ch_eq h.nilc
  have cmr := hmr.ch_eq h.nilc
  have cr := hr.ch_eq h.nilc
  have hpl : Path.addr tree.root p ∉ l.addrs := fun e => (h.sub_ne (hlm _ e)).2.2 rfl
  have hpmr : Path.addr tree.root p ∉ mr.addrs := fun e => (h.sub_ne (hmm _ e)).2.2 rfl
  have hpr : Path.addr tree.root p ∉ r.addrs := fun e => (h.sub_ne (hrm _ e)).2.2 rfl
  have hmx : mr.addr tree.nil ≠ x := Tree.addr_ne hnx hxmr
  have hmy : mr.addr tree.nil ≠ y := Tree.addr_ne hny hymr
  have hmp : mr.addr tree.nil ≠ Path.addr tree.root p := Tree.addr_ne hpn.symm hpmr
  have hlay : l.addr tree.nil ≠ y := Tree.addr_ne hny hyl
  rw [RightRotate_resolve hcy hcx hxy hpx hpy hmx hmy hmp hlay, cl, cmr, cr]
  obtain ⟨hxb, hxa⟩ := hsp x hxm
  obtain ⟨hyb, hya⟩ := hsp y hym
  -- the heap before relinking the parent
  have h3 : ∃ m3, m3 = setParent (if mr.addr tree.nil = tree.nil then
        setLeft m y (mr.addr tree.nil)
      else setParent (setLeft m y (mr.addr tree.nil)) (mr.addr tree.nil) y) x
      (Path.addr tree.root p) ∧ RepPath tree m3 p y ∧
      (∀ b, b ≠ x → b ≠ y → b ≠ mr.addr tree.nil → m3 b = m b) ∧
      m3 tree.nil = m tree.nil ∧
      m3 x = mkCell dx (l.addr tree.nil) (mr.addr tree.nil) (Path.addr tree.root p) ∧
      m3 y = mkCell dy (mr.addr tree.nil) (r.addr tree.nil) (Path.addr tree.root p) ∧
      Rep tree.nil m3 mr y := by
    refine ⟨_, rfl, ?_⟩
    cases mr with
    | leaf =>
      simp only [Tree.addr, if_true, setParent, setLeft, RepPath.upd_path hxb hxa,
        RepPath.upd_path hyb hya]
      refine ⟨h.path, fun b h1 h2 _ => ?_, ?_, ?_, ?_, trivial⟩
      · rw [upd_ne _ _ _ _ h1, upd_ne _ _ _ _ h2]
      · rw [upd_ne _ _ _ _ hnx, upd_ne _ _ _ _ hny]
      · rw [upd_same, upd_ne _ _ _ _ hxy, hcx]; rfl
      · rw [upd_ne _ _ _ _ hxy.symm, upd_same, hcy]; rfl
    | node mr1 ma md mr2 =>
      have hma : ma ∈ (Tree.node (.node l x dx (.node mr1 ma md mr2)) y dy r).addrs := by simp
      obtain ⟨hnm, _, _⟩ := h.sub_ne hma
      obtain ⟨hmb, hmaa⟩ := hsp ma hma
      simp only [addrs_node, List.nodup_append, List.nodup_cons, List.mem_append,
        List.mem_cons, not_or, List.disjoint_left] at hmrn hxmr hymr
      have hm1 : ma ∉ mr1.addrs := fun e => (hmrn.2.2 e).1 rfl
      simp only [Tree.addr, hnm.symm, if_false, setParent, setLeft, RepPath.upd_path hxb hxa,
        RepPath.upd_path hyb hya, RepPath.upd_path hmb hmaa] at hmx hmy ⊢
      refine ⟨h.path, fun b h1 h2 h3 => ?_, ?_, ?_, ?_, ?_, ?_, ?_⟩
      · rw [upd_ne _ _ _ _ h1, upd_ne _ _ _ _ h3, upd_ne _ _ _ _ h2]
      · rw [upd_ne _ _ _ _ hnx, upd_ne _ _ _ _ hnm, upd_ne _ _ _ _ hny]
      · rw [upd_same, upd_ne _ _ _ _ hmx.symm, upd_ne _ _ _ _ hxy, hcx]; rfl
      · rw [upd_ne _ _ _ _ hxy.symm, upd_ne _ _ _ _ hmy.symm, upd_same, hcy]; rfl
      · rw [upd_ne _ _ _ _ hmx, upd_same, upd_ne _ _ _ _ hmy, hmr.1]; rfl
      · simp only [Rep.upd hxmr.1, Rep.upd hm1, Rep.upd hymr.1]; exact hmr.2.1
      · simp only [Rep.upd hxmr.2.2, Rep.upd hmrn.2.1.1, Rep.upd hymr.2.2]; exact hmr.2.2
  obtain ⟨m3, hm3, h3p, h3f, h3n, h3x, h3y, h3mr⟩ := h3
  rw [← hm3]
  clear hm3
  have h3r := h3f tree.root hrx hry (Tree.addr_ne hnr (fun e => (h.sub_ne (hmm _ e)).2.1 rfl)).symm
  have hyaddr : (Tree.node (.node l x dx mr) y dy r).addr tree.nil = y := rfl
  obtain ⟨h4p, h4r, h4f⟩ := h.relink_spec (by rw [hyaddr]; exact hym)
    (by rw [hyaddr]; exact h3p) h3r
    (Tree.rotR tree.DistFunc (.node (.node l x dx mr) y dy r))
  rw [hyaddr] at h4p h4r h4f
  simp only [Tree.rotR, Tree.updSum, Tree.addr] at h4p h4r h4f ⊢
  generalize relink m m3 (Path.addr tree.root p) y x = m4 at *
  have h4l : Rep tree.nil m4 l x := by
    refine (Rep.congr_iff fun a ha => ?_).2 hl
    have h1 : a ≠ x := fun e => hxl (e ▸ ha)
    have h2 : a ≠ y := fun e => hyl (e ▸ ha)
    have h3 : a ≠ Path.addr tree.root p := fun e => hpl (e ▸ ha)
    have h4 : a ≠ mr.addr tree.nil := by
      refine (Tree.addr_ne (h.sub_ne (hlm _ ha)).1 fun e => (hlx ha).2 e).symm
    rw [h4f a h3, h3f a h1 h2 h4]
  have h4m : Rep tree.nil m4 mr y := by
    refine (Rep.congr_iff fun a ha => ?_).2 h3mr
    have h3 : a ≠ Path.addr tree.root p := fun e => hpmr (e ▸ ha)
    rw [h4f a h3]
  have h4rr : Rep tree.nil m4 r y := by
    refine (Rep.congr_iff fun a ha => ?_).2 hr
    have h1 : a ≠ x := fun e => hxr (e ▸ ha)
    have h2 : a ≠ y := fun e => hyr (e ▸ ha)
    have h3 : a ≠ Path.addr tree.root p := fun e => hpr (e ▸ ha)
    have h4 : a ≠ mr.addr tree.nil := by
      refine (Tree.addr_ne (h.sub_ne (hrm _ ha)).1 fun e =>
        (hly (Or.inr (Or.inr e))).2 ha).symm
    rw [h4f a h3, h3f a h1 h2 h4]
  refine ⟨⟨?_, ?_, ?_, ?_, ?_, ?_, ?_, ?_, ?_⟩, ?_⟩
  · have hn := h.nodup
    simp only [addrs_fill, addrs_node, List.append_assoc, List.cons_append] at hn ⊢
    exact hn
  · simp only [setChildren, setParent, setRight, upd_ne _ _ _ _ hny, upd_ne _ _ _ _ hnx,
      h4f _ hpn.symm, h3n]
    exact h.nilc
  · simp only [setChildren, setParent, setRight, upd_ne _ _ _ _ hry, upd_ne _ _ _ _ hrx]
    exact h4r
  · simp only [setChildren, setParent, setRight, RepPath.upd_path hxb hxa, RepPath.upd_path hyb hya]
    exact h4p
  · simp only [setChildren, setParent, setRight, upd_same, upd_ne _ _ _ _ hxy,
      h4f _ hpx.symm, h3x]
    rfl
  · simp only [setChildren, setParent, setRight, Rep.upd hxl, Rep.upd hyl]
    exact h4l
  · simp only [setChildren, setParent, setRight, upd_same, upd_ne _ _ _ _ hxy.symm,
      h4f _ hpy.symm, h3y]
    rfl
  · simp only [setChildren, setParent, setRight, Rep.upd hxmr, Rep.upd hymr]
    exact h4m
  · simp only [setChildren, setParent, setRight, Rep.upd hxr, Rep.upd hyr]
    exact h4rr
  · simp only [setChildren, setParent, setRight, upd_ne _ _ _ _ hny, upd_ne _ _ _ _ hnx,
      h4f _ hpn.symm, h3n]

theorem RepZ.rotR {p : Path} {l mr r : Tree} {x y : Nat} {dx dy : Data}
    (h : RepZ tree m p (.node (.node l x dx mr) y dy r)) :
    RepZ tree (RightRotate tree m y) p
      (Tree.rotR tree.DistFunc (.node (.node l x dx mr) y dy r)) := h.rotR_aux.1

theorem RepZ.rotR_nil {p : Path} {l mr r : Tree} {x y : Nat} {dx dy : Data}
    (h : RepZ tree m p (.node (.node l x dx mr) y dy r)) :
    RightRotate tree m y tree.nil = m tree.nil := h.rotR_aux.2

end Rotations

end RBTree


namespace RBTree

/-! ## Moving the focus and updating the node under the focus -/

section Focus

variable {tree : rb_red_blk_tree} {m : Mem}

theorem fill_addr_congr (nil : Nat) (p : Path) {t t' : Tree} (h : t.addr nil = t'.addr nil) :
    (fill p t).addr nil = (fill p t').addr nil := by
  rcases p with _ | ⟨f, p⟩
  · exact h
  · exact fill_addr_cons nil f p t t'

/-- Moving the focus one step up. -/
theorem RepZ.up {f : Frame} {p : Path} {t : Tree} (h : RepZ tree m (f :: p) t) :
    RepZ tree m p (f.plug t) := by
  obtain ⟨h1, h2, h3, h4, h5⟩ := h
  cases f with
  | L a d r => exact ⟨h1, h2, h3, h4.2.2, h4.1, h5, h4.2.1⟩
  | R l a d => exact ⟨h1, h2, h3, h4.2.2, h4.1, h4.2.1, h5⟩

/-- Moving the focus one step down. -/
theorem RepZ.down {f : Frame} {p : Path} {t : Tree} (h : RepZ tree m p (f.plug t)) :
    RepZ tree m (f :: p) t := by
  obtain ⟨h1, h2, h3, h4, h5⟩ := h
  cases f with
  | L a d r => exact ⟨h1, h2, h3, ⟨h5.1, h5.2.2, h4⟩, h5.2.1⟩
  | R l a d => exact ⟨h1, h2, h3, ⟨h5.1, h5.2.1, h4⟩, h5.2.2⟩

/-- The focus can be moved to the root. -/
theorem RepZ.top {p : Path} {t : Tree} (h : RepZ tree m p t) : RepTree tree m (fill p t) := by
  induction p generalizing t with
  | nil => exact h
  | cons f p ih => exact ih h.up

/-- The focus can be moved from the root to any position. -/
theorem RepZ.ofTop {p : Path} {t : Tree} (h : RepTree tree m (fill p t)) : RepZ tree m p t := by
  induction p generalizing t with
  | nil => exact h
  | cons f p ih => exact (ih h).down

/-- The cell of the node under the focus. -/
theorem RepZ.cell {p : Path} {l r : Tree} {a : Nat} {d : Data}
    (h : RepZ tree m p (.node l a d r)) :
    m a = mkCell d (l.addr tree.nil) (r.addr tree.nil) (Path.addr tree.root p) := h.sub.1

/-- Overwriting the contents of the node under the focus. -/
theorem RepZ.setData {p : Path} {l r : Tree} {a : Nat} {d : Data}
    (h : RepZ tree m p (.node l a d r)) (d' : Data) :
    RepZ tree (upd m a (mkCell d' (l.addr tree.nil) (r.addr tree.nil) (Path.addr tree.root p)))
      p (.node l a d' r) := by
  obtain ⟨hnr, hnn, hnt, hnb, hna, hsp, hba⟩ := h.nodup'
  simp only [addrs_node, List.nodup_append, List.nodup_cons, List.mem_append, List.mem_cons,
    not_or, List.disjoint_left] at hnt
  obtain ⟨_, ⟨har, _⟩, hla⟩ := hnt
  have hal : a ∉ l.addrs := fun e => (hla e).1 rfl
  have ham : a ∈ (Tree.node l a d r).addrs := by simp
  obtain ⟨hna', hra, _⟩ := h.sub_ne ham
  obtain ⟨hab, haa⟩ := hsp a ham
  refine ⟨?_, ?_, ?_, ?_, ?_, ?_, ?_⟩
  · have hn := h.nodup
    simp only [addrs_fill, addrs_node] at hn ⊢
    exact hn
  · rw [upd_ne _ _ _ _ hna']; exact h.nilc
  · rw [upd_ne _ _ _ _ hra, @fill_addr_congr tree.nil p (.node l a d' r) (.node l a d r) rfl]
    exact h.rootc
  · rw [RepPath.upd_path hab haa]; exact h.path
  · rw [upd_same]
  · rw [Rep.upd hal]; exact h.sub.2.1
  · rw [Rep.upd har]; exact h.sub.2.2

theorem RepZ.recolor {p : Path} {l r : Tree} {a : Nat} {d : Data}
    (h : RepZ tree m p (.node l a d r)) (b : Bool) :
    RepZ tree (setRed m a b) p (.node l a (d.setRed b) r) := by
  have := h.setData (d.setRed b)
  unfold setRed
  rw [h.cell]
  exact this

theorem RepZ.reweigh {p : Path} {l r : Tree} {a : Nat} {d : Data}
    (h : RepZ tree m p (.node l a d r)) (v : Int) :
    RepZ tree (setChildren m a v) p (.node l a (d.setCh v) r) := by
  have := h.setData (d.setCh v)
  unfold setChildren
  rw [h.cell]
  exact this

/-- Blackening whatever the focus points at (possibly `nil`). -/
theorem RepZ.blacken {p : Path} {t : Tree} (h : RepZ tree m p t) :
    RepZ tree (setRed m (t.addr tree.nil) false) p (t.setRed false) := by
  cases t with
  | leaf =>
    have e : setRed m tree.nil false = m := by
      funext b
      unfold setRed upd
      split
      · next hb =>
        subst hb
        have := h.nilc.2.1
        exact node_ext rfl rfl this.symm rfl rfl rfl rfl
      · rfl
    simp only [Tree.addr, Tree.setRed, e]
    exact h
  | node l a d r => exact h.recolor false

end Focus

end RBTree


namespace RBTree

/-! ## `TreeInsertHelp` -/

section InsertHelp

variable {tree : rb_red_blk_tree} {m : Mem}

/-- Writing to a cell outside the tree and the sentinels changes nothing. -/
theorem RepZ.upd_fresh {p : Path} {t : Tree} (h : RepZ tree m p t) {z : Nat}
    (hzn : z ≠ tree.nil) (hzr : z ≠ tree.root) (hz : z ∉ (fill p t).addrs)
    (n : rb_red_blk_node) : RepZ tree (upd m z n) p t := by
  rw [addrs_fill] at hz
  simp only [List.mem_append, not_or] at hz
  refine ⟨h.nodup, ?_, ?_, ?_, ?_⟩
  · rw [upd_ne _ _ _ _ hzn.symm]; exact h.nilc
  · rw [upd_ne _ _ _ _ hzr.symm]; exact h.rootc
  · rw [RepPath.upd_path hz.1.1 hz.2]; exact h.path
  · rw [Rep.upd hz.1.2]; exact h.sub

theorem descend_length (cmp : Int → Int → Int) (k : Int) (t : Tree) (p : Path) :
    (descend cmp k t p).length ≤ p.length + t.size := by
  induction t generalizing p with
  | leaf => simp [descend]
  | node l a d r ihl ihr =>
    unfold descend
    split
    · have := ihl (.L a d r :: p); simp only [List.length_cons, Tree.size] at this ⊢; omega
    · have := ihr (.R l a d :: p); simp only [List.length_cons, Tree.size] at this ⊢; omega

theorem descend_fill (cmp : Int → Int → Int) (k : Int) (t : Tree) (p : Path) :
    fill (descend cmp k t p) .leaf = fill p t := by
  induction t generalizing p with
  | leaf => simp [descend]
  | node l a d r ihl ihr =>
    unfold descend
    split
    · rw [ihl]; rfl
    · rw [ihr]; rfl

/-- The descent loop finds the parent of the place where the key belongs. -/
theorem descend_spec {z : Nat} {k : Int} (hk : (m z).key = k) (t : Tree) (p : Path)
    (h : RepZ tree m p t) (fuel : Nat) (hf : t.size < fuel) :
    TreeInsertHelp.descend tree m z fuel (Path.addr tree.root p) (t.addr tree.nil) =
      some (Path.addr tree.root (descend tree.Compare k t p)) := by
  induction t generalizing p fuel with
  | leaf =>
    obtain ⟨n, rfl⟩ : ∃ n, fuel = n + 1 := ⟨fuel - 1, by omega⟩
    simp [TreeInsertHelp.descend, Tree.addr, descend]
  | node l a d r ihl ihr =>
    obtain ⟨n, rfl⟩ : ∃ n, fuel = n + 1 := ⟨fuel - 1, by omega⟩
    have ha : tree.nil ≠ a := (h.sub_ne (by simp)).1
    have hc := h.cell
    simp only [Tree.size] at hf
    simp only [TreeInsertHelp.descend, Tree.addr, ne_eq, ha.symm, not_false_eq_true, if_true,
      hc, mkCell_key, mkCell_left, mkCell_right, hk]
    unfold descend
    split
    · exact ihl (.L a d r :: p) (RepZ.down (f := .L a d r) h) n (by omega)
    · exact ihr (.R l a d :: p) (RepZ.down (f := .R l a d) h) n (by omega)

theorem descend_headOK (cmp : Int → Int → Int) (k : Int) (t : Tree) (p : Path)
    (hp : Path.headOK cmp k p) : Path.headOK cmp k (descend cmp k t p) := by
  induction t generalizing p with
  | leaf => exact hp
  | node l a d r ihl ihr =>
    unfold descend
    split
    · next hc => exact ihl _ hc
    · next hc => exact ihr _ hc

/-- Linking a prepared fresh cell `z` below the parent found by the descent. -/
theorem RepZ.attach {P : Path} (h : RepZ tree m P .leaf) {z : Nat}
    (hzn : z ≠ tree.nil) (hzr : z ≠ tree.root) (hz : z ∉ (fill P .leaf).addrs) {d : Data}
    (hc : m z = mkCell d tree.nil tree.nil (Path.addr tree.root P))
    (hh : Path.headOK tree.Compare d.key P) :
    RepZ tree
      (if Path.addr tree.root P = tree.root ∨
          tree.Compare (m (Path.addr tree.root P)).key (m z).key = 1 then
        setLeft m (Path.addr tree.root P) z
      else setRight m (Path.addr tree.root P) z) P (.node .leaf z d .leaf) := by
  obtain ⟨hnr, hnn, hnt, hnb, hna, hsp, hba⟩ := h.nodup'
  have hnd : (tree.nil :: tree.root :: (fill P (.node .leaf z d .leaf)).addrs).Nodup := by
    have hn := h.nodup
    rw [addrs_fill] at hn hz ⊢
    simp only [addrs_leaf, List.append_nil, addrs_node, List.nil_append, List.append_assoc,
      List.cons_append] at hn hz ⊢
    have e : tree.nil :: tree.root :: (List.map (fun e => e.1) P.before ++
        z :: List.map (fun e => e.1) P.after) =
        (tree.nil :: tree.root :: List.map (fun e => e.1) P.before) ++
        z :: List.map (fun e => e.1) P.after := rfl
    rw [e, List.nodup_middle, List.nodup_cons]
    refine ⟨?_, hn⟩
    simp only [List.cons_append, List.mem_cons, List.mem_append, not_or]
    simp only [List.mem_append, not_or] at hz
    exact ⟨hzn, hzr, hz.1, hz.2⟩
  have hzk : (m z).key = d.key := by rw [hc]; rfl
  rw [addrs_fill] at hz
  simp only [List.mem_append, not_or, addrs_leaf, List.not_mem_nil, not_false_eq_true,
    and_true] at hz
  rcases P with _ | ⟨f, P⟩
  · simp only [Path.addr, true_or, if_true]
    refine ⟨hnd, ?_, ?_, trivial, ?_, trivial, trivial⟩
    · simp only [setLeft, upd_ne _ _ _ _ hnr]; exact h.nilc
    · have hr := h.rootc
      simp only [setLeft, upd_same, fill_nil, Tree.addr]
      exact ⟨hr.1, hr.2.1, rfl, hr.2.2.2⟩
    · simp only [setLeft, upd_ne _ _ _ _ hzr, hc]; rfl
  · have hfa : f.a ∈ (f.plug .leaf).addrs := by cases f <;> simp [Frame.plug, Frame.a]
    obtain ⟨hnf, hrf, _⟩ := h.up.sub_ne hfa
    have hzf : z ≠ f.a := by
      cases f with
      | L a d' r =>
        exact fun e => hz.2 (by simp [Path.after, e, Frame.a])
      | R l a d' =>
        exact fun e => hz.1 (by simp [Path.before, e, Frame.a])
    cases f with
    | L a d' r =>
      have hk : (m a).key = d'.key := by rw [h.path.1]; rfl
      have hcmp : tree.Compare d'.key d.key = 1 := hh
      simp only [Path.addr, Frame.a, hk, hzk, hcmp, or_true, if_true] at hnf hrf hzf hc ⊢
      refine ⟨hnd, ?_, ?_, ?_, ?_, trivial, trivial⟩
      · simp only [setLeft, upd_ne _ _ _ _ hnf]; exact h.nilc
      · simp only [setLeft, upd_ne _ _ _ _ hrf]
        rw [fill_addr_cons tree.nil _ P _ .leaf]
        exact h.rootc
      · exact RepPath.child_L hna hba h.path
      · simp only [setLeft, upd_ne _ _ _ _ hzf, hc]; rfl
    | R l a d' =>
      have hk : (m a).key = d'.key := by rw [h.path.1]; rfl
      have hcmp : tree.Compare d'.key d.key ≠ 1 := hh
      have hra : a ≠ tree.root := hrf.symm
      simp only [Path.addr, Frame.a, hk, hzk, hcmp, hra, or_self, if_false] at hnf hrf hzf hc ⊢
      refine ⟨hnd, ?_, ?_, ?_, ?_, trivial, trivial⟩
      · simp only [setRight, upd_ne _ _ _ _ hnf]; exact h.nilc
      · simp only [setRight, upd_ne _ _ _ _ hrf]
        rw [fill_addr_cons tree.nil _ P _ .leaf]
        exact h.rootc
      · exact RepPath.child_R hnb hba h.path
      · simp only [setRight, upd_ne _ _ _ _ hzf, hc]; rfl

theorem Path.addCh_length (v : Int) (p : Path) : (Path.addCh v p).length = p.length := by
  simp [Path.addCh]

theorem Path.addCh_addr (root : Nat) (v : Int) (p : Path) :
    Path.addr root (Path.addCh v p) = Path.addr root p := by
  rcases p with _ | ⟨f, p⟩
  · rfl
  · cases f <;> rfl

/-- The weight loop of `TreeInsertHelp` adds the weight of `z` to every ancestor. -/
theorem propagate_spec {z : Nat} {v : Int} (P : Path) (t : Tree) (m : Mem)
    (h : RepZ tree m P t) (hz : z ∈ t.addrs) (hv : (m z).children = v)
    (fuel : Nat) (hf : P.length < fuel) :
    ∃ m', TreeInsertHelp.propagate tree z fuel m (Path.addr tree.root P) = some m' ∧
      RepZ tree m' (Path.addCh v P) t := by
  induction P generalizing t m fuel with
  | nil =>
    obtain ⟨n, rfl⟩ : ∃ n, fuel = n + 1 := ⟨fuel - 1, by simp at hf; omega⟩
    exact ⟨m, by simp [TreeInsertHelp.propagate, Path.addr], h⟩
  | cons f P ih =>
    obtain ⟨n, rfl⟩ : ∃ n, fuel = n + 1 := ⟨fuel - 1, by simp at hf; omega⟩
    have hfa : f.a ∈ (f.plug t).addrs := by cases f <;> simp [Frame.plug, Frame.a]
    have hzp : z ∈ (f.plug t).addrs := by cases f <;> simp [Frame.plug, hz]
    obtain ⟨_, hrf, _⟩ := h.up.sub_ne hfa
    have hzf : z ≠ f.a := ((h.sub_ne hz).2.2).symm
    have key : ∃ m1, m1 = setChildren m f.a ((m f.a).children + (m z).children) ∧
        RepZ tree m1 P ((f.addCh v).plug t) ∧ (m f.a).parent = Path.addr tree.root P ∧
        (m1 z).children = v := by
      refine ⟨_, rfl, ?_, ?_, ?_⟩
      · cases f with
        | L a d r =>
          have hc := h.up.cell
          have := h.up.reweigh (d.children + v)
          simp only [Frame.a, hc, hv, mkCell_children]
          exact this
        | R l a d =>
          have hc := h.up.cell
          have := h.up.reweigh (d.children + v)
          simp only [Frame.a, hc, hv, mkCell_children]
          exact this
      · cases f with
        | L a d r => rw [Frame.a, h.up.cell]; rfl
        | R l a d => rw [Frame.a, h.up.cell]; rfl
      · rw [setChildren_children_ne _ _ _ _ hzf]; exact hv
    obtain ⟨m1, hm1, h1, hpar, hv1⟩ := key
    obtain ⟨m', hm', h'⟩ := ih _ m1 h1 (by cases f <;> simp [Frame.plug, Frame.addCh, hz]) hv1 n
      (by simp at hf; omega)
    refine ⟨m', ?_, ?_⟩
    · simp only [TreeInsertHelp.propagate, Path.addr, ne_eq, hrf.symm, not_false_eq_true,
        if_true, ← hm1, hpar]
      exact hm'
    · exact h'.down

/-- `TreeInsertHelp` places the cell `z` (whose key is already stored) at the leaf
chosen by the comparator and adds its weight to all its ancestors. -/
theorem TreeInsertHelp_spec {T : Tree} (h : RepTree tree m T) {z : Nat}
    (hzn : z ≠ tree.nil) (hzr : z ≠ tree.root) (hz : z ∉ T.addrs)
    (fuel : Nat) (hf : T.size + 1 ≤ fuel) :
    ∃ m', TreeInsertHelp fuel tree m z = some m' ∧
      RepZ tree m' (Path.addCh (tree.DistFunc (m z).key) (descend tree.Compare (m z).key T []))
        (.node .leaf z ⟨(m z).key, (m z).info, (m z).red, tree.DistFunc (m z).key⟩ .leaf) := by
  have h1 : RepZ tree (setLeft (setRight m z tree.nil) z tree.nil) [] T :=
    (RepZ.upd_fresh h hzn hzr hz _).upd_fresh hzn hzr hz _
  have hk : ((setLeft (setRight m z tree.nil) z tree.nil) z).key = (m z).key := by simp
  have hroot : ((setLeft (setRight m z tree.nil) z tree.nil) tree.root).left =
      T.addr tree.nil := h1.rootc.2.2.1
  have hd := descend_spec hk T [] h1 fuel (by omega)
  generalize hm2 : setLeft (setRight m z tree.nil) z tree.nil = m2 at h1 hk hroot hd
  have hcell2 : m2 z = ⟨(m z).key, (m z).info, (m z).red, tree.nil, tree.nil, (m z).parent,
      (m z).children⟩ := by
    rw [← hm2]; simp [setLeft, setRight, upd_same]
  set P := descend tree.Compare (m z).key T [] with hP
  have h2 : RepZ tree m2 P .leaf := by
    apply RepZ.ofTop
    rw [hP, descend_fill]
    exact h1
  have hzP : z ∉ (fill P .leaf).addrs := by rw [hP, descend_fill]; exact hz
  have h3 : RepZ tree (setParent m2 z (Path.addr tree.root P)) P .leaf :=
    h2.upd_fresh hzn hzr hzP _
  have hc3 : (setParent m2 z (Path.addr tree.root P)) z =
      mkCell ⟨(m z).key, (m z).info, (m z).red, (m z).children⟩ tree.nil tree.nil
        (Path.addr tree.root P) := by
    simp [setParent, upd_same, hcell2, mkCell]
  have hh : Path.headOK tree.Compare (m z).key P := descend_headOK _ _ _ _ trivial
  have h4 := h3.attach hzn hzr hzP hc3 hh
  generalize hm3 : setParent m2 z (Path.addr tree.root P) = m3 at h3 hc3 h4
  generalize hm4 : (if Path.addr tree.root P = tree.root ∨
      tree.Compare (m3 (Path.addr tree.root P)).key (m3 z).key = 1 then
      setLeft m3 (Path.addr tree.root P) z else setRight m3 (Path.addr tree.root P) z) = m4
    at h4
  have hk4 : (m4 z).key = (m z).key := by rw [h4.cell]; rfl
  have h5 := h4.reweigh (tree.DistFunc (m z).key)
  have hp5 : ((setChildren m4 z (tree.DistFunc (m z).key)) z).parent = Path.addr tree.root P := by
    rw [h5.cell]; rfl
  have hv5 : ((setChildren m4 z (tree.DistFunc (m z).key)) z).children =
      tree.DistFunc (m z).key := by
    rw [h5.cell]; rfl
  have hlen : P.length < fuel := by
    have : P.length ≤ ([] : Path).length + T.size := descend_length tree.Compare (m z).key T []
    simp only [List.length_nil] at this
    omega
  obtain ⟨m', hm', h'⟩ := propagate_spec P _ _ h5 (by simp) hv5 fuel hlen
  refine ⟨m', ?_, h'⟩
  simp only [TreeInsertHelp, hm2, hroot]
  simp only [Path.addr_nil] at hd
  rw [hd]
  simp only [hm3, hm4, hk4, hp5]
  exact hm'

end InsertHelp

end RBTree


namespace RBTree

/-! ## The repair loop of `RBTreeInsert` -/

section InsertLoop

variable {tree : rb_red_blk_tree} {m : Mem}

theorem insLoop_exit {x : Nat} (n : Nat) (h : (m (m x).parent).red = false) :
    RBTreeInsert.loop tree (n + 1) m x = some m := by
  simp [RBTreeInsert.loop, h]

/-- Parent is a left child, uncle red. -/
theorem insLoop_L1 {x p g u : Nat} (n : Nat) (hp : (m x).parent = p) (hpr : (m p).red = true)
    (hg : (m p).parent = g) (hgl : (m g).left = p) (hgr : (m g).right = u)
    (hur : (m u).red = true) :
    RBTreeInsert.loop tree (n + 1) m x =
      RBTreeInsert.loop tree n (setRed (setRed (setRed m p false) u false) g true) g := by
  simp [RBTreeInsert.loop, hp, hpr, hg, hgl, hgr, hur]

/-- Parent is a left child, uncle black, `x` is a left child. -/
theorem insLoop_L3 {x p g u : Nat} (n : Nat) (hp : (m x).parent = p) (hpr : (m p).red = true)
    (hg : (m p).parent = g) (hgl : (m g).left = p) (hgr : (m g).right = u)
    (hur : (m u).red = false) (hx : x ≠ (m p).right) :
    RBTreeInsert.loop tree (n + 1) m x =
      RBTreeInsert.loop tree n (RightRotate tree (setRed (setRed m p false) g true) g) x := by
  simp [RBTreeInsert.loop, hp, hpr, hg, hgl, hgr, hur, hx]

/-- Parent is a left child, uncle black, `x` is a right child. -/
theorem insLoop_L2 {x p g u : Nat} (n : Nat) (hp : (m x).parent = p) (hpr : (m p).red = true)
    (hg : (m p).parent = g) (hgl : (m g).left = p) (hgr : (m g).right = u)
    (hur : (m u).red = false) (hx : x = (m p).right)
    (hp1 : (LeftRotate tree m p p).parent = x) (hg1 : (LeftRotate tree m p x).parent = g) :
    RBTreeInsert.loop tree (n + 1) m x =
      RBTreeInsert.loop tree n
        (RightRotate tree (setRed (setRed (LeftRotate tree m p) x false) g true) g) p := by
  rw [RBTreeInsert.loop]
  simp only [hp, hpr, hg, hgl, hgr, hur, if_true, Bool.false_eq_true, if_false]
  rw [if_pos hx]
  simp only [hp1, hg1, setRed_parent]

/-- Parent is a right child, uncle red. -/
theorem insLoop_R1 {x p g u : Nat} (n : Nat) (hp : (m x).parent = p) (hpr : (m p).red = true)
    (hg : (m p).parent = g) (hgl : (m g).left = u) (hpu : p ≠ u)
    (hur : (m u).red = true) :
    RBTreeInsert.loop tree (n + 1) m x =
      RBTreeInsert.loop tree n (setRed (setRed (setRed m p false) u false) g true) g := by
  simp [RBTreeInsert.loop, hp, hpr, hg, hgl, hpu, hur]

/-- Parent is a right child, uncle black, `x` is a right child. -/
theorem insLoop_R3 {x p g u : Nat} (n : Nat) (hp : (m x).parent = p) (hpr : (m p).red = true)
    (hg : (m p).parent = g) (hgl : (m g).left = u) (hpu : p ≠ u)
    (hur : (m u).red = false) (hx : x ≠ (m p).left) :
    RBTreeInsert.loop tree (n + 1) m x =
      RBTreeInsert.loop tree n (LeftRotate tree (setRed (setRed m p false) g true) g) x := by
  simp [RBTreeInsert.loop, hp, hpr, hg, hgl, hpu, hur, hx]

/-- Parent is a right child, uncle black, `x` is a left child. -/
theorem insLoop_R2 {x p g u : Nat} (n : Nat) (hp : (m x).parent = p) (hpr : (m p).red = true)
    (hg : (m p).parent = g) (hgl : (m g).left = u) (hpu : p ≠ u)
    (hur : (m u).red = false) (hx : x = (m p).left)
    (hp1 : (RightRotate tree m p p).parent = x) (hg1 : (RightRotate tree m p x).parent = g) :
    RBTreeInsert.loop tree (n + 1) m x =
      RBTreeInsert.loop tree n
        (LeftRotate tree (setRed (setRed (RightRotate tree m p) x false) g true) g) p := by
  rw [RBTreeInsert.loop]
  simp only [hp, hpr, hg, hgl, hpu, hur, if_true, Bool.false_eq_true, if_false]
  rw [if_pos hx]
  simp only [hp1, hg1, setRed_parent]

theorem Path.topBlack_tail {f : Frame} {p : Path} (h : Path.topBlack (f :: p)) :
    Path.topBlack p := by
  rcases p with _ | ⟨g, p⟩
  · trivial
  · exact h

/-- Fields of the cell of the nearest ancestor. -/
theorem RepZ.frame_cell {f : Frame} {p : Path} {t : Tree} (h : RepZ tree m (f :: p) t) :
    (m f.a).red = f.d.red ∧ (m f.a).parent = Path.addr tree.root p ∧
      (m f.a).key = f.d.key ∧ (m f.a).children = f.d.children := by
  cases f with
  | L a d r => have := h.up.cell; simp [this]
  | R l a d => have := h.up.cell; simp [this]

theorem RepZ.frame_L {a : Nat} {d : Data} {r : Tree} {p : Path} {t : Tree}
    (h : RepZ tree m (.L a d r :: p) t) :
    (m a).left = t.addr tree.nil ∧ (m a).right = r.addr tree.nil := by
  have := h.up.cell; simp [this, Frame.plug]

theorem RepZ.frame_R {a : Nat} {d : Data} {l : Tree} {p : Path} {t : Tree}
    (h : RepZ tree m (.R l a d :: p) t) :
    (m a).left = l.addr tree.nil ∧ (m a).right = t.addr tree.nil := by
  have := h.up.cell; simp [this, Frame.plug]

/-- The sibling of a real node is a different pointer. -/
theorem RepZ.sib_ne_L {a : Nat} {d : Data} {r : Tree} {p : Path} {tl tr : Tree} {x : Nat}
    {dx : Data} (h : RepZ tree m (.L a d r :: p) (.node tl x dx tr)) :
    r.addr tree.nil ≠ x := by
  have hn := h.up.nodup'.2.2.1
  simp only [Frame.plug, addrs_node, List.nodup_append, List.nodup_cons, List.mem_append,
    List.mem_cons, not_or, List.disjoint_left] at hn
  have hx : x ∈ (Tree.node tl x dx tr).addrs := by simp
  exact Tree.addr_ne (h.sub_ne hx).1 (hn.2.2 (Or.inr (Or.inl rfl))).2

theorem RepZ.sib_ne_R {a : Nat} {d : Data} {l : Tree} {p : Path} {tl tr : Tree} {x : Nat}
    {dx : Data} (h : RepZ tree m (.R l a d :: p) (.node tl x dx tr)) :
    l.addr tree.nil ≠ x := by
  have hn := h.up.nodup'.2.2.1
  simp only [Frame.plug, addrs_node, List.nodup_append, List.nodup_cons, List.mem_append,
    List.mem_cons, not_or, List.disjoint_left] at hn
  have hx : x ∈ (Tree.node tl x dx tr).addrs := by simp
  refine Tree.addr_ne (h.sub_ne hx).1 fun e => ?_
  have := (hn.2.2 e).2
  simp at this

/-- The repair loop of `RBTreeInsert` computes `insFix`. -/
theorem insLoop_spec (path : Path) {tl tr : Tree} {x : Nat} {dx : Data} (m : Mem)
    (h : RepZ tree m path (.node tl x dx tr)) (htop : path.topBlack)
    (fuel : Nat) (hf : path.length < fuel) :
    ∃ m', RBTreeInsert.loop tree fuel m x = some m' ∧
      RepTree tree m' (insFix tree.DistFunc path (.node tl x dx tr)) := by
  induction' hlen : path.length using Nat.strong_induction_on with len ih
    generalizing path tl tr x dx m fuel
  obtain ⟨n, rfl⟩ : ∃ n, fuel = n + 1 := ⟨fuel - 1, by omega⟩
  have hxp : (m x).parent = Path.addr tree.root path := by rw [h.cell]; rfl
  rcases path with _ | ⟨f1, _ | ⟨f2, rest⟩⟩
  · refine ⟨m, insLoop_exit n ?_, h⟩
    rw [hxp]; exact h.rootc.2.1
  · refine ⟨m, insLoop_exit n ?_, h.up⟩
    rw [hxp, Path.addr_cons, h.frame_cell.1]; exact htop
  · by_cases hred : f1.d.red = true
    · have hfc := h.frame_cell
      have hgc := h.up.frame_cell
      simp only [Path.addr_cons] at hxp hfc hgc
      have hn2 : 2 ≤ n := by simp only [List.length_cons] at hf; omega
      have hrl : rest.length < len := by simp only [List.length_cons] at hlen; omega
      have hrn : rest.length < n := by simp only [List.length_cons] at hf; omega
      have htop' : Path.topBlack rest := Path.topBlack_tail (Path.topBlack_tail htop)
      cases f2 with
      | L g dg u =>
        have hgL := h.up.frame_L
        simp only [Frame.plug_addr, Frame.a_L] at hgL hfc
        have hur := (h.up.up.sub.2.2).red_eq h.nilc
        by_cases hu : u.isRed = true
        · -- uncle red: recolour and continue from the grandparent
          cases u with
          | leaf => simp at hu
          | node ul ua du ur =>
            rw [hu] at hur
            rw [insLoop_L1 n hxp (hfc.1.trans hred) hfc.2.1 hgL.1 hgL.2 hur]
            have h1 : RepZ tree (setRed m f1.a false) (.L g dg (.node ul ua du ur) :: rest)
                ((f1.setRed false).plug (.node tl x dx tr)) := by
              cases f1 <;> exact h.up.recolor false
            have h2 := (RepZ.down (f := .R ((f1.setRed false).plug (.node tl x dx tr)) g dg)
              h1.up).recolor false
            have h3 := (RepZ.up h2).recolor true
            obtain ⟨m', hm', hr⟩ := ih rest.length hrl rest _ h3 htop' n hrn rfl
            refine ⟨m', hm', ?_⟩
            simpa [insFix, hred, hu, Tree.setRed, Frame.plug] using hr
        · -- uncle black: rotate
          have hu' : u.isRed = false := by simpa using hu
          rw [hu'] at hur
          obtain ⟨n', rfl⟩ : ∃ n', n = n' + 1 := ⟨n - 1, by omega⟩
          cases f1 with
          | L p dp sp =>
            have hx : x ≠ (m p).right := by
              rw [h.frame_L.2]; exact (h.sib_ne_L).symm
            simp only [Frame.a_L, Frame.d_L] at hfc hxp hgL hred
            rw [insLoop_L3 (n' + 1) hxp (hfc.1.trans hred) hfc.2.1 hgL.1 hgL.2 hur hx]
            have h3 := ((h.up.recolor false).up.recolor true).rotR
            simp only [Frame.plug, Tree.rotR, Tree.updSum] at h3
            have h4 := RepZ.down (f := .L _ _ _) h3
            refine ⟨_, insLoop_exit n' ?_, ?_⟩
            · rw [h4.cell, mkCell_parent, Path.addr_cons, h4.frame_cell.1]; rfl
            · have := h3.top
              simpa [insFix, hred, hu', Tree.setRed, Frame.plug, Tree.rotR, Tree.updSum] using this
          | R sp p dp =>
            have hx : x = (m p).right := by rw [h.frame_R.2]; rfl
            simp only [Frame.a_R, Frame.d_R] at hfc hxp hgL hred
            have h1 := h.up.rotL
            simp only [Frame.plug, Tree.rotL, Tree.updSum] at h1
            have hp1 : (LeftRotate tree m p p).parent = x := by
              rw [(RepZ.down (f := .L _ _ _) h1).cell]; rfl
            have hg1 : (LeftRotate tree m p x).parent = g := by
              rw [h1.cell]; rfl
            rw [insLoop_L2 (n' + 1) hxp (hfc.1.trans hred) hfc.2.1 hgL.1 hgL.2 hur hx hp1 hg1]
            have h3 := ((h1.recolor false).up.recolor true).rotR
            simp only [Frame.plug, Tree.rotR, Tree.updSum] at h3
            have h4 := RepZ.down (f := .L _ _ _) h3
            refine ⟨_, insLoop_exit n' ?_, ?_⟩
            · rw [h4.cell, mkCell_parent, Path.addr_cons, h4.frame_cell.1]; rfl
            · have := h3.top
              simpa [insFix, hred, hu', Tree.setRed, Frame.plug, Tree.rotR, Tree.rotL,
                Tree.updSum] using this
      | R u g dg =>
        have hgR := h.up.frame_R
        simp only [Frame.plug_addr, Frame.a_R] at hgR hfc
        have hur := (h.up.up.sub.2.1).red_eq h.nilc
        have hpu : f1.a ≠ u.addr tree.nil := by
          cases f1 <;> exact (RepZ.sib_ne_R h.up).symm
        by_cases hu : u.isRed = true
        · -- uncle red: recolour and continue from the grandparent
          cases u with
          | leaf => simp at hu
          | node ul ua du ur =>
            rw [hu] at hur
            rw [insLoop_R1 n hxp (hfc.1.trans hred) hfc.2.1 hgR.1 hpu hur]
            have h1 : RepZ tree (setRed m f1.a false) (.R (.node ul ua du ur) g dg :: rest)
                ((f1.setRed false).plug (.node tl x dx tr)) := by
              cases f1 <;> exact h.up.recolor false
            have h2 := (RepZ.down (f := .L g dg ((f1.setRed false).plug (.node tl x dx tr)))
              h1.up).recolor false
            have h3 := (RepZ.up h2).recolor true
            obtain ⟨m', hm', hr⟩ := ih rest.length hrl rest _ h3 htop' n hrn rfl
            refine ⟨m', hm', ?_⟩
            simpa [insFix, hred, hu, Tree.setRed, Frame.plug] using hr
        · -- uncle black: rotate
          have hu' : u.isRed = false := by simpa using hu
          rw [hu'] at hur
          obtain ⟨n', rfl⟩ : ∃ n', n = n' + 1 := ⟨n - 1, by omega⟩
          cases f1 with
          | R sp p dp =>
            have hx : x ≠ (m p).left := by
              rw [h.frame_R.1]; exact (h.sib_ne_R).symm
            simp only [Frame.a_R, Frame.d_R] at hfc hxp hgR hred hpu
            rw [insLoop_R3 (n' + 1) hxp (hfc.1.trans hred) hfc.2.1 hgR.1 hpu hur hx]
            have h3 := ((h.up.recolor false).up.recolor true).rotL
            simp only [Frame.plug, Tree.rotL, Tree.updSum] at h3
            have h4 := RepZ.down (f := .R _ _ _) h3
            refine ⟨_, insLoop_exit n' ?_, ?_⟩
            · rw [h4.cell, mkCell_parent, Path.addr_cons, h4.frame_cell.1]; rfl
            · have := h3.top
              simpa [insFix, hred, hu', Tree.setRed, Frame.plug, Tree.rotL, Tree.updSum] using this
          | L p dp sp =>
            have hx : x = (m p).left := by rw [h.frame_L.1]; rfl
            simp only [Frame.a_L, Frame.d_L] at hfc hxp hgR hred hpu
            have h1 := h.up.rotR
            simp only [Frame.plug, Tree.rotR, Tree.updSum] at h1
            have hp1 : (RightRotate tree m p p).parent = x := by
              rw [(RepZ.down (f := .R _ _ _) h1).cell]; rfl
            have hg1 : (RightRotate tree m p x).parent = g := by
              rw [h1.cell]; rfl
            rw [insLoop_R2 (n' + 1) hxp (hfc.1.trans hred) hfc.2.1 hgR.1 hpu hur hx hp1 hg1]
            have h3 := ((h1.recolor false).up.recolor true).rotL
            simp only [Frame.plug, Tree.rotL, Tree.updSum] at h3
            have h4 := RepZ.down (f := .R _ _ _) h3
            refine ⟨_, insLoop_exit n' ?_, ?_⟩
            · rw [h4.cell, mkCell_parent, Path.addr_cons, h4.frame_cell.1]; rfl
            · have := h3.top
              simpa [insFix, hred, hu', Tree.setRed, Frame.plug, Tree.rotR, Tree.rotL,
                Tree.updSum] using this
    · have e : insFix tree.DistFunc (f1 :: f2 :: rest) (.node tl x dx tr) =
          fill (f1 :: f2 :: rest) (.node tl x dx tr) := by
        simp [insFix, hred]
      rw [e]
      refine ⟨m, insLoop_exit n ?_, h.top⟩
      rw [hxp, Path.addr_cons, h.frame_cell.1]
      simpa using hred

theorem descend_topBlack (cmp : Int → Int → Int) (k : Int) (t : Tree) (p : Path)
    (h1 : p = [] → t.isRed = false) (h2 : p ≠ [] → Path.topBlack p) :
    Path.topBlack (descend cmp k t p) := by
  induction t generalizing p with
  | leaf =>
    rcases p with _ | ⟨f, p⟩
    · trivial
    · exact h2 (by simp)
  | node l a d r ihl ihr =>
    have hp : ∀ f : Frame, f.d = d → Path.topBlack (f :: p) := by
      intro f hf
      rcases p with _ | ⟨g, p⟩
      · have := h1 rfl
        simp only [Tree.isRed_node] at this
        simp [Path.topBlack, hf, this]
      · exact h2 (by simp)
    unfold descend
    split
    · exact ihl _ (by simp) (fun _ => hp (.L a d r) rfl)
    · exact ihr _ (by simp) (fun _ => hp (.R l a d) rfl)

theorem Path.addCh_topBlack (v : Int) (p : Path) (h : Path.topBlack p) :
    Path.topBlack (Path.addCh v p) := by
  induction p with
  | nil => trivial
  | cons f p ih =>
    rcases p with _ | ⟨g, p⟩
    · cases f <;> simpa [Path.addCh, Path.topBlack, Frame.addCh] using h
    · exact ih h

/-- `RBTreeInsert` computes `Tree.insert`. -/
theorem RBTreeInsert_spec {T : Tree} (h : RepTree tree m T) (hblack : T.isRed = false)
    {x : Nat} (hxn : x ≠ tree.nil) (hxr : x ≠ tree.root) (hx : x ∉ T.addrs)
    (key info : Int) (fuel : Nat) (hf : T.size + 2 ≤ fuel) :
    ∃ m', RBTreeInsert fuel tree m x key info = some (m', x) ∧
      RepTree tree m' (T.insert tree.Compare tree.DistFunc x key info) := by
  have h0 : RepTree tree (setInfo (setKey m x key) x info) T :=
    (RepZ.upd_fresh h hxn hxr hx _).upd_fresh hxn hxr hx _
  have hk : ((setInfo (setKey m x key) x info) x).key = key := by
    simp [setKey_key_same]
  have hi : ((setInfo (setKey m x key) x info) x).info = info := by
    simp [setInfo_info_same]
  generalize hm0 : setInfo (setKey m x key) x info = m0 at h0 hk hi
  obtain ⟨m1, hm1, h1⟩ := TreeInsertHelp_spec h0 hxn hxr hx fuel (by omega)
  rw [hk, hi] at h1
  have h2 := h1.recolor true
  have htop : Path.topBlack (Path.addCh (tree.DistFunc key) (descend tree.Compare key T [])) :=
    Path.addCh_topBlack _ _ (descend_topBlack _ _ _ _ (fun _ => hblack) (fun h => absurd rfl h))
  have hlen : (Path.addCh (tree.DistFunc key) (descend tree.Compare key T [])).length < fuel := by
    have := descend_length tree.Compare key T []
    simp only [List.length_nil] at this
    rw [Path.addCh_length]
    omega
  obtain ⟨m3, hm3, h3⟩ := insLoop_spec _ _ h2 htop fuel hlen
  have h4 := RepZ.blacken h3
  refine ⟨_, ?_, h4⟩
  simp only [RBTreeInsert, hm0, hm1, hm3, h3.rootc.2.2.1, fill_nil]

end InsertLoop

end RBTree


namespace RBTree

/-! ## The loop of `RBDeleteFixUp`, one iteration at a time -/

section DeleteLoopSteps

variable {tree : rb_red_blk_tree} {m : Mem}

theorem delLoop_exit {root x : Nat} (n : Nat) (h : (m x).red = true ∨ root = x) :
    RBDeleteFixUp.loop tree root (n + 1) m x = some (m, x) := by
  rcases h with h | h <;> simp [RBDeleteFixUp.loop, h]

theorem delLoop_L {root x p w : Nat} (n : Nat) (hx : (m x).red = false) (hr : root ≠ x)
    (hp : (m x).parent = p) (hl : (m p).left = x) (hw : (m p).right = w)
    (hwr : (m w).red = false) :
    RBDeleteFixUp.loop tree root (n + 1) m x = RBDeleteFixUp.restL tree root n m x w := by
  simp [RBDeleteFixUp.loop, RBDeleteFixUp.restL, hx, hr, hp, hl, hw, hwr]

theorem delLoop_L1 {root x p w : Nat} (n : Nat) (hx : (m x).red = false) (hr : root ≠ x)
    (hp : (m x).parent = p) (hl : (m p).left = x) (hw : (m p).right = w)
    (hwr : (m w).red = true)
    {w1 : Nat} (hp1 : (LeftRotate tree (setRed (setRed m w false) p true) p x).parent = p)
    (hw1 : (LeftRotate tree (setRed (setRed m w false) p true) p p).right = w1) :
    RBDeleteFixUp.loop tree root (n + 1) m x =
      RBDeleteFixUp.restL tree root n (LeftRotate tree (setRed (setRed m w false) p true) p)
        x w1 := by
  simp [RBDeleteFixUp.loop, RBDeleteFixUp.restL, hx, hr, hp, hl, hw, hwr, hp1, hw1]

theorem delRestL_2 {root x w : Nat} (n : Nat) (h1 : (m (m w).right).red = false)
    (h2 : (m (m w).left).red = false) :
    RBDeleteFixUp.restL tree root n m x w =
      RBDeleteFixUp.loop tree root n (setRed m w true) (m x).parent := by
  simp [RBDeleteFixUp.restL, h1, h2]

theorem delRestL_4 {root x w p wr : Nat} (n : Nat) (h1 : (m wr).red = true)
    (hp : (m x).parent = p) (hwr : (m w).right = wr) :
    RBDeleteFixUp.restL tree root n m x w =
      RBDeleteFixUp.loop tree root n
        (LeftRotate tree (setRed (setRed (setRed m w (m p).red) p false) wr false) p) root := by
  simp [RBDeleteFixUp.restL, h1, hp, hwr]

theorem delRestL_3 {root x w wl wr : Nat} (n : Nat) (hwr : (m w).right = wr)
    (hwl : (m w).left = wl) (h1 : (m wr).red = false) (h2 : (m wl).red = true)
    {p1 w1 wr1 : Nat}
    (hp1 : (RightRotate tree (setRed (setRed m wl false) w true) w x).parent = p1)
    (hw1 : (RightRotate tree (setRed (setRed m wl false) w true) w p1).right = w1)
    (hwr1 : (RightRotate tree (setRed (setRed m wl false) w true) w w1).right = wr1) :
    RBDeleteFixUp.restL tree root n m x w =
      RBDeleteFixUp.loop tree root n
        (LeftRotate tree (setRed (setRed (setRed
          (RightRotate tree (setRed (setRed m wl false) w true) w) w1
          ((RightRotate tree (setRed (setRed m wl false) w true) w) p1).red) p1 false)
          wr1 false) p1) root := by
  simp [RBDeleteFixUp.restL, h1, h2, hwr, hwl, hp1, hw1, hwr1]

theorem delLoop_R {root x p w : Nat} (n : Nat) (hx : (m x).red = false) (hr : root ≠ x)
    (hp : (m x).parent = p) (hl : (m p).left = w) (hxw : x ≠ w)
    (hwr : (m w).red = false) :
    RBDeleteFixUp.loop tree root (n + 1) m x = RBDeleteFixUp.restR tree root n m x w := by
  simp [RBDeleteFixUp.loop, RBDeleteFixUp.restR, hx, hr, hp, hl, hxw, hwr]

theorem delLoop_R1 {root x p w : Nat} (n : Nat) (hx : (m x).red = false) (hr : root ≠ x)
    (hp : (m x).parent = p) (hl : (m p).left = w) (hxw : x ≠ w)
    (hwr : (m w).red = true)
    {w1 : Nat} (hp1 : (RightRotate tree (setRed (setRed m w false) p true) p x).parent = p)
    (hw1 : (RightRotate tree (setRed (setRed m w false) p true) p p).left = w1) :
    RBDeleteFixUp.loop tree root (n + 1) m x =
      RBDeleteFixUp.restR tree root n (RightRotate tree (setRed (setRed m w false) p true) p)
        x w1 := by
  simp [RBDeleteFixUp.loop, RBDeleteFixUp.restR, hx, hr, hp, hl, hxw, hwr, hp1, hw1]

theorem delRestR_2 {root x w : Nat} (n : Nat) (h1 : (m (m w).right).red = false)
    (h2 : (m (m w).left).red = false) :
    RBDeleteFixUp.restR tree root n m x w =
      RBDeleteFixUp.loop tree root n (setRed m w true) (m x).parent := by
  simp [RBDeleteFixUp.restR, h1, h2]

theorem delRestR_4 {root x w p wl : Nat} (n : Nat) (h1 : (m wl).red = true)
    (hp : (m x).parent = p) (hwl : (m w).left = wl) :
    RBDeleteFixUp.restR tree root n m x w =
      RBDeleteFixUp.loop tree root n
        (RightRotate tree (setRed (setRed (setRed m w (m p).red) p false) wl false) p) root := by
  simp [RBDeleteFixUp.restR, h1, hp, hwl]

theorem delRestR_3 {root x w wl wr : Nat} (n : Nat) (hwr : (m w).right = wr)
    (hwl : (m w).left = wl) (h1 : (m wl).red = false) (h2 : (m wr).red = true)
    {p1 w1 wl1 : Nat}
    (hp1 : (LeftRotate tree (setRed (setRed m wr false) w true) w x).parent = p1)
    (hw1 : (LeftRotate tree (setRed (setRed m wr false) w true) w p1).left = w1)
    (hwl1 : (LeftRotate tree (setRed (setRed m wr false) w true) w w1).left = wl1) :
    RBDeleteFixUp.restR tree root n m x w =
      RBDeleteFixUp.loop tree root n
        (RightRotate tree (setRed (setRed (setRed
          (LeftRotate tree (setRed (setRed m wr false) w true) w) w1
          ((LeftRotate tree (setRed (setRed m wr false) w true) w) p1).red) p1 false)
          wl1 false) p1) root := by
  simp [RBDeleteFixUp.restR, h1, h2, hwr, hwl, hp1, hw1, hwl1]

end DeleteLoopSteps

end RBTree


namespace RBTree

/-! ## `RBDeleteFixUp` computes `delFix` -/

section DeleteLoop

variable {tree : rb_red_blk_tree} {m : Mem}

/-- Case 4 for a left child: recolour and rotate left at the parent. -/
theorem RepZ.case4L {rest : Path} {t wl wr : Tree} {p wa : Nat} {dp wd : Data}
    (hw : RepZ tree m (.R t p dp :: rest) (.node wl wa wd wr)) :
    RepZ tree (LeftRotate tree
        (setRed (setRed (setRed m wa dp.red) p false) (wr.addr tree.nil) false) p) rest
      (Tree.rotL tree.DistFunc
        (.node t p (dp.setRed false) (.node wl wa (wd.setRed dp.red) (wr.setRed false)))) ∧
    (LeftRotate tree
        (setRed (setRed (setRed m wa dp.red) p false) (wr.addr tree.nil) false) p p).red = false ∧
    (LeftRotate tree
        (setRed (setRed (setRed m wa dp.red) p false) (wr.addr tree.nil) false) p tree.nil) =
      m tree.nil := by
  have h1 := (hw.recolor dp.red).up
  simp only [Frame.plug] at h1
  have h2 := h1.recolor false
  have h3 := RepZ.blacken (RepZ.down (f := .R wl wa (wd.setRed dp.red))
    (RepZ.down (f := .R t p (dp.setRed false)) h2))
  have h4 := h3.up.up
  simp only [Frame.plug] at h4
  have h5 := h4.rotL
  refine ⟨h5, ?_, ?_⟩
  · simp only [Tree.rotL, Tree.updSum] at h5
    rw [(RepZ.down (f := .L _ _ _) h5).cell]; rfl
  · rw [h4.rotL_nil]
    have hnp : tree.nil ≠ p := (h1.sub_ne (by simp)).1
    have hnw : tree.nil ≠ wa := (hw.sub_ne (by simp)).1
    cases wr with
    | leaf =>
      have := h3.nilc
      simp only [Tree.addr_leaf, setRed, upd_same, upd_ne _ _ _ _ hnp, upd_ne _ _ _ _ hnw]
      exact node_ext rfl rfl hw.nilc.2.1.symm rfl rfl rfl rfl
    | node a b c d =>
      have hnb : tree.nil ≠ b := (hw.sub_ne (by simp)).1
      simp only [Tree.addr_node, setRed, upd_ne _ _ _ _ hnp, upd_ne _ _ _ _ hnw,
        upd_ne _ _ _ _ hnb]

/-- Cases 2 to 4 of one iteration, `x` a left child. -/
theorem delRestL_spec {rest : Path} {t ws : Tree} {p : Nat} {dp : Data}
    (h : RepZ tree m (.L p dp ws :: rest) t) (hxp : (m (t.addr tree.nil)).parent = p)
    {b : Bool} {s : Tree} (hc : delCaseL tree.DistFunc t p dp ws = some (b, s))
    (r0 n : Nat) :
    ∃ m', RepZ tree m' rest s ∧
      (b = true → RBDeleteFixUp.restL tree r0 n m (t.addr tree.nil) (ws.addr tree.nil) =
          RBDeleteFixUp.loop tree r0 n m' p ∧ ∃ ws', s = .node t p dp ws') ∧
      (b = false → RBDeleteFixUp.restL tree r0 n m (t.addr tree.nil) (ws.addr tree.nil) =
          RBDeleteFixUp.loop tree r0 n m' r0 ∧ (m' p).red = false) := by
  cases ws with
  | leaf => simp [delCaseL] at hc
  | node wl wa wd wr =>
    have hw : RepZ tree m (.R t p dp :: rest) (.node wl wa wd wr) :=
      RepZ.down (f := .R t p dp) h.up
    have hcw := hw.cell
    have hwr : (m wa).right = wr.addr tree.nil := by rw [hcw]; rfl
    have hwl : (m wa).left = wl.addr tree.nil := by rw [hcw]; rfl
    have hrr := (hw.sub.2.2).red_eq hw.nilc
    have hlr := (hw.sub.2.1).red_eq hw.nilc
    have hpr : (m p).red = dp.red := h.frame_cell.1
    simp only [Tree.addr_node]
    by_cases h2 : wr.isRed = false ∧ wl.isRed = false
    · -- case 2
      simp only [delCaseL, h2, and_self, if_true, Option.some.injEq, Prod.mk.injEq] at hc
      obtain ⟨rfl, rfl⟩ := hc
      refine ⟨_, (hw.recolor true).up, fun _ => ⟨?_, _, rfl⟩, fun hb => by simp at hb⟩
      rw [delRestL_2 n (by rw [hwr, hrr]; exact h2.1) (by rw [hwl, hlr]; exact h2.2), hxp]
    · by_cases h3 : wr.isRed = false
      · -- case 3, then case 4
        have hwlr : wl.isRed = true := by
          by_contra hcon
          exact h2 ⟨h3, by simpa using hcon⟩
        cases wl with
        | leaf => simp at hwlr
        | node wll wla wld wlr =>
          simp only [Tree.isRed_node] at hwlr
          simp only [delCaseL, h3, hwlr, Tree.isRed_node, Bool.true_eq_false, and_false, if_true,
            if_false, Tree.setRed, Tree.rotR, Tree.updSum, Option.some.injEq,
            Prod.mk.injEq] at hc
          obtain ⟨rfl, rfl⟩ := hc
          have hA := ((RepZ.down (f := .L wa wd wr) hw).recolor false).up
          simp only [Frame.plug] at hA
          have hB := hA.recolor true
          have hC := hB.rotR
          have hCn := hB.rotR_nil
          simp only [Tree.rotR, Tree.updSum] at hC
          have hnwa : tree.nil ≠ wa := (hw.sub_ne (by simp)).1
          have hnwla : tree.nil ≠ wla := (hw.sub_ne (by simp)).1
          have hp1 : (RightRotate tree (setRed (setRed m wla false) wa true) wa
              (t.addr tree.nil)).parent = p := by
            cases t with
            | leaf =>
              rw [Tree.addr_leaf, hCn]
              simp only [setRed, upd_ne _ _ _ _ hnwa, upd_ne _ _ _ _ hnwla]
              exact hxp
            | node tl ta td tr =>
              rw [Tree.addr_node, (RepZ.down (f := .L _ _ _) hC.up).cell]; rfl
          have hw1 : (RightRotate tree (setRed (setRed m wla false) wa true) wa p).right =
              wla := by
            rw [hC.up.cell]; rfl
          have hwr1 : (RightRotate tree (setRed (setRed m wla false) wa true) wa wla).right =
              wa := by
            rw [hC.cell]; rfl
          have hp1r : (RightRotate tree (setRed (setRed m wla false) wa true) wa p).red =
              dp.red := by
            rw [hC.up.cell]; rfl
          obtain ⟨h4, h4r, _⟩ := hC.case4L
          simp only [Tree.addr_node, Tree.setRed] at h4 h4r
          refine ⟨_, h4, fun hb => by simp at hb, fun _ => ⟨?_, h4r⟩⟩
          have hwl' : (m wa).left = wla := hwl
          have hlr' : (m wla).red = true := hlr.trans hwlr
          rw [delRestL_3 n hwr hwl' (by rw [hrr]; exact h3) hlr' hp1 hw1 hwr1, hp1r]
      · -- case 4
        simp only [delCaseL, h2, h3, if_false, Option.some.injEq, Prod.mk.injEq] at hc
        obtain ⟨rfl, rfl⟩ := hc
        obtain ⟨h4, h4r, _⟩ := hw.case4L
        refine ⟨_, h4, fun hb => by simp at hb, fun _ => ⟨?_, h4r⟩⟩
        rw [delRestL_4 n (by rw [hrr]; simpa using h3) hxp hwr, hpr]

/-- Case 4 for a right child: recolour and rotate right at the parent. -/
theorem RepZ.case4R {rest : Path} {t wl wr : Tree} {p wa : Nat} {dp wd : Data}
    (hw : RepZ tree m (.L p dp t :: rest) (.node wl wa wd wr)) :
    RepZ tree (RightRotate tree
        (setRed (setRed (setRed m wa dp.red) p false) (wl.addr tree.nil) false) p) rest
      (Tree.rotR tree.DistFunc
        (.node (.node (wl.setRed false) wa (wd.setRed dp.red) wr) p (dp.setRed false) t)) ∧
    (RightRotate tree
        (setRed (setRed (setRed m wa dp.red) p false) (wl.addr tree.nil) false) p p).red = false ∧
    (RightRotate tree
        (setRed (setRed (setRed m wa dp.red) p false) (wl.addr tree.nil) false) p tree.nil) =
      m tree.nil := by
  have h1 := (hw.recolor dp.red).up
  simp only [Frame.plug] at h1
  have h2 := h1.recolor false
  have h3 := RepZ.blacken (RepZ.down (f := .L wa (wd.setRed dp.red) wr)
    (RepZ.down (f := .L p (dp.setRed false) t) h2))
  have h4 := h3.up.up
  simp only [Frame.plug] at h4
  have h5 := h4.rotR
  refine ⟨h5, ?_, ?_⟩
  · simp only [Tree.rotR, Tree.updSum] at h5
    rw [(RepZ.down (f := .R _ _ _) h5).cell]; rfl
  · rw [h4.rotR_nil]
    have hnp : tree.nil ≠ p := (h1.sub_ne (by simp)).1
    have hnw : tree.nil ≠ wa := (hw.sub_ne (by simp)).1
    cases wl with
    | leaf =>
      simp only [Tree.addr_leaf, setRed, upd_same, upd_ne _ _ _ _ hnp, upd_ne _ _ _ _ hnw]
      exact node_ext rfl rfl hw.nilc.2.1.symm rfl rfl rfl rfl
    | node a b c d =>
      have hnb : tree.nil ≠ b := (hw.sub_ne (by simp)).1
      simp only [Tree.addr_node, setRed, upd_ne _ _ _ _ hnp, upd_ne _ _ _ _ hnw,
        upd_ne _ _ _ _ hnb]

/-- Cases 2 to 4 of one iteration, `x` a right child. -/
theorem delRestR_spec {rest : Path} {t ws : Tree} {p : Nat} {dp : Data}
    (h : RepZ tree m (.R ws p dp :: rest) t) (hxp : (m (t.addr tree.nil)).parent = p)
    {b : Bool} {s : Tree} (hc : delCaseR tree.DistFunc t p dp ws = some (b, s))
    (r0 n : Nat) :
    ∃ m', RepZ tree m' rest s ∧
      (b = true → RBDeleteFixUp.restR tree r0 n m (t.addr tree.nil) (ws.addr tree.nil) =
          RBDeleteFixUp.loop tree r0 n m' p ∧ ∃ ws', s = .node ws' p dp t) ∧
      (b = false → RBDeleteFixUp.restR tree r0 n m (t.addr tree.nil) (ws.addr tree.nil) =
          RBDeleteFixUp.loop tree r0 n m' r0 ∧ (m' p).red = false) := by
  cases ws with
  | leaf => simp [delCaseR] at hc
  | node wl wa wd wr =>
    have hw : RepZ tree m (.L p dp t :: rest) (.node wl wa wd wr) :=
      RepZ.down (f := .L p dp t) h.up
    have hcw := hw.cell
    have hwr : (m wa).right = wr.addr tree.nil := by rw [hcw]; rfl
    have hwl : (m wa).left = wl.addr tree.nil := by rw [hcw]; rfl
    have hrr := (hw.sub.2.2).red_eq hw.nilc
    have hlr := (hw.sub.2.1).red_eq hw.nilc
    have hpr : (m p).red = dp.red := h.frame_cell.1
    simp only [Tree.addr_node]
    by_cases h2 : wr.isRed = false ∧ wl.isRed = false
    · -- case 2
      simp only [delCaseR, h2, and_self, if_true, Option.some.injEq, Prod.mk.injEq] at hc
      obtain ⟨rfl, rfl⟩ := hc
      refine ⟨_, (hw.recolor true).up, fun _ => ⟨?_, _, rfl⟩, fun hb => by simp at hb⟩
      rw [delRestR_2 n (by rw [hwr, hrr]; exact h2.1) (by rw [hwl, hlr]; exact h2.2), hxp]
    · by_cases h3 : wl.isRed = false
      · -- case 3, then case 4
        have hwrr : wr.isRed = true := by
          by_contra hcon
          exact h2 ⟨by simpa using hcon, h3⟩
        cases wr with
        | leaf => simp at hwrr
        | node wrl wra wrd wrr =>
          simp only [Tree.isRed_node] at hwrr
          simp only [delCaseR, h3, hwrr, Tree.isRed_node, Bool.true_eq_false, false_and, if_true,
            if_false, Tree.setRed, Tree.rotL, Tree.updSum, Option.some.injEq,
            Prod.mk.injEq] at hc
          obtain ⟨rfl, rfl⟩ := hc
          have hA := ((RepZ.down (f := .R wl wa wd) hw).recolor false).up
          simp only [Frame.plug] at hA
          have hB := hA.recolor true
          have hC := hB.rotL
          have hCn := hB.rotL_nil
          simp only [Tree.rotL, Tree.updSum] at hC
          have hnwa : tree.nil ≠ wa := (hw.sub_ne (by simp)).1
          have hnwra : tree.nil ≠ wra := (hw.sub_ne (by simp)).1
          have hp1 : (LeftRotate tree (setRed (setRed m wra false) wa true) wa
              (t.addr tree.nil)).parent = p := by
            cases t with
            | leaf =>
              rw [Tree.addr_leaf, hCn]
              simp only [setRed, upd_ne _ _ _ _ hnwa, upd_ne _ _ _ _ hnwra]
              exact hxp
            | node tl ta td tr =>
              rw [Tree.addr_node, (RepZ.down (f := .R _ _ _) hC.up).cell]; rfl
          have hw1 : (LeftRotate tree (setRed (setRed m wra false) wa true) wa p).left =
              wra := by
            rw [hC.up.cell]; rfl
          have hwl1 : (LeftRotate tree (setRed (setRed m wra false) wa true) wa wra).left =
              wa := by
            rw [hC.cell]; rfl
          have hp1r : (LeftRotate tree (setRed (setRed m wra false) wa true) wa p).red =
              dp.red := by
            rw [hC.up.cell]; rfl
          obtain ⟨h4, h4r, _⟩ := hC.case4R
          simp only [Tree.addr_node, Tree.setRed] at h4 h4r
          refine ⟨_, h4, fun hb => by simp at hb, fun _ => ⟨?_, h4r⟩⟩
          have hwr' : (m wa).right = wra := hwr
          have hrr' : (m wra).red = true := hrr.trans hwrr
          rw [delRestR_3 n hwr' hwl (by rw [hlr]; exact h3) hrr' hp1 hw1 hwl1, hp1r]
      · -- case 4
        simp only [delCaseR, h3, Bool.true_eq_false, and_false, false_and, if_false,
          Option.some.injEq, Prod.mk.injEq] at hc
        obtain ⟨rfl, rfl⟩ := hc
        obtain ⟨h4, h4r, _⟩ := hw.case4R
        refine ⟨_, h4, fun hb => by simp at hb, fun _ => ⟨?_, h4r⟩⟩
        rw [delRestR_4 n (by rw [hlr]; simpa using h3) hxp hwl, hpr]

theorem setRed_same {a : Nat} {b : Bool} (h : (m a).red = b) : setRed m a b = m := by
  funext c
  unfold setRed upd
  split
  · next hc => subst hc; exact node_ext rfl rfl h.symm rfl rfl rfl rfl
  · rfl

/-- The real root is black in the heap when it is black in the path. -/
theorem RepZ.top_red {f : Frame} {q : Path} {s : Tree} (h : RepZ tree m (f :: q) s)
    (htop : Path.topBlack (f :: q)) : (m ((fill (f :: q) s).addr tree.nil)).red = false := by
  induction q generalizing f s with
  | nil =>
    simp only [fill_cons, fill_nil, Frame.plug_addr]
    rw [h.frame_cell.1]; exact htop
  | cons g q ih => exact ih h.up htop

/-- The real root is not the node under a focus below it. -/
theorem RepZ.top_not_mem {f : Frame} {q : Path} {t : Tree} (h : RepZ tree m (f :: q) t) :
    (fill (f :: q) t).addr tree.nil ≠ tree.nil ∧ (fill (f :: q) t).addr tree.nil ∉ t.addrs := by
  induction q generalizing f t with
  | nil =>
    simp only [fill_cons, fill_nil, Frame.plug_addr]
    exact ⟨h.paddr_ne_nil, fun e => (h.sub_ne e).2.2 rfl⟩
  | cons g q ih =>
    obtain ⟨h1, h2⟩ := ih h.up
    refine ⟨h1, fun e => h2 ?_⟩
    have e' : (fill (g :: q) (f.plug t)).addr tree.nil ∈ t.addrs := e
    cases f with
    | L a d r => rw [Frame.plug, addrs_node]; exact List.mem_append_left _ e'
    | R l a d =>
      rw [Frame.plug, addrs_node]
      exact List.mem_append_right _ (List.mem_cons_of_mem _ e')

theorem RepZ.top_ne_focus {f : Frame} {q : Path} {t : Tree} (h : RepZ tree m (f :: q) t) :
    (fill (f :: q) t).addr tree.nil ≠ t.addr tree.nil := by
  obtain ⟨h1, h2⟩ := h.top_not_mem
  rcases Tree.addr_eq_or tree.nil t with e | e
  · rw [e]; exact h1
  · exact fun e' => h2 (e' ▸ e)

end DeleteLoop

end RBTree


namespace RBTree

section DeleteLoopSpec

variable {tree : rb_red_blk_tree} {m : Mem}

/-- After the last rotation the loop is left with `x = root`; the final
`x->red = 0` then hits a node that is black already. -/
theorem delLoop_finish {pth rest : Path} {s : Tree} {m' : Mem} {r0 p : Nat} {f : Frame}
    {t : Tree} (hm : RepZ tree m' pth s)
    (hpth : pth = rest ∨ ∃ g, pth = g :: rest)
    (hr0 : r0 = (fill (f :: rest) t).addr tree.nil) (hfa : f.a = p)
    (htop : Path.topBlack (f :: rest)) (hp : (m' p).red = false) (n : Nat) :
    ∃ m'' x', RBDeleteFixUp.loop tree r0 (n + 1) m' r0 = some (m'', x') ∧
      RepTree tree (setRed m'' x' false) (fill pth s) := by
  refine ⟨m', r0, delLoop_exit n (Or.inr rfl), ?_⟩
  have hred : (m' r0).red = false := by
    rcases rest with _ | ⟨g, q⟩
    · simp only [fill_cons, fill_nil, Frame.plug_addr] at hr0
      rw [hr0, hfa]; exact hp
    · have htop' : Path.topBlack (g :: q) := htop
      rw [hr0, fill_cons]
      rcases hpth with rfl | ⟨g', rfl⟩
      · rw [fill_addr_cons tree.nil g q _ s]
        exact hm.top_red htop'
      · rw [fill_addr_cons tree.nil g q _ (g'.plug s)]
        exact hm.up.top_red htop'
  rw [setRed_same hred]
  exact hm.top

/-- The loop of `RBDeleteFixUp` followed by the final `x->red = 0` computes `delFix`. -/
theorem delLoop_spec (path : Path) (t : Tree) (m : Mem) (h : RepZ tree m path t)
    (hxp : (m (t.addr tree.nil)).parent = Path.addr tree.root path)
    (htop : Path.topBlack path) (T' : Tree) (hfix : delFix tree.DistFunc path t = some T')
    (fuel : Nat) (hf : path.length + 1 < fuel) :
    ∃ m' x', RBDeleteFixUp.loop tree ((fill path t).addr tree.nil) fuel m (t.addr tree.nil) =
        some (m', x') ∧ RepTree tree (setRed m' x' false) T' := by
  induction' hlen : path.length using Nat.strong_induction_on with len ih
    generalizing path t m fuel
  obtain ⟨n, rfl⟩ : ∃ n, fuel = n + 1 := ⟨fuel - 1, by omega⟩
  have hxr := h.sub.red_eq h.nilc
  rcases path with _ | ⟨f, rest⟩
  · simp only [delFix, Option.some.injEq] at hfix
    subst hfix
    exact ⟨m, _, delLoop_exit n (Or.inr rfl), RepZ.blacken h⟩
  · obtain ⟨n, rfl⟩ : ∃ n', n = n' + 1 := ⟨n - 1, by simp only [List.length_cons] at hf; omega⟩
    by_cases hred : t.isRed = true
    · have e : T' = fill (f :: rest) (t.setRed false) := by
        cases f <;> simp [delFix, hred] at hfix <;> exact hfix.symm
      subst e
      exact ⟨m, _, delLoop_exit _ (Or.inl (hxr.trans hred)), (RepZ.blacken h).top⟩
    · have hred' : t.isRed = false := by simpa using hred
      have hxb : (m (t.addr tree.nil)).red = false := hxr.trans hred'
      have hr0 := h.top_ne_focus
      simp only [Path.addr_cons] at hxp
      have hrl : rest.length < len := by simp only [List.length_cons] at hlen; omega
      have hrn : rest.length + 1 < n + 1 := by simp only [List.length_cons] at hf; omega
      have htop' : Path.topBlack rest := Path.topBlack_tail htop
      cases f with
      | L p dp ws =>
        simp only [Frame.a_L] at hxp
        have hfl := h.frame_L
        have hwsr := (h.up.sub.2.2).red_eq h.nilc
        cases ws with
        | leaf => simp [delFix, hred'] at hfix
        | node wl wa wd wr =>
          simp only [Tree.addr_node, Tree.isRed_node] at hfl hwsr
          by_cases hwd : wd.red = true
          · -- case 1 first
            simp only [delFix, hred', hwd, Bool.false_eq_true, if_false, if_true] at hfix
            have hB := ((RepZ.down (f := .R t p dp) h.up).recolor false).up.recolor true
            have hC := hB.rotL
            have hCn := hB.rotL_nil
            simp only [Frame.plug, Tree.rotL, Tree.updSum, Tree.ch_node, Data.recolor_key,
              Data.setCh_children] at hC
            have h1 := RepZ.down (f := .L _ _ _) (RepZ.down (f := .L _ _ _) hC)
            have hnwa : tree.nil ≠ wa := (h.up.sub_ne (by simp [Frame.plug])).1
            have hnp : tree.nil ≠ p := (h.up.sub_ne (by simp [Frame.plug])).1
            have hp1 : (LeftRotate tree (setRed (setRed m wa false) p true) p
                (t.addr tree.nil)).parent = p := by
              cases t with
              | leaf =>
                rw [Tree.addr_leaf, hCn]
                simp only [setRed, upd_ne _ _ _ _ hnwa, upd_ne _ _ _ _ hnp]
                exact hxp
              | node tl ta td tr => rw [Tree.addr_node, h1.cell]; rfl
            have hw1 := h1.frame_L.2
            rw [delLoop_L1 (n + 1) hxb hr0 hxp hfl.1 hfl.2 (hwsr.trans hwd) hp1 hw1]
            simp only [Data.recolor_key, Data.setCh_children] at hfix
            cases hc : delCaseL tree.DistFunc t p
                ((dp.setRed true).setCh (t.ch + wl.ch + tree.DistFunc dp.key)) wl with
            | none => simp [hc] at hfix
            | some bs =>
              obtain ⟨b, s⟩ := bs
              obtain ⟨m', hm', hbt, hbf⟩ := delRestL_spec h1 hp1 hc
                ((fill (Frame.L p dp (.node wl wa wd wr) :: rest) t).addr tree.nil) (n + 1)
              cases b with
              | true =>
                obtain ⟨e1, ws', rfl⟩ := hbt rfl
                simp only [hc, Option.some.injEq] at hfix
                subst hfix
                rw [e1]
                refine ⟨m', p, delLoop_exit n (Or.inl ?_), (hm'.recolor false).top⟩
                rw [hm'.cell]; rfl
              | false =>
                obtain ⟨e1, hpb⟩ := hbf rfl
                simp only [hc, Option.some.injEq] at hfix
                subst hfix
                rw [e1]
                exact delLoop_finish hm' (Or.inr ⟨_, rfl⟩) rfl rfl htop hpb n
          · -- no case 1
            have hwd' : wd.red = false := by simpa using hwd
            simp only [delFix, hred', hwd', Bool.false_eq_true, if_false] at hfix
            rw [delLoop_L (n + 1) hxb hr0 hxp hfl.1 hfl.2 (hwsr.trans hwd')]
            cases hc : delCaseL tree.DistFunc t p dp (.node wl wa wd wr) with
            | none => simp [hc] at hfix
            | some bs =>
              obtain ⟨b, s⟩ := bs
              obtain ⟨m', hm', hbt, hbf⟩ := delRestL_spec h hxp hc
                ((fill (Frame.L p dp (.node wl wa wd wr) :: rest) t).addr tree.nil) (n + 1)
              cases b with
              | true =>
                obtain ⟨e1, ws', rfl⟩ := hbt rfl
                simp only [Tree.addr_node] at e1
                simp only [hc] at hfix
                rw [e1]
                have hxp' : (m' ((Tree.node t p dp ws').addr tree.nil)).parent =
                    Path.addr tree.root rest := by
                  rw [Tree.addr_node, hm'.cell]; rfl
                have := ih rest.length hrl rest _ m' hm' hxp' htop' hfix (n + 1) hrn rfl
                rw [@fill_addr_congr tree.nil rest (.node t p dp ws')
                  ((Frame.L p dp (.node wl wa wd wr)).plug t) rfl] at this
                exact this
              | false =>
                obtain ⟨e1, hpb⟩ := hbf rfl
                simp only [Tree.addr_node] at e1
                simp only [hc, Option.some.injEq] at hfix
                subst hfix
                rw [e1]
                exact delLoop_finish hm' (Or.inl rfl) rfl rfl htop hpb n
      | R ws p dp =>
        simp only [Frame.a_R] at hxp
        have hfl := h.frame_R
        have hwsr := (h.up.sub.2.1).red_eq h.nilc
        cases ws with
        | leaf => simp [delFix, hred'] at hfix
        | node wl wa wd wr =>
          simp only [Tree.addr_node, Tree.isRed_node] at hfl hwsr
          have hxw : t.addr tree.nil ≠ wa := by
            have hwa : wa ∈ (Tree.node (.node wl wa wd wr) p dp t).addrs := by simp
            have hn := h.up.nodup'.2.2.1
            simp only [Frame.plug, addrs_node, List.nodup_append, List.nodup_cons,
              List.mem_append, List.mem_cons, not_or, List.disjoint_left] at hn
            refine Tree.addr_ne (h.up.sub_ne hwa).1 fun e => ?_
            have := (hn.2.2 (Or.inr (Or.inl rfl))).2
            exact this e
          by_cases hwd : wd.red = true
          · -- case 1 first
            simp only [delFix, hred', hwd, Bool.false_eq_true, if_false, if_true] at hfix
            have hB := ((RepZ.down (f := .L p dp t) h.up).recolor false).up.recolor true
            have hC := hB.rotR
            have hCn := hB.rotR_nil
            simp only [Frame.plug, Tree.rotR, Tree.updSum, Tree.ch_node, Data.recolor_key,
              Data.setCh_children] at hC
            have h1 := RepZ.down (f := .R _ _ _) (RepZ.down (f := .R _ _ _) hC)
            have hnwa : tree.nil ≠ wa := (h.up.sub_ne (by simp [Frame.plug])).1
            have hnp : tree.nil ≠ p := (h.up.sub_ne (by simp [Frame.plug])).1
            have hp1 : (RightRotate tree (setRed (setRed m wa false) p true) p
                (t.addr tree.nil)).parent = p := by
              cases t with
              | leaf =>
                rw [Tree.addr_leaf, hCn]
                simp only [setRed, upd_ne _ _ _ _ hnwa, upd_ne _ _ _ _ hnp]
                exact hxp
              | node tl ta td tr => rw [Tree.addr_node, h1.cell]; rfl
            have hw1 := h1.frame_R.1
            rw [delLoop_R1 (n + 1) hxb hr0 hxp hfl.1 hxw (hwsr.trans hwd) hp1 hw1]
            simp only [Data.recolor_key, Data.setCh_children] at hfix
            cases hc : delCaseR tree.DistFunc t p
                ((dp.setRed true).setCh (wr.ch + t.ch + tree.DistFunc dp.key)) wr with
            | none => simp [hc] at hfix
            | some bs =>
              obtain ⟨b, s⟩ := bs
              obtain ⟨m', hm', hbt, hbf⟩ := delRestR_spec h1 hp1 hc
                ((fill (Frame.R (.node wl wa wd wr) p dp :: rest) t).addr tree.nil) (n + 1)
              cases b with
              | true =>
                obtain ⟨e1, ws', rfl⟩ := hbt rfl
                simp only [hc, Option.some.injEq] at hfix
                subst hfix
                rw [e1]
                refine ⟨m', p, delLoop_exit n (Or.inl ?_), (hm'.recolor false).top⟩
                rw [hm'.cell]; rfl
              | false =>
                obtain ⟨e1, hpb⟩ := hbf rfl
                simp only [hc, Option.some.injEq] at hfix
                subst hfix
                rw [e1]
                exact delLoop_finish hm' (Or.inr ⟨_, rfl⟩) rfl rfl htop hpb n
          · -- no case 1
            have hwd' : wd.red = false := by simpa using hwd
            simp only [delFix, hred', hwd', Bool.false_eq_true, if_false] at hfix
            rw [delLoop_R (n + 1) hxb hr0 hxp hfl.1 hxw (hwsr.trans hwd')]
            cases hc : delCaseR tree.DistFunc t p dp (.node wl wa wd wr) with
            | none => simp [hc] at hfix
            | some bs =>
              obtain ⟨b, s⟩ := bs
              obtain ⟨m', hm', hbt, hbf⟩ := delRestR_spec h hxp hc
                ((fill (Frame.R (.node wl wa wd wr) p dp :: rest) t).addr tree.nil) (n + 1)
              cases b with
              | true =>
                obtain ⟨e1, ws', rfl⟩ := hbt rfl
                simp only [Tree.addr_node] at e1
                simp only [hc] at hfix
                rw [e1]
                have hxp' : (m' ((Tree.node ws' p dp t).addr tree.nil)).parent =
                    Path.addr tree.root rest := by
                  rw [Tree.addr_node, hm'.cell]; rfl
                have := ih rest.length hrl rest _ m' hm' hxp' htop' hfix (n + 1) hrn rfl
                rw [@fill_addr_congr tree.nil rest (.node ws' p dp t)
                  ((Frame.R (.node wl wa wd wr) p dp).plug t) rfl] at this
                exact this
              | false =>
                obtain ⟨e1, hpb⟩ := hbf rfl
                simp only [Tree.addr_node] at e1
                simp only [hc, Option.some.injEq] at hfix
                subst hfix
                rw [e1]
                exact delLoop_finish hm' (Or.inl rfl) rfl rfl htop hpb n

end DeleteLoopSpec

end RBTree


namespace RBTree

/-! ## The pieces of `RBDelete` -/

section DeletePieces

variable {tree : rb_red_blk_tree} {m : Mem}

/-- `RBDeleteFixUp` computes `delFix`. -/
theorem RBDeleteFixUp_spec {path : Path} {t : Tree} (h : RepZ tree m path t)
    (hxp : (m (t.addr tree.nil)).parent = Path.addr tree.root path)
    (htop : Path.topBlack path) {T' : Tree} (hfix : delFix tree.DistFunc path t = some T')
    (fuel : Nat) (hf : path.length + 1 < fuel) :
    ∃ m', RBDeleteFixUp fuel tree m (t.addr tree.nil) = some m' ∧ RepTree tree m' T' := by
  obtain ⟨m', x', h1, h2⟩ := delLoop_spec path t m h hxp htop T' hfix fuel hf
  refine ⟨_, ?_, h2⟩
  simp only [RBDeleteFixUp, h.rootc.2.2.1, h1]

/-- The weight loops of `RBDelete` add `d` to every ancestor. -/
theorem delPropagate_spec (d : Int) (P : Path) (t : Tree) (m : Mem)
    (h : RepZ tree m P t) (fuel : Nat) (hf : P.length < fuel) :
    ∃ m', RBDelete.propagate tree d fuel m (Path.addr tree.root P) = some m' ∧
      RepZ tree m' (Path.addCh d P) t := by
  induction P generalizing t m fuel with
  | nil =>
    obtain ⟨n, rfl⟩ : ∃ n, fuel = n + 1 := ⟨fuel - 1, by simp at hf; omega⟩
    exact ⟨m, by simp [RBDelete.propagate], h⟩
  | cons f P ih =>
    obtain ⟨n, rfl⟩ : ∃ n, fuel = n + 1 := ⟨fuel - 1, by simp at hf; omega⟩
    have hfa : f.a ∈ (f.plug t).addrs := by cases f <;> simp [Frame.plug]
    obtain ⟨_, hrf, _⟩ := h.up.sub_ne hfa
    have key : RepZ tree (setChildren m f.a ((m f.a).children + d)) P ((f.addCh d).plug t) ∧
        (m f.a).parent = Path.addr tree.root P := by
      cases f with
      | L a dd r =>
        have hc := h.up.cell
        have := h.up.reweigh (dd.children + d)
        simp only [Frame.a_L, hc, mkCell_children, mkCell_parent]
        exact ⟨this, trivial⟩
      | R l a dd =>
        have hc := h.up.cell
        have := h.up.reweigh (dd.children + d)
        simp only [Frame.a_R, hc, mkCell_children, mkCell_parent]
        exact ⟨this, trivial⟩
    obtain ⟨h1, hpar⟩ := key
    obtain ⟨m', hm', h'⟩ := ih _ _ h1 n (by simp at hf; omega)
    refine ⟨m', ?_, h'.down⟩
    simp only [RBDelete.propagate, Path.addr_cons, ne_eq, hrf.symm, not_false_eq_true, if_true,
      hpar]
    exact hm'

/-- The first loop of `TreeSuccessor` walks to the leftmost node. -/
theorem succDown_spec (t : Tree) (p : Path) (h : RepZ tree m p t)
    {py : Path} {y : Nat} {dy : Data} {yr : Tree}
    (hs : splitMin t p = some (py, y, dy, yr)) (fuel : Nat) (hf : t.size < fuel) :
    TreeSuccessor.down tree m fuel (t.addr tree.nil) = some y ∧
      RepZ tree m py (.node .leaf y dy yr) ∧ py.length ≤ p.length + t.size := by
  induction t generalizing p fuel with
  | leaf => simp [splitMin] at hs
  | node l a d r ihl _ =>
    obtain ⟨n, rfl⟩ : ∃ n, fuel = n + 1 := ⟨fuel - 1, by omega⟩
    have hc := h.cell
    cases l with
    | leaf =>
      simp only [splitMin, Option.some.injEq, Prod.mk.injEq] at hs
      obtain ⟨rfl, rfl, rfl, rfl⟩ := hs
      refine ⟨?_, h, by simp⟩
      simp [TreeSuccessor.down, hc]
    | node ll la ld lr =>
      simp only [splitMin] at hs
      have hla : tree.nil ≠ la := (h.sub_ne (by simp)).1
      simp only [Tree.size] at hf
      obtain ⟨h1, h2, h3⟩ := ihl (.L a d r :: p) (RepZ.down (f := .L a d r) h) hs n
        (by simp only [Tree.size]; omega)
      refine ⟨?_, h2, ?_⟩
      · simp only [TreeSuccessor.down, Tree.addr_node, hc, mkCell_left, ne_eq, hla.symm,
          not_false_eq_true, if_true]
        exact h1
      · simp only [List.length_cons, Tree.size] at h3 ⊢
        omega

/-- Splicing out a node with at most one child: its child takes its place. -/
theorem RepZ.splice {p : Path} {yl yr u : Tree} {y : Nat} {dy : Data}
    (h : RepZ tree m p (.node yl y dy yr))
    (hxt : (yl = .leaf ∧ u = yr) ∨ (yr = .leaf ∧ u = yl)) :
    RepZ tree
      (if tree.root = Path.addr tree.root p then
        setLeft (setParent m (u.addr tree.nil) (Path.addr tree.root p)) tree.root
          (u.addr tree.nil)
      else if y = (setParent m (u.addr tree.nil) (Path.addr tree.root p)
          (Path.addr tree.root p)).left then
        setLeft (setParent m (u.addr tree.nil) (Path.addr tree.root p))
          (Path.addr tree.root p) (u.addr tree.nil)
      else
        setRight (setParent m (u.addr tree.nil) (Path.addr tree.root p))
          (Path.addr tree.root p) (u.addr tree.nil)) p u ∧
    ((if tree.root = Path.addr tree.root p then
        setLeft (setParent m (u.addr tree.nil) (Path.addr tree.root p)) tree.root
          (u.addr tree.nil)
      else if y = (setParent m (u.addr tree.nil) (Path.addr tree.root p)
          (Path.addr tree.root p)).left then
        setLeft (setParent m (u.addr tree.nil) (Path.addr tree.root p))
          (Path.addr tree.root p) (u.addr tree.nil)
      else
        setRight (setParent m (u.addr tree.nil) (Path.addr tree.root p))
          (Path.addr tree.root p) (u.addr tree.nil)) (u.addr tree.nil)).parent =
      Path.addr tree.root p ∧
    (if tree.root = Path.addr tree.root p then
        setLeft (setParent m (u.addr tree.nil) (Path.addr tree.root p)) tree.root
          (u.addr tree.nil)
      else if y = (setParent m (u.addr tree.nil) (Path.addr tree.root p)
          (Path.addr tree.root p)).left then
        setLeft (setParent m (u.addr tree.nil) (Path.addr tree.root p))
          (Path.addr tree.root p) (u.addr tree.nil)
      else
        setRight (setParent m (u.addr tree.nil) (Path.addr tree.root p))
          (Path.addr tree.root p) (u.addr tree.nil)) y = m y := by
  obtain ⟨hnr, hnn, hnt, hnb, hna, hsp, hba⟩ := h.nodup'
  have hym : y ∈ (Tree.node yl y dy yr).addrs := by simp
  obtain ⟨hny, hry, hpy⟩ := h.sub_ne hym
  have hpn := h.paddr_ne_nil
  -- facts about the child
  have hx : Rep tree.nil m u y ∧ (∀ a ∈ u.addrs, a ∈ (Tree.node yl y dy yr).addrs) ∧
      y ∉ u.addrs ∧
      (tree.nil :: tree.root :: (fill p u).addrs).Nodup := by
    have hn := h.nodup
    rw [addrs_fill] at hn ⊢
    rcases hxt with ⟨rfl, rfl⟩ | ⟨rfl, rfl⟩
    · refine ⟨h.sub.2.2, fun a ha => by simp [ha], ?_, ?_⟩
      · simp only [addrs_node, addrs_leaf, List.nil_append, List.nodup_cons] at hnt
        exact hnt.1
      · refine hn.sublist ?_
        simp only [addrs_node, addrs_leaf, List.nil_append]
        refine List.Sublist.cons₂ _ (List.Sublist.cons₂ _ ?_)
        exact List.Sublist.append (List.Sublist.append (List.Sublist.refl _)
          (List.sublist_cons_self _ _)) (List.Sublist.refl _)
    · refine ⟨h.sub.2.1, fun a ha => by simp [ha], ?_, ?_⟩
      · simp only [addrs_node, addrs_leaf, List.nodup_append, List.nodup_cons,
          List.disjoint_left, List.mem_cons, List.not_mem_nil, or_false] at hnt
        exact fun e => hnt.2.2 e rfl
      · refine hn.sublist ?_
        simp only [addrs_node, addrs_leaf]
        refine List.Sublist.cons₂ _ (List.Sublist.cons₂ _ ?_)
        exact List.Sublist.append (List.Sublist.append (List.Sublist.refl _)
          (List.sublist_append_left _ _)) (List.Sublist.refl _)
  obtain ⟨hxrep, hxmem, hyx, hnd⟩ := hx
  have hxy : u.addr tree.nil ≠ y := Tree.addr_ne hny hyx
  have hpx : Path.addr tree.root p ≠ u.addr tree.nil := by
    rcases Tree.addr_eq_or tree.nil u with e | e
    · rw [e]; exact hpn
    · exact (h.sub_ne (hxmem _ e)).2.2
  have hrx : tree.root ≠ u.addr tree.nil := by
    rcases Tree.addr_eq_or tree.nil u with e | e
    · rw [e]; exact hnr.symm
    · exact (h.sub_ne (hxmem _ e)).2.1
  have hxpath : u.addr tree.nil ∉ p.before.map (fun e => e.1) ∧
      u.addr tree.nil ∉ p.after.map (fun e => e.1) := by
    rcases Tree.addr_eq_or tree.nil u with e | e
    · rw [e]
      exact ⟨fun e' => (hnn _ (Or.inl e')).1 rfl, fun e' => (hnn _ (Or.inr (Or.inr e'))).1 rfl⟩
    · exact hsp _ (hxmem _ e)
  -- the heap after `x->parent = y->parent`
  have h1p : RepPath tree (setParent m (u.addr tree.nil) (Path.addr tree.root p)) p y := by
    simp only [setParent, RepPath.upd_path hxpath.1 hxpath.2]
    exact h.path
  have h1r : (setParent m (u.addr tree.nil) (Path.addr tree.root p)) tree.root =
      m tree.root := by
    simp only [setParent, upd_ne _ _ _ _ hrx]
  have h1pa : (setParent m (u.addr tree.nil) (Path.addr tree.root p))
      (Path.addr tree.root p) = m (Path.addr tree.root p) := by
    simp only [setParent, upd_ne _ _ _ _ hpx]
  have hrel : (if tree.root = Path.addr tree.root p then
        setLeft (setParent m (u.addr tree.nil) (Path.addr tree.root p)) tree.root
          (u.addr tree.nil)
      else if y = (setParent m (u.addr tree.nil) (Path.addr tree.root p)
          (Path.addr tree.root p)).left then
        setLeft (setParent m (u.addr tree.nil) (Path.addr tree.root p))
          (Path.addr tree.root p) (u.addr tree.nil)
      else
        setRight (setParent m (u.addr tree.nil) (Path.addr tree.root p))
          (Path.addr tree.root p) (u.addr tree.nil)) =
      relink m (setParent m (u.addr tree.nil) (Path.addr tree.root p))
        (Path.addr tree.root p) y (u.addr tree.nil) := by
    rw [h1pa]
    unfold relink
    by_cases hr : tree.root = Path.addr tree.root p
    · have : (m (Path.addr tree.root p)).left = y := by
        rw [← hr, h.rootc.2.2.1]
        rcases p with _ | ⟨f, p⟩
        · rfl
        · exact absurd hr (by
            have hfa : f.a ∈ (f.plug (Tree.node yl y dy yr)).addrs := by
              cases f <;> simp [Frame.plug]
            exact (h.up.sub_ne hfa).2.1)
      rw [if_pos hr, if_pos this, ← hr]
    · rw [if_neg hr]
      by_cases hl : (m (Path.addr tree.root p)).left = y
      · rw [if_pos hl.symm, if_pos hl]
      · rw [if_neg (fun e => hl e.symm), if_neg hl]
  rw [hrel]
  have hyaddr : (Tree.node yl y dy yr).addr tree.nil = y := rfl
  obtain ⟨h4p, h4r, h4f⟩ := h.relink_spec (by rw [hyaddr]; exact hym)
    (by rw [hyaddr]; exact h1p) h1r u
  rw [hyaddr] at h4p h4r h4f
  have hmx : ∀ b, b ≠ Path.addr tree.root p → b ≠ u.addr tree.nil →
      relink m (setParent m (u.addr tree.nil) (Path.addr tree.root p))
        (Path.addr tree.root p) y (u.addr tree.nil) b = m b := by
    intro b hb1 hb2
    rw [h4f b hb1]
    simp only [setParent, upd_ne _ _ _ _ hb2]
  have hxcell : relink m (setParent m (u.addr tree.nil) (Path.addr tree.root p))
        (Path.addr tree.root p) y (u.addr tree.nil) (u.addr tree.nil) =
      { m (u.addr tree.nil) with parent := Path.addr tree.root p } := by
    rw [h4f _ hpx.symm]
    simp only [setParent, upd_same]
  refine ⟨⟨hnd, ?_, h4r, h4p, ?_⟩, ?_, ?_⟩
  · by_cases e : tree.nil = u.addr tree.nil
    · have hc := (congrArg (relink m (setParent m (u.addr tree.nil) (Path.addr tree.root p))
        (Path.addr tree.root p) y (u.addr tree.nil)) e).trans hxcell
      rw [hc, ← e]
      exact h.nilc
    · rw [hmx _ hpn.symm e]; exact h.nilc
  · cases u with
    | leaf => trivial
    | node xl xa xd xr =>
      simp only [Tree.addr_node] at hxcell hmx hxy hpx ⊢
      have hnx : (Tree.node xl xa xd xr).addrs.Nodup := by
        rcases hxt with ⟨rfl, rfl⟩ | ⟨rfl, rfl⟩
        · simp only [addrs_node (l := .leaf), addrs_leaf, List.nil_append,
            List.nodup_cons] at hnt
          exact hnt.2
        · rw [addrs_node (r := .leaf), addrs_leaf] at hnt
          exact (List.nodup_append.1 hnt).1
      simp only [addrs_node, List.nodup_append, List.nodup_cons, List.disjoint_left,
        List.mem_cons, not_or] at hnx
      have hxal : xa ∉ xl.addrs := fun e => (hnx.2.2 e).1 rfl
      have hxar : xa ∉ xr.addrs := hnx.2.1.1
      refine ⟨?_, ?_, ?_⟩
      · rw [hxcell, hxrep.1]; rfl
      · refine (Rep.congr_iff fun b hb => hmx b ?_ ?_).2 hxrep.2.1
        · exact ((h.sub_ne (hxmem b (by simp [hb]))).2.2).symm
        · exact fun e => hxal (e ▸ hb)
      · refine (Rep.congr_iff fun b hb => hmx b ?_ ?_).2 hxrep.2.2
        · exact ((h.sub_ne (hxmem b (by simp [hb]))).2.2).symm
        · exact fun e => hxar (e ▸ hb)
  · rw [hxcell]
  · exact hmx y hpy.symm hxy.symm

end DeletePieces

end RBTree


namespace RBTree

section Replace

variable {tree : rb_red_blk_tree} {m : Mem}

theorem NilCell_setParent {m : Mem} (hn : NilCell tree (m tree.nil)) (a v : Nat) :
    NilCell tree (setParent m a v tree.nil) := by
  by_cases e : tree.nil = a
  · subst e
    simp only [setParent, upd_same]
    exact hn
  · simp only [setParent, upd_ne _ _ _ _ e]
    exact hn

/-- A pointer to a subtree of the focus lies neither on the path nor at the sentinels,
unless it is `nil`. -/
theorem RepZ.addr_not_path {p : Path} {t s : Tree} (h : RepZ tree m p t)
    (hs : ∀ a ∈ s.addrs, a ∈ t.addrs) :
    s.addr tree.nil ∉ p.before.map (fun e => e.1) ∧
      s.addr tree.nil ∉ p.after.map (fun e => e.1) ∧ tree.root ≠ s.addr tree.nil ∧
      Path.addr tree.root p ≠ s.addr tree.nil := by
  obtain ⟨hnr, hnn, -, -, -, hsp, -⟩ := h.nodup'
  rcases Tree.addr_eq_or tree.nil s with e | e
  · rw [e]
    exact ⟨fun e' => (hnn _ (Or.inl e')).1 rfl, fun e' => (hnn _ (Or.inr (Or.inr e'))).1 rfl,
      hnr.symm, h.paddr_ne_nil⟩
  · exact ⟨(hsp _ (hs _ e)).1, (hsp _ (hs _ e)).2, (h.sub_ne (hs _ e)).2.1,
      (h.sub_ne (hs _ e)).2.2⟩

/-- The successor `y` takes the place of `z`: the cell of `y` has been given the links and
colour of `z`, then the children and the parent of `z` are pointed at `y`. -/
theorem RepZ.replace {p : Path} {l r : Tree} {z y : Nat} {dz : Data}
    (h : RepZ tree m p (.node l z dz r))
    (hyn : tree.nil ≠ y) (hyr : tree.root ≠ y) (hy : y ∉ (fill p (.node l z dz r)).addrs)
    (dy : Data) {m5 : Mem}
    (h5y : m5 y = mkCell dy (l.addr tree.nil) (r.addr tree.nil) (Path.addr tree.root p))
    (h5o : ∀ b, b ≠ y → m5 b = m b) :
    RepZ tree (relink m (setParent (setParent m5 (r.addr tree.nil) y) (l.addr tree.nil) y)
      (Path.addr tree.root p) z y) p (.node l y dy r) := by
  obtain ⟨hnr, hnn, hnt, hnb, hna, hsp, hba⟩ := h.nodup'
  have hzm : z ∈ (Tree.node l z dz r).addrs := by simp
  obtain ⟨hnz, hrz, hpz⟩ := h.sub_ne hzm
  rw [addrs_fill] at hy
  simp only [List.mem_append, not_or, addrs_node, List.mem_cons] at hy
  obtain ⟨⟨hyb, hyl, hyz, hyr'⟩, hya⟩ := hy
  have hpy : Path.addr tree.root p ≠ y := by
    rcases Path.paddr_eq_or tree.root p with e | e | e
    · rw [e]; exact hyr
    · exact fun e' => hyb (e' ▸ e)
    · exact fun e' => hya (e' ▸ e)
  obtain ⟨hlb, hla, hrl, hpl⟩ := h.addr_not_path (s := l) (fun a ha => by simp [ha])
  obtain ⟨hrb, hra, hrr, hpr⟩ := h.addr_not_path (s := r) (fun a ha => by simp [ha])
  have hly : l.addr tree.nil ≠ y := Tree.addr_ne hyn hyl
  have hry : r.addr tree.nil ≠ y := Tree.addr_ne hyn hyr'
  have h5 : m5 = upd m y (m5 y) := by
    funext b
    by_cases e : b = y
    · rw [e, upd_same]
    · rw [upd_ne _ _ _ _ e, h5o b e]
  have h7o : ∀ b, b ≠ l.addr tree.nil → b ≠ r.addr tree.nil →
      setParent (setParent m5 (r.addr tree.nil) y) (l.addr tree.nil) y b = m5 b := by
    intro b hb1 hb2
    simp only [setParent, upd_ne _ _ _ _ hb1, upd_ne _ _ _ _ hb2]
  have h3 : RepPath tree (setParent (setParent m5 (r.addr tree.nil) y) (l.addr tree.nil) y) p z := by
    simp only [setParent, RepPath.upd_path hlb hla, RepPath.upd_path hrb hra]
    rw [h5, RepPath.upd_path hyb hya]
    exact h.path
  have h3r : setParent (setParent m5 (r.addr tree.nil) y) (l.addr tree.nil) y tree.root =
      m tree.root := by
    rw [h7o _ hrl hrr, h5o _ hyr]
  obtain ⟨h4p, h4r, h4f⟩ := h.relink_spec hzm h3 h3r (.node l y dy r)
  simp only [Tree.addr_node] at h4p h4r h4f
  have hnil : NilCell tree (relink m (setParent (setParent m5 (r.addr tree.nil) y)
      (l.addr tree.nil) y) (Path.addr tree.root p) z y tree.nil) := by
    rw [h4f _ h.paddr_ne_nil.symm]
    have h5n : NilCell tree (m5 tree.nil) := by rw [h5o _ hyn]; exact h.nilc
    exact NilCell_setParent (NilCell_setParent h5n _ _) _ _
  have hsubst : ∀ {s : Tree} (q : Nat), (∀ a ∈ s.addrs, a ∈ (Tree.node l z dz r).addrs) →
      (∀ a ∈ s.addrs, a ≠ l.addr tree.nil ∧ a ≠ r.addr tree.nil) →
      Rep tree.nil m s q →
      Rep tree.nil (relink m (setParent (setParent m5 (r.addr tree.nil) y)
        (l.addr tree.nil) y) (Path.addr tree.root p) z y) s q := by
    intro s q hs1 hs2 hrep
    refine (Rep.congr_iff fun b hb => ?_).2 hrep
    have hbz := hs1 b hb
    have hby : b ≠ y := by
      rintro rfl
      simp only [addrs_node, List.mem_append, List.mem_cons] at hbz
      rcases hbz with e | e | e
      · exact hyl e
      · exact hyz e
      · exact hyr' e
    rw [h4f _ (h.sub_ne hbz).2.2.symm, h7o _ (hs2 b hb).1 (hs2 b hb).2, h5o _ hby]
  have hnt' := hnt
  simp only [addrs_node, List.nodup_append, List.nodup_cons, List.disjoint_left,
    List.mem_cons, not_or] at hnt'
  obtain ⟨hnl, ⟨hzr, hnr'⟩, hlr⟩ := hnt'
  refine ⟨?_, hnil, h4r, h4p, ?_, ?_, ?_⟩
  · have hn := h.nodup
    rw [addrs_fill] at hn ⊢
    simp only [addrs_node, List.append_assoc, List.cons_append] at hn ⊢
    have e1 : tree.nil :: tree.root :: (List.map (fun e => e.1) (Path.before p) ++
        (l.addrs ++ z :: (r.addrs ++ List.map (fun e => e.1) (Path.after p)))) =
        (tree.nil :: tree.root :: (List.map (fun e => e.1) (Path.before p) ++ l.addrs)) ++
          z :: (r.addrs ++ List.map (fun e => e.1) (Path.after p)) := by simp
    have e2 : tree.nil :: tree.root :: (List.map (fun e => e.1) (Path.before p) ++
        (l.addrs ++ y :: (r.addrs ++ List.map (fun e => e.1) (Path.after p)))) =
        (tree.nil :: tree.root :: (List.map (fun e => e.1) (Path.before p) ++ l.addrs)) ++
          y :: (r.addrs ++ List.map (fun e => e.1) (Path.after p)) := by simp
    rw [e1] at hn
    rw [e2]
    rw [List.nodup_middle] at hn ⊢
    rw [List.nodup_cons] at hn ⊢
    refine ⟨?_, hn.2⟩
    simp only [List.mem_append, List.mem_cons, not_or]
    exact ⟨⟨hyn.symm, hyr.symm, hyb, hyl⟩, hyr', hya⟩
  · rw [h4f _ hpy.symm, h7o _ hly.symm hry.symm, h5y]
  · cases l with
    | leaf => trivial
    | node ll la ld lr =>
      simp only [Tree.addr_node] at h4f h7o hly hpl ⊢
      have hc := h.sub.2.1
      have hnl' := hnl
      simp only [addrs_node, List.nodup_append, List.nodup_cons, List.disjoint_left,
        List.mem_cons, not_or] at hnl'
      have hlam : la ∈ (Tree.node ll la ld lr).addrs := by simp
      have hlar : la ≠ r.addr tree.nil := by
        rcases Tree.addr_eq_or tree.nil r with e | e
        · rw [e]; exact (hnn la (Or.inr (Or.inl (by simp)))).1.symm
        · exact fun e' => (hlr hlam).2 (e' ▸ e)
      refine ⟨?_, ?_, ?_⟩
      · rw [h4f _ hpl.symm]
        simp only [setParent, upd_same, upd_ne _ _ _ _ hlar, h5o _ hly, hc.1]
        rfl
      · refine hsubst la (fun a ha => by simp [ha]) (fun a ha => ⟨?_, ?_⟩) hc.2.1
        · rintro rfl; exact (hnl'.2.2 ha).1 rfl
        · have ham : a ∈ (Tree.node ll la ld lr).addrs := by simp [ha]
          rcases Tree.addr_eq_or tree.nil r with e | e
          · rw [e]; exact (hnn a (Or.inr (Or.inl (by simp [ha])))).1.symm
          · exact fun e' => (hlr ham).2 (e' ▸ e)
      · refine hsubst la (fun a ha => by simp [ha]) (fun a ha => ⟨?_, ?_⟩) hc.2.2
        · rintro rfl; exact hnl'.2.1.1 ha
        · have ham : a ∈ (Tree.node ll la ld lr).addrs := by simp [ha]
          rcases Tree.addr_eq_or tree.nil r with e | e
          · rw [e]; exact (hnn a (Or.inr (Or.inl (by simp [ha])))).1.symm
          · exact fun e' => (hlr ham).2 (e' ▸ e)
  · cases r with
    | leaf => trivial
    | node rl ra rd rr =>
      simp only [Tree.addr_node] at h4f h7o hry hpr ⊢
      have hc := h.sub.2.2
      have hnr2 := hnr'
      simp only [addrs_node, List.nodup_append, List.nodup_cons, List.disjoint_left,
        List.mem_cons, not_or] at hnr2
      have hram : ra ∈ (Tree.node rl ra rd rr).addrs := by simp
      have hral : ra ≠ l.addr tree.nil := by
        rcases Tree.addr_eq_or tree.nil l with e | e
        · rw [e]; exact (hnn ra (Or.inr (Or.inl (by simp)))).1.symm
        · exact fun e' => (hlr e).2 (e' ▸ hram)
      refine ⟨?_, ?_, ?_⟩
      · rw [h4f _ hpr.symm]
        simp only [setParent, upd_same, upd_ne _ _ _ _ hral, h5o _ hry, hc.1]
        rfl
      · refine hsubst ra (fun a ha => by simp [ha]) (fun a ha => ⟨?_, ?_⟩) hc.2.1
        · have ham : a ∈ (Tree.node rl ra rd rr).addrs := by simp [ha]
          rcases Tree.addr_eq_or tree.nil l with e | e
          · rw [e]; exact (hnn a (Or.inr (Or.inl (by simp [ha])))).1.symm
          · exact fun e' => (hlr e).2 (e' ▸ ham)
        · rintro rfl; exact (hnr2.2.2 ha).1 rfl
      · refine hsubst ra (fun a ha => by simp [ha]) (fun a ha => ⟨?_, ?_⟩) hc.2.2
        · have ham : a ∈ (Tree.node rl ra rd rr).addrs := by simp [ha]
          rcases Tree.addr_eq_or tree.nil l with e | e
          · rw [e]; exact (hnn a (Or.inr (Or.inl (by simp [ha])))).1.symm
          · exact fun e' => (hlr e).2 (e' ▸ ham)
        · rintro rfl; exact hnr2.2.1.1 ha

end Replace

end RBTree


namespace RBTree

section Entries

variable (w : Int → Int)

@[simp] theorem Tree.setRed_entries (t : Tree) (b : Bool) : (t.setRed b).entries = t.entries := by
  cases t <;> rfl

@[simp] theorem Tree.updSum_entries (t : Tree) : (Tree.updSum w t).entries = t.entries := by
  cases t <;> rfl

@[simp] theorem Tree.rotL_entries (t : Tree) : (Tree.rotL w t).entries = t.entries := by
  unfold Tree.rotL
  split
  · simp [Tree.updSum, Data.setCh]
  · rfl

@[simp] theorem Tree.rotR_entries (t : Tree) : (Tree.rotR w t).entries = t.entries := by
  unfold Tree.rotR
  split
  · simp [Tree.updSum, Data.setCh]
  · rfl

@[simp] theorem Frame.setRed_plug_entries (f : Frame) (b : Bool) (t : Tree) :
    ((f.setRed b).plug t).entries = (f.plug t).entries := by
  cases f <;> rfl

theorem fill_entries_congr (p : Path) {t t' : Tree} (h : t.entries = t'.entries) :
    (fill p t).entries = (fill p t').entries := by
  rw [entries_fill, entries_fill, h]

@[simp] theorem Path.addCh_before (v : Int) (p : Path) : (Path.addCh v p).before = p.before := by
  induction p with
  | nil => rfl
  | cons f p ih =>
    cases f with
    | L a d r => exact ih
    | R l a d =>
      show Path.before (Path.addCh v p) ++ _ = Path.before p ++ _
      rw [ih]; rfl

@[simp] theorem Path.addCh_after (v : Int) (p : Path) : (Path.addCh v p).after = p.after := by
  induction p with
  | nil => rfl
  | cons f p ih =>
    cases f with
    | L a d r =>
      show _ ++ Path.after (Path.addCh v p) = _ ++ Path.after p
      rw [ih]; rfl
    | R l a d => exact ih

theorem fill_addCh_entries (v : Int) (p : Path) (t : Tree) :
    (fill (Path.addCh v p) t).entries = (fill p t).entries := by
  rw [entries_fill, entries_fill, Path.addCh_before, Path.addCh_after]

/-- The repair loop of insertion keeps the in-order sequence. -/
theorem insFix_entries (p : Path) (t : Tree) :
    (insFix w p t).entries = (fill p t).entries := by
  induction' hlen : p.length using Nat.strong_induction_on with len ih generalizing p t
  rcases p with _ | ⟨f1, _ | ⟨f2, rest⟩⟩
  · rfl
  · rfl
  · have hrl : rest.length < len := by simp only [List.length_cons] at hlen; omega
    unfold insFix
    split
    · cases f2 with
      | L g dg u =>
        simp only
        split
        · rw [ih _ hrl _ _ rfl]
          simp only [fill_cons, Frame.plug]
          exact fill_entries_congr _ (by cases f1 <;> simp [Frame.setRed, Data.setRed])
        · cases f1 with
          | L p dp sp =>
            simp only [fill_cons, Frame.plug]
            exact fill_entries_congr _ (by simp [Data.setRed])
          | R sp p dp =>
            simp only [fill_cons, Frame.plug]
            exact fill_entries_congr _ (by simp [Data.setRed])
      | R u g dg =>
        simp only
        split
        · rw [ih _ hrl _ _ rfl]
          simp only [fill_cons, Frame.plug]
          exact fill_entries_congr _ (by cases f1 <;> simp [Frame.setRed, Data.setRed])
        · cases f1 with
          | L p dp sp =>
            simp only [fill_cons, Frame.plug]
            exact fill_entries_congr _ (by simp [Data.setRed])
          | R sp p dp =>
            simp only [fill_cons, Frame.plug]
            exact fill_entries_congr _ (by simp [Data.setRed])
    · rfl

/-- In-order sequence after `RBTreeInsert`: the new node goes into the place the
descent found. -/
theorem Tree.insert_entries (cmp : Int → Int → Int) (T : Tree) (x : Nat) (key info : Int) :
    T.entries = (descend cmp key T []).before ++ (descend cmp key T []).after ∧
    (T.insert cmp w x key info).entries =
      (descend cmp key T []).before ++ (x, key, info) :: (descend cmp key T []).after := by
  constructor
  · have := congrArg Tree.entries (descend_fill cmp key T [])
    rw [entries_fill] at this
    simpa using this.symm
  · simp [Tree.insert, insFix_entries, entries_fill]

theorem delCaseL_entries {t : Tree} {p : Nat} {dp : Data} {ws : Tree} {b : Bool} {s : Tree}
    (h : delCaseL w t p dp ws = some (b, s)) : s.entries = (Tree.node t p dp ws).entries := by
  cases ws with
  | leaf => simp [delCaseL] at h
  | node wl wa wd wr =>
    simp only [delCaseL] at h
    split at h
    · simp only [Option.some.injEq, Prod.mk.injEq] at h
      rw [← h.2]; simp [Data.setRed]
    · split at h
      · split at h
        · exact absurd h (by simp)
        · next wl' wa' wd' wr' heq =>
          simp only [Option.some.injEq, Prod.mk.injEq] at h
          have := congrArg Tree.entries heq
          simp only [Tree.rotR_entries] at this
          rw [← h.2]
          simp [Data.setRed] at this ⊢
          rw [← this]
      · simp only [Option.some.injEq, Prod.mk.injEq] at h
        rw [← h.2]; simp [Data.setRed]

theorem delCaseR_entries {t : Tree} {p : Nat} {dp : Data} {ws : Tree} {b : Bool} {s : Tree}
    (h : delCaseR w t p dp ws = some (b, s)) : s.entries = (Tree.node ws p dp t).entries := by
  cases ws with
  | leaf => simp [delCaseR] at h
  | node wl wa wd wr =>
    simp only [delCaseR] at h
    split at h
    · simp only [Option.some.injEq, Prod.mk.injEq] at h
      rw [← h.2]; simp [Data.setRed]
    · split at h
      · split at h
        · exact absurd h (by simp)
        · next wl' wa' wd' wr' heq =>
          simp only [Option.some.injEq, Prod.mk.injEq] at h
          have := congrArg Tree.entries heq
          simp only [Tree.rotL_entries] at this
          rw [← h.2]
          simp [Data.setRed] at this ⊢
          have e := congrArg (fun x => x ++ (p, dp.key, dp.info) :: t.entries) this
          simpa using e.symm
      · simp only [Option.some.injEq, Prod.mk.injEq] at h
        rw [← h.2]; simp [Data.setRed]

end Entries

end RBTree


namespace RBTree

section DelEntries

variable (w : Int → Int)

/-- The repair loop of deletion keeps the in-order sequence. -/
theorem delFix_entries (p : Path) (t : Tree) {T' : Tree} (h : delFix w p t = some T') :
    T'.entries = (fill p t).entries := by
  induction p generalizing t T' with
  | nil =>
    simp only [delFix, Option.some.injEq] at h
    rw [← h]; simp
  | cons f rest ih =>
    cases f with
    | L p dp ws =>
      simp only [delFix] at h
      split at h
      · simp only [Option.some.injEq] at h
        rw [← h]; exact fill_entries_congr _ (by simp)
      · cases ws with
        | leaf => exact absurd h (by simp)
        | node wl wa wd wr =>
          simp only at h
          split at h
          · split at h
            · exact absurd h (by simp)
            · next s hc =>
              simp only [Option.some.injEq] at h
              have := delCaseL_entries w hc
              rw [← h]
              simp only [fill_cons, Frame.plug]
              exact fill_entries_congr _ (by simp [this, Data.setRed, Data.setCh])
            · next s hc =>
              simp only [Option.some.injEq] at h
              have := delCaseL_entries w hc
              rw [← h]
              simp only [fill_cons, Frame.plug]
              exact fill_entries_congr _ (by simp [this, Data.setRed, Data.setCh])
          · split at h
            · exact absurd h (by simp)
            · next s hc =>
              rw [ih _ h]
              exact fill_entries_congr _ (delCaseL_entries w hc)
            · next s hc =>
              simp only [Option.some.injEq] at h
              rw [← h]
              exact fill_entries_congr _ (delCaseL_entries w hc)
    | R ws p dp =>
      simp only [delFix] at h
      split at h
      · simp only [Option.some.injEq] at h
        rw [← h]; exact fill_entries_congr _ (by simp)
      · cases ws with
        | leaf => exact absurd h (by simp)
        | node wl wa wd wr =>
          simp only at h
          split at h
          · split at h
            · exact absurd h (by simp)
            · next s hc =>
              simp only [Option.some.injEq] at h
              have := delCaseR_entries w hc
              rw [← h]
              simp only [fill_cons, Frame.plug]
              exact fill_entries_congr _ (by simp [this, Data.setRed, Data.setCh])
            · next s hc =>
              simp only [Option.some.injEq] at h
              have := delCaseR_entries w hc
              rw [← h]
              simp only [fill_cons, Frame.plug]
              exact fill_entries_congr _ (by simp [this, Data.setRed, Data.setCh])
          · split at h
            · exact absurd h (by simp)
            · next s hc =>
              rw [ih _ h]
              exact fill_entries_congr _ (delCaseR_entries w hc)
            · next s hc =>
              simp only [Option.some.injEq] at h
              rw [← h]
              exact fill_entries_congr _ (delCaseR_entries w hc)

theorem spliceFix_entries {red : Bool} {p : Path} {xt : Tree} {v : Int} {T' : Tree}
    (h : spliceFix w red p xt v = some T') : T'.entries = (fill p xt).entries := by
  unfold spliceFix at h
  split at h
  · simp only [Option.some.injEq] at h
    rw [← h, fill_addCh_entries]
  · rw [delFix_entries w _ _ h, fill_addCh_entries]

/-- The search for an address returns a position of the same tree. -/
theorem Tree.find_fill {z : Nat} (t : Tree) (p : Path) {q : Path} {s : Tree}
    (h : Tree.find z t p = some (q, s)) :
    fill q s = fill p t ∧ ∃ l d r, s = .node l z d r := by
  induction t generalizing p with
  | leaf => simp [Tree.find] at h
  | node l a d r ihl ihr =>
    simp only [Tree.find] at h
    split at h
    · next ha =>
      simp only [Option.some.injEq, Prod.mk.injEq] at h
      rw [← h.1, ← h.2, ← ha]
      exact ⟨rfl, _, _, _, rfl⟩
    · split at h
      · next res hres =>
        simp only [Option.some.injEq] at h
        rw [h] at hres
        exact ihl _ hres
      · exact ihr _ h

/-- Every address of the tree is found. -/
theorem Tree.find_some {z : Nat} (t : Tree) (p : Path) (hz : z ∈ t.addrs) :
    ∃ q s, Tree.find z t p = some (q, s) := by
  induction t generalizing p with
  | leaf => simp at hz
  | node l a d r ihl ihr =>
    simp only [Tree.find]
    split
    · exact ⟨_, _, rfl⟩
    · next ha =>
      simp only [addrs_node, List.mem_append, List.mem_cons] at hz
      by_cases hl : z ∈ l.addrs
      · obtain ⟨q, s, e⟩ := ihl (.L a d r :: p) hl
        rw [e]; exact ⟨_, _, rfl⟩
      · have hr : z ∈ r.addrs := by
          rcases hz with h | h | h
          · exact absurd h hl
          · exact absurd h.symm ha
          · exact h
        cases e : Tree.find z l (.L a d r :: p) with
        | some res => exact ⟨res.1, res.2, rfl⟩
        | none => exact ihr _ hr

/-- The leftmost node of a subtree, as a position of the same tree: nothing of the
subtree precedes it. -/
theorem splitMin_fill (t : Tree) (p : Path) {py : Path} {y : Nat} {dy : Data} {yr : Tree}
    (h : splitMin t p = some (py, y, dy, yr)) :
    fill py (.node .leaf y dy yr) = fill p t ∧ py.before = p.before := by
  induction t generalizing p with
  | leaf => simp [splitMin] at h
  | node l a d r ihl _ =>
    cases l with
    | leaf =>
      simp only [splitMin, Option.some.injEq, Prod.mk.injEq] at h
      obtain ⟨rfl, rfl, rfl, rfl⟩ := h
      exact ⟨rfl, rfl⟩
    | node ll la ld lr =>
      simp only [splitMin] at h
      obtain ⟨h1, h2⟩ := ihl _ h
      exact ⟨h1, h2⟩

theorem splitMin_some (t : Tree) (p : Path) (ht : t.isLeaf = false) :
    ∃ py y dy yr, splitMin t p = some (py, y, dy, yr) := by
  induction t generalizing p with
  | leaf => simp [Tree.isLeaf] at ht
  | node l a d r ihl _ =>
    cases l with
    | leaf => exact ⟨_, _, _, _, rfl⟩
    | node ll la ld lr =>
      simp only [splitMin]
      exact ihl _ rfl

end DelEntries

end RBTree

namespace RBTree
variable {tree : rb_red_blk_tree}

theorem KeysEq.refl (m : Mem) : KeysEq m m := fun _ => ⟨rfl, rfl⟩
theorem KeysEq.trans {m1 m2 m3 : Mem} (h1 : KeysEq m1 m2) (h2 : KeysEq m2 m3) : KeysEq m1 m3 :=
  fun a => ⟨(h2 a).1.trans (h1 a).1, (h2 a).2.trans (h1 a).2⟩
theorem KeysEq_setRed (m : Mem) (a : Nat) (v : Bool) : KeysEq m (setRed m a v) :=
  fun _ => ⟨setRed_key _ _ _ _, setRed_info _ _ _ _⟩
theorem KeysEq_setLeft (m : Mem) (a : Nat) (v : Nat) : KeysEq m (setLeft m a v) :=
  fun _ => ⟨setLeft_key _ _ _ _, setLeft_info _ _ _ _⟩
theorem KeysEq_setRight (m : Mem) (a : Nat) (v : Nat) : KeysEq m (setRight m a v) :=
  fun _ => ⟨setRight_key _ _ _ _, setRight_info _ _ _ _⟩
theorem KeysEq_setParent (m : Mem) (a : Nat) (v : Nat) : KeysEq m (setParent m a v) :=
  fun _ => ⟨setParent_key _ _ _ _, setParent_info _ _ _ _⟩
theorem KeysEq_setChildren (m : Mem) (a : Nat) (v : Int) : KeysEq m (setChildren m a v) :=
  fun _ => ⟨setChildren_key _ _ _ _, setChildren_info _ _ _ _⟩

theorem KeysEq_leftRotate (m : Mem) (x : Nat) : KeysEq m (LeftRotate tree m x) := by
  intro a
  simp only [LeftRotate, TreeUpdateSum]
  constructor
  · simp only [setChildren_key, setParent_key, setLeft_key]
    split <;> simp <;> split <;> simp
  · simp only [setChildren_info, setParent_info, setLeft_info]
    split <;> simp <;> split <;> simp

theorem KeysEq_rightRotate (m : Mem) (x : Nat) : KeysEq m (RightRotate tree m x) := by
  intro a
  simp only [RightRotate, TreeUpdateSum]
  constructor
  · simp only [setChildren_key, setParent_key, setRight_key]
    split <;> simp <;> split <;> simp
  · simp only [setChildren_info, setParent_info, setRight_info]
    split <;> simp <;> split <;> simp

theorem KeysEq_case1L (m : Mem) (a b c : Nat) (u v : Bool) :
    KeysEq m (LeftRotate tree (setRed (setRed m a u) b v) c) :=
  ((KeysEq_setRed _ _ _).trans (KeysEq_setRed _ _ _)).trans (KeysEq_leftRotate _ _)

theorem KeysEq_case1R (m : Mem) (a b c : Nat) (u v : Bool) :
    KeysEq m (RightRotate tree (setRed (setRed m a u) b v) c) :=
  ((KeysEq_setRed _ _ _).trans (KeysEq_setRed _ _ _)).trans (KeysEq_rightRotate _ _)

theorem KeysEq_case4L (m : Mem) (a b c d : Nat) (u v w : Bool) :
    KeysEq m (LeftRotate tree (setRed (setRed (setRed m a u) b v) c w) d) :=
  (((KeysEq_setRed _ _ _).trans (KeysEq_setRed _ _ _)).trans (KeysEq_setRed _ _ _)).trans
    (KeysEq_leftRotate _ _)

theorem KeysEq_case4R (m : Mem) (a b c d : Nat) (u v w : Bool) :
    KeysEq m (RightRotate tree (setRed (setRed (setRed m a u) b v) c w) d) :=
  (((KeysEq_setRed _ _ _).trans (KeysEq_setRed _ _ _)).trans (KeysEq_setRed _ _ _)).trans
    (KeysEq_rightRotate _ _)

theorem delLoop_keys (root : Nat) (fuel : Nat) (m : Mem) (x : Nat) {m' : Mem} {x' : Nat}
    (h : RBDeleteFixUp.loop tree root fuel m x = some (m', x')) : KeysEq m m' := by
  induction fuel generalizing m x with
  | zero => simp [RBDeleteFixUp.loop] at h
  | succ n ih =>
    simp only [RBDeleteFixUp.loop] at h
    split at h
    · split at h
      · split at h
        · split at h
          · exact ((KeysEq_case1L _ _ _ _ _ _).trans (KeysEq_setRed _ _ _)).trans (ih _ _ h)
          · split at h
            · exact (((KeysEq_case1L _ _ _ _ _ _).trans (KeysEq_case1R _ _ _ _ _ _)).trans
                (KeysEq_case4L _ _ _ _ _ _ _ _)).trans (ih _ _ h)
            · exact ((KeysEq_case1L _ _ _ _ _ _).trans
                (KeysEq_case4L _ _ _ _ _ _ _ _)).trans (ih _ _ h)
        · split at h
          · exact (KeysEq_setRed _ _ _).trans (ih _ _ h)
          · split at h
            · exact ((KeysEq_case1R _ _ _ _ _ _).trans
                (KeysEq_case4L _ _ _ _ _ _ _ _)).trans (ih _ _ h)
            · exact (KeysEq_case4L _ _ _ _ _ _ _ _).trans (ih _ _ h)
      · split at h
        · split at h
          · exact ((KeysEq_case1R _ _ _ _ _ _).trans (KeysEq_setRed _ _ _)).trans (ih _ _ h)
          · split at h
            · exact (((KeysEq_case1R _ _ _ _ _ _).trans (KeysEq_case1L _ _ _ _ _ _)).trans
                (KeysEq_case4R _ _ _ _ _ _ _ _)).trans (ih _ _ h)
            · exact ((KeysEq_case1R _ _ _ _ _ _).trans
                (KeysEq_case4R _ _ _ _ _ _ _ _)).trans (ih _ _ h)
        · split at h
          · exact (KeysEq_setRed _ _ _).trans (ih _ _ h)
          · split at h
            · exact ((KeysEq_case1L _ _ _ _ _ _).trans
                (KeysEq_case4R _ _ _ _ _ _ _ _)).trans (ih _ _ h)
            · exact (KeysEq_case4R _ _ _ _ _ _ _ _).trans (ih _ _ h)
    · simp only [Option.some.injEq, Prod.mk.injEq] at h
      rw [← h.1]; exact KeysEq.refl _

theorem RBDeleteFixUp_keys (fuel : Nat) (m : Mem) (x : Nat) {m' : Mem}
    (h : RBDeleteFixUp fuel tree m x = some m') : KeysEq m m' := by
  simp only [RBDeleteFixUp] at h
  split at h
  · exact absurd h (by simp)
  · next m1 x1 h1 =>
    simp only [Option.some.injEq] at h
    rw [← h]
    exact (delLoop_keys _ _ _ _ h1).trans (KeysEq_setRed _ _ _)

theorem delPropagate_keys (d : Int) (fuel : Nat) (m : Mem) (x : Nat) {m' : Mem}
    (h : RBDelete.propagate tree d fuel m x = some m') : KeysEq m m' := by
  induction fuel generalizing m x with
  | zero => simp [RBDelete.propagate] at h
  | succ n ih =>
    simp only [RBDelete.propagate] at h
    split at h
    · exact (KeysEq_setChildren _ _ _).trans (ih _ _ h)
    · simp only [Option.some.injEq] at h
      rw [← h]; exact KeysEq.refl _

theorem KeysEq_ite (c : Prop) [Decidable c] {m m1 m2 : Mem} (h1 : KeysEq m m1)
    (h2 : KeysEq m m2) : KeysEq m (if c then m1 else m2) := by
  split
  · exact h1
  · exact h2

/-- A path is no longer than the tree it leads through. -/
theorem fill_size_le (p : Path) (t : Tree) : p.length + t.size ≤ (fill p t).size := by
  induction p generalizing t with
  | nil => simp
  | cons f p ih =>
    have := ih (f.plug t)
    cases f <;> simp only [fill_cons, Frame.plug, Tree.size, List.length_cons] at this ⊢ <;> omega

/-- The last frame of a path is the real root. -/
theorem topBlack_of_fill (p : Path) (t : Tree) (h : (fill p t).isRed = false) (hp : p ≠ []) :
    Path.topBlack p := by
  induction p generalizing t with
  | nil => exact absurd rfl hp
  | cons f p ih =>
    rcases p with _ | ⟨g, p⟩
    · cases f <;> exact h
    · exact ih (f.plug t) h (by simp)

theorem Tree.addr_eq_nil_iff {nil : Nat} {t : Tree} (h : ∀ a ∈ t.addrs, nil ≠ a) :
    t.addr nil = nil ↔ t.isLeaf = true := by
  cases t with
  | leaf => simp [Tree.isLeaf]
  | node l a d r =>
    simp only [Tree.addr_node, Tree.isLeaf, Bool.false_eq_true, iff_false]
    exact fun e => h a (by simp) e.symm

end RBTree

namespace RBTree
section DeleteSpec

variable {tree : rb_red_blk_tree} {m : Mem}

/-- `RBDelete` of a node with at most one child. -/
theorem RBDelete_leaf {pz : Path} {zl zr : Tree} {z : Nat} {dz : Data}
    (h : RepZ tree m pz (.node zl z dz zr)) (htop : Path.topBlack pz)
    (hl : zl.isLeaf = true ∨ zr.isLeaf = true) {T' : Tree}
    (hfix : spliceFix tree.DistFunc dz.red pz (if zl.isLeaf then zr else zl)
      (tree.DistFunc dz.key) = some T')
    (fuel : Nat) (hf : pz.length + 1 < fuel) :
    ∃ m', RBDelete fuel tree m z = some m' ∧ RepTree tree m' T' ∧ KeysEq m m' := by
  have hc := h.cell
  obtain ⟨hnr, hnn, hnt, -⟩ := h.nodup'
  have hnl : ∀ a ∈ zl.addrs, tree.nil ≠ a := fun a ha => (hnn a (Or.inr (Or.inl (by simp [ha])))).1
  have hnr' : ∀ a ∈ zr.addrs, tree.nil ≠ a := fun a ha => (hnn a (Or.inr (Or.inl (by simp [ha])))).1
  have hzl : (m z).left = zl.addr tree.nil := by rw [hc]; rfl
  have hzr : (m z).right = zr.addr tree.nil := by rw [hc]; rfl
  have hcond : (m z).left = tree.nil ∨ (m z).right = tree.nil := by
    rw [hzl, hzr, Tree.addr_eq_nil_iff hnl, Tree.addr_eq_nil_iff hnr']
    exact hl
  have hx : (if (m z).left = tree.nil then (m z).right else (m z).left) =
      (if zl.isLeaf then zr else zl).addr tree.nil := by
    rw [hzl, hzr]
    by_cases e : zl.isLeaf = true
    · rw [if_pos ((Tree.addr_eq_nil_iff hnl).2 e), if_pos e]
    · rw [if_neg (fun e' => e ((Tree.addr_eq_nil_iff hnl).1 e')), if_neg e]
  have hxt : (zl = .leaf ∧ (if zl.isLeaf then zr else zl) = zr) ∨
      (zr = .leaf ∧ (if zl.isLeaf then zr else zl) = zl) := by
    cases zl with
    | leaf => exact Or.inl ⟨rfl, rfl⟩
    | node a b c d =>
      cases zr with
      | leaf => exact Or.inr ⟨rfl, rfl⟩
      | node a b c d => simp [Tree.isLeaf] at hl
  obtain ⟨m1, hp1, h1⟩ := delPropagate_spec (-(tree.DistFunc dz.key)) pz _ m h fuel (by omega)
  have h1c := h1.cell
  have hK1 := delPropagate_keys _ _ _ _ hp1
  have hzp : (m z).parent = Path.addr tree.root pz := by rw [hc]; rfl
  have hzk : (m z).key = dz.key := by rw [hc]; rfl
  have h1p : (m1 z).parent = Path.addr tree.root pz := by
    rw [h1c]; exact Path.addCh_addr _ _ _
  obtain ⟨h2, h2p, h2z⟩ := h1.splice hxt
  rw [Path.addCh_addr] at h2 h2p h2z
  generalize hxe : (if zl.isLeaf then zr else zl) = xt at *
  have e1 : (if (m z).left = tree.nil ∨ (m z).right = tree.nil then some z
      else TreeSuccessor fuel tree m z) = some z := if_pos hcond
  have hzx : z ≠ xt.addr tree.nil := by
    rcases hxt with ⟨rfl, rfl⟩ | ⟨rfl, rfl⟩
    · refine (Tree.addr_ne (hnn z (Or.inr (Or.inl (by simp)))).1 ?_).symm
      simp only [addrs_node, addrs_leaf, List.nil_append, List.nodup_cons] at hnt
      exact hnt.1
    · refine (Tree.addr_ne (hnn z (Or.inr (Or.inl (by simp)))).1 ?_).symm
      simp only [addrs_node, addrs_leaf, List.nodup_append, List.nodup_cons,
        List.disjoint_left, List.mem_cons, List.not_mem_nil, or_false] at hnt
      exact fun e => hnt.2.2 e rfl
  obtain ⟨M2, hM2⟩ : ∃ M2, M2 = (if tree.root = Path.addr tree.root pz then
        setLeft (setParent m1 (xt.addr tree.nil) (Path.addr tree.root pz)) tree.root
          (xt.addr tree.nil)
      else if z = (setParent m1 (xt.addr tree.nil) (Path.addr tree.root pz)
          (Path.addr tree.root pz)).left then
        setLeft (setParent m1 (xt.addr tree.nil) (Path.addr tree.root pz))
          (Path.addr tree.root pz) (xt.addr tree.nil)
      else
        setRight (setParent m1 (xt.addr tree.nil) (Path.addr tree.root pz))
          (Path.addr tree.root pz) (xt.addr tree.nil)) := ⟨_, rfl⟩
  have hK2 : KeysEq m1 M2 := by
    rw [hM2]
    exact KeysEq_ite _ ((KeysEq_setParent _ _ _).trans (KeysEq_setLeft _ _ _))
      (KeysEq_ite _ ((KeysEq_setParent _ _ _).trans (KeysEq_setLeft _ _ _))
        ((KeysEq_setParent _ _ _).trans (KeysEq_setRight _ _ _)))
  rw [← hM2] at h2 h2p h2z
  simp only [RBDelete, RBDelete.splice, e1, hx, hzk, hzp, hp1, h1p, setParent_parent_same,
    setParent_parent_ne _ _ _ _ hzx, ne_eq, not_true_eq_false, if_false, ← hM2]
  have hred : (M2 z).red = dz.red := by rw [h2z, h1c]; rfl
  rw [hred]
  unfold spliceFix at hfix
  cases hr : dz.red with
  | true =>
    rw [hr] at hfix
    simp only [if_true, Option.some.injEq] at hfix
    simp only [Bool.not_true, Bool.false_eq_true, if_false]
    exact ⟨M2, rfl, hfix ▸ h2.top, hK1.trans hK2⟩
  | false =>
    rw [hr] at hfix
    simp only [Bool.false_eq_true, if_false] at hfix
    simp only [Bool.not_false, if_true]
    obtain ⟨m3, h3, h3r⟩ := RBDeleteFixUp_spec h2 (by rw [h2p, Path.addCh_addr])
      (Path.addCh_topBlack _ _ htop) hfix fuel (by rw [Path.addCh_length]; exact hf)
    exact ⟨m3, h3, h3r, (hK1.trans hK2).trans (RBDeleteFixUp_keys _ _ _ h3)⟩
/-- The block that moves `y` into the position of `z`. -/
theorem replace_spec {p : Path} {l r : Tree} {z y : Nat} {dz : Data}
    (h : RepZ tree m p (.node l z dz r))
    (hyn : tree.nil ≠ y) (hyr : tree.root ≠ y) (hy : y ∉ (fill p (.node l z dz r)).addrs)
    (v : Int) :
    RepZ tree (RBDelete.replace tree m y z v) p
      (.node l y ⟨(m y).key, (m y).info, dz.red, l.ch + r.ch + v⟩ r) ∧
    (RBDelete.replace tree m y z v y).parent = Path.addr tree.root p ∧
    KeysEq m (RBDelete.replace tree m y z v) := by
  have hc := h.cell
  obtain ⟨hnr, hnn, hnt, -⟩ := h.nodup'
  have hzm : z ∈ (Tree.node l z dz r).addrs := by simp
  obtain ⟨hnz, hrz, hpz⟩ := h.sub_ne hzm
  have hy' := hy
  rw [addrs_fill] at hy'
  simp only [List.mem_append, not_or, addrs_node, List.mem_cons] at hy'
  obtain ⟨⟨hyb, hyl, hyz, hyr'⟩, hya⟩ := hy'
  have hzy : z ≠ y := fun e => hyz e.symm
  have hpy : Path.addr tree.root p ≠ y := by
    rcases Path.paddr_eq_or tree.root p with e | e | e
    · rw [e]; exact hyr
    · exact fun e' => hyb (e' ▸ e)
    · exact fun e' => hya (e' ▸ e)
  have hly : l.addr tree.nil ≠ y := Tree.addr_ne hyn hyl
  have hry : r.addr tree.nil ≠ y := Tree.addr_ne hyn hyr'
  have hnt' := hnt
  simp only [addrs_node, List.nodup_append, List.nodup_cons, List.disjoint_left,
    List.mem_cons, not_or] at hnt'
  have hzl' : z ≠ l.addr tree.nil :=
    (Tree.addr_ne hnz (fun e => (hnt'.2.2 e).1 rfl)).symm
  have hzr' : z ≠ r.addr tree.nil := (Tree.addr_ne hnz hnt'.2.1.1).symm
  obtain ⟨-, -, -, hpl⟩ := h.addr_not_path (s := l) (fun a ha => by simp [ha])
  obtain ⟨-, -, -, hpr⟩ := h.addr_not_path (s := r) (fun a ha => by simp [ha])
  have hzl : (m z).left = l.addr tree.nil := by rw [hc]; rfl
  have hzr : (m z).right = r.addr tree.nil := by rw [hc]; rfl
  have hzp : (m z).parent = Path.addr tree.root p := by rw [hc]; rfl
  have hzred : (m z).red = dz.red := by rw [hc]; rfl
  have hlch : (m (l.addr tree.nil)).children = l.ch := Rep.ch_eq h.sub.2.1 h.nilc
  have hrch : (m (r.addr tree.nil)).children = r.ch := Rep.ch_eq h.sub.2.2 h.nilc
  obtain ⟨m5, hm5⟩ : ∃ m5, m5 = setChildren (setRed (setParent (setRight (setLeft m y
      (l.addr tree.nil)) y (r.addr tree.nil)) y (Path.addr tree.root p)) y dz.red) y
      (l.ch + r.ch + v) := ⟨_, rfl⟩
  have h5y : m5 y = mkCell ⟨(m y).key, (m y).info, dz.red, l.ch + r.ch + v⟩ (l.addr tree.nil)
      (r.addr tree.nil) (Path.addr tree.root p) := by
    rw [hm5]
    simp [setChildren, setRed, setParent, setRight, setLeft, upd, mkCell]
  have h5o : ∀ b, b ≠ y → m5 b = m b := by
    intro b hb
    rw [hm5]
    simp only [setChildren, setRed, setParent, setRight, setLeft, upd_ne _ _ _ _ hb]
  have hE : RBDelete.replace tree m y z v =
      relink m (setParent (setParent m5 (r.addr tree.nil) y) (l.addr tree.nil) y)
        (Path.addr tree.root p) z y := by
    simp only [RBDelete.replace, relink, hzl, hzr, hzp, hzred, setLeft_right, setRight_parent,
      setLeft_parent, setParent_red, setRight_red, setLeft_red,
      setRed_left, setParent_left, setRight_left, setLeft_left_same,
      setRed_right, setParent_right, setRight_right_same,
      setRed_children, setParent_children, setRight_children, setLeft_children,
      hlch, hrch, ← hm5]
    simp only [h5o z hzy, hzl, hzr, hzp, setParent_parent_ne _ _ _ _ hzl',
      setParent_parent_ne _ _ _ _ hzr', h5o _ hpy]
    by_cases e : (m (Path.addr tree.root p)).left = z
    · rw [if_pos e.symm, if_pos e]
    · rw [if_neg (fun e' => e e'.symm), if_neg e]
  have hR := h.replace hyn hyr hy _ h5y h5o
  rw [← hE] at hR
  refine ⟨hR, ?_, ?_⟩
  · have := hR.cell
    rw [this]; rfl
  · unfold RBDelete.replace
    exact ((((((((KeysEq_setLeft _ _ _).trans (KeysEq_setRight _ _ _)).trans
      (KeysEq_setParent _ _ _)).trans (KeysEq_setRed _ _ _)).trans
      (KeysEq_setChildren _ _ _)).trans (KeysEq_setParent _ _ _)).trans
      (KeysEq_setParent _ _ _)).trans
      (KeysEq_ite _ (KeysEq_setLeft _ _ _) (KeysEq_setRight _ _ _)))
theorem splitMin_mem (t : Tree) (p : Path) {py : Path} {y : Nat} {dy : Data} {yr : Tree}
    (h : splitMin t p = some (py, y, dy, yr)) : y ∈ t.addrs := by
  induction t generalizing p with
  | leaf => simp [splitMin] at h
  | node l a d r ihl _ =>
    cases l with
    | leaf =>
      simp only [splitMin, Option.some.injEq, Prod.mk.injEq] at h
      obtain ⟨-, rfl, -, -⟩ := h
      simp
    | node ll la ld lr =>
      simp only [splitMin] at h
      have := ihl _ h
      simp only [addrs_node, List.mem_append, List.mem_cons] at this ⊢
      exact Or.inl this

theorem splitMin_length (t : Tree) (p : Path) {py : Path} {y : Nat} {dy : Data} {yr : Tree}
    (h : splitMin t p = some (py, y, dy, yr)) : p.length ≤ py.length := by
  induction t generalizing p with
  | leaf => simp [splitMin] at h
  | node l a d r ihl _ =>
    cases l with
    | leaf =>
      simp only [splitMin, Option.some.injEq, Prod.mk.injEq] at h
      obtain ⟨rfl, -, -, -⟩ := h
      exact le_rfl
    | node ll la ld lr =>
      simp only [splitMin] at h
      have := ihl _ h
      simp only [List.length_cons] at this
      omega

theorem Tree.size_eq (t : Tree) : t.size = t.entries.length := by
  induction t with
  | leaf => rfl
  | node l a d r ihl ihr => simp [Tree.size, ihl, ihr]; omega

/-- `RBDelete` of a node with two children: its successor is spliced out and put
into its place. -/
theorem RBDelete_two {pz : Path} {zl zr : Tree} {z : Nat} {dz : Data}
    (h : RepZ tree m pz (.node zl z dz zr)) (hblack : (fill pz (.node zl z dz zr)).isRed = false)
    (hl : zl.isLeaf = false) (hr : zr.isLeaf = false)
    {py : Path} {y : Nat} {dy : Data} {yr : Tree}
    (hs : splitMin zr (.R zl z dz :: pz) = some (py, y, dy, yr))
    {T2 : Tree} (hfix : spliceFix tree.DistFunc dy.red py yr (tree.DistFunc dy.key) = some T2)
    {pz2 : Path} {l2 r2 : Tree} {z' : Nat} {dz2 : Data}
    (hfind : T2.find z [] = some (pz2, .node l2 z' dz2 r2))
    (fuel : Nat) (hf : (fill pz (.node zl z dz zr)).size + 2 ≤ fuel) :
    ∃ m', RBDelete fuel tree m z = some m' ∧
      RepTree tree m' (fill (Path.addCh (tree.DistFunc dy.key - tree.DistFunc dz.key) pz2)
        (.node l2 y ⟨dy.key, dy.info, dz2.red, l2.ch + r2.ch + tree.DistFunc dy.key⟩ r2)) ∧
      KeysEq m m' := by
  have hc := h.cell
  obtain ⟨hnr, hnn, hnt, -⟩ := h.nodup'
  have hnl : ∀ a ∈ zl.addrs, tree.nil ≠ a := fun a ha => (hnn a (Or.inr (Or.inl (by simp [ha])))).1
  have hnr' : ∀ a ∈ zr.addrs, tree.nil ≠ a := fun a ha => (hnn a (Or.inr (Or.inl (by simp [ha])))).1
  have hzl : (m z).left = zl.addr tree.nil := by rw [hc]; rfl
  have hzr : (m z).right = zr.addr tree.nil := by rw [hc]; rfl
  have hzk : (m z).key = dz.key := by rw [hc]; rfl
  have hzln : (m z).left ≠ tree.nil := by
    rw [hzl, Ne, Tree.addr_eq_nil_iff hnl, hl]; simp
  have hzrn : (m z).right ≠ tree.nil := by
    rw [hzr, Ne, Tree.addr_eq_nil_iff hnr', hr]; simp
  have hsz := fill_size_le pz (.node zl z dz zr)
  simp only [Tree.size] at hsz
  -- the successor
  obtain ⟨hdown, hy, hylen⟩ := succDown_spec zr (.R zl z dz :: pz) (RepZ.down (f := .R zl z dz) h) hs fuel (by omega)
  obtain ⟨hfy, -⟩ := splitMin_fill _ _ hs
  simp only [fill_cons, Frame.plug] at hfy
  have e1 : (if (m z).left = tree.nil ∨ (m z).right = tree.nil then some z
      else TreeSuccessor fuel tree m z) = some y := by
    rw [if_neg (by simp [hzln, hzrn])]
    simp only [TreeSuccessor]
    rw [if_pos hzrn.symm, hzr, hdown]
  have hyc := hy.cell
  have hyl : (m y).left = tree.nil := by rw [hyc]; rfl
  have hyr : (m y).right = yr.addr tree.nil := by rw [hyc]; rfl
  have hyp : (m y).parent = Path.addr tree.root py := by rw [hyc]; rfl
  have hyk : (m y).key = dy.key := by rw [hyc]; rfl
  have hyi : (m y).info = dy.info := by rw [hyc]; rfl
  have hpylen : py.length + 1 ≤ (fill pz (.node zl z dz zr)).size := by
    have := fill_size_le py (.node .leaf y dy yr)
    rw [hfy] at this
    simp only [Tree.size] at this
    omega
  obtain ⟨m1, hp1, h1⟩ := delPropagate_spec (-(tree.DistFunc dy.key)) py _ m hy fuel (by omega)
  have h1c := h1.cell
  have hK1 := delPropagate_keys _ _ _ _ hp1
  have h1p : (m1 y).parent = Path.addr tree.root py := by
    rw [h1c]; exact Path.addCh_addr _ _ _
  obtain ⟨h2, h2p, h2y⟩ := h1.splice (u := yr) (Or.inl ⟨rfl, rfl⟩)
  rw [Path.addCh_addr] at h2 h2p h2y
  have hyx : y ≠ yr.addr tree.nil := by
    obtain ⟨-, hnn1, hnt1, -⟩ := hy.nodup'
    refine (Tree.addr_ne (hnn1 y (Or.inr (Or.inl (by simp)))).1 ?_).symm
    simp only [addrs_node, addrs_leaf, List.nil_append, List.nodup_cons] at hnt1
    exact hnt1.1
  obtain ⟨M2, hM2⟩ : ∃ M2, M2 = (if tree.root = Path.addr tree.root py then
        setLeft (setParent m1 (yr.addr tree.nil) (Path.addr tree.root py)) tree.root
          (yr.addr tree.nil)
      else if y = (setParent m1 (yr.addr tree.nil) (Path.addr tree.root py)
          (Path.addr tree.root py)).left then
        setLeft (setParent m1 (yr.addr tree.nil) (Path.addr tree.root py))
          (Path.addr tree.root py) (yr.addr tree.nil)
      else
        setRight (setParent m1 (yr.addr tree.nil) (Path.addr tree.root py))
          (Path.addr tree.root py) (yr.addr tree.nil)) := ⟨_, rfl⟩
  have hK2 : KeysEq m1 M2 := by
    rw [hM2]
    exact KeysEq_ite _ ((KeysEq_setParent _ _ _).trans (KeysEq_setLeft _ _ _))
      (KeysEq_ite _ ((KeysEq_setParent _ _ _).trans (KeysEq_setLeft _ _ _))
        ((KeysEq_setParent _ _ _).trans (KeysEq_setRight _ _ _)))
  rw [← hM2] at h2 h2p h2y
  have hyz : y ≠ z := by
    have hym : y ∈ zr.addrs := splitMin_mem _ _ hs
    simp only [addrs_node, List.nodup_append, List.nodup_cons] at hnt
    rintro rfl
    exact hnt.2.1.1 hym
  simp only [RBDelete, RBDelete.splice, e1, hyl, hyr, hyk, hyp, hp1, h1p, setParent_parent_same,
    setParent_parent_ne _ _ _ _ hyx, ne_eq, hyz, not_false_eq_true, if_true, ← hM2]
  have hred : (M2 y).red = dy.red := by rw [h2y, h1c]; rfl
  have hM2z : (M2 z).key = dz.key := by rw [((hK1.trans hK2) z).1, hzk]
  rw [hred, hM2z]
  obtain ⟨m3, hm3, h3, hK3⟩ : ∃ m3, (if (!dy.red) = true then
      RBDeleteFixUp fuel tree M2 (yr.addr tree.nil) else some M2) = some m3 ∧
      RepTree tree m3 T2 ∧ KeysEq M2 m3 := by
    unfold spliceFix at hfix
    cases hr : dy.red with
    | true =>
      rw [hr] at hfix
      simp only [if_true, Option.some.injEq] at hfix
      simp only [Bool.not_true, Bool.false_eq_true, if_false]
      exact ⟨M2, rfl, hfix ▸ h2.top, KeysEq.refl _⟩
    | false =>
      rw [hr] at hfix
      simp only [Bool.false_eq_true, if_false] at hfix
      simp only [Bool.not_false, if_true]
      have htop : Path.topBlack py := by
        refine topBlack_of_fill py (.node .leaf y dy yr) (hfy ▸ hblack) ?_
        rintro rfl
        have := splitMin_length _ _ hs
        simp at this
      obtain ⟨m3, h3, h3r⟩ := RBDeleteFixUp_spec h2 (by rw [h2p, Path.addCh_addr])
        (Path.addCh_topBlack _ _ htop) hfix fuel (by rw [Path.addCh_length]; omega)
      exact ⟨m3, h3, h3r, RBDeleteFixUp_keys _ _ _ h3⟩
  rw [hm3]
  simp only
  obtain ⟨hff, l, d, r, e⟩ := Tree.find_fill T2 [] hfind
  simp only [Tree.node.injEq] at e
  obtain ⟨-, rfl, -, -⟩ := e
  simp only [fill_nil] at hff
  have h3z : RepZ tree m3 pz2 (.node l2 z' dz2 r2) := RepZ.ofTop (hff ▸ h3)
  have hT2e := spliceFix_entries _ hfix
  obtain ⟨hyn, hyr0, -⟩ := hy.sub_ne (a := y) (by simp)
  have hyT2 : y ∉ (fill pz2 (.node l2 z' dz2 r2)).addrs := by
    rw [hff, Tree.addrs, hT2e, ← Tree.addrs, addrs_fill]
    have hn := (List.nodup_cons.1 (List.nodup_cons.1 hy.nodup).2).2
    rw [addrs_fill] at hn
    simp only [addrs_node, addrs_leaf, List.nil_append, List.append_assoc,
      List.cons_append] at hn
    have := (List.nodup_middle.1 hn)
    rw [List.nodup_cons] at this
    simpa using this.1
  obtain ⟨hR, hRp, hKR⟩ := replace_spec h3z hyn hyr0 hyT2 (tree.DistFunc dy.key)
  have hK03 : KeysEq m m3 := (hK1.trans hK2).trans hK3
  rw [(hK03 y).1, (hK03 y).2, hyk, hyi] at hR
  have hlen2 : pz2.length < fuel := by
    have h1 := fill_size_le pz2 (.node l2 z' dz2 r2)
    rw [hff, Tree.size_eq T2, hT2e] at h1
    have h2 := congrArg (fun t => t.entries.length) hfy
    simp only [entries_fill, List.length_append, entries_node, entries_leaf,
      List.length_cons, List.length_nil] at h1 h2
    have h3 := Tree.size_eq (fill pz (.node zl z' dz zr))
    rw [entries_fill] at h3
    simp only [List.length_append, entries_node, List.length_cons] at h3
    simp only [Tree.size] at h1
    omega
  obtain ⟨m9, hp9, h9⟩ := delPropagate_spec (tree.DistFunc dy.key - tree.DistFunc dz.key) pz2 _ _
    hR fuel hlen2
  rw [hRp]
  exact ⟨m9, hp9, h9.top, (hK03.trans hKR).trans (delPropagate_keys _ _ _ _ hp9)⟩
/-- `RBDelete` refines the abstract deletion, returns with enough fuel, and leaves every
key and payload where it was. -/
theorem RBDelete_spec {T T' : Tree} (h : RepTree tree m T) (hblack : T.isRed = false)
    {z : Nat} (hdel : Tree.delete tree.DistFunc T z = some T') (fuel : Nat)
    (hf : T.size + 2 ≤ fuel) :
    ∃ m', RBDelete fuel tree m z = some m' ∧ RepTree tree m' T' ∧ KeysEq m m' := by
  unfold Tree.delete at hdel
  split at hdel
  · exact absurd hdel (by simp)
  · exact absurd hdel (by simp)
  · next pz zl a dz zr hfind =>
    obtain ⟨hff, l, d, r, e⟩ := Tree.find_fill T [] hfind
    simp only [Tree.node.injEq] at e
    obtain ⟨-, rfl, -, -⟩ := e
    simp only [fill_nil] at hff
    have hz : RepZ tree m pz (.node zl a dz zr) := RepZ.ofTop (hff ▸ h)
    have hlen := fill_size_le pz (.node zl a dz zr)
    rw [hff] at hlen
    simp only [Tree.size] at hlen
    split at hdel
    · next hl =>
      have htop : Path.topBlack pz := by
        rcases pz with _ | ⟨f, pz⟩
        · trivial
        · exact topBlack_of_fill _ _ (hff ▸ hblack) (by simp)
      exact RBDelete_leaf hz htop hl hdel fuel (by omega)
    · next hl =>
      simp only [not_or, Bool.not_eq_true] at hl
      split at hdel
      · exact absurd hdel (by simp)
      · next py y dy yr hs =>
        split at hdel
        · exact absurd hdel (by simp)
        · next T2 hfix =>
          split at hdel
          · next pz2 l2 z2 dz2 r2 hfind2 =>
            simp only [Option.some.injEq] at hdel
            rw [← hdel]
            exact RBDelete_two hz (hff ▸ hblack) hl.1 hl.2 hs hfix hfind2 fuel
              (by rw [hff]; exact hf)
          · exact absurd hdel (by simp)

end DeleteSpec

end RBTree


namespace RBTree

section AggInv

variable (w : Int → Int)

@[simp] theorem Tree.setRed_ch (t : Tree) (b : Bool) : (t.setRed b).ch = t.ch := by
  cases t <;> rfl

@[simp] theorem Tree.setRed_Agg (t : Tree) (b : Bool) : (t.setRed b).Agg w ↔ t.Agg w := by
  cases t <;> simp [Tree.setRed, Tree.Agg, Data.setRed]

theorem fill_Agg (p : Path) (t : Tree) :
    (fill p t).Agg w ↔ t.Agg w ∧ Path.Agg w p t.ch := by
  induction p generalizing t with
  | nil => simp [Path.Agg]
  | cons f p ih =>
    cases f with
    | L a d r =>
      simp only [fill_cons, Frame.plug, ih, Tree.Agg, Path.Agg, Tree.ch]
      tauto
    | R l a d =>
      simp only [fill_cons, Frame.plug, ih, Tree.Agg, Path.Agg, Tree.ch]
      tauto

theorem Path.addCh_Agg (v : Int) (p : Path) (c : Int) (h : Path.Agg w p c) :
    Path.Agg w (Path.addCh v p) (c + v) := by
  induction p generalizing c with
  | nil => trivial
  | cons f p ih =>
    cases f with
    | L a d r =>
      obtain ⟨h1, h2, h3⟩ := h
      refine ⟨?_, h2, ih _ h3⟩
      simp only [Data.setCh]; omega
    | R l a d =>
      obtain ⟨h1, h2, h3⟩ := h
      refine ⟨?_, h2, ih _ h3⟩
      simp only [Data.setCh]; omega

/-- A left rotation of a subtree that satisfies the aggregate equation keeps the
equation and the aggregate of the subtree. -/
theorem Tree.rotL_Agg {t : Tree} (h : t.Agg w) : (Tree.rotL w t).Agg w ∧ (Tree.rotL w t).ch = t.ch := by
  unfold Tree.rotL
  split
  · simp only [Tree.Agg, Tree.ch] at h
    simp only [Tree.updSum, Tree.Agg, Tree.ch, Data.setCh]
    obtain ⟨h1, h2, h3, h4, h5⟩ := h
    refine ⟨⟨trivial, ⟨trivial, h2, h4⟩, h5⟩, ?_⟩
    omega
  · exact ⟨h, rfl⟩

theorem Tree.rotR_Agg {t : Tree} (h : t.Agg w) : (Tree.rotR w t).Agg w ∧ (Tree.rotR w t).ch = t.ch := by
  unfold Tree.rotR
  split
  · simp only [Tree.Agg, Tree.ch] at h
    simp only [Tree.updSum, Tree.Agg, Tree.ch, Data.setCh]
    obtain ⟨h1, ⟨h2, h3, h4⟩, h5⟩ := h
    refine ⟨⟨trivial, h3, ⟨trivial, h4, h5⟩⟩, ?_⟩
    omega
  · exact ⟨h, rfl⟩

theorem fill_Agg_of (p : Path) (t : Tree) {t' : Tree} (h : (fill p t).Agg w)
    (hc : t'.ch = t.ch) (ha : t.Agg w → t'.Agg w) : (fill p t').Agg w := by
  rw [fill_Agg] at h ⊢
  exact ⟨ha h.1, hc ▸ h.2⟩

theorem fill_Agg_rotL (p : Path) {t : Tree} (h : (fill p t).Agg w) :
    (fill p (Tree.rotL w t)).Agg w :=
  fill_Agg_of w p t h (Tree.rotL_Agg w ((fill_Agg w p t).1 h).1).2
    (fun ht => (Tree.rotL_Agg w ht).1)

theorem fill_Agg_rotR (p : Path) {t : Tree} (h : (fill p t).Agg w) :
    (fill p (Tree.rotR w t)).Agg w :=
  fill_Agg_of w p t h (Tree.rotR_Agg w ((fill_Agg w p t).1 h).1).2
    (fun ht => (Tree.rotR_Agg w ht).1)

theorem fill_Agg_setRed (p : Path) {t : Tree} (b : Bool) (h : (fill p t).Agg w) :
    (fill p (t.setRed b)).Agg w :=
  fill_Agg_of w p t h (Tree.setRed_ch t b) (fun ht => (Tree.setRed_Agg w t b).2 ht)

/-- The repair loop of insertion keeps the aggregate equation. -/
theorem insFix_Agg (p : Path) (t : Tree) (h : (fill p t).Agg w) : (insFix w p t).Agg w := by
  induction' hlen : p.length using Nat.strong_induction_on with len ih generalizing p t
  rcases p with _ | ⟨f1, _ | ⟨f2, rest⟩⟩
  · exact h
  · exact h
  · have hrl : rest.length < len := by simp only [List.length_cons] at hlen; omega
    unfold insFix
    split
    · cases f2 with
      | L g dg u =>
        simp only
        split
        · refine ih _ hrl _ _ ?_ rfl
          refine fill_Agg_of w rest ((Frame.L g dg u).plug (f1.plug t)) h rfl ?_
          cases f1 <;>
            simp only [Frame.plug, Tree.Agg, Tree.setRed_Agg, Tree.setRed_ch, Data.setRed,
              Frame.setRed, Tree.ch_node] <;> exact id
        · cases f1 with
          | L p dp sp =>
            refine fill_Agg_rotR w rest ?_
            refine fill_Agg_of w rest ((Frame.L g dg u).plug ((Frame.L p dp sp).plug t)) h rfl ?_
            simp only [Frame.plug, Tree.Agg, Data.setRed, Tree.ch_node]
            exact id
          | R sp p dp =>
            refine fill_Agg_rotR w rest ?_
            have h1 := fill_Agg_setRed w (Frame.L g dg u :: rest) false
              (fill_Agg_rotL w (Frame.L g dg u :: rest) h)
            refine fill_Agg_of w rest
              (.node ((Tree.rotL w (.node sp p dp t)).setRed false) g dg u) h1 rfl ?_
            simp only [Tree.Agg, Data.setRed]
            exact id
      | R u g dg =>
        simp only
        split
        · refine ih _ hrl _ _ ?_ rfl
          refine fill_Agg_of w rest ((Frame.R u g dg).plug (f1.plug t)) h rfl ?_
          cases f1 <;>
            simp only [Frame.plug, Tree.Agg, Tree.setRed_Agg, Tree.setRed_ch, Data.setRed,
              Frame.setRed, Tree.ch_node] <;> exact id
        · cases f1 with
          | R sp p dp =>
            refine fill_Agg_rotL w rest ?_
            refine fill_Agg_of w rest ((Frame.R u g dg).plug ((Frame.R sp p dp).plug t)) h rfl ?_
            simp only [Frame.plug, Tree.Agg, Data.setRed, Tree.ch_node]
            exact id
          | L p dp sp =>
            refine fill_Agg_rotL w rest ?_
            have h1 := fill_Agg_setRed w (Frame.R u g dg :: rest) false
              (fill_Agg_rotR w (Frame.R u g dg :: rest) h)
            refine fill_Agg_of w rest
              (.node u g dg ((Tree.rotR w (.node t p dp sp)).setRed false)) h1 rfl ?_
            simp only [Tree.Agg, Data.setRed]
            exact id
    · exact h

end AggInv

end RBTree


namespace RBTree

section AggOps

variable (w : Int → Int)

/-- `RBTreeInsert` keeps the aggregate equation (abstract view). -/
theorem Tree.insert_Agg (cmp : Int → Int → Int) (T : Tree) (x : Nat) (key info : Int)
    (h : T.Agg w) : (T.insert cmp w x key info).Agg w := by
  unfold Tree.insert
  rw [Tree.setRed_Agg]
  refine insFix_Agg w _ _ ?_
  rw [fill_Agg]
  refine ⟨by simp [Tree.Agg], ?_⟩
  have h0 : (fill (descend cmp key T []) .leaf).Agg w := by rw [descend_fill]; exact h
  rw [fill_Agg] at h0
  have := Path.addCh_Agg w (w key) _ _ h0.2
  simpa using this

theorem delCaseL_Agg {t : Tree} {p : Nat} {dp : Data} {ws : Tree} {b : Bool} {s : Tree}
    (ha : (Tree.node t p dp ws).Agg w) (h : delCaseL w t p dp ws = some (b, s)) :
    s.Agg w ∧ s.ch = dp.children := by
  cases ws with
  | leaf => simp [delCaseL] at h
  | node wl wa wd wr =>
    simp only [delCaseL] at h
    split at h
    · simp only [Option.some.injEq, Prod.mk.injEq] at h
      rw [← h.2]
      simp only [Tree.Agg, Tree.ch_node, Data.setRed] at ha ⊢
      exact ⟨ha, trivial⟩
    · split at h
      · split at h
        · exact absurd h (by simp)
        · next wl' wa' wd' wr' heq =>
          simp only [Option.some.injEq, Prod.mk.injEq] at h
          rw [← h.2]
          have hw : (Tree.node (wl.setRed false) wa (wd.setRed true) wr).Agg w := by
            simp only [Tree.Agg, Tree.ch_node, Data.setRed, Tree.setRed_ch, Tree.setRed_Agg] at ha ⊢
            exact ha.2.2
          have hr := Tree.rotR_Agg w hw
          rw [heq] at hr
          have hx : (Tree.node t p (dp.setRed false)
              (.node wl' wa' (wd'.setRed dp.red) (wr'.setRed false))).Agg w := by
            simp only [Tree.Agg, Tree.ch_node, Data.setRed, Tree.setRed_ch, Tree.setRed_Agg] at ha hr ⊢
            refine ⟨?_, ha.2.1, hr.1⟩
            rw [hr.2]; exact ha.1
          exact ⟨(Tree.rotL_Agg w hx).1, (Tree.rotL_Agg w hx).2⟩
      · simp only [Option.some.injEq, Prod.mk.injEq] at h
        rw [← h.2]
        have hx : (Tree.node t p (dp.setRed false)
            (.node wl wa (wd.setRed dp.red) (wr.setRed false))).Agg w := by
          simp only [Tree.Agg, Tree.ch_node, Data.setRed, Tree.setRed_ch, Tree.setRed_Agg] at ha ⊢
          exact ha
        exact ⟨(Tree.rotL_Agg w hx).1, (Tree.rotL_Agg w hx).2⟩

theorem delCaseR_Agg {t : Tree} {p : Nat} {dp : Data} {ws : Tree} {b : Bool} {s : Tree}
    (ha : (Tree.node ws p dp t).Agg w) (h : delCaseR w t p dp ws = some (b, s)) :
    s.Agg w ∧ s.ch = dp.children := by
  cases ws with
  | leaf => simp [delCaseR] at h
  | node wl wa wd wr =>
    simp only [delCaseR] at h
    split at h
    · simp only [Option.some.injEq, Prod.mk.injEq] at h
      rw [← h.2]
      simp only [Tree.Agg, Tree.ch_node, Data.setRed] at ha ⊢
      exact ⟨ha, trivial⟩
    · split at h
      · split at h
        · exact absurd h (by simp)
        · next wl' wa' wd' wr' heq =>
          simp only [Option.some.injEq, Prod.mk.injEq] at h
          rw [← h.2]
          have hw : (Tree.node wl wa (wd.setRed true) (wr.setRed false)).Agg w := by
            simp only [Tree.Agg, Tree.ch_node, Data.setRed, Tree.setRed_ch, Tree.setRed_Agg] at ha ⊢
            exact ha.2.1
          have hr := Tree.rotL_Agg w hw
          rw [heq] at hr
          have hx : (Tree.node (.node (wl'.setRed false) wa' (wd'.setRed dp.red) wr') p
              (dp.setRed false) t).Agg w := by
            simp only [Tree.Agg, Tree.ch_node, Data.setRed, Tree.setRed_ch, Tree.setRed_Agg] at ha hr ⊢
            refine ⟨?_, hr.1, ha.2.2⟩
            rw [hr.2]; exact ha.1
          exact ⟨(Tree.rotR_Agg w hx).1, (Tree.rotR_Agg w hx).2⟩
      · simp only [Option.some.injEq, Prod.mk.injEq] at h
        rw [← h.2]
        have hx : (Tree.node (.node (wl.setRed false) wa (wd.setRed dp.red) wr) p
            (dp.setRed false) t).Agg w := by
          simp only [Tree.Agg, Tree.ch_node, Data.setRed, Tree.setRed_ch, Tree.setRed_Agg] at ha ⊢
          exact ha
        exact ⟨(Tree.rotR_Agg w hx).1, (Tree.rotR_Agg w hx).2⟩

/-- The repair loop of deletion keeps the aggregate equation. -/
theorem delFix_Agg (p : Path) (t : Tree) {T' : Tree} (ha : (fill p t).Agg w)
    (h : delFix w p t = some T') : T'.Agg w := by
  induction p generalizing t T' with
  | nil =>
    simp only [delFix, Option.some.injEq] at h
    rw [← h]
    exact (Tree.setRed_Agg w t false).2 ha
  | cons f rest ih =>
    cases f with
    | L p dp ws =>
      simp only [delFix] at h
      rw [fill_cons, Frame.plug] at ha
      split at h
      · simp only [Option.some.injEq] at h
        rw [← h]
        exact fill_Agg_setRed w (Frame.L p dp ws :: rest) false ha
      · cases ws with
        | leaf => exact absurd h (by simp)
        | node wl wa wd wr =>
          simp only at h
          have ha' := (fill_Agg w rest _).1 ha
          split at h
          · have hc1 : (Tree.node t p
                ((dp.setRed true).setCh (t.ch + wl.ch + w dp.key)) wl).Agg w := by
              simp only [Tree.Agg, Tree.ch_node, Data.setRed, Data.setCh] at ha' ⊢
              exact ⟨trivial, ha'.1.2.1, ha'.1.2.2.2.1⟩
            split at h
            · exact absurd h (by simp)
            · next s hc =>
              simp only [Option.some.injEq] at h
              rw [← h]
              obtain ⟨hs1, hs2⟩ := delCaseL_Agg w hc1 hc
              refine fill_Agg_of w rest _ ha ?_ ?_
              · simp only [Frame.plug, Tree.ch_node, Data.setRed, Data.setCh]
                simp only [Tree.Agg, Tree.ch_node] at ha'
                omega
              · intro _
                simp only [Frame.plug, Tree.Agg, Tree.ch_node, Data.setRed, Data.setCh,
                  Tree.setRed_ch, Tree.setRed_Agg, hs2]
                simp only [Tree.Agg, Tree.ch_node] at ha'
                exact ⟨trivial, hs1, ha'.1.2.2.2.2⟩
            · next s hc =>
              simp only [Option.some.injEq] at h
              rw [← h]
              obtain ⟨hs1, hs2⟩ := delCaseL_Agg w hc1 hc
              refine fill_Agg_of w rest _ ha ?_ ?_
              · simp only [Frame.plug, Tree.ch_node, Data.setRed, Data.setCh]
                simp only [Tree.Agg, Tree.ch_node] at ha'
                omega
              · intro _
                simp only [Frame.plug, Tree.Agg, Tree.ch_node, Data.setRed, Data.setCh,
                  Tree.setRed_ch, Tree.setRed_Agg, hs2]
                simp only [Tree.Agg, Tree.ch_node] at ha'
                exact ⟨trivial, hs1, ha'.1.2.2.2.2⟩
          · split at h
            · exact absurd h (by simp)
            · next s hc =>
              obtain ⟨hs1, hs2⟩ := delCaseL_Agg w ha'.1 hc
              exact ih _ (fill_Agg_of w rest _ ha hs2 (fun _ => hs1)) h
            · next s hc =>
              simp only [Option.some.injEq] at h
              rw [← h]
              obtain ⟨hs1, hs2⟩ := delCaseL_Agg w ha'.1 hc
              exact fill_Agg_of w rest _ ha hs2 (fun _ => hs1)
    | R ws p dp =>
      simp only [delFix] at h
      rw [fill_cons, Frame.plug] at ha
      split at h
      · simp only [Option.some.injEq] at h
        rw [← h]
        exact fill_Agg_setRed w (Frame.R ws p dp :: rest) false ha
      · cases ws with
        | leaf => exact absurd h (by simp)
        | node wl wa wd wr =>
          simp only at h
          have ha' := (fill_Agg w rest _).1 ha
          split at h
          · have hc1 : (Tree.node wr p
                ((dp.setRed true).setCh (wr.ch + t.ch + w dp.key)) t).Agg w := by
              simp only [Tree.Agg, Tree.ch_node, Data.setRed, Data.setCh] at ha' ⊢
              exact ⟨trivial, ha'.1.2.1.2.2, ha'.1.2.2⟩
            split at h
            · exact absurd h (by simp)
            · next s hc =>
              simp only [Option.some.injEq] at h
              rw [← h]
              obtain ⟨hs1, hs2⟩ := delCaseR_Agg w hc1 hc
              refine fill_Agg_of w rest _ ha ?_ ?_
              · simp only [Frame.plug, Tree.ch_node, Data.setRed, Data.setCh]
                simp only [Tree.Agg, Tree.ch_node] at ha'
                omega
              · intro _
                simp only [Frame.plug, Tree.Agg, Tree.ch_node, Data.setRed, Data.setCh,
                  Tree.setRed_ch, Tree.setRed_Agg, hs2]
                simp only [Tree.Agg, Tree.ch_node] at ha'
                exact ⟨trivial, ha'.1.2.1.2.1, hs1⟩
            · next s hc =>
              simp only [Option.some.injEq] at h
              rw [← h]
              obtain ⟨hs1, hs2⟩ := delCaseR_Agg w hc1 hc
              refine fill_Agg_of w rest _ ha ?_ ?_
              · simp only [Frame.plug, Tree.ch_node, Data.setRed, Data.setCh]
                simp only [Tree.Agg, Tree.ch_node] at ha'
                omega
              · intro _
                simp only [Frame.plug, Tree.Agg, Tree.ch_node, Data.setRed, Data.setCh,
                  Tree.setRed_ch, Tree.setRed_Agg, hs2]
                simp only [Tree.Agg, Tree.ch_node] at ha'
                exact ⟨trivial, ha'.1.2.1.2.1, hs1⟩
          · split at h
            · exact absurd h (by simp)
            · next s hc =>
              obtain ⟨hs1, hs2⟩ := delCaseR_Agg w ha'.1 hc
              exact ih _ (fill_Agg_of w rest _ ha hs2 (fun _ => hs1)) h
            · next s hc =>
              simp only [Option.some.injEq] at h
              rw [← h]
              obtain ⟨hs1, hs2⟩ := delCaseR_Agg w ha'.1 hc
              exact fill_Agg_of w rest _ ha hs2 (fun _ => hs1)

theorem spliceFix_Agg {p : Path} {yl yr xt : Tree} {y : Nat} {dy : Data} {T' : Tree}
    (ha : (fill p (.node yl y dy yr)).Agg w)
    (hxt : (yl = .leaf ∧ xt = yr) ∨ (yr = .leaf ∧ xt = yl))
    (h : spliceFix w dy.red p xt (w dy.key) = some T') : T'.Agg w := by
  have h2 : (fill (Path.addCh (-(w dy.key)) p) xt).Agg w := by
    rw [fill_Agg] at ha ⊢
    have h3 := Path.addCh_Agg w (-(w dy.key)) _ _ ha.2
    simp only [Tree.Agg, Tree.ch_node] at ha h3
    rcases hxt with ⟨rfl, rfl⟩ | ⟨rfl, rfl⟩
    · refine ⟨ha.1.2.2, ?_⟩
      have e : dy.children + -(w dy.key) = xt.ch := by
        have := ha.1.1
        simp only [Tree.ch_leaf] at this
        omega
      rw [← e]; exact h3
    · refine ⟨ha.1.2.1, ?_⟩
      have e : dy.children + -(w dy.key) = xt.ch := by
        have := ha.1.1
        simp only [Tree.ch_leaf] at this
        omega
      rw [← e]; exact h3
  unfold spliceFix at h
  split at h
  · simp only [Option.some.injEq] at h
    rw [← h]; exact h2
  · exact delFix_Agg w _ _ h2 h

/-- In a sequence with distinct addresses, an address determines its entry. -/
theorem entries_unique {es : List Entry} (hn : (es.map (fun e => e.1)).Nodup) {a : Nat}
    {k k' i i' : Int} (h1 : (a, k, i) ∈ es) (h2 : (a, k', i') ∈ es) : k = k' ∧ i = i' := by
  have := List.inj_on_of_nodup_map hn h1 h2 rfl
  simp only [Prod.mk.injEq, true_and] at this
  exact this

theorem isLeaf_cases {zl zr : Tree} (hl : zl.isLeaf = true ∨ zr.isLeaf = true) :
    (zl = .leaf ∧ (if zl.isLeaf then zr else zl) = zr) ∨
      (zr = .leaf ∧ (if zl.isLeaf then zr else zl) = zl) := by
  cases zl with
  | leaf => exact Or.inl ⟨rfl, rfl⟩
  | node a b c d =>
    cases zr with
    | leaf => exact Or.inr ⟨rfl, rfl⟩
    | node a b c d => simp [Tree.isLeaf] at hl

/-- What `Tree.delete` does, as a case distinction. -/
theorem Tree.delete_cases {T T' : Tree} {z : Nat} (h : Tree.delete w T z = some T') :
    ∃ pz zl dz zr, fill pz (.node zl z dz zr) = T ∧
      ((∃ xt, ((zl = .leaf ∧ xt = zr) ∨ (zr = .leaf ∧ xt = zl)) ∧
          spliceFix w dz.red pz xt (w dz.key) = some T') ∨
        (∃ py y dy yr T2 pz2 l2 dz2 r2,
          fill py (.node .leaf y dy yr) = T ∧
          py.before = pz.before ++ (zl.entries ++ [(z, dz.key, dz.info)]) ∧
          spliceFix w dy.red py yr (w dy.key) = some T2 ∧
          fill pz2 (.node l2 z dz2 r2) = T2 ∧
          T' = fill (Path.addCh (w dy.key - w dz.key) pz2)
            (.node l2 y ⟨dy.key, dy.info, dz2.red, l2.ch + r2.ch + w dy.key⟩ r2))) := by
  unfold Tree.delete at h
  split at h
  · exact absurd h (by simp)
  · exact absurd h (by simp)
  · next pz zl a dz zr hfind =>
    obtain ⟨hff, l, d, r, e⟩ := Tree.find_fill T [] hfind
    simp only [Tree.node.injEq] at e
    obtain ⟨-, rfl, -, -⟩ := e
    simp only [fill_nil] at hff
    refine ⟨pz, zl, dz, zr, hff, ?_⟩
    split at h
    · next hl => exact Or.inl ⟨_, isLeaf_cases hl, h⟩
    · split at h
      · exact absurd h (by simp)
      · next py y dy yr hs =>
        split at h
        · exact absurd h (by simp)
        · next T2 hfix =>
          split at h
          · next pz2 l2 z2 dz2 r2 hfind2 =>
            simp only [Option.some.injEq] at h
            obtain ⟨hff2, l', d', r', e⟩ := Tree.find_fill T2 [] hfind2
            simp only [Tree.node.injEq] at e
            obtain ⟨-, rfl, -, -⟩ := e
            simp only [fill_nil] at hff2
            obtain ⟨hs1, hs2⟩ := splitMin_fill _ _ hs
            refine Or.inr ⟨py, y, dy, yr, T2, pz2, l2, dz2, r2, ?_, ?_, hfix, hff2, h.symm⟩
            · rw [hs1, ← hff]; rfl
            · rw [hs2]; rfl
          · exact absurd h (by simp)

end AggOps

end RBTree


namespace RBTree

section DeleteEntries

variable (w : Int → Int)

theorem filter_ne_self {z : Nat} {A : List Entry} (h : z ∉ A.map (fun e => e.1)) :
    A.filter (fun e => decide (e.1 ≠ z)) = A := by
  rw [List.filter_eq_self]
  intro e he
  simp only [ne_eq, decide_not, Bool.not_eq_eq_eq_not, Bool.not_true, decide_eq_false_iff_not]
  rintro rfl
  exact h (List.mem_map_of_mem _ he)

/-- Removing the entry of address `z` from a sequence in which it occurs once. -/
theorem filter_middle {z : Nat} {k i : Int} {A C : List Entry}
    (hn : ((A ++ (z, k, i) :: C).map (fun e => e.1)).Nodup) :
    (A ++ (z, k, i) :: C).filter (fun e => decide (e.1 ≠ z)) = A ++ C := by
  simp only [List.map_append, List.map_cons] at hn
  have h1 := List.nodup_middle.1 hn
  rw [List.nodup_cons, List.mem_append, not_or] at h1
  rw [List.filter_append, List.filter_cons]
  simp only [ne_eq, not_true_eq_false, decide_False, Bool.false_eq_true, if_false]
  have e1 := filter_ne_self h1.1.1
  have e2 := filter_ne_self h1.1.2
  simp only [ne_eq] at e1 e2
  rw [e1, e2]

/-- Replacing the entry of address `z` in a sequence in which it occurs once. -/
theorem map_replace_middle {z : Nat} {k i : Int} (e' : Entry) {A C : List Entry}
    (hn : ((A ++ (z, k, i) :: C).map (fun e => e.1)).Nodup) :
    (A ++ (z, k, i) :: C).map (fun e => if e.1 = z then e' else e) = A ++ e' :: C := by
  simp only [List.map_append, List.map_cons] at hn
  have h1 := List.nodup_middle.1 hn
  rw [List.nodup_cons, List.mem_append, not_or] at h1
  have hid : ∀ B : List Entry, z ∉ B.map (fun e => e.1) →
      B.map (fun e => if e.1 = z then e' else e) = B := by
    intro B hB
    conv_rhs => rw [← List.map_id B]
    refine List.map_congr_left fun e he => ?_
    rw [if_neg]; rfl
    rintro rfl
    exact hB (List.mem_map_of_mem _ he)
  rw [List.map_append, List.map_cons, hid A h1.1.1, hid C h1.1.2]
  simp

/-- In-order sequence after `RBDelete`: the entry of `z` is gone, nothing else changes. -/
theorem Tree.delete_entries {T T' : Tree} {z : Nat} (hn : T.addrs.Nodup)
    (h : Tree.delete w T z = some T') :
    T'.entries = T.entries.filter (fun e => decide (e.1 ≠ z)) := by
  obtain ⟨pz, zl, dz, zr, hT, hc⟩ := Tree.delete_cases w h
  rcases hc with ⟨xt, hxt, hfix⟩ | ⟨py, y, dy, yr, T2, pz2, l2, dz2, r2, hTy, hpy, hfix, hT2, hT'⟩
  · rw [spliceFix_entries w hfix, ← hT]
    have hn' : ((pz.before ++ zl.entries ++ (z, dz.key, dz.info) :: (zr.entries ++ pz.after)).map
        (fun e => e.1)).Nodup := by
      rw [← hT, Tree.addrs, entries_fill] at hn
      simpa using hn
    have := filter_middle hn'
    rw [entries_fill, entries_fill]
    rcases hxt with ⟨rfl, rfl⟩ | ⟨rfl, rfl⟩
    · simpa using this.symm
    · simpa using this.symm
  · have hT2e := spliceFix_entries w hfix
    rw [entries_fill] at hT2e
    have hn2 : ((pz.before ++ zl.entries ++ (z, dz.key, dz.info) ::
        ((y, dy.key, dy.info) :: (yr.entries ++ py.after))).map (fun e => e.1)).Nodup := by
      rw [← hTy, Tree.addrs, entries_fill, hpy] at hn
      simpa using hn
    -- the sequence of `T2`
    have hE2 : T2.entries = pz.before ++ zl.entries ++ (z, dz.key, dz.info) ::
        (yr.entries ++ py.after) := by
      rw [hT2e, hpy]; simp
    have hn3 : (T2.entries.map (fun e => e.1)).Nodup := by
      rw [hE2]
      refine hn2.sublist (List.Sublist.map _ ?_)
      exact List.Sublist.append (List.Sublist.refl _)
        (List.Sublist.cons₂ _ (List.sublist_cons_self _ _))
    have hE2' : T2.entries = pz2.before ++ l2.entries ++ (z, dz2.key, dz2.info) ::
        (r2.entries ++ pz2.after) := by
      rw [← hT2, entries_fill]; simp
    have hT'e : T'.entries = T2.entries.map
        (fun e => if e.1 = z then (y, dy.key, dy.info) else e) := by
      have := map_replace_middle (y, dy.key, dy.info) (hE2' ▸ hn3)
      rw [← hE2'] at this
      rw [this, hT', fill_addCh_entries, entries_fill]
      simp
    have h5 := map_replace_middle (y, dy.key, dy.info) (hE2 ▸ hn3)
    rw [← hE2] at h5
    rw [hT'e, h5, ← hTy, entries_fill, hpy]
    have := filter_middle hn2
    simpa using this.symm

/-- `RBDelete` keeps the aggregate equation (abstract view). -/
theorem Tree.delete_Agg {T T' : Tree} {z : Nat} (hn : T.addrs.Nodup) (ha : T.Agg w)
    (h : Tree.delete w T z = some T') : T'.Agg w := by
  obtain ⟨pz, zl, dz, zr, hT, hc⟩ := Tree.delete_cases w h
  rcases hc with ⟨xt, hxt, hfix⟩ | ⟨py, y, dy, yr, T2, pz2, l2, dz2, r2, hTy, hpy, hfix, hT2, hT'⟩
  · exact spliceFix_Agg w (hT ▸ ha) hxt hfix
  · have h2 : T2.Agg w := spliceFix_Agg w (hTy ▸ ha) (Or.inl ⟨rfl, rfl⟩) hfix
    -- the key of `z` is the same in `T2`
    have hk : dz2.key = dz.key := by
      have hT2e := spliceFix_entries w hfix
      have hz2 : (z, dz2.key, dz2.info) ∈ T2.entries := by
        rw [← hT2, entries_fill]; simp
      have hzT : (z, dz2.key, dz2.info) ∈ T.entries := by
        rw [hT2e, entries_fill] at hz2
        rw [← hTy, entries_fill]
        simp only [List.mem_append, entries_node, entries_leaf, List.nil_append,
          List.mem_cons] at hz2 ⊢
        tauto
      have hz : (z, dz.key, dz.info) ∈ T.entries := by
        rw [← hT, entries_fill]; simp
      exact (entries_unique hn hzT hz).1
    rw [hT', fill_Agg]
    rw [← hT2, fill_Agg] at h2
    simp only [Tree.Agg, Tree.ch_node] at h2 ⊢
    refine ⟨⟨trivial, h2.1.2.1, h2.1.2.2⟩, ?_⟩
    have h3 := Path.addCh_Agg w (w dy.key - w dz.key) _ _ h2.2
    have e : dz2.children + (w dy.key - w dz.key) = l2.ch + r2.ch + w dy.key := by
      rw [h2.1.1, hk]; omega
    rw [← e]; exact h3

end DeleteEntries

end RBTree


namespace RBTree

section RBInv

variable (w : Int → Int)

@[simp] theorem Tree.bh_leaf : Tree.leaf.bh = 0 := rfl
@[simp] theorem Tree.bh_node (l : Tree) (a : Nat) (d : Data) (r : Tree) :
    (Tree.node l a d r).bh = l.bh + (if d.red then 0 else 1) := rfl
@[simp] theorem Tree.RB_leaf : Tree.leaf.RB := trivial
@[simp] theorem Tree.RB_node (l : Tree) (a : Nat) (d : Data) (r : Tree) :
    (Tree.node l a d r).RB ↔
      l.RB ∧ r.RB ∧ l.bh = r.bh ∧ (d.red = true → l.isRed = false ∧ r.isRed = false) := Iff.rfl

@[simp] theorem Tree.setRed_isRed_false (t : Tree) : (t.setRed false).isRed = false := by
  cases t <;> rfl

theorem Tree.setRed_false_RB {t : Tree} (h : t.RB) : (t.setRed false).RB := by
  cases t with
  | leaf => trivial
  | node l a d r =>
    simp only [Tree.setRed, Tree.RB_node, Data.setRed] at h ⊢
    exact ⟨h.1, h.2.1, h.2.2.1, fun e => absurd e (by simp)⟩

theorem Tree.setRed_false_bh {t : Tree} (h : t.isRed = true) : (t.setRed false).bh = t.bh + 1 := by
  cases t with
  | leaf => simp [Tree.isRed] at h
  | node l a d r =>
    simp only [Tree.isRed] at h
    simp [Tree.setRed, Data.setRed, h]

theorem Tree.setRed_false_of_black {t : Tree} (h : t.isRed = false) : t.setRed false = t := by
  cases t with
  | leaf => rfl
  | node l a d r =>
    simp only [Tree.isRed] at h
    cases d
    simp only at h
    simp [Tree.setRed, Data.setRed, h]

@[simp] theorem Tree.updSum_bh (t : Tree) : (Tree.updSum w t).bh = t.bh := by
  cases t <;> rfl

@[simp] theorem Tree.updSum_isRed (t : Tree) : (Tree.updSum w t).isRed = t.isRed := by
  cases t <;> rfl

@[simp] theorem Tree.updSum_RB (t : Tree) : (Tree.updSum w t).RB ↔ t.RB := by
  cases t <;> simp [Tree.updSum, Data.setCh]

theorem fill_RB (p : Path) (t : Tree) :
    (fill p t).RB ↔ t.RB ∧ Path.RB p t.bh t.isRed := by
  induction p generalizing t with
  | nil => simp [Path.RB]
  | cons f p ih =>
    cases f with
    | L a d r =>
      simp only [fill_cons, Frame.plug, ih, Tree.RB_node, Path.RB, Tree.bh_node, Tree.isRed_node]
      constructor
      · rintro ⟨⟨h1, h2, h3, h4⟩, h5⟩
        exact ⟨h1, h2, h3.symm, h4, h5⟩
      · rintro ⟨h1, h2, h3, h4, h5⟩
        exact ⟨⟨h1, h2, h3.symm, h4⟩, h5⟩
    | R l a d =>
      simp only [fill_cons, Frame.plug, ih, Tree.RB_node, Path.RB, Tree.bh_node, Tree.isRed_node]
      constructor
      · rintro ⟨⟨h1, h2, h3, h4⟩, h5⟩
        exact ⟨h2, h1, h3, h4, h3 ▸ h5⟩
      · rintro ⟨h1, h2, h3, h4, h5⟩
        exact ⟨⟨h2, h1, h3, h4⟩, h3 ▸ h5⟩

theorem Path.RB_mono {p : Path} {n : Nat} {c : Bool} (h : Path.RB p n c) : Path.RB p n false := by
  cases p with
  | nil => trivial
  | cons f p =>
    cases f with
    | L a d r => exact ⟨h.1, h.2.1, fun e => ⟨rfl, (h.2.2.1 e).2⟩, h.2.2.2⟩
    | R l a d => exact ⟨h.1, h.2.1, fun e => ⟨(h.2.2.1 e).1, rfl⟩, h.2.2.2⟩

theorem Path.addCh_RB (v : Int) (p : Path) (n : Nat) (c : Bool) :
    Path.RB (Path.addCh v p) n c ↔ Path.RB p n c := by
  induction p generalizing n c with
  | nil => rfl
  | cons f p ih =>
    cases f with
    | L a d r =>
      show _ ∧ _ ∧ _ ∧ Path.RB (Path.addCh v p) _ _ ↔ _
      rw [ih]; rfl
    | R l a d =>
      show _ ∧ _ ∧ _ ∧ Path.RB (Path.addCh v p) _ _ ↔ _
      rw [ih]; rfl

/-- The repair loop of insertion restores the red-black shape. -/
theorem insFix_RB (p : Path) (t : Tree) (ht : t.RB) (hred : t.isRed = true)
    (hp : Path.RB p t.bh false) : ((insFix w p t).setRed false).RB := by
  induction' hlen : p.length using Nat.strong_induction_on with len ih generalizing p t
  rcases p with _ | ⟨f1, _ | ⟨f2, rest⟩⟩
  · exact Tree.setRed_false_RB ht
  · cases f1 with
    | L a d r =>
      simp only [insFix, Frame.plug, Tree.setRed, Tree.RB_node, Data.setRed]
      simp only [Path.RB] at hp
      exact ⟨ht, hp.1, hp.2.1.symm, fun e => absurd e (by simp)⟩
    | R l a d =>
      simp only [insFix, Frame.plug, Tree.setRed, Tree.RB_node, Data.setRed]
      simp only [Path.RB] at hp
      exact ⟨hp.1, ht, hp.2.1, fun e => absurd e (by simp)⟩
  · have hrl : rest.length < len := by simp only [List.length_cons] at hlen; omega
    obtain ⟨tl, x, dx, tr, rfl⟩ : ∃ tl x dx tr, t = .node tl x dx tr := by
      cases t with
      | leaf => simp at hred
      | node tl x dx tr => exact ⟨_, _, _, _, rfl⟩
    simp only [Tree.isRed_node] at hred
    simp only [Tree.RB_node, hred, true_implies] at ht
    simp only [Tree.bh_node, hred, if_true, add_zero] at hp
    unfold insFix
    split
    · next hf1 =>
      cases f2 with
      | L g dg u =>
        simp only
        split
        · next hu =>
          have hub := Tree.setRed_false_bh hu
          refine ih _ hrl _ _ ?_ rfl ?_ rfl
          · cases f1 with
            | L p dp sp =>
              simp only [Frame.d] at hf1
              simp only [Path.RB, hf1, true_implies, if_true, add_zero, true_and,
                Bool.true_eq_false, false_and, imp_false, Bool.not_eq_true] at hp
              obtain ⟨h1, h2, h3, h4, h5, h6, h7⟩ := hp
              obtain ⟨h8, h9, h10, h11, h12⟩ := ht
              simp [Frame.setRed, Frame.plug, Data.setRed, Tree.setRed_false_RB, *]
            | R sp p dp =>
              simp only [Frame.d] at hf1
              simp only [Path.RB, hf1, true_implies, if_true, add_zero, true_and,
                Bool.true_eq_false, false_and, imp_false, Bool.not_eq_true, and_false] at hp
              obtain ⟨h1, h2, h3, h4, h5, h6, h7⟩ := hp
              obtain ⟨h8, h9, h10, h11, h12⟩ := ht
              simp [Frame.setRed, Frame.plug, Data.setRed, Tree.setRed_false_RB, *]
          · cases f1 with
            | L p dp sp =>
              simp only [Frame.d] at hf1
              simp only [Path.RB, hf1, true_implies, if_true, add_zero, true_and,
                Bool.true_eq_false, false_and, imp_false, Bool.not_eq_true] at hp
              obtain ⟨h1, h2, h3, h4, h5, h6, h7⟩ := hp
              simpa [Frame.setRed, Frame.plug, Data.setRed, h6, hred, hf1] using h7
            | R sp p dp =>
              simp only [Frame.d] at hf1
              simp only [Path.RB, hf1, true_implies, if_true, add_zero, true_and,
                Bool.true_eq_false, false_and, imp_false, Bool.not_eq_true, and_false] at hp
              obtain ⟨h1, h2, h3, h4, h5, h6, h7⟩ := hp
              simpa [Frame.setRed, Frame.plug, Data.setRed, h6, h2, hred, hf1] using h7
        · next hu =>
          simp only [Bool.not_eq_true] at hu
          cases f1 with
          | L p dp sp =>
            simp only [Frame.d] at hf1
            simp only [Path.RB, hf1, true_implies, if_true, add_zero, true_and,
              Bool.true_eq_false, false_and, imp_false, Bool.not_eq_true] at hp
            obtain ⟨h1, h2, h3, h4, h5, h6, h7⟩ := hp
            obtain ⟨h8, h9, h10, h11, h12⟩ := ht
            refine Tree.setRed_false_RB ((fill_RB _ _).2 ⟨?_, ?_⟩)
            · simp [Tree.rotR, Data.setRed, *]
            · simpa [Tree.rotR, Data.setRed, h6, hred, hf1] using h7
          | R sp p dp =>
            simp only [Frame.d] at hf1
            simp only [Path.RB, hf1, true_implies, if_true, add_zero, true_and,
              Bool.true_eq_false, false_and, imp_false, Bool.not_eq_true, and_false] at hp
            obtain ⟨h1, h2, h3, h4, h5, h6, h7⟩ := hp
            obtain ⟨h8, h9, h10, h11, h12⟩ := ht
            refine Tree.setRed_false_RB ((fill_RB _ _).2 ⟨?_, ?_⟩)
            · simp [Tree.rotR, Tree.rotL, Tree.updSum, Tree.setRed, Data.setRed, Data.setCh, *]
            · simpa [Tree.rotR, Tree.rotL, Tree.updSum, Tree.setRed, Data.setRed, Data.setCh,
                h6, h2, hred, hf1] using h7
      | R u g dg =>
        simp only
        split
        · next hu =>
          have hub := Tree.setRed_false_bh hu
          refine ih _ hrl _ _ ?_ rfl ?_ rfl
          · cases f1 with
            | L p dp sp =>
              simp only [Frame.d] at hf1
              simp only [Path.RB, hf1, true_implies, if_true, add_zero, true_and,
                Bool.true_eq_false, false_and, imp_false, Bool.not_eq_true, and_false] at hp
              obtain ⟨h1, h2, h3, h4, h5, h6, h7⟩ := hp
              obtain ⟨h8, h9, h10, h11, h12⟩ := ht
              simp [Frame.setRed, Frame.plug, Data.setRed, Tree.setRed_false_RB, *]
            | R sp p dp =>
              simp only [Frame.d] at hf1
              simp only [Path.RB, hf1, true_implies, if_true, add_zero, true_and,
                Bool.true_eq_false, false_and, imp_false, Bool.not_eq_true, and_false] at hp
              obtain ⟨h1, h2, h3, h4, h5, h6, h7⟩ := hp
              obtain ⟨h8, h9, h10, h11, h12⟩ := ht
              simp [Frame.setRed, Frame.plug, Data.setRed, Tree.setRed_false_RB, *]
          · cases f1 with
            | L p dp sp =>
              simp only [Frame.d] at hf1
              simp only [Path.RB, hf1, true_implies, if_true, add_zero, true_and,
                Bool.true_eq_false, false_and, imp_false, Bool.not_eq_true, and_false] at hp
              obtain ⟨h1, h2, h3, h4, h5, h6, h7⟩ := hp
              simpa [Frame.setRed, Frame.plug, Data.setRed, h6, h5, hub, hu, hred, hf1] using h7
            | R sp p dp =>
              simp only [Frame.d] at hf1
              simp only [Path.RB, hf1, true_implies, if_true, add_zero, true_and,
                Bool.true_eq_false, false_and, imp_false, Bool.not_eq_true, and_false] at hp
              obtain ⟨h1, h2, h3, h4, h5, h6, h7⟩ := hp
              simpa [Frame.setRed, Frame.plug, Data.setRed, h6, h5, hub, hu, hred, hf1] using h7
        · next hu =>
          simp only [Bool.not_eq_true] at hu
          cases f1 with
          | R sp p dp =>
            simp only [Frame.d] at hf1
            simp only [Path.RB, hf1, true_implies, if_true, add_zero, true_and,
              Bool.true_eq_false, false_and, imp_false, Bool.not_eq_true, and_false] at hp
            obtain ⟨h1, h2, h3, h4, h5, h6, h7⟩ := hp
            obtain ⟨h8, h9, h10, h11, h12⟩ := ht
            refine Tree.setRed_false_RB ((fill_RB _ _).2 ⟨?_, ?_⟩)
            · simp [Tree.rotL, Data.setRed, *]
            · simpa [Tree.rotL, Data.setRed, h6, h5, hred, hf1] using h7
          | L p dp sp =>
            simp only [Frame.d] at hf1
            simp only [Path.RB, hf1, true_implies, if_true, add_zero, true_and,
              Bool.true_eq_false, false_and, imp_false, Bool.not_eq_true, and_false] at hp
            obtain ⟨h1, h2, h3, h4, h5, h6, h7⟩ := hp
            obtain ⟨h8, h9, h10, h11, h12⟩ := ht
            refine Tree.setRed_false_RB ((fill_RB _ _).2 ⟨?_, ?_⟩)
            · simp [Tree.rotR, Tree.rotL, Tree.updSum, Tree.setRed, Data.setRed, Data.setCh, *]
            · simpa [Tree.rotR, Tree.rotL, Tree.updSum, Tree.setRed, Data.setRed, Data.setCh,
                h6, h5, hred, hf1] using h7
    · next hf1 =>
      simp only [Bool.not_eq_true] at hf1
      refine Tree.setRed_false_RB ((fill_RB _ _).2 ⟨?_, ?_⟩)
      · simpa [hred] using ht
      · cases f1 with
        | L p dp sp =>
          simp only [Frame.d] at hf1
          simpa [Path.RB, hf1, hred] using hp
        | R sp p dp =>
          simp only [Frame.d] at hf1
          simpa [Path.RB, hf1, hred] using hp
/-- `RBTreeInsert` keeps the red-black shape and leaves the real root black
(abstract view). -/
theorem Tree.insert_RB (cmp : Int → Int → Int) (T : Tree) (x : Nat) (key info : Int)
    (h : T.RB) : (T.insert cmp w x key info).RB ∧ (T.insert cmp w x key info).isRed = false := by
  refine ⟨?_, Tree.setRed_isRed_false _⟩
  unfold Tree.insert
  refine insFix_RB w _ _ (by simp) rfl ?_
  rw [Path.addCh_RB]
  have h0 : (fill (descend cmp key T []) .leaf).RB := by rw [descend_fill]; exact h
  rw [fill_RB] at h0
  simpa using h0.2

end RBInv

end RBTree


namespace RBTree

section RBDelete

variable (w : Int → Int)

theorem Tree.isRed_true_node {t : Tree} (h : t.isRed = true) :
    ∃ l a d r, t = .node l a d r ∧ d.red = true := by
  cases t with
  | leaf => simp at h
  | node l a d r => exact ⟨l, a, d, r, rfl, h⟩

theorem delCaseL_RB {t : Tree} (p : Nat) (dp : Data) {ws : Tree} (ht : t.RB) (hw : ws.RB)
    (hwb : ws.isRed = false) (hbh : ws.bh = t.bh + 1) :
    ∃ b s, delCaseL w t p dp ws = some (b, s) ∧ s.isRed = dp.red ∧
      (b = true → (s.setRed false).RB ∧ s.bh = t.bh + (if dp.red then 0 else 1) ∧
        (dp.red = false → s.RB)) ∧
      (b = false → s.RB ∧ s.bh = t.bh + 1 + (if dp.red then 0 else 1)) := by
  cases ws with
  | leaf => simp at hbh
  | node wl wa wd wr =>
    simp only [Tree.isRed_node] at hwb
    simp only [Tree.RB_node, hwb, Bool.false_eq_true, false_implies, and_true] at hw
    simp only [Tree.bh_node, hwb, Bool.false_eq_true, if_false, add_left_inj] at hbh
    obtain ⟨h1, h2, h3⟩ := hw
    simp only [delCaseL]
    split
    · next hc =>
      refine ⟨true, _, rfl, rfl, fun _ => ?_, fun e => absurd e (by simp)⟩
      simp [Tree.setRed, Data.setRed, *]
      exact ⟨by omega, fun e => ⟨by omega, e⟩⟩
    · split
      · next hc1 hc2 =>
        simp only [hc2, true_and, Bool.not_eq_false] at hc1
        obtain ⟨wll, wla, wld, wlr, rfl, hwl⟩ := Tree.isRed_true_node hc1
        simp only [Tree.rotR, Tree.setRed, Tree.updSum]
        refine ⟨false, _, rfl, ?_, fun e => absurd e (by simp), fun _ => ?_⟩
        · simp [Tree.rotL, Tree.updSum, Data.setRed, Data.setCh]
        · simp only [Tree.RB_node, Tree.bh_node, hwl, if_true, add_zero, true_implies] at h1 h3 hbh
          obtain ⟨h4, h5, h6, h7, h8⟩ := h1
          simp [Tree.rotL, Tree.updSum, Data.setRed, Data.setCh, *]
          omega
      · next hc1 hc2 =>
        simp only [Bool.not_eq_false] at hc2
        obtain ⟨wrl, wra, wrd, wrr, rfl, hwr⟩ := Tree.isRed_true_node hc2
        refine ⟨false, _, rfl, ?_, fun e => absurd e (by simp), fun _ => ?_⟩
        · simp [Tree.rotL, Tree.updSum, Data.setRed, Data.setCh]
        · simp only [Tree.RB_node, Tree.bh_node, hwr, if_true, add_zero, true_implies] at h2 h3 hbh
          obtain ⟨h4, h5, h6, h7, h8⟩ := h2
          simp [Tree.rotL, Tree.updSum, Tree.setRed, Data.setRed, Data.setCh, *]
          omega
theorem delCaseR_RB {t : Tree} (p : Nat) (dp : Data) {ws : Tree} (ht : t.RB) (hw : ws.RB)
    (hwb : ws.isRed = false) (hbh : ws.bh = t.bh + 1) :
    ∃ b s, delCaseR w t p dp ws = some (b, s) ∧ s.isRed = dp.red ∧
      (b = true → (s.setRed false).RB ∧ s.bh = t.bh + (if dp.red then 0 else 1) ∧
        (dp.red = false → s.RB)) ∧
      (b = false → s.RB ∧ s.bh = t.bh + 1 + (if dp.red then 0 else 1)) := by
  cases ws with
  | leaf => simp at hbh
  | node wl wa wd wr =>
    simp only [Tree.isRed_node] at hwb
    simp only [Tree.RB_node, hwb, Bool.false_eq_true, false_implies, and_true] at hw
    simp only [Tree.bh_node, hwb, Bool.false_eq_true, if_false, add_left_inj] at hbh
    obtain ⟨h1, h2, h3⟩ := hw
    simp only [delCaseR]
    split
    · next hc =>
      refine ⟨true, _, rfl, rfl, fun _ => ?_, fun e => absurd e (by simp)⟩
      simp [Tree.setRed, Data.setRed, *]
      exact ⟨by omega, fun e => ⟨by omega, e⟩⟩
    · split
      · next hc1 hc2 =>
        simp only [hc2, and_true, Bool.not_eq_false] at hc1
        obtain ⟨wrl, wra, wrd, wrr, rfl, hwr⟩ := Tree.isRed_true_node hc1
        simp only [Tree.rotL, Tree.setRed, Tree.updSum]
        refine ⟨false, _, rfl, ?_, fun e => absurd e (by simp), fun _ => ?_⟩
        · simp [Tree.rotR, Tree.updSum, Data.setRed, Data.setCh]
        · simp only [Tree.RB_node, Tree.bh_node, hwr, if_true, add_zero, true_implies] at h2 h3 hbh
          obtain ⟨h4, h5, h6, h7, h8⟩ := h2
          simp [Tree.rotR, Tree.updSum, Tree.setRed, Data.setRed, Data.setCh, *]
          omega
      · next hc1 hc2 =>
        simp only [Bool.not_eq_false] at hc2
        obtain ⟨wll, wla, wld, wlr, rfl, hwl⟩ := Tree.isRed_true_node hc2
        refine ⟨false, _, rfl, ?_, fun e => absurd e (by simp), fun _ => ?_⟩
        · simp [Tree.rotR, Tree.updSum, Tree.setRed, Data.setRed, Data.setCh]
        · simp only [Tree.RB_node, Tree.bh_node, hwl, if_true, add_zero, true_implies] at h1 h3 hbh
          obtain ⟨h4, h5, h6, h7, h8⟩ := h1
          simp [Tree.rotR, Tree.updSum, Tree.setRed, Data.setRed, Data.setCh, *]
          omega
theorem delFix_red (rest : Path) {s : Tree} (h : s.isRed = true) :
    delFix w rest s = some (fill rest (s.setRed false)) := by
  rcases rest with _ | ⟨f, rest⟩
  · rfl
  · cases f <;> simp [delFix, h]

/-- The repair loop of deletion returns and restores the red-black shape, when the
subtree in the hole is one black node short. -/
theorem delFix_RB (p : Path) (t : Tree) (ht : t.RB) (hp : Path.RB p (t.bh + 1) false) :
    ∃ T', delFix w p t = some T' ∧ T'.RB := by
  induction p generalizing t with
  | nil => exact ⟨_, rfl, Tree.setRed_false_RB ht⟩
  | cons f rest ih =>
    cases f with
    | L p dp ws =>
      obtain ⟨hw, hwbh, hcol, hrest⟩ := hp
      by_cases htr : t.isRed = true
      · refine ⟨fill (Frame.L p dp ws :: rest) (t.setRed false), by simp [delFix, htr],
          (fill_RB _ _).2 ⟨Tree.setRed_false_RB ht, ?_⟩⟩
        rw [Tree.setRed_false_bh htr, Tree.setRed_isRed_false]
        exact ⟨hw, hwbh, hcol, hrest⟩
      · simp only [Bool.not_eq_true] at htr
        cases ws with
        | leaf => simp at hwbh
        | node wl wa wd wr =>
          by_cases hwd : wd.red = true
          · have hdp : dp.red = false := by
              cases hd : dp.red with
              | false => rfl
              | true =>
                have := (hcol hd).2
                simp only [Tree.isRed_node] at this
                rw [this] at hwd
                exact absurd hwd (by simp)
            simp only [Tree.RB_node, hwd, true_implies] at hw
            simp only [Tree.bh_node, hwd, if_true, add_zero] at hwbh
            simp only [hdp, Bool.false_eq_true, if_false] at hrest
            obtain ⟨h1, h2, h3, h4, h5⟩ := hw
            obtain ⟨b, s, hc, hsr, hb1, hb2⟩ := delCaseL_RB w p
              ((dp.setRed true).setCh (t.ch + wl.ch + w dp.key)) ht h1 h4 hwbh
            simp only [Data.setRed, Data.setCh, if_true, add_zero] at hsr hb1 hb2
            cases b with
            | false =>
              refine ⟨fill (Frame.L wa ((wd.setRed false).setCh
                  (((dp.setRed true).setCh (t.ch + wl.ch + w dp.key)).children + wr.ch + w wd.key))
                  wr :: rest) s, by simp [delFix, htr, hwd, hc],
                (fill_RB _ _).2 ⟨(hb2 rfl).1, ?_⟩⟩
              refine ⟨h2, by rw [(hb2 rfl).2]; omega, fun e => absurd e (by simp [Data.setRed, Data.setCh]), ?_⟩
              simpa [Data.setRed, Data.setCh, (hb2 rfl).2] using hrest
            | true =>
              refine ⟨fill (Frame.L wa ((wd.setRed false).setCh
                  (((dp.setRed true).setCh (t.ch + wl.ch + w dp.key)).children + wr.ch + w wd.key))
                  wr :: rest) (s.setRed false), by simp [delFix, htr, hwd, hc],
                (fill_RB _ _).2 ⟨(hb1 rfl).1, ?_⟩⟩
              rw [Tree.setRed_false_bh hsr, Tree.setRed_isRed_false]
              refine ⟨h2, by rw [(hb1 rfl).2.1]; omega, fun e => absurd e (by simp [Data.setRed, Data.setCh]), ?_⟩
              simpa [Data.setRed, Data.setCh, (hb1 rfl).2.1] using hrest
          · simp only [Bool.not_eq_true] at hwd
            obtain ⟨b, s, hc, hsr, hb1, hb2⟩ := delCaseL_RB w p dp ht hw hwd hwbh
            cases b with
            | false =>
              refine ⟨fill rest s, by simp [delFix, htr, hwd, hc],
                (fill_RB _ _).2 ⟨(hb2 rfl).1, ?_⟩⟩
              rw [(hb2 rfl).2, hsr]; exact hrest
            | true =>
              cases hd : dp.red with
              | true =>
                rw [hd] at hsr hb1 hrest
                refine ⟨fill rest (s.setRed false),
                  by simp [delFix, htr, hwd, hc, delFix_red w rest hsr],
                  (fill_RB _ _).2 ⟨(hb1 rfl).1, ?_⟩⟩
                rw [Tree.setRed_false_bh hsr, Tree.setRed_isRed_false, (hb1 rfl).2.1]
                simpa using Path.RB_mono hrest
              | false =>
                rw [hd] at hsr hb1 hrest
                obtain ⟨T', hT', hRB⟩ := ih s ((hb1 rfl).2.2 rfl) (by
                  rw [(hb1 rfl).2.1]; simpa using hrest)
                exact ⟨T', by simp [delFix, htr, hwd, hc, hT'], hRB⟩
    | R ws p dp =>
      obtain ⟨hw, hwbh, hcol, hrest⟩ := hp
      by_cases htr : t.isRed = true
      · refine ⟨fill (Frame.R ws p dp :: rest) (t.setRed false), by simp [delFix, htr],
          (fill_RB _ _).2 ⟨Tree.setRed_false_RB ht, ?_⟩⟩
        rw [Tree.setRed_false_bh htr, Tree.setRed_isRed_false]
        exact ⟨hw, hwbh, hcol, hrest⟩
      · simp only [Bool.not_eq_true] at htr
        cases ws with
        | leaf => simp at hwbh
        | node wl wa wd wr =>
          by_cases hwd : wd.red = true
          · have hdp : dp.red = false := by
              cases hd : dp.red with
              | false => rfl
              | true =>
                have := (hcol hd).1
                simp only [Tree.isRed_node] at this
                rw [this] at hwd
                exact absurd hwd (by simp)
            simp only [Tree.RB_node, hwd, true_implies] at hw
            simp only [Tree.bh_node, hwd, if_true, add_zero] at hwbh
            simp only [hdp, Bool.false_eq_true, if_false] at hrest
            obtain ⟨h1, h2, h3, h4, h5⟩ := hw
            obtain ⟨b, s, hc, hsr, hb1, hb2⟩ := delCaseR_RB w p
              ((dp.setRed true).setCh (wr.ch + t.ch + w dp.key)) ht h2 h5 (by omega)
            simp only [Data.setRed, Data.setCh, if_true, add_zero] at hsr hb1 hb2
            cases b with
            | false =>
              refine ⟨fill (Frame.R wl wa ((wd.setRed false).setCh
                  (wl.ch + ((dp.setRed true).setCh (wr.ch + t.ch + w dp.key)).children + w wd.key))
                  :: rest) s, by simp [delFix, htr, hwd, hc],
                (fill_RB _ _).2 ⟨(hb2 rfl).1, ?_⟩⟩
              refine ⟨h1, by rw [(hb2 rfl).2]; omega, fun e => absurd e (by simp [Data.setRed, Data.setCh]), ?_⟩
              simpa [Data.setRed, Data.setCh, (hb2 rfl).2] using hrest
            | true =>
              refine ⟨fill (Frame.R wl wa ((wd.setRed false).setCh
                  (wl.ch + ((dp.setRed true).setCh (wr.ch + t.ch + w dp.key)).children + w wd.key))
                  :: rest) (s.setRed false), by simp [delFix, htr, hwd, hc],
                (fill_RB _ _).2 ⟨(hb1 rfl).1, ?_⟩⟩
              rw [Tree.setRed_false_bh hsr, Tree.setRed_isRed_false]
              refine ⟨h1, by rw [(hb1 rfl).2.1]; omega, fun e => absurd e (by simp [Data.setRed, Data.setCh]), ?_⟩
              simpa [Data.setRed, Data.setCh, (hb1 rfl).2.1] using hrest
          · simp only [Bool.not_eq_true] at hwd
            obtain ⟨b, s, hc, hsr, hb1, hb2⟩ := delCaseR_RB w p dp ht hw hwd hwbh
            cases b with
            | false =>
              refine ⟨fill rest s, by simp [delFix, htr, hwd, hc],
                (fill_RB _ _).2 ⟨(hb2 rfl).1, ?_⟩⟩
              rw [(hb2 rfl).2, hsr]; exact hrest
            | true =>
              cases hd : dp.red with
              | true =>
                rw [hd] at hsr hb1 hrest
                refine ⟨fill rest (s.setRed false),
                  by simp [delFix, htr, hwd, hc, delFix_red w rest hsr],
                  (fill_RB _ _).2 ⟨(hb1 rfl).1, ?_⟩⟩
                rw [Tree.setRed_false_bh hsr, Tree.setRed_isRed_false, (hb1 rfl).2.1]
                simpa using Path.RB_mono hrest
              | false =>
                rw [hd] at hsr hb1 hrest
                obtain ⟨T', hT', hRB⟩ := ih s ((hb1 rfl).2.2 rfl) (by
                  rw [(hb1 rfl).2.1]; simpa using hrest)
                exact ⟨T', by simp [delFix, htr, hwd, hc, hT'], hRB⟩

theorem fill_isRed_cons {f : Frame} {p : Path} (h : Path.topBlack (f :: p)) (t : Tree) :
    (fill (f :: p) t).isRed = false := by
  induction p generalizing f t with
  | nil => cases f <;> exact h
  | cons g p ih => exact ih (f := g) h (f.plug t)

theorem Path.topBlack_replace {f g : Frame} {rest : Path} (h : Path.topBlack (f :: rest))
    (hg : rest = [] → g.d.red = false) : Path.topBlack (g :: rest) := by
  rcases rest with _ | ⟨k, rest⟩
  · exact hg rfl
  · exact h

theorem delCaseL_isRed {t : Tree} {p : Nat} {dp : Data} {ws s : Tree}
    (h : delCaseL w t p dp ws = some (false, s)) : s.isRed = dp.red := by
  cases ws with
  | leaf => simp [delCaseL] at h
  | node wl wa wd wr =>
    simp only [delCaseL] at h
    split at h
    · simp at h
    · split at h
      · split at h
        · exact absurd h (by simp)
        · simp only [Option.some.injEq, Prod.mk.injEq, true_and] at h
          rw [← h]; simp [Tree.rotL, Tree.updSum, Data.setRed, Data.setCh]
      · simp only [Option.some.injEq, Prod.mk.injEq, true_and] at h
        rw [← h]
        cases wr <;> simp [Tree.rotL, Tree.updSum, Tree.setRed, Data.setRed, Data.setCh]

theorem delCaseR_isRed {t : Tree} {p : Nat} {dp : Data} {ws s : Tree}
    (h : delCaseR w t p dp ws = some (false, s)) : s.isRed = dp.red := by
  cases ws with
  | leaf => simp [delCaseR] at h
  | node wl wa wd wr =>
    simp only [delCaseR] at h
    split at h
    · simp at h
    · split at h
      · split at h
        · exact absurd h (by simp)
        · simp only [Option.some.injEq, Prod.mk.injEq, true_and] at h
          rw [← h]; simp [Tree.rotR, Tree.updSum, Data.setRed, Data.setCh]
      · simp only [Option.some.injEq, Prod.mk.injEq, true_and] at h
        rw [← h]
        cases wl <;> simp [Tree.rotR, Tree.updSum, Tree.setRed, Data.setRed, Data.setCh]

/-- The repair loop of deletion leaves the real root black. -/
theorem delFix_rootBlack (p : Path) (t : Tree) {T' : Tree} (htop : Path.topBlack p)
    (h : delFix w p t = some T') : T'.isRed = false := by
  induction p generalizing t T' with
  | nil =>
    simp only [delFix, Option.some.injEq] at h
    rw [← h]; exact Tree.setRed_isRed_false t
  | cons f rest ih =>
    cases f with
    | L p dp ws =>
      simp only [delFix] at h
      split at h
      · simp only [Option.some.injEq] at h
        rw [← h]; exact fill_isRed_cons htop _
      · cases ws with
        | leaf => exact absurd h (by simp)
        | node wl wa wd wr =>
          simp only at h
          split at h
          · split at h
            · exact absurd h (by simp)
            · simp only [Option.some.injEq] at h
              rw [← h]
              refine fill_isRed_cons ?_ _
              exact Path.topBlack_replace htop (fun _ => rfl)
            · simp only [Option.some.injEq] at h
              rw [← h]
              refine fill_isRed_cons ?_ _
              exact Path.topBlack_replace htop (fun _ => rfl)
          · split at h
            · exact absurd h (by simp)
            · exact ih _ (Path.topBlack_tail htop) h
            · next s hc =>
              simp only [Option.some.injEq] at h
              rw [← h]
              rcases rest with _ | ⟨g, rest⟩
              · rw [fill_nil, delCaseL_isRed w hc]
                exact htop
              · exact fill_isRed_cons (Path.topBlack_tail htop) _
    | R ws p dp =>
      simp only [delFix] at h
      split at h
      · simp only [Option.some.injEq] at h
        rw [← h]; exact fill_isRed_cons htop _
      · cases ws with
        | leaf => exact absurd h (by simp)
        | node wl wa wd wr =>
          simp only at h
          split at h
          · split at h
            · exact absurd h (by simp)
            · simp only [Option.some.injEq] at h
              rw [← h]
              refine fill_isRed_cons ?_ _
              exact Path.topBlack_replace htop (fun _ => rfl)
            · simp only [Option.some.injEq] at h
              rw [← h]
              refine fill_isRed_cons ?_ _
              exact Path.topBlack_replace htop (fun _ => rfl)
          · split at h
            · exact absurd h (by simp)
            · exact ih _ (Path.topBlack_tail htop) h
            · next s hc =>
              simp only [Option.some.injEq] at h
              rw [← h]
              rcases rest with _ | ⟨g, rest⟩
              · rw [fill_nil, delCaseR_isRed w hc]
                exact htop
              · exact fill_isRed_cons (Path.topBlack_tail htop) _

end RBDelete

end RBTree


namespace RBTree

section RBDeleteTop

variable (w : Int → Int)

theorem fill_isRed_congr (p : Path) {t t' : Tree} (h : t.isRed = t'.isRed) :
    (fill p t).isRed = (fill p t').isRed := by
  induction p generalizing t t' with
  | nil => exact h
  | cons f p ih => exact ih (by cases f <;> rfl)

theorem fill_addCh_isRed (v : Int) (p : Path) (t : Tree) :
    (fill (Path.addCh v p) t).isRed = (fill p t).isRed := by
  induction p generalizing t with
  | nil => rfl
  | cons f p ih =>
    show (fill (Path.addCh v p) ((f.addCh v).plug t)).isRed = _
    rw [ih]
    exact fill_isRed_congr p (by cases f <;> rfl)

theorem spliceFix_RB {p : Path} {yl yr u : Tree} {y : Nat} {dy : Data}
    (h : (fill p (.node yl y dy yr)).RB)
    (hxt : (yl = .leaf ∧ u = yr) ∨ (yr = .leaf ∧ u = yl)) (v : Int) :
    ∃ T', spliceFix w dy.red p u v = some T' ∧ T'.RB := by
  rw [fill_RB] at h
  obtain ⟨hy, hp⟩ := h
  simp only [Tree.RB_node, Tree.bh_node, Tree.isRed_node] at hy hp
  have hx : u.RB ∧ u.bh = 0 ∧ yl.bh = 0 ∧ (dy.red = true → u.isRed = false) := by
    rcases hxt with ⟨rfl, rfl⟩ | ⟨rfl, rfl⟩
    · exact ⟨hy.2.1, hy.2.2.1.symm, rfl, fun e => (hy.2.2.2 e).2⟩
    · exact ⟨hy.1, hy.2.2.1, hy.2.2.1, fun e => (hy.2.2.2 e).1⟩
  obtain ⟨hx1, hx2, hx3, hx4⟩ := hx
  rw [hx3] at hp
  unfold spliceFix
  cases hd : dy.red with
  | true =>
    simp only [if_true]
    refine ⟨_, rfl, (fill_RB _ _).2 ⟨hx1, ?_⟩⟩
    rw [Path.addCh_RB, hx2, hx4 hd]
    rw [hd] at hp
    simpa using Path.RB_mono hp
  | false =>
    simp only [Bool.false_eq_true, if_false]
    refine delFix_RB w _ _ hx1 ?_
    rw [Path.addCh_RB, hx2]
    rw [hd] at hp
    simpa using hp

theorem spliceFix_rootBlack {p : Path} {yl yr xt : Tree} {y : Nat} {dy : Data} {v : Int}
    {T' : Tree} (h : (fill p (.node yl y dy yr)).isRed = false)
    (hfix : spliceFix w dy.red p xt v = some T') : T'.isRed = false := by
  have htop : Path.topBlack p := by
    rcases p with _ | ⟨f, p⟩
    · trivial
    · exact topBlack_of_fill _ _ h (by simp)
  unfold spliceFix at hfix
  split at hfix
  · next hd =>
    simp only [Option.some.injEq] at hfix
    rw [← hfix, fill_addCh_isRed]
    rcases p with _ | ⟨f, p⟩
    · simp only [fill_nil, Tree.isRed_node] at h
      rw [h] at hd
      exact absurd hd (by simp)
    · exact fill_isRed_cons htop _
  · exact delFix_rootBlack w _ _ (Path.addCh_topBlack _ _ htop) hfix

/-- `RBDelete` leaves the real root black (abstract view). -/
theorem Tree.delete_rootBlack {T T' : Tree} {z : Nat} (hb : T.isRed = false)
    (h : Tree.delete w T z = some T') : T'.isRed = false := by
  obtain ⟨pz, zl, dz, zr, hT, hc⟩ := Tree.delete_cases w h
  rcases hc with ⟨xt, hxt, hfix⟩ | ⟨py, y, dy, yr, T2, pz2, l2, dz2, r2, hTy, hpy, hfix, hT2, hT'⟩
  · exact spliceFix_rootBlack w (hT ▸ hb) hfix
  · have h2 : T2.isRed = false := spliceFix_rootBlack w (hTy ▸ hb) hfix
    rw [hT', fill_addCh_isRed, ← h2, ← hT2]
    exact fill_isRed_congr _ rfl

/-- `RBDelete` of a node of a red-black tree returns and keeps the red-black shape
(abstract view). -/
theorem Tree.delete_RB {T : Tree} {z : Nat} (hRB : T.RB)
    (hz : z ∈ T.addrs) : ∃ T', Tree.delete w T z = some T' ∧ T'.RB := by
  obtain ⟨pz, s, hfind⟩ := Tree.find_some T [] hz
  obtain ⟨hff, zl, dz, zr, rfl⟩ := Tree.find_fill T [] hfind
  simp only [fill_nil] at hff
  simp only [Tree.delete, hfind]
  by_cases hl : zl.isLeaf = true ∨ zr.isLeaf = true
  · rw [if_pos hl]
    exact spliceFix_RB w (hff ▸ hRB) (isLeaf_cases hl) _
  · rw [if_neg hl]
    simp only [not_or, Bool.not_eq_true] at hl
    obtain ⟨py, y, dy, yr, hs⟩ := splitMin_some zr (.R zl z dz :: pz) hl.2
    obtain ⟨hs1, hs2⟩ := splitMin_fill _ _ hs
    simp only [fill_cons, Frame.plug] at hs1
    obtain ⟨T2, hfix, hRB2⟩ := spliceFix_RB w (u := yr) ((hs1.trans hff) ▸ hRB)
      (Or.inl ⟨rfl, rfl⟩) (w dy.key)
    simp only [hs, hfix]
    have hz2 : z ∈ T2.addrs := by
      rw [Tree.addrs, spliceFix_entries w hfix, entries_fill, hs2]
      simp [Path.before]
    obtain ⟨pz2, s2, hfind2⟩ := Tree.find_some T2 [] hz2
    obtain ⟨hff2, l2, dz2, r2, rfl⟩ := Tree.find_fill T2 [] hfind2
    simp only [fill_nil] at hff2
    simp only [hfind2]
    refine ⟨_, rfl, ?_⟩
    rw [← hff2, fill_RB] at hRB2
    rw [fill_RB, Path.addCh_RB]
    simpa using hRB2

end RBDeleteTop

end RBTree


namespace RBTree

section BlackCounts

theorem Tree.bh_mem_blackCounts (t : Tree) : t.bh ∈ t.blackCounts := by
  induction t with
  | leaf => simp [Tree.blackCounts]
  | node l a d r ihl _ =>
    simp only [Tree.blackCounts, Tree.bh_node, List.mem_map, List.mem_append]
    exact ⟨l.bh, Or.inl ihl, rfl⟩

theorem Tree.RB.blackCounts_eq {t : Tree} (h : t.RB) : ∀ a ∈ t.blackCounts, a = t.bh := by
  induction t with
  | leaf => simp [Tree.blackCounts]
  | node l c d r ihl ihr =>
    simp only [Tree.RB_node] at h
    intro a ha
    simp only [Tree.blackCounts, List.mem_map, List.mem_append] at ha
    obtain ⟨b, hb | hb, rfl⟩ := ha
    · rw [ihl h.1 b hb]; rfl
    · rw [ihr h.2.1 b hb, ← h.2.2.1]; rfl

theorem Tree.Balanced.node {l r : Tree} {a : Nat} {d : Data} (h : (Tree.node l a d r).Balanced) :
    l.Balanced ∧ r.Balanced ∧ l.bh = r.bh := by
  have key : ∀ x ∈ l.blackCounts ++ r.blackCounts, ∀ y ∈ l.blackCounts ++ r.blackCounts,
      x = y := by
    intro x hx y hy
    have := h (x + (if d.red then 0 else 1)) (List.mem_map_of_mem _ hx)
      (y + (if d.red then 0 else 1)) (List.mem_map_of_mem _ hy)
    omega
  refine ⟨fun x hx y hy => key x (List.mem_append_left _ hx) y (List.mem_append_left _ hy),
    fun x hx y hy => key x (List.mem_append_right _ hx) y (List.mem_append_right _ hy),
    key _ (List.mem_append_left _ l.bh_mem_blackCounts) _
      (List.mem_append_right _ r.bh_mem_blackCounts)⟩

/-- The node-by-node red-black shape says the same as: no red node has a red child and
every path to `nil` holds the same number of black nodes. -/
theorem Tree.RB_iff (t : Tree) : t.RB ↔ t.NoRedRed ∧ t.Balanced := by
  constructor
  · intro h
    refine ⟨?_, fun a ha b hb => by rw [h.blackCounts_eq a ha, h.blackCounts_eq b hb]⟩
    induction t with
    | leaf => trivial
    | node l a d r ihl ihr =>
      simp only [Tree.RB_node] at h
      exact ⟨h.2.2.2, ihl h.1, ihr h.2.1⟩
  · rintro ⟨h1, h2⟩
    induction t with
    | leaf => trivial
    | node l a d r ihl ihr =>
      obtain ⟨hl, hr, hb⟩ := h2.node
      exact ⟨ihl h1.2.1 hl, ihr h1.2.2 hr, hb, h1.1⟩

theorem Tree.RBValid_iff (t : Tree) : t.RBValid ↔ t.isRed = false ∧ t.RB := by
  unfold Tree.RBValid
  rw [Tree.RB_iff]

end BlackCounts

end RBTree


namespace RBTree

section Sorted

variable {cmp : Int → Int → Int}

theorem TotalPreorder.not_gt_of_gt (hc : TotalPreorder cmp) {a b : Int} (h : cmp a b = 1) :
    cmp b a ≠ 1 := by
  have := (hc.swap a b).1 h
  rw [this]; decide

theorem TotalPreorder.eq_symm (hc : TotalPreorder cmp) {a b : Int} (h : cmp a b = 0) :
    cmp b a = 0 := by
  rcases hc.range b a with e | e | e
  · have := (hc.swap b a).1 e
    rw [h] at this; exact absurd this (by decide)
  · have := (hc.swap a b).2 e
    rw [h] at this; exact absurd this (by decide)
  · exact e

theorem TotalPreorder.refl_eq (hc : TotalPreorder cmp) (a : Int) : cmp a a = 0 := by
  rcases hc.range a a with e | e | e
  · have := (hc.swap a a).1 e
    rw [e] at this; exact absurd this (by decide)
  · have := (hc.swap a a).2 e
    rw [e] at this; exact absurd this (by decide)
  · exact e

theorem Tree.keys_eq (t : Tree) : t.keys = t.entries.map (fun e => e.2.1) := rfl

/-- The descent of `TreeInsertHelp` ends at a place with no greater key before it
and no smaller key after it. -/
theorem descend_sorted (hc : TotalPreorder cmp) (k : Int) (t : Tree) (p : Path)
    (hb : ∀ e ∈ p.before, cmp e.2.1 k ≠ 1) (ha : ∀ e ∈ p.after, cmp k e.2.1 ≠ 1)
    (hs : SortedKeys cmp t.keys) :
    (∀ e ∈ (descend cmp k t p).before, cmp e.2.1 k ≠ 1) ∧
      (∀ e ∈ (descend cmp k t p).after, cmp k e.2.1 ≠ 1) := by
  induction t generalizing p with
  | leaf => exact ⟨hb, ha⟩
  | node l a d r ihl ihr =>
    simp only [SortedKeys, keys_node, List.pairwise_append, List.pairwise_cons,
      List.mem_cons, forall_eq_or_imp] at hs
    obtain ⟨hsl, ⟨hdr, hsr⟩, hlr⟩ := hs
    unfold descend
    split
    · next hgt =>
      refine ihl _ hb ?_ hsl
      intro e he
      simp only [Path.after, List.cons_append, List.mem_cons, List.mem_append] at he
      have hkd : cmp k d.key ≠ 1 := hc.not_gt_of_gt hgt
      rcases he with rfl | he | he
      · exact hkd
      · refine hc.trans _ _ _ hkd (hdr _ ?_)
        exact List.mem_map_of_mem (fun e => e.2.1) he
      · exact ha e he
    · next hle =>
      refine ihr _ ?_ ha hsr
      intro e he
      simp only [Path.before, List.mem_append, List.mem_singleton] at he
      rcases he with he | he | rfl
      · exact hb e he
      · refine hc.trans _ _ _ (hlr _ ?_).1 hle
        exact List.mem_map_of_mem (fun e => e.2.1) he
      · exact hle

/-- `RBTreeInsert` keeps the in-order keys sorted (abstract view). -/
theorem Tree.insert_sorted (hc : TotalPreorder cmp) (w : Int → Int) (T : Tree) (x : Nat)
    (key info : Int) (hs : SortedKeys cmp T.keys) :
    SortedKeys cmp (T.insert cmp w x key info).keys := by
  obtain ⟨h1, h2⟩ := Tree.insert_entries w cmp T x key info
  obtain ⟨hb, ha⟩ := descend_sorted hc key T [] (by simp [Path.before]) (by simp [Path.after]) hs
  rw [Tree.keys_eq, h1] at hs
  rw [Tree.keys_eq, h2]
  simp only [SortedKeys, List.map_append, List.map_cons, List.pairwise_append,
    List.pairwise_cons, List.mem_map, List.mem_cons, forall_eq_or_imp,
    forall_exists_index, and_imp, forall_apply_eq_imp_iff₂] at hs ⊢
  refine ⟨hs.1, ⟨fun e he => ha e he, hs.2.1⟩, fun e he => ⟨hb e he, fun e' he' => ?_⟩⟩
  exact hs.2.2 e he e' he'

/-- `RBDelete` keeps the in-order keys sorted (abstract view). -/
theorem Tree.delete_sorted (w : Int → Int) {T T' : Tree} {z : Nat} (hn : T.addrs.Nodup)
    (h : Tree.delete w T z = some T') (hs : SortedKeys cmp T.keys) :
    SortedKeys cmp T'.keys := by
  rw [Tree.keys_eq, Tree.delete_entries w hn h]
  exact hs.sublist (List.Sublist.map _ (List.filter_sublist _))

end Sorted

end RBTree


namespace RBTree

section SmallSpecs

variable {tree : rb_red_blk_tree} {m : Mem}

/-- `RBTreeCreate` builds the empty tree. -/
theorem RBTreeCreate_spec (CompFunc : Int → Int → Int) (DistFunc : Int → Int) (nilp rootp : Nat)
    (m0 : Mem) (h : nilp ≠ rootp) :
    RepTree (RBTreeCreate CompFunc DistFunc nilp rootp m0).1
      (RBTreeCreate CompFunc DistFunc nilp rootp m0).2 .leaf := by
  have h' : rootp ≠ nilp := fun e => h e.symm
  refine ⟨?_, ?_, ?_, trivial, trivial⟩
  · simp [RBTreeCreate, h]
  · simp [RBTreeCreate, NilCell, setParent, setLeft, setRight, setRed, setKey, setChildren,
      upd, h, h']
  · simp [RBTreeCreate, RootCell, setParent, setLeft, setRight, setRed, setKey, setChildren,
      upd, h, h', Tree.addr]

/-- The heap cells hold the keys and payloads of the in-order sequence. -/
theorem Rep.entry {nil : Nat} {t : Tree} {q : Nat} (h : Rep nil m t q) {a : Nat} {k i : Int}
    (he : (a, k, i) ∈ t.entries) : (m a).key = k ∧ (m a).info = i := by
  induction t generalizing q with
  | leaf => simp at he
  | node l b d r ihl ihr =>
    simp only [entries_node, List.mem_append, List.mem_cons, Prod.mk.injEq] at he
    rcases he with he | ⟨rfl, rfl, rfl⟩ | he
    · exact ihl h.2.1 he
    · rw [h.1]; exact ⟨rfl, rfl⟩
    · exact ihr h.2.2 he

theorem RepTree.entry_cell {T : Tree} (h : RepTree tree m T) {a : Nat} {k i : Int}
    (he : (a, k, i) ∈ T.entries) : (m a).key = k ∧ (m a).info = i :=
  Rep.entry h.sub he

/-- The loop of `GetNodeRank` climbs to the real root. -/
theorem rankLoop_spec (p : Path) {l r : Tree} {x : Nat} {d : Data}
    (h : RepZ tree m p (.node l x d r)) (ret : Int) (fuel : Nat) (hf : p.length < fuel) :
    GetNodeRank.loop tree m fuel x ret = some (ret + Path.rank tree.DistFunc p) := by
  induction p generalizing l r x d ret fuel with
  | nil =>
    obtain ⟨n, rfl⟩ : ∃ n, fuel = n + 1 := ⟨fuel - 1, by omega⟩
    have hc := h.cell
    simp [GetNodeRank.loop, hc, mkCell, Path.rank]
  | cons f p ih =>
    obtain ⟨n, rfl⟩ : ∃ n, fuel = n + 1 := ⟨fuel - 1, by omega⟩
    have hc := h.cell
    have hxp : (m x).parent = f.a := by rw [hc]; rfl
    have hfr : f.a ≠ tree.root := by
      have hfa : f.a ∈ (f.plug (Tree.node l x d r)).addrs := by
        cases f <;> simp [Frame.plug]
      exact fun e => (h.up.sub_ne hfa).2.1 e.symm
    simp only [List.length_cons] at hf
    cases f with
    | L a da ra =>
      have hu := h.up
      simp only [Frame.plug] at hu
      have hac := hu.cell
      have hxr : x ≠ ra.addr tree.nil := by
        obtain ⟨-, hnn, hnt, -⟩ := hu.nodup'
        simp only [addrs_node, List.nodup_append, List.nodup_cons, List.disjoint_left,
          List.mem_cons, List.mem_append, not_or] at hnt
        refine (Tree.addr_ne (hnn x (Or.inr (Or.inl (by simp)))).1 ?_).symm
        exact fun e => (hnt.2.2 (Or.inr (Or.inl rfl))).2 e
      have har : (m a).right = ra.addr tree.nil := by rw [hac]; rfl
      simp only [Frame.a] at hxp hfr
      simp only [GetNodeRank.loop, hxp, ne_eq, hfr, not_false_eq_true, if_true, har, hxr,
        if_false]
      rw [ih hu ret n (by omega)]
      rfl
    | R la a da =>
      have hu := h.up
      simp only [Frame.plug] at hu
      have hac := hu.cell
      have har : (m a).right = x := by rw [hac]; rfl
      have hal : (m a).left = la.addr tree.nil := by rw [hac]; rfl
      have hak : (m a).key = da.key := by rw [hac]; rfl
      have hlc : (m (la.addr tree.nil)).children = la.ch := Rep.ch_eq hu.sub.2.1 hu.nilc
      simp only [Frame.a] at hxp hfr
      simp only [GetNodeRank.loop, hxp, ne_eq, hfr, not_false_eq_true, if_true, har, hal, hak,
        hlc]
      rw [ih hu _ n (by omega)]
      simp only [Path.rank]
      congr 1
      omega

/-- `GetNodeRank` at a node of the tree. -/
theorem GetNodeRank_spec (p : Path) {l r : Tree} {x : Nat} {d : Data}
    (h : RepZ tree m p (.node l x d r)) (fuel : Nat) (hf : p.length < fuel) :
    GetNodeRank fuel tree m x = some (l.ch + Path.rank tree.DistFunc p) := by
  have hc := h.cell
  have hl : (m x).left = l.addr tree.nil := by rw [hc]; rfl
  have hlc : (m (l.addr tree.nil)).children = l.ch := Rep.ch_eq h.sub.2.1 h.nilc
  rw [GetNodeRank, hl, hlc]
  exact rankLoop_spec p h _ fuel hf

end SmallSpecs

end RBTree


namespace RBTree

section RankQuery

variable {tree : rb_red_blk_tree} {m : Mem}

theorem totalWeight_append (w : Int → Int) (A B : List Entry) :
    totalWeight w (A ++ B) = totalWeight w A + totalWeight w B := by
  simp [totalWeight]

theorem Tree.Agg.ch_total {w : Int → Int} {t : Tree} (h : t.Agg w) :
    t.ch = totalWeight w t.entries := by
  induction t with
  | leaf => rfl
  | node l a d r ihl ihr =>
    obtain ⟨h1, h2, h3⟩ := h
    simp only [Tree.ch_node, entries_node, totalWeight, List.map_append, List.map_cons,
      List.sum_append, List.sum_cons]
    have e1 := ihl h2
    have e2 := ihr h3
    simp only [totalWeight] at e1 e2
    rw [h1, e1, e2]; omega

theorem Path.Agg.rank_eq {w : Int → Int} {p : Path} {c : Int} (h : Path.Agg w p c) :
    Path.rank w p = totalWeight w p.before := by
  induction p generalizing c with
  | nil => rfl
  | cons f p ih =>
    cases f with
    | L a d r => exact ih h.2.2
    | R l a d =>
      simp only [Path.rank, Path.before, totalWeight_append, ih h.2.2, h.2.1.ch_total]
      simp [totalWeight]; omega

theorem weightBefore_middle (w : Int → Int) {x : Nat} {k i : Int} {B A : List Entry}
    (hx : x ∉ B.map (fun e => e.1)) :
    weightBefore w (B ++ (x, k, i) :: A) x = totalWeight w B := by
  unfold weightBefore totalWeight
  have : (B ++ (x, k, i) :: A).takeWhile (fun e => decide (e.1 ≠ x)) = B := by
    rw [List.takeWhile_append_of_pos]
    · simp [List.takeWhile_cons]
    · intro e he
      simp only [ne_eq, decide_not, Bool.not_eq_eq_eq_not, Bool.not_true,
        decide_eq_false_iff_not]
      rintro rfl
      exact hx (List.mem_map_of_mem _ he)
  rw [this]

/-- `GetNodeRank` returns the total weight of the nodes that precede `x` in in-order. -/
theorem GetNodeRank_entries {T : Tree} (h : RepTree tree m T) (ha : T.Agg tree.DistFunc)
    {x : Nat} (hx : x ∈ T.addrs) (fuel : Nat) (hf : T.size < fuel) :
    GetNodeRank fuel tree m x = some (weightBefore tree.DistFunc T.entries x) := by
  obtain ⟨p, s, hfind⟩ := Tree.find_some T [] hx
  obtain ⟨hff, l, d, r, rfl⟩ := Tree.find_fill T [] hfind
  simp only [fill_nil] at hff
  have hz : RepZ tree m p (.node l x d r) := RepZ.ofTop (hff ▸ h)
  have hlen := fill_size_le p (.node l x d r)
  rw [hff] at hlen
  simp only [Tree.size] at hlen
  rw [GetNodeRank_spec p hz fuel (by omega)]
  rw [← hff, fill_Agg] at ha
  obtain ⟨⟨-, hl, -⟩, hp⟩ := ha
  rw [hp.rank_eq, hl.ch_total, ← hff, entries_fill]
  have hn : x ∉ (p.before ++ l.entries).map (fun e => e.1) := by
    obtain ⟨-, -, hnt, -, -, hsp, -⟩ := hz.nodup'
    simp only [List.map_append, List.mem_append, not_or]
    refine ⟨(hsp x (by simp)).1, ?_⟩
    simp only [addrs_node, List.nodup_append, List.nodup_cons, List.disjoint_left,
      List.mem_cons, not_or] at hnt
    exact fun e => (hnt.2.2 e).1 rfl
  have := weightBefore_middle tree.DistFunc (k := d.key) (i := d.info)
    (A := r.entries ++ p.after) hn
  simp only [entries_node, List.append_assoc, List.cons_append] at this ⊢
  rw [this, totalWeight_append]
  rw [add_comm]

end RankQuery

end RBTree


namespace RBTree

section Query

variable {tree : rb_red_blk_tree} {m : Mem}

theorem queryLoop_spec (q : Int) (t : Tree) :
    ∀ l a d r, t = .node l a d r → ∀ (par fuel : Nat), Rep tree.nil m t par →
      (∀ b ∈ t.addrs, tree.nil ≠ b) → t.size ≤ fuel →
      RBExactQuery.loop tree m q fuel a (tree.Compare d.key q) =
        some (Tree.lookup tree.Compare q t) := by
  induction t with
  | leaf => intro l a d r e; exact absurd e (by simp)
  | node l0 a0 d0 r0 ihl ihr =>
    intro l a d r e par fuel h hn hf
    simp only [Tree.node.injEq] at e
    obtain ⟨rfl, rfl, rfl, rfl⟩ := e
    obtain ⟨n, rfl⟩ : ∃ n, fuel = n + 1 := ⟨fuel - 1, by simp only [Tree.size] at hf; omega⟩
    simp only [Tree.size] at hf
    have hl : (m a0).left = l0.addr tree.nil := by rw [h.1]; rfl
    have hr : (m a0).right = r0.addr tree.nil := by rw [h.1]; rfl
    by_cases hc0 : tree.Compare d0.key q = 0
    · simp [RBExactQuery.loop, Tree.lookup, hc0]
    · have hc0' : ¬ (0 = tree.Compare d0.key q) := fun e => hc0 e.symm
      by_cases hc1 : tree.Compare d0.key q = 1
      · simp only [RBExactQuery.loop, ne_eq, hc0', not_false_eq_true, if_true, hc1, hl,
          Tree.lookup, one_ne_zero, if_false]
        cases l0 with
        | leaf => simp [Tree.addr, Tree.lookup]
        | node ll la ld lr =>
          have hne : la ≠ tree.nil := fun e => hn la (by simp) e.symm
          simp only [Tree.addr_node, hne, if_false]
          have hk : (m la).key = ld.key := by rw [h.2.1.1]; rfl
          rw [hk]
          exact ihl ll la ld lr rfl a0 n h.2.1
            (fun b hb => hn b (by rw [addrs_node]; exact List.mem_append_left _ hb))
            (by simp only [Tree.size] at hf ⊢; omega)
      · have hc1' : ¬ (1 = tree.Compare d0.key q) := fun e => hc1 e.symm
        simp only [RBExactQuery.loop, ne_eq, hc0', not_false_eq_true, if_true, hc1', if_false,
          hr, Tree.lookup, hc0, hc1]
        cases r0 with
        | leaf => simp [Tree.addr, Tree.lookup]
        | node rl ra rd rr =>
          have hne : ra ≠ tree.nil := fun e => hn ra (by simp) e.symm
          simp only [Tree.addr_node, hne, if_false]
          have hk : (m ra).key = rd.key := by rw [h.2.2.1]; rfl
          rw [hk]
          exact ihr rl ra rd rr rfl a0 n h.2.2
            (fun b hb => hn b (by
              rw [addrs_node]; exact List.mem_append_right _ (List.mem_cons_of_mem _ hb)))
            (by simp only [Tree.size] at hf ⊢; omega)

/-- `RBExactQuery` refines the abstract descent and returns with enough fuel. -/
theorem RBExactQuery_spec {T : Tree} (h : RepTree tree m T) (q : Int) (fuel : Nat)
    (hf : T.size ≤ fuel) :
    RBExactQuery fuel tree m q = some (T.lookup tree.Compare q) := by
  have hroot : (m tree.root).left = T.addr tree.nil := h.rootc.2.2.1
  obtain ⟨-, hnn, -⟩ := RepZ.nodup' h
  cases T with
  | leaf => simp [RBExactQuery, hroot, Tree.addr, Tree.lookup]
  | node l a d r =>
    have hne : a ≠ tree.nil := fun e => (hnn a (Or.inr (Or.inl (by simp)))).1 e.symm
    have hk : (m a).key = d.key := by rw [h.sub.1]; rfl
    simp only [RBExactQuery, hroot, Tree.addr_node, hne, if_false, hk]
    exact queryLoop_spec q _ l a d r rfl _ fuel h.sub
      (fun b hb => (hnn b (Or.inr (Or.inl hb))).1) hf

variable {cmp : Int → Int → Int}

/-- A node returned by the descent is a node of the tree and its key compares equal. -/
theorem Tree.lookup_sound (q : Int) (t : Tree) {a : Nat} (h : t.lookup cmp q = some a) :
    ∃ k i, (a, k, i) ∈ t.entries ∧ cmp k q = 0 := by
  induction t with
  | leaf => simp [Tree.lookup] at h
  | node l b d r ihl ihr =>
    simp only [Tree.lookup] at h
    split at h
    · next h0 =>
      simp only [Option.some.injEq] at h
      exact ⟨d.key, d.info, by simp [h], h0⟩
    · split at h
      · obtain ⟨k, i, hm, hk⟩ := ihl h
        exact ⟨k, i, by simp [hm], hk⟩
      · obtain ⟨k, i, hm, hk⟩ := ihr h
        exact ⟨k, i, by simp [hm], hk⟩

/-- On a sorted tree the descent misses no key that compares equal. -/
theorem Tree.lookup_complete (hc : TotalPreorder cmp) (q : Int) (t : Tree)
    (hs : SortedKeys cmp t.keys) (h : t.lookup cmp q = none) :
    ∀ k ∈ t.keys, cmp k q ≠ 0 := by
  induction t with
  | leaf => simp
  | node l b d r ihl ihr =>
    simp only [SortedKeys, keys_node, List.pairwise_append, List.pairwise_cons,
      List.mem_cons, forall_eq_or_imp] at hs
    obtain ⟨hsl, ⟨hdr, hsr⟩, hlr⟩ := hs
    simp only [Tree.lookup] at h
    split at h
    · exact absurd h (by simp)
    · next h0 =>
      intro k hk
      simp only [keys_node, List.mem_append, List.mem_cons] at hk
      split at h
      · next h1 =>
        rcases hk with hk | rfl | hk
        · exact ihl hsl h k hk
        · exact h0
        · -- `d.key ≤ k` and `d.key > q`
          intro e
          exact hc.trans _ _ _ (hdr k hk) (by rw [e]; decide) h1
      · next h1 =>
        have hlt : cmp d.key q = -1 := by
          rcases hc.range d.key q with e | e | e
          · exact absurd e h1
          · exact e
          · exact absurd e h0
        have hgt : cmp q d.key = 1 := (hc.swap q d.key).2 hlt
        rcases hk with hk | rfl | hk
        · intro e
          have e' := hc.eq_symm e
          exact hc.trans _ _ _ (by rw [e']; decide) (hlr k hk).1 hgt
        · exact h0
        · exact ihr hsr h k hk

end Query

end RBTree


namespace RBTree

section FuelMono

variable {tree : rb_red_blk_tree}

theorem insDescend_mono (m : Mem) (z fuel y x : Nat) {r : Nat}
    (h : TreeInsertHelp.descend tree m z fuel y x = some r) :
    TreeInsertHelp.descend tree m z (fuel + 1) y x = some r := by
  induction fuel generalizing y x with
  | zero => simp [TreeInsertHelp.descend] at h
  | succ n ih =>
    rw [TreeInsertHelp.descend.eq_2] at h ⊢
    split_ifs at h ⊢ <;> first | exact h | exact ih _ _ h

theorem insPropagate_mono (z fuel : Nat) (m : Mem) (x : Nat) {r : Mem}
    (h : TreeInsertHelp.propagate tree z fuel m x = some r) :
    TreeInsertHelp.propagate tree z (fuel + 1) m x = some r := by
  induction fuel generalizing m x with
  | zero => simp [TreeInsertHelp.propagate] at h
  | succ n ih =>
    rw [TreeInsertHelp.propagate.eq_2] at h ⊢
    split_ifs at h ⊢ <;> first | exact h | exact ih _ _ h

theorem TreeInsertHelp_mono (fuel : Nat) (m : Mem) (z : Nat) {r : Mem}
    (h : TreeInsertHelp fuel tree m z = some r) : TreeInsertHelp (fuel + 1) tree m z = some r := by
  simp only [TreeInsertHelp] at h ⊢
  split at h
  · exact absurd h (by simp)
  · next y hy =>
    rw [insDescend_mono _ _ _ _ _ hy]
    exact insPropagate_mono _ _ _ _ h

theorem insLoop_mono (fuel : Nat) (m : Mem) (x : Nat) {r : Mem}
    (h : RBTreeInsert.loop tree fuel m x = some r) :
    RBTreeInsert.loop tree (fuel + 1) m x = some r := by
  induction fuel generalizing m x with
  | zero => simp [RBTreeInsert.loop] at h
  | succ n ih =>
    rw [RBTreeInsert.loop.eq_2] at h ⊢
    dsimp only at h ⊢
    split_ifs at h ⊢ <;> first | exact h | exact ih _ _ h

theorem RBTreeInsert_mono (fuel : Nat) (m : Mem) (x : Nat) (key info : Int) {r : Mem × Nat}
    (h : RBTreeInsert fuel tree m x key info = some r) :
    RBTreeInsert (fuel + 1) tree m x key info = some r := by
  simp only [RBTreeInsert] at h ⊢
  split at h
  · exact absurd h (by simp)
  · next m1 h1 =>
    rw [TreeInsertHelp_mono _ _ _ h1]
    simp only
    split at h
    · exact absurd h (by simp)
    · next m2 h2 =>
      rw [insLoop_mono _ _ _ h2]
      exact h

theorem succDown_mono (m : Mem) (fuel y : Nat) {r : Nat}
    (h : TreeSuccessor.down tree m fuel y = some r) :
    TreeSuccessor.down tree m (fuel + 1) y = some r := by
  induction fuel generalizing y with
  | zero => simp [TreeSuccessor.down] at h
  | succ n ih =>
    rw [TreeSuccessor.down.eq_2] at h ⊢
    split_ifs at h ⊢ <;> first | exact h | exact ih _ h

theorem succUp_mono (m : Mem) (fuel x y : Nat) {r : Nat}
    (h : TreeSuccessor.up m fuel x y = some r) : TreeSuccessor.up m (fuel + 1) x y = some r := by
  induction fuel generalizing x y with
  | zero => simp [TreeSuccessor.up] at h
  | succ n ih =>
    rw [TreeSuccessor.up.eq_2] at h ⊢
    split_ifs at h ⊢ <;> first | exact h | exact ih _ _ h

theorem TreeSuccessor_mono (fuel : Nat) (m : Mem) (x : Nat) {r : Nat}
    (h : TreeSuccessor fuel tree m x = some r) : TreeSuccessor (fuel + 1) tree m x = some r := by
  simp only [TreeSuccessor] at h ⊢
  split_ifs at h ⊢
  · exact succDown_mono _ _ _ h
  · split at h
    · exact absurd h (by simp)
    · next y hy =>
      rw [succUp_mono _ _ _ _ hy]
      exact h

theorem delPropagate_mono (d : Int) (fuel : Nat) (m : Mem) (x : Nat) {r : Mem}
    (h : RBDelete.propagate tree d fuel m x = some r) :
    RBDelete.propagate tree d (fuel + 1) m x = some r := by
  induction fuel generalizing m x with
  | zero => simp [RBDelete.propagate] at h
  | succ n ih =>
    rw [RBDelete.propagate.eq_2] at h ⊢
    split_ifs at h ⊢ <;> first | exact h | exact ih _ _ h

theorem delLoop_mono (root fuel : Nat) (m : Mem) (x : Nat) {r : Mem × Nat}
    (h : RBDeleteFixUp.loop tree root fuel m x = some r) :
    RBDeleteFixUp.loop tree root (fuel + 1) m x = some r := by
  induction fuel generalizing m x with
  | zero => simp [RBDeleteFixUp.loop] at h
  | succ n ih =>
    rw [RBDeleteFixUp.loop.eq_2] at h ⊢
    dsimp only at h ⊢
    split_ifs at h ⊢ <;> first | exact h | exact ih _ _ h

theorem RBDeleteFixUp_mono (fuel : Nat) (m : Mem) (x : Nat) {r : Mem}
    (h : RBDeleteFixUp fuel tree m x = some r) : RBDeleteFixUp (fuel + 1) tree m x = some r := by
  simp only [RBDeleteFixUp] at h ⊢
  split at h
  · exact absurd h (by simp)
  · next m1 x1 h1 =>
    rw [delLoop_mono _ _ _ _ h1]
    exact h

theorem RBDelete_mono (fuel : Nat) (m : Mem) (z : Nat) {r : Mem}
    (h : RBDelete fuel tree m z = some r) : RBDelete (fuel + 1) tree m z = some r := by
  simp only [RBDelete] at h ⊢
  have hy : ∀ y, (if (m z).left = tree.nil ∨ (m z).right = tree.nil then some z
      else TreeSuccessor fuel tree m z) = some y →
      (if (m z).left = tree.nil ∨ (m z).right = tree.nil then some z
      else TreeSuccessor (fuel + 1) tree m z) = some y := by
    intro y hy
    split_ifs at hy ⊢
    · exact hy
    · exact TreeSuccessor_mono _ _ _ hy
  split at h
  · exact absurd h (by simp)
  · next y hy1 =>
    rw [hy y hy1]
    simp only
    split at h
    · exact absurd h (by simp)
    · next m1 h1 =>
      rw [delPropagate_mono _ _ _ _ h1]
      simp only
      generalize (if (m y).left = tree.nil then (m y).right else (m y).left) = x at h ⊢
      by_cases hyz : y ≠ z
      · rw [if_pos hyz] at h ⊢
        by_cases hred : (!(RBDelete.splice tree m1 x y y).red) = true
        · rw [if_pos hred] at h ⊢
          split at h
          · exact absurd h (by simp)
          · next m3 h3 =>
            rw [RBDeleteFixUp_mono _ _ _ h3]
            exact delPropagate_mono _ _ _ _ h
        · rw [if_neg hred] at h ⊢
          exact delPropagate_mono _ _ _ _ h
      · rw [if_neg hyz] at h ⊢
        by_cases hred : (!(RBDelete.splice tree m1 x y y).red) = true
        · rw [if_pos hred] at h ⊢
          exact RBDeleteFixUp_mono _ _ _ h
        · rw [if_neg hred] at h ⊢
          exact h

/-- A result reached with some fuel is the result for every larger fuel. -/
theorem Returns.of_mono {α : Type} {f : Nat → Option α}
    (hm : ∀ n r, f n = some r → f (n + 1) = some r) {N : Nat} {r : α} (h : f N = some r) :
    Returns f r := by
  refine ⟨N, fun fuel hf => ?_⟩
  induction fuel, hf using Nat.le_induction with
  | base => exact h
  | succ n _ ih => exact hm n r ih

theorem Returns.unique {α : Type} {f : Nat → Option α} {r r' : α} (h : Returns f r)
    (h' : Returns f r') : r = r' := by
  obtain ⟨N, hN⟩ := h
  obtain ⟨N', hN'⟩ := h'
  have h1 := hN (max N N') (le_max_left _ _)
  have h2 := hN' (max N N') (le_max_right _ _)
  rw [h1] at h2
  exact Option.some.inj h2

end FuelMono

end RBTree


namespace RBTree

section Packaged

variable {tree : rb_red_blk_tree} {m : Mem}

/-- `RBTreeInsert` returns the handle it was given by the allocator, and the new heap
holds the tree of the abstract insertion. -/
theorem RBTreeInsert_returns {T : Tree} (h : RepTree tree m T) (hb : T.isRed = false)
    {x : Nat} (hxn : x ≠ tree.nil) (hxr : x ≠ tree.root) (hx : x ∉ T.addrs) (key info : Int) :
    ∃ m', Returns (fun fuel => RBTreeInsert fuel tree m x key info) (m', x) ∧
      RepTree tree m' (T.insert tree.Compare tree.DistFunc x key info) := by
  obtain ⟨m', h1, h2⟩ := RBTreeInsert_spec h hb hxn hxr hx key info (T.size + 2) le_rfl
  exact ⟨m', Returns.of_mono (fun n r hr => RBTreeInsert_mono n m x key info hr) h1, h2⟩

/-- `RBDelete` of a node of a red-black tree returns, and the new heap holds the tree of
the abstract deletion. -/
theorem RBDelete_returns {T : Tree} (h : RepTree tree m T) (hb : T.isRed = false) (hRB : T.RB)
    {z : Nat} (hz : z ∈ T.addrs) :
    ∃ m' T', Tree.delete tree.DistFunc T z = some T' ∧
      Returns (fun fuel => RBDelete fuel tree m z) m' ∧ RepTree tree m' T' ∧ KeysEq m m' := by
  obtain ⟨T', hdel, -⟩ := Tree.delete_RB tree.DistFunc hRB hz
  obtain ⟨m', h1, h2, h3⟩ := RBDelete_spec h hb hdel (T.size + 2) le_rfl
  exact ⟨m', T', hdel, Returns.of_mono (fun n r hr => RBDelete_mono n m z hr) h1, h2, h3⟩

theorem RepTree.addrs_nodup {T : Tree} (h : RepTree tree m T) : T.addrs.Nodup :=
  (List.nodup_cons.1 (List.nodup_cons.1 h.nodup).2).2

theorem RepTree.ne_nil {T : Tree} (h : RepTree tree m T) {a : Nat} (ha : a ∈ T.addrs) :
    a ≠ tree.nil ∧ a ≠ tree.root := by
  have := RepZ.sub_ne h ha
  exact ⟨this.1.symm, this.2.1.symm⟩

theorem Tree.insert_addrs (cmp : Int → Int → Int) (w : Int → Int) (T : Tree) (x : Nat)
    (key info : Int) : List.Perm (T.insert cmp w x key info).addrs (x :: T.addrs) := by
  obtain ⟨h1, h2⟩ := Tree.insert_entries w cmp T x key info
  rw [Tree.addrs, Tree.addrs, h2, h1]
  simp only [List.map_append, List.map_cons]
  exact List.perm_middle

theorem Tree.delete_addrs (w : Int → Int) {T T' : Tree} {z : Nat} (hn : T.addrs.Nodup)
    (h : Tree.delete w T z = some T') : T'.addrs = T.addrs.erase z := by
  rw [Tree.addrs, Tree.delete_entries w hn h, hn.erase_eq_filter, Tree.addrs, List.filter_map]
  congr 1
  refine List.filter_congr fun e _ => ?_
  by_cases he : e.1 = z <;> simp [he]

/-- Every reachable state holds a tree whose nodes are the live handles and which is a
valid red-black tree with correct aggregates, sorted when the comparator is a total
preorder. -/
theorem Reachable.inv {hs : List Nat} (h : Reachable tree m hs) :
    ∃ T, RepTree tree m T ∧ List.Perm T.addrs hs ∧ T.isRed = false ∧ T.RB ∧
      T.Agg tree.DistFunc ∧ (TotalPreorder tree.Compare → SortedKeys tree.Compare T.keys) := by
  induction h with
  | create C D nilp rootp m0 hne =>
    exact ⟨.leaf, RBTreeCreate_spec C D nilp rootp m0 hne, List.Perm.refl _, rfl, trivial,
      trivial, fun _ => List.Pairwise.nil⟩
  | @insert tree m m' hs x x' key info _ hxn hxr hx hret ih =>
    obtain ⟨T, hT, hp, hb, hRB, hA, hS⟩ := ih
    have hxT : x ∉ T.addrs := fun e => hx (hp.subset e)
    obtain ⟨m'', hr, hT'⟩ := RBTreeInsert_returns hT hb hxn hxr hxT key info
    have e := hret.unique hr
    simp only [Prod.mk.injEq] at e
    obtain ⟨rfl, rfl⟩ := e
    refine ⟨_, hT', ?_, (Tree.insert_RB _ _ _ _ _ _ hRB).2, (Tree.insert_RB _ _ _ _ _ _ hRB).1,
      Tree.insert_Agg _ _ _ _ _ _ hA, fun hc => Tree.insert_sorted hc _ _ _ _ _ (hS hc)⟩
    exact (Tree.insert_addrs _ _ _ _ _ _).trans (List.Perm.cons _ hp)
  | @delete tree m m' hs z _ hz hret ih =>
    obtain ⟨T, hT, hp, hb, hRB, hA, hS⟩ := ih
    have hzT : z ∈ T.addrs := hp.symm.subset hz
    obtain ⟨m'', T', hdel, hr, hT', -⟩ := RBDelete_returns hT hb hRB hzT
    have e := hret.unique hr
    subst e
    have hn := hT.addrs_nodup
    obtain ⟨T'', hdel', hRB'⟩ := Tree.delete_RB tree.DistFunc hRB hzT
    rw [hdel] at hdel'
    simp only [Option.some.injEq] at hdel'
    subst hdel'
    refine ⟨T', hT', ?_, Tree.delete_rootBlack _ hb hdel, hRB', Tree.delete_Agg _ hn hA hdel,
      fun hc => Tree.delete_sorted _ hn hdel (hS hc)⟩
    rw [Tree.delete_addrs _ hn hdel]
    exact hp.erase z

end Packaged

end RBTree


namespace RBTree

section ClaimHelpers

variable {tree : rb_red_blk_tree} {m : Mem}

theorem CmpInt64_total : TotalPreorder CmpInt64 := by
  refine ⟨fun a b => ?_, fun a b => ?_, fun a b c h1 h2 => ?_⟩
  · unfold CmpInt64; split_ifs <;> simp
  · unfold CmpInt64
    constructor
    · intro h
      split_ifs at h ⊢ <;> first | rfl | omega | (exact absurd h (by decide))
    · intro h
      split_ifs at h ⊢ <;> first | rfl | omega | (exact absurd h (by decide))
  · unfold CmpInt64 at h1 h2 ⊢
    split_ifs at h1 h2 ⊢ <;> first | omega | decide | (exact absurd rfl h1) | (exact absurd rfl h2)

/-- The aggregate equation of the abstract tree is the equation read from the heap at
every node. -/
theorem Rep.agg_iff {t : Tree} {q : Nat} (h : Rep tree.nil m t q)
    (hn : NilCell tree (m tree.nil)) :
    t.Agg tree.DistFunc ↔ ∀ a ∈ t.addrs, AggAt tree m a := by
  induction t generalizing q with
  | leaf => simp [Tree.Agg]
  | node l a d r ihl ihr =>
    have hl : (m (m a).left).children = l.ch := by
      rw [h.1]; exact Rep.ch_eq h.2.1 hn
    have hr : (m (m a).right).children = r.ch := by
      rw [h.1]; exact Rep.ch_eq h.2.2 hn
    have hk : (m a).key = d.key := by rw [h.1]; rfl
    have hc : (m a).children = d.children := by rw [h.1]; rfl
    simp only [Tree.Agg, ihl h.2.1, ihr h.2.2, addrs_node, List.mem_append, List.mem_cons]
    constructor
    · rintro ⟨h1, h2, h3⟩ b (hb | rfl | hb)
      · exact h2 b hb
      · unfold AggAt; rw [hl, hr, hk, hc]; exact h1
      · exact h3 b hb
    · intro hall
      refine ⟨?_, fun b hb => hall b (Or.inl hb), fun b hb => hall b (Or.inr (Or.inr hb))⟩
      have := hall a (Or.inr (Or.inl rfl))
      unfold AggAt at this
      rw [hl, hr, hk, hc] at this
      exact this

theorem RepTree.aggAt_iff {T : Tree} (h : RepTree tree m T) :
    T.Agg tree.DistFunc ↔ ∀ a ∈ T.addrs, AggAt tree m a :=
  Rep.agg_iff h.sub h.nilc

/-- The weight of the nodes before the `i`-th node of an in-order sequence. -/
theorem weightBefore_take (w : Int → Int) (es : List Entry) (hn : (es.map (fun e => e.1)).Nodup)
    (i : Nat) (hi : i < es.length) :
    weightBefore w es (es.get ⟨i, hi⟩).1 = ((es.take i).map (fun e => w e.2.1)).sum := by
  have hsplit : es = es.take i ++ es.get ⟨i, hi⟩ :: es.drop (i + 1) := by
    rw [List.get_eq_getElem, List.getElem_cons_drop, List.take_append_drop]
  have hx : (es.get ⟨i, hi⟩).1 ∉ (es.take i).map (fun e => e.1) := by
    rw [hsplit] at hn
    simp only [List.map_append, List.map_cons] at hn
    have := List.nodup_middle.1 hn
    rw [List.nodup_cons, List.mem_append, not_or] at this
    exact this.1.1
  have := weightBefore_middle w (k := (es.get ⟨i, hi⟩).2.1) (i := (es.get ⟨i, hi⟩).2.2)
    (A := es.drop (i + 1)) hx
  simp only [Prod.mk.eta] at this
  rw [← hsplit] at this
  exact this

theorem pairwise_total {α : Type} {R : α → α → Prop} {l : List α} (h : l.Pairwise R) {a b : α}
    (ha : a ∈ l) (hb : b ∈ l) (hab : a ≠ b) : R a b ∨ R b a := by
  induction l with
  | nil => simp at ha
  | cons c l ih =>
    rw [List.pairwise_cons] at h
    rcases List.mem_cons.1 ha with rfl | ha'
    · rcases List.mem_cons.1 hb with rfl | hb'
      · exact absurd rfl hab
      · exact Or.inl (h.1 b hb')
    · rcases List.mem_cons.1 hb with rfl | hb'
      · exact Or.inr (h.1 a ha')
      · exact ih h.2 ha' hb'

/-- The in-order sequence of a sorted tree is the ascending listing of its handles. -/
theorem inorder_eq_listing {T : Tree}
    (hc : TotalPreorder tree.Compare) (hT : RepTree tree m T)
    (hS : SortedKeys tree.Compare T.keys) {l : List Nat} (hp : List.Perm l T.addrs)
    (hl : l.Pairwise (fun a b => tree.Compare (m a).key (m b).key = -1)) : T.addrs = l := by
  have hn := hT.addrs_nodup
  have h1 : T.entries.Pairwise (fun e e' => tree.Compare e.2.1 e'.2.1 ≠ 1) := by
    rw [SortedKeys, Tree.keys_eq, List.pairwise_map] at hS
    exact hS
  have h2 : T.entries.Pairwise (fun e e' => e.1 ≠ e'.1) := by
    rw [Tree.addrs, List.Nodup, List.pairwise_map] at hn
    exact hn
  have h3 : T.addrs.Pairwise (fun a b => tree.Compare (m a).key (m b).key = -1) := by
    rw [Tree.addrs, List.pairwise_map]
    refine (h1.and h2).imp_of_mem ?_
    rintro e e' he he' ⟨h4, h5⟩
    have hk := (hT.entry_cell (a := e.1) (k := e.2.1) (i := e.2.2) he).1
    have hk' := (hT.entry_cell (a := e'.1) (k := e'.2.1) (i := e'.2.2) he').1
    rw [hk, hk']
    have hm : e.1 ∈ l := hp.symm.subset (List.mem_map_of_mem _ he)
    have hm' : e'.1 ∈ l := hp.symm.subset (List.mem_map_of_mem _ he')
    rcases pairwise_total hl hm hm' h5 with h6 | h6
    · rw [hk, hk'] at h6; exact h6
    · rw [hk, hk'] at h6
      exact absurd ((hc.swap _ _).2 h6) h4
  have hanti : IsAntisymm Nat (fun a b => tree.Compare (m a).key (m b).key = -1) :=
    ⟨fun a b h4 h5 => by
      have := (hc.swap _ _).2 h5
      rw [h4] at this
      exact absurd this (by decide)⟩
  exact List.eq_of_perm_of_sorted hp.symm h3 hl

end ClaimHelpers

end RBTree


namespace RBTree

section Examples

theorem exB_eq : RBTreeInsert 4 exTree exMemA 2 5 0 = some (exMemB, 2) := rfl

theorem exC_eq : RBTreeInsert 5 exTree exMemB 3 3 0 = some (exMemC, 3) := rfl

theorem ex_repA : RepTree exTree exMemA .leaf :=
  RBTreeCreate_spec CmpInt64 (fun k => k) 0 1 exMem0 (by decide)

theorem ex_repB : RepTree exTree exMemB exTreeB := by
  obtain ⟨m', h1, h2⟩ := RBTreeInsert_spec ex_repA rfl (x := 2) (by decide) (by decide)
    (by simp) 5 0 4 (by decide)
  rw [exB_eq] at h1
  simp only [Option.some.injEq, Prod.mk.injEq, and_true] at h1
  rw [h1]; exact h2

theorem ex_repC : RepTree exTree exMemC exTreeC := by
  obtain ⟨m', h1, h2⟩ := RBTreeInsert_spec ex_repB (by decide) (x := 3) (by decide) (by decide)
    (by decide) 3 0 5 (by decide)
  rw [exC_eq] at h1
  simp only [Option.some.injEq, Prod.mk.injEq, and_true] at h1
  rw [h1]; exact h2

theorem ex_reachA : Reachable exTree exMemA [] :=
  Reachable.create CmpInt64 (fun k => k) 0 1 exMem0 (by decide)

theorem ex_reachB : Reachable exTree exMemB [2] :=
  Reachable.insert 5 0 ex_reachA (by decide) (by decide) (by simp)
    (Returns.of_mono (fun n r hr => RBTreeInsert_mono n exMemA 2 5 0 hr) exB_eq)

theorem ex_reachC : Reachable exTree exMemC [3, 2] :=
  Reachable.insert 3 0 ex_reachB (by decide) (by decide) (by decide)
    (Returns.of_mono (fun n r hr => RBTreeInsert_mono n exMemB 3 3 0 hr) exC_eq)

theorem ex_validB : exTreeB.RBValid := by
  rw [Tree.RBValid_iff]
  exact ⟨rfl, (Tree.insert_RB (fun k => k) CmpInt64 Tree.leaf 2 5 0 trivial).1⟩

theorem ex_aggB : ∀ a ∈ exTreeB.addrs, AggAt exTree exMemB a :=
  ex_repB.aggAt_iff.1 (Tree.insert_Agg (fun k => k) CmpInt64 Tree.leaf 2 5 0 trivial)

theorem ex_validC : exTreeC.RBValid := by
  rw [Tree.RBValid_iff]
  have hB := (Tree.RBValid_iff exTreeB).1 ex_validB
  exact ⟨rfl, (Tree.insert_RB (fun k => k) CmpInt64 exTreeB 3 3 0 hB.2).1⟩

theorem ex_sortedC : SortedKeys exTree.Compare exTreeC.keys := by
  unfold SortedKeys
  decide

end Examples

end RBTree


namespace RBTree

section Claims

/-- C1: rank correctness for distinct keys.  In every state reached from `RBTreeCreate` by
`RBTreeInsert` and `RBDelete` calls, if the live handles are listed with strictly
ascending keys, then `GetNodeRank` of the `i`-th node returns the sum of the weights of the
keys of the nodes before it, for every `i`, any total-preorder comparator and any weight
function. -/
theorem rank_correct (tree : rb_red_blk_tree) (m : Mem) (hs : List Nat)
    (hc : TotalPreorder tree.Compare) (hr : Reachable tree m hs)
    (l : List Nat) (hp : List.Perm l hs)
    (hl : l.Pairwise (fun a b => tree.Compare (m a).key (m b).key = -1))
    (i : Nat) (hi : i < l.length) :
    Returns (fun fuel => GetNodeRank fuel tree m (l.get ⟨i, hi⟩))
      (((l.take i).map (fun a => tree.DistFunc (m a).key)).sum) := by
  obtain ⟨T, hT, hpT, -, -, hA, hS⟩ := hr.inv
  have hn := hT.addrs_nodup
  have hTl : T.addrs = l := inorder_eq_listing hc hT (hS hc) (hp.trans hpT.symm) hl
  have hlen : T.entries.length = l.length := by rw [← hTl, Tree.addrs, List.length_map]
  have hi' : i < T.entries.length := by rw [hlen]; exact hi
  have hx : l.get ⟨i, hi⟩ = (T.entries.get ⟨i, hi'⟩).1 := by
    simp only [List.get_eq_getElem]
    simp only [← hTl, Tree.addrs, List.getElem_map]
  refine ⟨T.size + 1, fun fuel hf => ?_⟩
  have hmem : l.get ⟨i, hi⟩ ∈ T.addrs := by rw [hTl]; exact List.get_mem _ _ _
  simp only
  rw [GetNodeRank_entries hT hA hmem fuel (by omega), hx,
    weightBefore_take _ _ hn i hi']
  congr 1
  rw [← hTl, Tree.addrs, ← List.map_take, List.map_map]
  congr 1
  refine List.map_congr_left fun e he => ?_
  have he' : e ∈ T.entries := List.mem_of_mem_take he
  simp only [Function.comp]
  rw [(hT.entry_cell (a := e.1) (k := e.2.1) (i := e.2.2) he').1]


theorem rank_correct_witness :
    Returns (fun fuel => GetNodeRank fuel exTree exMemC ([3, 2].get ⟨1, by decide⟩))
      ((([3, 2].take 1).map (fun a => exTree.DistFunc (exMemC a).key)).sum) :=
  rank_correct exTree exMemC [3, 2] CmpInt64_total ex_reachC [3, 2] (List.Perm.refl _)
    (by decide) 1 (by decide)

/-- C2: the aggregate invariant is preserved by insertion.  On a heap that holds a tree
with black real root, if every real node satisfies
`children = left.children + right.children + DistFunc(key)`, then `RBTreeInsert` returns
and the same holds for every real node of the new tree, the new one included, with the
`children` field of both sentinels still 0; for every key and weight function. -/
theorem insert_preserves_aggregate (tree : rb_red_blk_tree) (m : Mem) (T : Tree)
    (h : RepTree tree m T) (hb : T.isRed = false) (hagg : ∀ a ∈ T.addrs, AggAt tree m a)
    (x : Nat) (hxn : x ≠ tree.nil) (hxr : x ≠ tree.root) (hx : x ∉ T.addrs) (key info : Int) :
    ∃ m' T', Returns (fun fuel => RBTreeInsert fuel tree m x key info) (m', x) ∧
      RepTree tree m' T' ∧ List.Perm T'.addrs (x :: T.addrs) ∧
      (∀ a ∈ T'.addrs, AggAt tree m' a) ∧
      (m' tree.nil).children = 0 ∧ (m' tree.root).children = 0 := by
  obtain ⟨m', hr, hT'⟩ := RBTreeInsert_returns h hb hxn hxr hx key info
  refine ⟨m', _, hr, hT', Tree.insert_addrs _ _ _ _ _ _, ?_, hT'.nilc.2.2.2.2,
    hT'.rootc.2.2.2.2.2⟩
  exact hT'.aggAt_iff.1 (Tree.insert_Agg _ _ _ _ _ _ (h.aggAt_iff.2 hagg))

theorem insert_preserves_aggregate_witness :
    ∃ m' T', Returns (fun fuel => RBTreeInsert fuel exTree exMemB 3 3 0) (m', 3) ∧
      RepTree exTree m' T' ∧ List.Perm T'.addrs (3 :: exTreeB.addrs) ∧
      (∀ a ∈ T'.addrs, AggAt exTree m' a) ∧
      (m' exTree.nil).children = 0 ∧ (m' exTree.root).children = 0 :=
  insert_preserves_aggregate exTree exMemB exTreeB ex_repB (by decide) ex_aggB 3 (by decide)
    (by decide) (by decide) 3 0

/-- C3: the aggregate invariant is preserved by deletion.  On a heap that holds a valid
red-black tree in which every real node satisfies the aggregate equation, `RBDelete` of
a live node `z` returns and the equation holds for every remaining node, whether `z` is
spliced out itself or replaced by its successor. -/
theorem delete_preserves_aggregate (tree : rb_red_blk_tree) (m : Mem) (T : Tree)
    (h : RepTree tree m T) (hv : T.RBValid) (hagg : ∀ a ∈ T.addrs, AggAt tree m a)
    (z : Nat) (hz : z ∈ T.addrs) :
    ∃ m' T', Returns (fun fuel => RBDelete fuel tree m z) m' ∧
      RepTree tree m' T' ∧ T'.addrs = T.addrs.erase z ∧
      (∀ a ∈ T'.addrs, AggAt tree m' a) ∧
      (m' tree.nil).children = 0 ∧ (m' tree.root).children = 0 := by
  rw [Tree.RBValid_iff] at hv
  obtain ⟨m', T', hdel, hr, hT', -⟩ := RBDelete_returns h hv.1 hv.2 hz
  refine ⟨m', T', hr, hT', Tree.delete_addrs _ h.addrs_nodup hdel, ?_, hT'.nilc.2.2.2.2,
    hT'.rootc.2.2.2.2.2⟩
  exact hT'.aggAt_iff.1 (Tree.delete_Agg _ h.addrs_nodup (h.aggAt_iff.2 hagg) hdel)

/-- C4: red-black validity is preserved by insertion.  If the real root is black, no red
node has a red child and every path from the real root to `nil` holds the same number of
black nodes, then `RBTreeInsert` returns and all three hold again, for every key. -/
theorem insert_preserves_redblack (tree : rb_red_blk_tree) (m : Mem) (T : Tree)
    (h : RepTree tree m T) (hv : T.RBValid)
    (x : Nat) (hxn : x ≠ tree.nil) (hxr : x ≠ tree.root) (hx : x ∉ T.addrs) (key info : Int) :
    ∃ m' T', Returns (fun fuel => RBTreeInsert fuel tree m x key info) (m', x) ∧
      RepTree tree m' T' ∧ List.Perm T'.addrs (x :: T.addrs) ∧ T'.RBValid := by
  rw [Tree.RBValid_iff] at hv
  obtain ⟨m', hr, hT'⟩ := RBTreeInsert_returns h hv.1 hxn hxr hx key info
  refine ⟨m', _, hr, hT', Tree.insert_addrs _ _ _ _ _ _, ?_⟩
  rw [Tree.RBValid_iff]
  exact ⟨(Tree.insert_RB _ _ _ _ _ _ hv.2).2, (Tree.insert_RB _ _ _ _ _ _ hv.2).1⟩

theorem insert_preserves_redblack_witness :
    ∃ m' T', Returns (fun fuel => RBTreeInsert fuel exTree exMemB 3 3 0) (m', 3) ∧
      RepTree exTree m' T' ∧ List.Perm T'.addrs (3 :: exTreeB.addrs) ∧ T'.RBValid :=
  insert_preserves_redblack exTree exMemB exTreeB ex_repB ex_validB 3 (by decide)
    (by decide) (by decide) 3 0

/-- C5: red-black validity is preserved by deletion.  If the tree satisfies the red-black
properties, then `RBDelete` of a live node `z` returns and the remaining tree satisfies
them again. -/
theorem delete_preserves_redblack (tree : rb_red_blk_tree) (m : Mem) (T : Tree)
    (h : RepTree tree m T) (hv : T.RBValid) (z : Nat) (hz : z ∈ T.addrs) :
    ∃ m' T', Returns (fun fuel => RBDelete fuel tree m z) m' ∧
      RepTree tree m' T' ∧ T'.addrs = T.addrs.erase z ∧ T'.RBValid := by
  rw [Tree.RBValid_iff] at hv
  obtain ⟨T', hdel, hRB'⟩ := Tree.delete_RB tree.DistFunc hv.2 hz
  obtain ⟨m', h1, h2, -⟩ := RBDelete_spec h hv.1 hdel (T.size + 2) le_rfl
  refine ⟨m', T', Returns.of_mono (fun n r hr => RBDelete_mono n m z hr) h1, h2,
    Tree.delete_addrs _ h.addrs_nodup hdel, ?_⟩
  rw [Tree.RBValid_iff]
  exact ⟨Tree.delete_rootBlack _ hv.1 hdel, hRB'⟩

/-- C6: sortedness.  In every state reached from `RBTreeCreate` by `RBTreeInsert` and
`RBDelete` calls, with a comparator that is a three-way total preorder, the heap holds a
tree of the live nodes whose in-order keys are in non-decreasing comparator order. -/
theorem inorder_sorted (tree : rb_red_blk_tree) (m : Mem) (hs : List Nat)
    (hc : TotalPreorder tree.Compare) (hr : Reachable tree m hs) :
    ∃ T, RepTree tree m T ∧ List.Perm T.addrs hs ∧ SortedKeys tree.Compare T.keys ∧
      SortedKeys tree.Compare (T.addrs.map (fun a => (m a).key)) := by
  obtain ⟨T, hT, hp, -, -, -, hS⟩ := hr.inv
  refine ⟨T, hT, hp, hS hc, ?_⟩
  have : T.addrs.map (fun a => (m a).key) = T.keys := by
    rw [Tree.keys_eq, Tree.addrs, List.map_map]
    refine List.map_congr_left fun e he => ?_
    exact (hT.entry_cell (a := e.1) (k := e.2.1) (i := e.2.2) he).1
  rw [this]; exact hS hc

theorem inorder_sorted_witness :
    ∃ T, RepTree exTree exMemC T ∧ List.Perm T.addrs [3, 2] ∧
      SortedKeys exTree.Compare T.keys ∧
      SortedKeys exTree.Compare (T.addrs.map (fun a => (exMemC a).key)) :=
  inorder_sorted exTree exMemC [3, 2] CmpInt64_total ex_reachC

end Claims

end RBTree


namespace RBTree

section Claims2

/-- C7: insert adds exactly one node.  On a heap that holds a tree with black real root,
`RBTreeInsert(tree, key, info)` returns a handle to a real node that holds exactly that
key and payload; the in-order sequence of nodes afterwards is the one before with that one
node put in, so every node that existed before is still there with its key and payload. -/
theorem insert_adds_one_node (tree : rb_red_blk_tree) (m : Mem) (T : Tree)
    (h : RepTree tree m T) (hb : T.isRed = false)
    (x : Nat) (hxn : x ≠ tree.nil) (hxr : x ≠ tree.root) (hx : x ∉ T.addrs) (key info : Int) :
    ∃ m' T', Returns (fun fuel => RBTreeInsert fuel tree m x key info) (m', x) ∧
      RepTree tree m' T' ∧ x ∈ T'.addrs ∧ (m' x).key = key ∧ (m' x).info = info ∧
      (∃ A B, T.entries = A ++ B ∧ T'.entries = A ++ (x, key, info) :: B) ∧
      ∀ a k i, (a, k, i) ∈ T.entries → (a, k, i) ∈ T'.entries ∧ (m' a).key = k ∧
        (m' a).info = i := by
  obtain ⟨m', hr, hT'⟩ := RBTreeInsert_returns h hb hxn hxr hx key info
  obtain ⟨h1, h2⟩ := Tree.insert_entries tree.DistFunc tree.Compare T x key info
  have hxe : (x, key, info) ∈ (T.insert tree.Compare tree.DistFunc x key info).entries := by
    rw [h2]; simp
  refine ⟨m', _, hr, hT', ?_, (hT'.entry_cell hxe).1, (hT'.entry_cell hxe).2, ⟨_, _, h1, h2⟩, ?_⟩
  · exact List.mem_map_of_mem (fun e => e.1) hxe
  · intro a k i hm
    have hm' : (a, k, i) ∈ (T.insert tree.Compare tree.DistFunc x key info).entries := by
      rw [h2]
      rw [h1] at hm
      simp only [List.mem_append, List.mem_cons] at hm ⊢
      tauto
    exact ⟨hm', hT'.entry_cell hm'⟩

theorem insert_adds_one_node_witness :
    ∃ m' T', Returns (fun fuel => RBTreeInsert fuel exTree exMemB 3 3 0) (m', 3) ∧
      RepTree exTree m' T' ∧ 3 ∈ T'.addrs ∧ (m' 3).key = 3 ∧ (m' 3).info = 0 ∧
      (∃ A B, exTreeB.entries = A ++ B ∧ T'.entries = A ++ (3, 3, 0) :: B) ∧
      ∀ a k i, (a, k, i) ∈ exTreeB.entries → (a, k, i) ∈ T'.entries ∧ (m' a).key = k ∧
        (m' a).info = i :=
  insert_adds_one_node exTree exMemB exTreeB ex_repB (by decide) 3 (by decide) (by decide)
    (by decide) 3 0

/-- C8: delete removes exactly the given node and keeps every other handle stable.  On a
valid red-black tree, `RBDelete(tree, z)` returns; the in-order sequence of nodes afterwards
is the one before with `z` removed and nothing else changed, and every cell keeps its key
and payload, so each surviving node, the successor that moves into the place of `z`
included, is the same handle with the same key and payload. -/
theorem delete_removes_node (tree : rb_red_blk_tree) (m : Mem) (T : Tree)
    (h : RepTree tree m T) (hv : T.RBValid) (z : Nat) (hz : z ∈ T.addrs) :
    ∃ m' T', Returns (fun fuel => RBDelete fuel tree m z) m' ∧ RepTree tree m' T' ∧
      T'.entries = T.entries.filter (fun e => decide (e.1 ≠ z)) ∧
      ∀ a, (m' a).key = (m a).key ∧ (m' a).info = (m a).info := by
  rw [Tree.RBValid_iff] at hv
  obtain ⟨m', T', hdel, hr, hT', hK⟩ := RBDelete_returns h hv.1 hv.2 hz
  exact ⟨m', T', hr, hT', Tree.delete_entries _ h.addrs_nodup hdel, hK⟩

theorem delete_removes_node_witness :
    ∃ m' T', Returns (fun fuel => RBDelete fuel exTree exMemC 2) m' ∧ RepTree exTree m' T' ∧
      T'.entries = exTreeC.entries.filter (fun e => decide (e.1 ≠ 2)) ∧
      ∀ a, (m' a).key = (exMemC a).key ∧ (m' a).info = (exMemC a).info :=
  delete_removes_node exTree exMemC exTreeC ex_repC ex_validC 2 (by decide)

/-- C9: insert and delete are inverse.  On a valid red-black tree with correct aggregates,
`h = RBTreeInsert(tree, k, info)` followed by `RBDelete(tree, h)` gives a tree with the same
total weight (the aggregate of the real root), the same in-order sequence of nodes and keys,
and the same `GetNodeRank` for every surviving node. -/
theorem insert_delete_inverse (tree : rb_red_blk_tree) (m : Mem) (T : Tree)
    (h : RepTree tree m T) (hv : T.RBValid) (hagg : ∀ a ∈ T.addrs, AggAt tree m a)
    (x : Nat) (hxn : x ≠ tree.nil) (hxr : x ≠ tree.root) (hx : x ∉ T.addrs) (key info : Int) :
    ∃ m1 m2 T2, Returns (fun fuel => RBTreeInsert fuel tree m x key info) (m1, x) ∧
      Returns (fun fuel => RBDelete fuel tree m1 x) m2 ∧ RepTree tree m2 T2 ∧
      (m2 (m2 tree.root).left).children = (m (m tree.root).left).children ∧
      T2.entries = T.entries ∧ T2.keys = T.keys ∧
      ∀ a ∈ T.addrs, ∃ r, Returns (fun fuel => GetNodeRank fuel tree m a) r ∧
        Returns (fun fuel => GetNodeRank fuel tree m2 a) r := by
  rw [Tree.RBValid_iff] at hv
  have hA : T.Agg tree.DistFunc := h.aggAt_iff.2 hagg
  obtain ⟨m1, hr1, hT1⟩ := RBTreeInsert_returns h hv.1 hxn hxr hx key info
  obtain ⟨h1, h2⟩ := Tree.insert_entries tree.DistFunc tree.Compare T x key info
  have hRB1 := Tree.insert_RB tree.DistFunc tree.Compare T x key info hv.2
  have hA1 := Tree.insert_Agg tree.DistFunc tree.Compare T x key info hA
  have hx1 : x ∈ (T.insert tree.Compare tree.DistFunc x key info).addrs := by
    rw [Tree.addrs, h2]; simp
  obtain ⟨m2, T2, hdel, hr2, hT2, -⟩ := RBDelete_returns hT1 hRB1.2 hRB1.1 hx1
  have hA2 := Tree.delete_Agg _ hT1.addrs_nodup hA1 hdel
  have he : T2.entries = T.entries := by
    rw [Tree.delete_entries _ hT1.addrs_nodup hdel, h2, h1]
    have hn := hT1.addrs_nodup
    rw [Tree.addrs, h2] at hn
    exact filter_middle hn
  have hw : ∀ {m' : Mem} {T' : Tree}, RepTree tree m' T' →
      (m' (m' tree.root).left).children = T'.ch := by
    intro m' T' hT'
    rw [hT'.rootc.2.2.1]
    exact Rep.ch_eq hT'.sub hT'.nilc
  refine ⟨m1, m2, T2, hr1, hr2, hT2, ?_, he, by rw [Tree.keys_eq, Tree.keys_eq, he], ?_⟩
  · rw [hw hT2, hw h, hA2.ch_total, hA.ch_total, he]
  · intro a ha
    have ha2 : a ∈ T2.addrs := by rw [Tree.addrs, he]; exact ha
    refine ⟨weightBefore tree.DistFunc T.entries a, ⟨T.size + 1, fun fuel hf => ?_⟩,
      ⟨T2.size + 1, fun fuel hf => ?_⟩⟩
    · exact GetNodeRank_entries h hA ha fuel (by omega)
    · simp only
      rw [GetNodeRank_entries hT2 hA2 ha2 fuel (by omega), he]

theorem insert_delete_inverse_witness :
    ∃ m1 m2 T2, Returns (fun fuel => RBTreeInsert fuel exTree exMemB 3 3 0) (m1, 3) ∧
      Returns (fun fuel => RBDelete fuel exTree m1 3) m2 ∧ RepTree exTree m2 T2 ∧
      (m2 (m2 exTree.root).left).children = (exMemB (exMemB exTree.root).left).children ∧
      T2.entries = exTreeB.entries ∧ T2.keys = exTreeB.keys ∧
      ∀ a ∈ exTreeB.addrs, ∃ r, Returns (fun fuel => GetNodeRank fuel exTree exMemB a) r ∧
        Returns (fun fuel => GetNodeRank fuel exTree m2 a) r :=
  insert_delete_inverse exTree exMemB exTreeB ex_repB ex_validB ex_aggB 3 (by decide)
    (by decide) (by decide) 3 0

/-- C10: find is sound and complete.  On a tree whose in-order keys are non-decreasing
under a three-way total-preorder comparator, `RBExactQuery(tree, q)` returns a real node
whose key compares equal to `q` when some real node has such a key, and returns
`NULL` exactly when no real node has a key comparing equal to `q`. -/
theorem query_sound_complete (tree : rb_red_blk_tree) (m : Mem) (T : Tree)
    (h : RepTree tree m T) (hc : TotalPreorder tree.Compare)
    (hs : SortedKeys tree.Compare T.keys) (q : Int) :
    (∃ x, Returns (fun fuel => RBExactQuery fuel tree m q) (some x) ∧ x ∈ T.addrs ∧
        tree.Compare (m x).key q = 0) ∨
      (Returns (fun fuel => RBExactQuery fuel tree m q) none ∧
        ∀ a ∈ T.addrs, tree.Compare (m a).key q ≠ 0) := by
  have hret : Returns (fun fuel => RBExactQuery fuel tree m q) (T.lookup tree.Compare q) :=
    ⟨T.size, fun fuel hf => RBExactQuery_spec h q fuel hf⟩
  cases hl : T.lookup tree.Compare q with
  | some x =>
    rw [hl] at hret
    obtain ⟨k, i, hm, hk⟩ := Tree.lookup_sound q T hl
    refine Or.inl ⟨x, hret, List.mem_map_of_mem (fun e => e.1) hm, ?_⟩
    rw [(h.entry_cell hm).1]; exact hk
  | none =>
    rw [hl] at hret
    refine Or.inr ⟨hret, fun a ha => ?_⟩
    obtain ⟨e, he, rfl⟩ := List.mem_map.1 ha
    rw [(h.entry_cell (a := e.1) (k := e.2.1) (i := e.2.2) he).1]
    exact Tree.lookup_complete hc q T hs hl e.2.1 (List.mem_map_of_mem (fun e => e.2.1) he)

theorem query_sound_complete_witness :
    (∃ x, Returns (fun fuel => RBExactQuery fuel exTree exMemC 3) (some x) ∧
        x ∈ exTreeC.addrs ∧ exTree.Compare (exMemC x).key 3 = 0) ∨
      (Returns (fun fuel => RBExactQuery fuel exTree exMemC 3) none ∧
        ∀ a ∈ exTreeC.addrs, exTree.Compare (exMemC a).key 3 ≠ 0) :=
  query_sound_complete exTree exMemC exTreeC ex_repC CmpInt64_total ex_sortedC 3

end Claims2

end RBTree


namespace RBTree

/-! ## The descents of the traversal functions -/

section Descents

variable {tree : rb_red_blk_tree} {m : Mem}

/-- The first loop of `TreeSuccessor` ends at the first node of the subtree in in-order. -/
theorem succDown_first (t : Tree) {q : Nat} (h : Rep tree.nil m t q)
    (hn : tree.nil ∉ t.addrs) {a0 : Nat} (ha : t.addrs.head? = some a0) (fuel : Nat)
    (hf : t.size ≤ fuel) :
    TreeSuccessor.down tree m fuel (t.addr tree.nil) = some a0 := by
  induction t generalizing q fuel with
  | leaf => simp [Tree.addrs, Tree.entries] at ha
  | node l a d r ihl _ =>
    simp only [Tree.size] at hf
    obtain ⟨n, rfl⟩ : ∃ n, fuel = n + 1 := ⟨fuel - 1, by omega⟩
    obtain ⟨hc, hl, -⟩ := h
    cases l with
    | leaf =>
      have e : a = a0 := by simpa [Tree.addrs, Tree.entries] using ha
      subst e
      simp [TreeSuccessor.down, hc]
    | node ll la ld lr =>
      have hla : la ≠ tree.nil := by
        rintro rfl; exact hn (by simp)
      have hn' : tree.nil ∉ (Tree.node ll la ld lr).addrs := by
        intro e; exact hn (by rw [addrs_node]; exact List.mem_append_left _ e)
      have ha' : (Tree.node ll la ld lr).addrs.head? = some a0 := by
        rw [addrs_node] at ha
        rw [List.head?_append_of_ne_nil _ (by simp)] at ha
        exact ha
      have := ihl hl hn' ha' n (by simp only [Tree.size] at hf ⊢; omega)
      simp only [Tree.addr_node] at this
      simp only [TreeSuccessor.down, Tree.addr_node, hc, mkCell_left, ne_eq, hla,
        not_false_eq_true, if_true]
      exact this

/-- The first loop of `TreePredecessor` ends at the last node of the subtree in in-order. -/
theorem predDown_last (t : Tree) {q : Nat} (h : Rep tree.nil m t q)
    (hn : tree.nil ∉ t.addrs) {a0 : Nat} (ha : t.addrs.getLast? = some a0) (fuel : Nat)
    (hf : t.size ≤ fuel) :
    TreePredecessor.down tree m fuel (t.addr tree.nil) = some a0 := by
  induction t generalizing q fuel with
  | leaf => simp [Tree.addrs, Tree.entries] at ha
  | node l a d r _ ihr =>
    simp only [Tree.size] at hf
    obtain ⟨n, rfl⟩ : ∃ n, fuel = n + 1 := ⟨fuel - 1, by omega⟩
    obtain ⟨hc, -, hr⟩ := h
    cases r with
    | leaf =>
      have e : a = a0 := by
        rw [addrs_node, List.getLast?_append_cons] at ha
        simpa [Tree.addrs, Tree.entries] using ha
      subst e
      simp [TreePredecessor.down, hc]
    | node rl ra rd rr =>
      have hra : ra ≠ tree.nil := by
        rintro rfl; exact hn (by simp)
      have hn' : tree.nil ∉ (Tree.node rl ra rd rr).addrs := by
        intro e
        exact hn (by rw [addrs_node]; exact List.mem_append_right _ (List.mem_cons_of_mem _ e))
      have ha' : (Tree.node rl ra rd rr).addrs.getLast? = some a0 := by
        rw [addrs_node, List.getLast?_append_cons, addrs_node] at ha
        rw [addrs_node]
        rcases hrl : rl.addrs ++ ra :: rr.addrs with _ | ⟨b, bs⟩
        · simp at hrl
        · rw [hrl, List.getLast?_cons_cons] at ha
          exact ha
      have := ihr hr hn' ha' n (by simp only [Tree.size] at hf ⊢; omega)
      simp only [Tree.addr_node] at this
      simp only [TreePredecessor.down, Tree.addr_node, hc, mkCell_right, ne_eq, hra,
        not_false_eq_true, if_true]
      exact this

theorem firstLoop_eq (fuel x : Nat) :
    TreeFirst.loop tree m fuel x = TreeSuccessor.down tree m fuel x := by
  induction fuel generalizing x with
  | zero => rfl
  | succ n ih => simp only [TreeFirst.loop, TreeSuccessor.down, ih]

theorem lastLoop_eq (fuel x : Nat) :
    TreeLast.loop tree m fuel x = TreePredecessor.down tree m fuel x := by
  induction fuel generalizing x with
  | zero => rfl
  | succ n ih => simp only [TreeLast.loop, TreePredecessor.down, ih]

end Descents

end RBTree


namespace RBTree

/-! ## The ascents of `TreeSuccessor` and `TreePredecessor` -/

section Ascents

variable {tree : rb_red_blk_tree} {m : Mem}

/-- The second loop of `TreeSuccessor` climbs while it comes from a right child. -/
theorem succUp_spec (p : Path) {l r : Tree} {x : Nat} {d : Data}
    (h : RepZ tree m p (.node l x d r)) (fuel : Nat) (hf : p.length < fuel) :
    TreeSuccessor.up m fuel x (Path.addr tree.root p) =
      some (((p.after.map (fun e => e.1)).head?).getD tree.root) := by
  induction p generalizing l r x d fuel with
  | nil =>
    obtain ⟨n, rfl⟩ : ∃ n, fuel = n + 1 := ⟨fuel - 1, by omega⟩
    have hx : x ≠ tree.nil := (h.sub_ne (by simp)).1.symm
    have hr : (m tree.root).right = tree.nil := h.rootc.2.2.2.1
    simp [TreeSuccessor.up, Path.addr, Path.after, hr, hx]
  | cons f p ih =>
    obtain ⟨n, rfl⟩ : ∃ n, fuel = n + 1 := ⟨fuel - 1, by omega⟩
    simp only [List.length_cons] at hf
    cases f with
    | L a da ra =>
      have hfr := h.frame_L
      have hxr : x ≠ ra.addr tree.nil := (h.sib_ne_L).symm
      simp [TreeSuccessor.up, Path.addr, Frame.a, Path.after, hfr.2, hxr]
    | R la a da =>
      have hu := h.up
      simp only [Frame.plug] at hu
      have hfr := h.frame_R
      have hpar : (m a).parent = Path.addr tree.root p := by rw [hu.cell]; rfl
      simp only [TreeSuccessor.up, Path.addr_cons, Frame.a, hfr.2, Tree.addr_node, if_true,
        hpar, Path.after]
      exact ih hu n (by omega)

/-- The second loop of `TreePredecessor` climbs while it comes from a left child. -/
theorem predUp_spec (p : Path) {l r : Tree} {x : Nat} {d : Data}
    (h : RepZ tree m p (.node l x d r)) (fuel : Nat) (hf : p.length < fuel) :
    TreePredecessor.up tree m fuel x (Path.addr tree.root p) =
      some (((p.before.map (fun e => e.1)).getLast?).getD tree.nil) := by
  induction p generalizing l r x d fuel with
  | nil =>
    obtain ⟨n, rfl⟩ : ∃ n, fuel = n + 1 := ⟨fuel - 1, by omega⟩
    have hl : (m tree.root).left = x := h.rootc.2.2.1
    simp [TreePredecessor.up, Path.addr, Path.before, hl]
  | cons f p ih =>
    obtain ⟨n, rfl⟩ : ∃ n, fuel = n + 1 := ⟨fuel - 1, by omega⟩
    simp only [List.length_cons] at hf
    have hfa : f.a ≠ tree.root := by
      have hfa : f.a ∈ (f.plug (Tree.node l x d r)).addrs := by
        cases f <;> simp [Frame.plug]
      exact fun e => (h.up.sub_ne hfa).2.1 e.symm
    cases f with
    | L a da ra =>
      have hu := h.up
      simp only [Frame.plug] at hu
      have hfr := h.frame_L
      have hpar : (m a).parent = Path.addr tree.root p := by rw [hu.cell]; rfl
      simp only [Frame.a] at hfa
      simp only [TreePredecessor.up, Path.addr_cons, Frame.a, hfr.1, Tree.addr_node, if_true,
        hfa, if_false, hpar, Path.before]
      exact ih hu n (by omega)
    | R la a da =>
      have hfr := h.frame_R
      have hxl : x ≠ la.addr tree.nil := (h.sib_ne_R).symm
      simp [TreePredecessor.up, Path.addr, Frame.a, Path.before, hfr.1, hxl,
        List.getLast?_append_cons]

end Ascents

end RBTree


namespace RBTree

/-! ## `TreeSuccessor`, `TreePredecessor`, `TreeFirst` and `TreeLast` on a tree -/

section Traversal

variable {tree : rb_red_blk_tree} {m : Mem}

/-- `TreeSuccessor` at a node: the first node of the right subtree, else the first node
that follows on the path, else `nil`. -/
theorem TreeSuccessor_zip (p : Path) {l r : Tree} {x : Nat} {d : Data}
    (h : RepZ tree m p (.node l x d r)) (fuel : Nat) (hf : p.length + r.size < fuel) :
    TreeSuccessor fuel tree m x =
      some (((r.addrs ++ p.after.map (fun e => e.1)).head?).getD tree.nil) := by
  have hc := h.cell
  have hr : (m x).right = r.addr tree.nil := by rw [hc]; rfl
  have hp : (m x).parent = Path.addr tree.root p := by rw [hc]; rfl
  obtain ⟨-, hnn, -, -, -, -, -⟩ := h.nodup'
  cases r with
  | leaf =>
    simp only [TreeSuccessor, hr, Tree.addr, ne_eq, not_true_eq_false, if_false, hp]
    rw [succUp_spec p h fuel (by omega)]
    simp only [Tree.addrs, entries_leaf, List.map_nil, List.nil_append]
    generalize hh : (p.after.map (fun e => e.1)).head? = o
    cases o with
    | none => simp
    | some a =>
      have ha : a ∈ p.after.map (fun e => e.1) := List.mem_of_mem_head? hh
      have := (hnn a (Or.inr (Or.inr ha))).2
      simp [this.symm]
  | node rl ra rd rr =>
    have hra : tree.nil ≠ ra := (hnn ra (Or.inr (Or.inl (by simp)))).1
    have hn : tree.nil ∉ (Tree.node rl ra rd rr).addrs := by
      intro e
      exact (hnn tree.nil (Or.inr (Or.inl (by
        rw [addrs_node]; exact List.mem_append_right _ (List.mem_cons_of_mem _ e))))).1 rfl
    obtain ⟨a0, ha0⟩ : ∃ a0, (Tree.node rl ra rd rr).addrs.head? = some a0 := by
      rcases hh : (Tree.node rl ra rd rr).addrs with _ | ⟨b, bs⟩
      · simp at hh
      · exact ⟨b, rfl⟩
    have hd := succDown_first (Tree.node rl ra rd rr) h.sub.2.2 hn ha0 fuel (by omega)
    simp only [Tree.addr_node] at hd
    simp only [TreeSuccessor, hr, Tree.addr_node, ne_eq, hra, not_false_eq_true, if_true, hd]
    rw [List.head?_append_of_ne_nil _ (by simp), ha0]
    rfl

/-- `TreePredecessor` at a node: the last node of the left subtree, else the last node
that precedes on the path, else `nil`. -/
theorem TreePredecessor_zip (p : Path) {l r : Tree} {x : Nat} {d : Data}
    (h : RepZ tree m p (.node l x d r)) (fuel : Nat) (hf : p.length + l.size < fuel) :
    TreePredecessor fuel tree m x =
      some (((p.before.map (fun e => e.1) ++ l.addrs).getLast?).getD tree.nil) := by
  have hc := h.cell
  have hl : (m x).left = l.addr tree.nil := by rw [hc]; rfl
  have hp : (m x).parent = Path.addr tree.root p := by rw [hc]; rfl
  obtain ⟨-, hnn, -, -, -, -, -⟩ := h.nodup'
  cases l with
  | leaf =>
    simp only [TreePredecessor, hl, Tree.addr, ne_eq, not_true_eq_false, if_false, hp]
    rw [predUp_spec p h fuel (by omega)]
    simp only [Tree.addrs, entries_leaf, List.map_nil, List.append_nil]
  | node ll la ld lr =>
    have hla : tree.nil ≠ la := (hnn la (Or.inr (Or.inl (by simp)))).1
    have hn : tree.nil ∉ (Tree.node ll la ld lr).addrs := by
      intro e
      exact (hnn tree.nil (Or.inr (Or.inl (by
        rw [addrs_node]; exact List.mem_append_left _ e)))).1 rfl
    obtain ⟨a0, ha0⟩ : ∃ a0, (Tree.node ll la ld lr).addrs.getLast? = some a0 := by
      rcases hh : (Tree.node ll la ld lr).addrs.getLast? with _ | b
      · simp at hh
      · exact ⟨b, rfl⟩
    have hd := predDown_last (Tree.node ll la ld lr) h.sub.2.1 hn ha0 fuel (by omega)
    simp only [Tree.addr_node] at hd
    simp only [TreePredecessor, hl, Tree.addr_node, ne_eq, hla, not_false_eq_true, if_true, hd]
    rw [List.getLast?_append_of_ne_nil _ (by simp), ha0]
    rfl

/-- `TreeFirst` returns the first node in in-order, `nil` on the empty tree. -/
theorem TreeFirst_spec {T : Tree} (h : RepTree tree m T) (fuel : Nat) (hf : T.size < fuel) :
    TreeFirst fuel tree m = some ((T.addrs.head?).getD tree.nil) := by
  have hl : (m tree.root).left = T.addr tree.nil := h.rootc.2.2.1
  cases T with
  | leaf => simp [TreeFirst, hl, Tree.addr, Tree.addrs]
  | node l a d r =>
    obtain ⟨n, rfl⟩ : ∃ n, fuel = n + 1 := ⟨fuel - 1, by omega⟩
    have ha : tree.nil ≠ a := (RepZ.sub_ne h (by simp)).1
    have hn : tree.nil ∉ (Tree.node l a d r).addrs := fun e => (RepZ.sub_ne h e).1 rfl
    obtain ⟨a0, ha0⟩ : ∃ a0, (Tree.node l a d r).addrs.head? = some a0 := by
      rcases hh : (Tree.node l a d r).addrs with _ | ⟨b, bs⟩
      · simp at hh
      · exact ⟨b, rfl⟩
    have hd := succDown_first (Tree.node l a d r) h.sub hn ha0 n (by omega)
    simp only [Tree.addr_node] at hd hl
    simp only [TreeFirst, hl, ha.symm, if_false, TreeFirst.loop, ne_eq, not_false_eq_true,
      if_true, firstLoop_eq, hd, ha0]
    rfl

/-- `TreeLast` returns the last node in in-order, `nil` on the empty tree. -/
theorem TreeLast_spec {T : Tree} (h : RepTree tree m T) (fuel : Nat) (hf : T.size ≤ fuel) :
    TreeLast fuel tree m = some ((T.addrs.getLast?).getD tree.nil) := by
  have hl : (m tree.root).left = T.addr tree.nil := h.rootc.2.2.1
  cases T with
  | leaf => simp [TreeLast, hl, Tree.addr, Tree.addrs]
  | node l a d r =>
    have ha : tree.nil ≠ a := (RepZ.sub_ne h (by simp)).1
    have hn : tree.nil ∉ (Tree.node l a d r).addrs := fun e => (RepZ.sub_ne h e).1 rfl
    obtain ⟨a0, ha0⟩ : ∃ a0, (Tree.node l a d r).addrs.getLast? = some a0 := by
      rcases hh : (Tree.node l a d r).addrs.getLast? with _ | b
      · simp at hh
      · exact ⟨b, rfl⟩
    have hd := predDown_last (Tree.node l a d r) h.sub hn ha0 fuel hf
    simp only [Tree.addr_node] at hd hl
    simp only [TreeLast, hl, ha.symm, if_false, lastLoop_eq, hd, ha0]
    rfl

end Traversal

end RBTree


namespace RBTree

/-! ## Traversal by position in the in-order sequence -/

section Positions

variable {tree : rb_red_blk_tree} {m : Mem}

theorem split_index {l B A : List Nat} {x : Nat} (hl : l = B ++ x :: A) (hn : l.Nodup)
    {i : Nat} (hi : i < l.length) (hx : l.get ⟨i, hi⟩ = x) : i = B.length := by
  subst hl
  have hB : B.length < (B ++ x :: A).length := by simp
  have e : (B ++ x :: A).get ⟨B.length, hB⟩ = x := by
    rw [List.get_eq_getElem, List.getElem_append_right (le_refl _)]
    simp
  have := (hn.get_inj_iff).1 (hx.trans e.symm)
  exact congrArg Fin.val this

theorem getD_after_split (B A : List Nat) (x nil : Nat) :
    (B ++ x :: A).getD (B.length + 1) nil = (A.head?).getD nil := by
  rw [List.getD_eq_getElem?_getD, List.getElem?_append_right (by omega)]
  have : B.length + 1 - B.length = 1 := by omega
  rw [this, List.getElem?_cons_succ, List.head?_eq_getElem?]

theorem getD_before_split (B A : List Nat) (x nil : Nat) {j : Nat} (hj : j + 1 = B.length) :
    (B ++ x :: A).getD j nil = (B.getLast?).getD nil := by
  rw [List.getD_eq_getElem?_getD, List.getElem?_append_left (by omega),
    List.getLast?_eq_getElem?]
  have : B.length - 1 = j := by omega
  rw [this]

/-- A node of the tree can be put under the focus. -/
theorem RepTree.focus {T : Tree} (h : RepTree tree m T) {x : Nat} (hx : x ∈ T.addrs) :
    ∃ p l d r, RepZ tree m p (.node l x d r) ∧ fill p (.node l x d r) = T := by
  obtain ⟨p, s, hfind⟩ := Tree.find_some T [] hx
  obtain ⟨hff, l, d, r, rfl⟩ := Tree.find_fill T [] hfind
  simp only [fill_nil] at hff
  exact ⟨p, l, d, r, RepZ.ofTop (hff ▸ h), hff⟩

theorem fill_addrs_split (p : Path) (l r : Tree) (x : Nat) (d : Data) :
    (fill p (.node l x d r)).addrs =
      (p.before.map (fun e => e.1) ++ l.addrs) ++ x ::
        (r.addrs ++ p.after.map (fun e => e.1)) := by
  simp [addrs_fill]

/-- `TreeSuccessor` of the `i`-th node in in-order is the next one, `nil` after the last. -/
theorem TreeSuccessor_index {T : Tree} (h : RepTree tree m T) (i : Nat)
    (hi : i < T.addrs.length) (fuel : Nat) (hf : T.size < fuel) :
    TreeSuccessor fuel tree m (T.addrs.get ⟨i, hi⟩) =
      some (T.addrs.getD (i + 1) tree.nil) := by
  obtain ⟨x, hx⟩ : ∃ x, T.addrs.get ⟨i, hi⟩ = x := ⟨_, rfl⟩
  have hmem : x ∈ T.addrs := hx ▸ List.get_mem T.addrs i hi
  rw [hx]
  obtain ⟨p, l, d, r, hz, hfill⟩ := h.focus hmem
  have hs := fill_addrs_split p l r x d
  rw [hfill] at hs
  have hidx := split_index hs h.addrs_nodup hi hx
  have hlen := fill_size_le p (.node l x d r)
  rw [hfill] at hlen
  simp only [Tree.size] at hlen
  rw [TreeSuccessor_zip p hz fuel (by omega)]
  congr 1
  conv_rhs => rw [hs, hidx]
  exact (getD_after_split _ _ _ _).symm

/-- `TreePredecessor` of the `i`-th node in in-order is the one before, `nil` at the
first. -/
theorem TreePredecessor_index {T : Tree} (h : RepTree tree m T) (i : Nat)
    (hi : i < T.addrs.length) (fuel : Nat) (hf : T.size < fuel) :
    TreePredecessor fuel tree m (T.addrs.get ⟨i, hi⟩) =
      some (if i = 0 then tree.nil else T.addrs.getD (i - 1) tree.nil) := by
  obtain ⟨x, hx⟩ : ∃ x, T.addrs.get ⟨i, hi⟩ = x := ⟨_, rfl⟩
  have hmem : x ∈ T.addrs := hx ▸ List.get_mem T.addrs i hi
  rw [hx]
  obtain ⟨p, l, d, r, hz, hfill⟩ := h.focus hmem
  have hs := fill_addrs_split p l r x d
  rw [hfill] at hs
  have hidx := split_index hs h.addrs_nodup hi hx
  have hlen := fill_size_le p (.node l x d r)
  rw [hfill] at hlen
  simp only [Tree.size] at hlen
  rw [TreePredecessor_zip p hz fuel (by omega)]
  congr 1
  by_cases h0 : i = 0
  · rw [if_pos h0]
    have : p.before.map (fun e => e.1) ++ l.addrs = [] :=
      List.length_eq_zero.1 (by omega)
    rw [this]; rfl
  · rw [if_neg h0]
    conv_rhs => rw [hs]
    exact (getD_before_split _ _ _ _ (by omega)).symm

end Positions

end RBTree


namespace RBTree

/-! ## The topmost match of the search and the place of a new key -/

section Topmost

variable {tree : rb_red_blk_tree} {m : Mem} {cmp : Int → Int → Int}

theorem fill_append (p q : Path) (t : Tree) : fill (p ++ q) t = fill q (fill p t) := by
  induction p generalizing t with
  | nil => rfl
  | cons f p ih => exact ih (f.plug t)

/-- Following parent pointers from a node of a subtree stays in the subtree until it
leaves it through its root. -/
theorem Rep.climb {nil : Nat} {t : Tree} {q : Nat} (h : Rep nil m t q) {a : Nat}
    (ha : a ∈ t.addrs) :
    ∃ n : Nat, Nat.iterate (fun b => (m b).parent) (n + 1) a = q ∧
      ∀ k, k ≤ n → Nat.iterate (fun b => (m b).parent) k a ∈ t.addrs := by
  induction t generalizing q with
  | leaf => simp at ha
  | node l x d r ihl ihr =>
    have hx : (m x).parent = q := by rw [h.1]; rfl
    simp only [addrs_node, List.mem_append, List.mem_cons] at ha
    rcases ha with ha | rfl | ha
    · obtain ⟨n, hn, hk⟩ := ihl h.2.1 ha
      refine ⟨n + 1, by rw [Function.iterate_succ_apply', hn, hx], fun k hk' => ?_⟩
      rw [addrs_node]
      rcases Nat.lt_or_ge k (n + 1) with h1 | h1
      · exact List.mem_append_left _ (hk k (by omega))
      · have e : k = n + 1 := by omega
        rw [e, hn]
        exact List.mem_append_right _ (List.mem_cons_self _ _)
    · refine ⟨0, hx, fun k hk' => ?_⟩
      have e : k = 0 := by omega
      rw [e]
      simp
    · obtain ⟨n, hn, hk⟩ := ihr h.2.2 ha
      refine ⟨n + 1, by rw [Function.iterate_succ_apply', hn, hx], fun k hk' => ?_⟩
      rw [addrs_node]
      rcases Nat.lt_or_ge k (n + 1) with h1 | h1
      · exact List.mem_append_right _ (List.mem_cons_of_mem _ (hk k (by omega)))
      · have e : k = n + 1 := by omega
        rw [e, hn]
        exact List.mem_append_right _ (List.mem_cons_self _ _)

/-- The root of a subtree of real nodes is an ancestor of each of its nodes, or the node
itself. -/
theorem Rep.ancestor {l r : Tree} {x q : Nat} {d : Data}
    (h : Rep tree.nil m (.node l x d r) q)
    (hreal : ∀ b ∈ (Tree.node l x d r).addrs, b ≠ tree.root ∧ b ≠ tree.nil)
    {a : Nat} (ha : a ∈ (Tree.node l x d r).addrs) :
    AncestorOrSelf tree m x a := by
  have hsub : ∀ s : Tree, (∀ b ∈ s.addrs, b ∈ (Tree.node l x d r).addrs) → ∀ q',
      Rep tree.nil m s q' → a ∈ s.addrs → q' = x → AncestorOrSelf tree m x a := by
    intro s hs q' hrep has hq
    obtain ⟨n, hn, hk⟩ := Rep.climb hrep has
    refine ⟨n + 1, hn.trans hq, fun k hk' => ?_⟩
    rcases Nat.lt_or_ge k (n + 1) with h1 | h1
    · exact hreal _ (hs _ (hk k (by omega)))
    · have e : k = n + 1 := by omega
      rw [e, hn, hq]
      exact hreal x (by simp)
  have ha' := ha
  simp only [addrs_node, List.mem_append, List.mem_cons] at ha'
  rcases ha' with h1 | rfl | h1
  · exact hsub l (fun b hb => by rw [addrs_node]; exact List.mem_append_left _ hb) x h.2.1 h1 rfl
  · refine ⟨0, rfl, fun k hk => ?_⟩
    have e : k = 0 := by omega
    rw [e]
    exact hreal a ha
  · exact hsub r (fun b hb => by
      rw [addrs_node]; exact List.mem_append_right _ (List.mem_cons_of_mem _ hb)) x h.2.2 h1 rfl

/-- A node of a tree that the heap holds is below the root of every subtree that
contains it. -/
theorem RepTree.ancestor_of_mem {T : Tree} (h : RepTree tree m T) {p : Path} {l r : Tree}
    {x : Nat} {d : Data} (hT : T = fill p (.node l x d r)) {a : Nat}
    (ha : a ∈ (Tree.node l x d r).addrs) : AncestorOrSelf tree m x a := by
  subst hT
  have hz := RepZ.ofTop h
  obtain ⟨-, hnn, -⟩ := hz.nodup'
  exact Rep.ancestor hz.sub
    (fun b hb => ⟨(hnn b (Or.inr (Or.inl hb))).2.symm, (hnn b (Or.inr (Or.inl hb))).1.symm⟩) ha

/-- On a sorted tree every node whose key compares equal to `q` lies in the subtree of
the node that the descent of `RBExactQuery` finds. -/
theorem Tree.lookup_topmost (hc : TotalPreorder cmp) (q : Int) (t : Tree)
    (hs : SortedKeys cmp t.keys) {x : Nat} (hl : t.lookup cmp q = some x) :
    ∀ e ∈ t.entries, cmp e.2.1 q = 0 →
      ∃ p l d r, t = fill p (.node l x d r) ∧ e.1 ∈ (Tree.node l x d r).addrs := by
  induction t with
  | leaf => simp
  | node l b d r ihl ihr =>
    simp only [SortedKeys, keys_node, List.pairwise_append, List.pairwise_cons,
      List.mem_cons, forall_eq_or_imp] at hs
    obtain ⟨hsl, ⟨hdr, hsr⟩, hlr⟩ := hs
    simp only [Tree.lookup] at hl
    intro e he heq
    split at hl
    · simp only [Option.some.injEq] at hl
      subst hl
      exact ⟨[], l, d, r, rfl, List.mem_map_of_mem (fun e => e.1) he⟩
    · next h0 =>
      simp only [entries_node, List.mem_append, List.mem_cons] at he
      split at hl
      · next h1 =>
        rcases he with he | rfl | he
        · obtain ⟨p, l', d', r', e1, e2⟩ := ihl hsl hl e he heq
          refine ⟨p ++ [.L b d r], l', d', r', ?_, e2⟩
          rw [fill_append, ← e1]
          rfl
        · exact absurd heq h0
        · exfalso
          exact hc.trans _ _ _ (hdr e.2.1 (List.mem_map_of_mem (fun e => e.2.1) he))
            (by rw [heq]; decide) h1
      · next h1 =>
        have hlt : cmp d.key q = -1 := by
          rcases hc.range d.key q with e | e | e
          · exact absurd e h1
          · exact e
          · exact absurd e h0
        have hgt : cmp q d.key = 1 := (hc.swap q d.key).2 hlt
        rcases he with he | rfl | he
        · exfalso
          have e' := hc.eq_symm heq
          exact hc.trans _ _ _ (by rw [e']; decide)
            (hlr e.2.1 (List.mem_map_of_mem (fun e => e.2.1) he)).1 hgt
        · exact absurd heq h0
        · obtain ⟨p, l', d', r', e1, e2⟩ := ihr hsr hl e he heq
          refine ⟨p ++ [.R l b d], l', d', r', ?_, e2⟩
          rw [fill_append, ← e1]
          rfl

/-- The descent of `TreeInsertHelp` ends before every greater key: all that follows the
place of the new key is strictly greater. -/
theorem descend_after_gt (hc : TotalPreorder cmp) (k : Int) (t : Tree) (p : Path)
    (ha : ∀ e ∈ p.after, cmp e.2.1 k = 1) (hs : SortedKeys cmp t.keys) :
    ∀ e ∈ (descend cmp k t p).after, cmp e.2.1 k = 1 := by
  induction t generalizing p with
  | leaf => exact ha
  | node l a d r ihl ihr =>
    simp only [SortedKeys, keys_node, List.pairwise_append, List.pairwise_cons,
      List.mem_cons, forall_eq_or_imp] at hs
    obtain ⟨hsl, ⟨hdr, hsr⟩, hlr⟩ := hs
    unfold descend
    split
    · next hgt =>
      refine ihl _ ?_ hsl
      intro e he
      simp only [Path.after, List.cons_append, List.mem_cons, List.mem_append] at he
      rcases he with rfl | he | he
      · exact hgt
      · by_contra hne
        exact hc.trans _ _ _ (hdr _ (List.mem_map_of_mem (fun e => e.2.1) he)) hne hgt
      · exact ha e he
    · next hle =>
      exact ihr _ ha hsr

/-- The descent of `TreeInsertHelp` passes every key that is not greater: nothing before
the place of the new key is greater than it. -/
theorem descend_before_le (hc : TotalPreorder cmp) (k : Int) (t : Tree) (p : Path)
    (hb : ∀ e ∈ p.before, cmp e.2.1 k ≠ 1) (hs : SortedKeys cmp t.keys) :
    ∀ e ∈ (descend cmp k t p).before, cmp e.2.1 k ≠ 1 := by
  induction t generalizing p with
  | leaf => exact hb
  | node l a d r ihl ihr =>
    simp only [SortedKeys, keys_node, List.pairwise_append, List.pairwise_cons,
      List.mem_cons, forall_eq_or_imp] at hs
    obtain ⟨hsl, ⟨hdr, hsr⟩, hlr⟩ := hs
    unfold descend
    split
    · next hgt =>
      exact ihl _ hb hsl
    · next hle =>
      refine ihr _ ?_ hsr
      intro e he
      simp only [Path.before, List.mem_append, List.mem_singleton] at he
      rcases he with he | he | rfl
      · exact hb e he
      · refine hc.trans _ _ _ (hlr _ ?_).1 hle
        exact List.mem_map_of_mem (fun e => e.2.1) he
      · exact hle

end Topmost

end RBTree


namespace RBTree

/-! ## The rank as a prefix weight, and its parts when keys repeat -/

section RankParts

variable {tree : rb_red_blk_tree} {m : Mem}

theorem RepTree.keys_map {T : Tree} (h : RepTree tree m T) :
    T.addrs.map (fun a => (m a).key) = T.keys := by
  rw [Tree.keys_eq, Tree.addrs, List.map_map]
  refine List.map_congr_left fun e he => ?_
  exact (h.entry_cell (a := e.1) (k := e.2.1) (i := e.2.2) he).1

/-- `GetNodeRank` of the `i`-th node in in-order is the weight of the `i` nodes before
it. -/
theorem rank_take {T : Tree} (h : RepTree tree m T) (ha : T.Agg tree.DistFunc) (i : Nat)
    (hi : i < T.addrs.length) (fuel : Nat) (hf : T.size < fuel) :
    GetNodeRank fuel tree m (T.addrs.get ⟨i, hi⟩) = some (weightOf tree m (T.addrs.take i)) := by
  have hn := h.addrs_nodup
  have hlen : T.entries.length = T.addrs.length := by rw [Tree.addrs, List.length_map]
  have hi' : i < T.entries.length := by rw [hlen]; exact hi
  have hx : T.addrs.get ⟨i, hi⟩ = (T.entries.get ⟨i, hi'⟩).1 := by
    simp only [List.get_eq_getElem]
    simp only [Tree.addrs, List.getElem_map]
  have hmem : T.addrs.get ⟨i, hi⟩ ∈ T.addrs := List.get_mem _ _ _
  rw [GetNodeRank_entries h ha hmem fuel hf, hx, weightBefore_take _ _ hn i hi']
  congr 1
  unfold weightOf
  rw [Tree.addrs, ← List.map_take, List.map_map]
  congr 1
  refine List.map_congr_left fun e he => ?_
  have he' : e ∈ T.entries := List.mem_of_mem_take he
  simp only [Function.comp]
  rw [(h.entry_cell (a := e.1) (k := e.2.1) (i := e.2.2) he').1]

theorem weightOf_perm {l l' : List Nat} (h : List.Perm l l') :
    weightOf tree m l = weightOf tree m l' :=
  (h.map _).sum_eq

theorem weightOf_nil : weightOf tree m [] = 0 := rfl

theorem weightOf_cons (a : Nat) (l : List Nat) :
    weightOf tree m (a :: l) = tree.DistFunc (m a).key + weightOf tree m l := by
  simp [weightOf]

theorem weightOf_append (l l' : List Nat) :
    weightOf tree m (l ++ l') = weightOf tree m l + weightOf tree m l' := by
  simp [weightOf]

/-- A list of nodes none of which has a greater key than `x` splits into those with a
smaller and those with an equal key. -/
theorem weightOf_split (hc : TotalPreorder tree.Compare) (l : List Nat) (x : Nat)
    (h : ∀ a ∈ l, tree.Compare (m a).key (m x).key ≠ 1) :
    weightOf tree m l =
      weightOf tree m (strictlySmaller tree m l x) + weightOf tree m (equalTo tree m l x) := by
  induction l with
  | nil => rfl
  | cons a l ih =>
    have ih' := ih (fun b hb => h b (List.mem_cons_of_mem _ hb))
    have ha := h a (List.mem_cons_self _ _)
    unfold strictlySmaller equalTo at ih' ⊢
    rcases hc.range (m a).key (m x).key with e | e | e
    · exact absurd e ha
    · simp only [List.filter_cons, e, decide_True, if_true, weightOf_cons]
      rw [if_neg (by decide), ih']
      omega
    · simp only [List.filter_cons, e, decide_True, if_true, weightOf_cons]
      rw [if_neg (by decide), ih']
      omega

theorem strictlySmaller_eq_nil (l : List Nat) (x : Nat)
    (h : ∀ a ∈ l, tree.Compare (m a).key (m x).key ≠ -1) :
    strictlySmaller tree m l x = [] := by
  unfold strictlySmaller
  rw [List.filter_eq_nil_iff]
  intro a ha
  simpa using h a ha

theorem strictlySmaller_append (l l' : List Nat) (x : Nat) :
    strictlySmaller tree m (l ++ l') x =
      strictlySmaller tree m l x ++ strictlySmaller tree m l' x := by
  simp [strictlySmaller]

theorem strictlySmaller_perm {l l' : List Nat} (h : List.Perm l l') (x : Nat) :
    List.Perm (strictlySmaller tree m l x) (strictlySmaller tree m l' x) :=
  h.filter _

/-- In a sorted sequence the weight before position `i` is the weight of the strictly
smaller keys plus the weight of the equal keys that come before position `i`. -/
theorem weight_take_eq (hc : TotalPreorder tree.Compare) {l hs : List Nat}
    (hp : List.Perm l hs)
    (hsorted : l.Pairwise (fun a b => tree.Compare (m a).key (m b).key ≠ 1))
    (i : Nat) (hi : i < l.length) :
    weightOf tree m (l.take i) =
      weightOf tree m (strictlySmaller tree m hs (l.get ⟨i, hi⟩)) +
        weightOf tree m (equalTo tree m (l.take i) (l.get ⟨i, hi⟩)) := by
  have hsplit : l = l.take i ++ l.get ⟨i, hi⟩ :: l.drop (i + 1) := by
    rw [List.get_eq_getElem, List.getElem_cons_drop, List.take_append_drop]
  obtain ⟨x, hx⟩ : ∃ x, l.get ⟨i, hi⟩ = x := ⟨_, rfl⟩
  rw [hx] at hsplit ⊢
  have hso := hsorted
  rw [hsplit, List.pairwise_append, List.pairwise_cons] at hso
  obtain ⟨-, ⟨hxa, -⟩, hbx⟩ := hso
  have h1 : ∀ a ∈ l.take i, tree.Compare (m a).key (m x).key ≠ 1 :=
    fun a ha => hbx a ha x (List.mem_cons_self _ _)
  have h2 : ∀ a ∈ x :: l.drop (i + 1), tree.Compare (m a).key (m x).key ≠ -1 := by
    intro a ha e
    rcases List.mem_cons.1 ha with rfl | ha
    · rw [hc.refl_eq] at e; exact absurd e (by decide)
    · exact hxa a ha ((hc.swap _ _).2 e)
  rw [weightOf_split hc (l.take i) x h1]
  congr 1
  rw [← weightOf_perm (strictlySmaller_perm hp x)]
  conv_rhs => rw [hsplit]
  rw [strictlySmaller_append, strictlySmaller_eq_nil _ x h2, List.append_nil]

end RankParts

end RBTree


namespace RBTree

/-! ## Sequences of insertions and the concrete runs -/

section Runs

variable {tree : rb_red_blk_tree} {m : Mem}

theorem Tree.insert_black (cmp : Int → Int → Int) (w : Int → Int) (T : Tree) (x : Nat)
    (key info : Int) : (T.insert cmp w x key info).isRed = false :=
  Tree.setRed_isRed_false _

theorem Tree.insertAll_black (cmp : Int → Int → Int) (w : Int → Int) (T : Tree)
    (es : List (Nat × Int × Int)) (h : T.isRed = false) :
    (Tree.insertAll cmp w T es).isRed = false := by
  induction es generalizing T with
  | nil => exact h
  | cons e es ih => exact ih _ (Tree.insert_black _ _ _ _ _ _)

theorem Tree.insertAll_RB (cmp : Int → Int → Int) (w : Int → Int) (T : Tree)
    (es : List (Nat × Int × Int)) (h : T.RB) : (Tree.insertAll cmp w T es).RB := by
  induction es generalizing T with
  | nil => exact h
  | cons e es ih => exact ih _ (Tree.insert_RB w cmp T e.1 e.2.1 e.2.2 h).1

theorem Tree.insertAll_Agg (cmp : Int → Int → Int) (w : Int → Int) (T : Tree)
    (es : List (Nat × Int × Int)) (h : T.Agg w) : (Tree.insertAll cmp w T es).Agg w := by
  induction es generalizing T with
  | nil => exact h
  | cons e es ih => exact ih _ (Tree.insert_Agg w cmp T e.1 e.2.1 e.2.2 h)

/-- A sequence of `RBTreeInsert` calls with fresh cells returns and builds the tree of
the abstract insertions. -/
theorem InsertAll_spec {T : Tree} (h : RepTree tree m T) (hb : T.isRed = false)
    (es : List (Nat × Int × Int))
    (hfresh : ∀ e ∈ es, e.1 ≠ tree.nil ∧ e.1 ≠ tree.root ∧ e.1 ∉ T.addrs)
    (hnd : (es.map (fun e => e.1)).Nodup) :
    ∃ m', InsertAll tree es m m' ∧
      RepTree tree m' (Tree.insertAll tree.Compare tree.DistFunc T es) := by
  induction es generalizing m T with
  | nil => exact ⟨m, rfl, h⟩
  | cons e es ih =>
    obtain ⟨h1, h2, h3⟩ := hfresh e (List.mem_cons_self _ _)
    obtain ⟨m1, hr, hT1⟩ := RBTreeInsert_returns h hb h1 h2 h3 e.2.1 e.2.2
    rw [List.map_cons, List.nodup_cons] at hnd
    have hfresh' : ∀ e' ∈ es, e'.1 ≠ tree.nil ∧ e'.1 ≠ tree.root ∧
        e'.1 ∉ (T.insert tree.Compare tree.DistFunc e.1 e.2.1 e.2.2).addrs := by
      intro e' he'
      obtain ⟨g1, g2, g3⟩ := hfresh e' (List.mem_cons_of_mem _ he')
      refine ⟨g1, g2, fun hmem => ?_⟩
      have := (Tree.insert_addrs tree.Compare tree.DistFunc T e.1 e.2.1 e.2.2).mem_iff.1 hmem
      rcases List.mem_cons.1 this with e1 | e1
      · exact hnd.1 (e1 ▸ List.mem_map_of_mem (fun e => e.1) he')
      · exact g3 e1
    obtain ⟨m', hm', hT'⟩ := ih hT1 (Tree.insert_black _ _ _ _ _ _) hfresh' hnd.2
    exact ⟨m', ⟨m1, hr, hm'⟩, hT'⟩

/-- The heap after a sequence of `RBTreeInsert` calls is determined by the calls. -/
theorem InsertAll_unique (es : List (Nat × Int × Int)) {m m1 m2 : Mem}
    (h1 : InsertAll tree es m m1) (h2 : InsertAll tree es m m2) : m1 = m2 := by
  induction es generalizing m with
  | nil => exact h1.trans h2.symm
  | cons e es ih =>
    obtain ⟨a, ha, ha'⟩ := h1
    obtain ⟨b, hb, hb'⟩ := h2
    have := Returns.unique ha hb
    simp only [Prod.mk.injEq, and_true] at this
    subst this
    exact ih ha' hb'

theorem exD_eq : RBTreeInsert 5 exTree exMemB 3 5 0 = some (exMemD, 3) := rfl

theorem ex_repD : RepTree exTree exMemD exTreeD := by
  obtain ⟨m', h1, h2⟩ := RBTreeInsert_spec ex_repB (by decide) (x := 3) (by decide) (by decide)
    (by decide) 5 0 5 (by decide)
  rw [exD_eq] at h1
  simp only [Option.some.injEq, Prod.mk.injEq, and_true] at h1
  rw [h1]; exact h2

theorem ex_reachD : Reachable exTree exMemD [3, 2] :=
  Reachable.insert 5 0 ex_reachB (by decide) (by decide) (by decide)
    (Returns.of_mono (fun n r hr => RBTreeInsert_mono n exMemB 3 5 0 hr) exD_eq)

theorem ex_entriesD : exTreeD.entries = [(2, 5, 0), (3, 5, 0)] := by decide

theorem ex_sortedD : SortedKeys exTree.Compare exTreeD.keys := by
  unfold SortedKeys
  decide

theorem ex_aggD : exTreeD.Agg exTree.DistFunc :=
  Tree.insert_Agg (fun k => k) CmpInt64 exTreeB 3 5 0
    (Tree.insert_Agg (fun k => k) CmpInt64 Tree.leaf 2 5 0 trivial)

theorem sc_rep0 : RepTree scTree scMem0 .leaf :=
  RBTreeCreate_spec CmpInt64 (fun _ => 1) 0 1 exMem0 (by decide)

/-- The five insertions of the run with uniform weight return and build `scTreeA`. -/
theorem sc_repA : ∃ m, InsertAll scTree scKeys scMem0 m ∧ RepTree scTree m scTreeA :=
  InsertAll_spec sc_rep0 rfl scKeys (by decide) (by decide)

theorem sc_entriesA :
    scTreeA.entries = [(3, 1, 0), (6, 2, 0), (4, 3, 0), (2, 5, 0), (5, 8, 0)] := by decide

theorem sc_aggA : scTreeA.Agg (fun _ => 1) :=
  Tree.insertAll_Agg CmpInt64 (fun _ => 1) .leaf scKeys trivial

theorem sc_rbA : scTreeA.RB :=
  Tree.insertAll_RB CmpInt64 (fun _ => 1) .leaf scKeys trivial

theorem sc_blackA : scTreeA.isRed = false :=
  Tree.insertAll_black CmpInt64 (fun _ => 1) .leaf scKeys rfl

end Runs

end RBTree


namespace RBTree

section ClaimsSearchRank

/-- C11: find returns the topmost match.  On a heap that holds a tree whose in-order keys
are sorted for a total-preorder comparator, `RBExactQuery(tree, q)` returns, and for
every node `a` whose key compares equal to `q` the result is a node `x` of the tree whose
key compares equal to `q` and whose subtree contains `a`: the tree is some context filled
with the subtree rooted at `x`, that subtree holds `a`, and following parent pointers
from `a` arrives at `x` before it arrives at a sentinel. -/
theorem query_topmost (tree : rb_red_blk_tree) (m : Mem) (T : Tree) (h : RepTree tree m T)
    (hc : TotalPreorder tree.Compare) (hs : SortedKeys tree.Compare T.keys) (q : Int) :
    ∃ r, Returns (fun fuel => RBExactQuery fuel tree m q) r ∧
      ∀ a ∈ T.addrs, tree.Compare (m a).key q = 0 →
        ∃ x, r = some x ∧ x ∈ T.addrs ∧ tree.Compare (m x).key q = 0 ∧
          (∃ p l d r', T = fill p (.node l x d r') ∧ a ∈ (Tree.node l x d r').addrs) ∧
          AncestorOrSelf tree m x a := by
  refine ⟨T.lookup tree.Compare q, ⟨T.size, fun fuel hf => RBExactQuery_spec h q fuel hf⟩, ?_⟩
  intro a ha heq
  obtain ⟨e, he, rfl⟩ := List.mem_map.1 ha
  have hk := (h.entry_cell (a := e.1) (k := e.2.1) (i := e.2.2) he).1
  rw [hk] at heq
  rcases hl : T.lookup tree.Compare q with _ | x
  · exact absurd heq
      (Tree.lookup_complete hc q T hs hl e.2.1 (List.mem_map_of_mem (fun e => e.2.1) he))
  · obtain ⟨k, i, hm, hkq⟩ := Tree.lookup_sound q T hl
    obtain ⟨p, l, d, r', hT, hmem⟩ := Tree.lookup_topmost hc q T hs hl e he heq
    refine ⟨x, rfl, List.mem_map_of_mem (fun e => e.1) hm, ?_, ⟨p, l, d, r', hT, hmem⟩,
      h.ancestor_of_mem hT hmem⟩
    rw [(h.entry_cell hm).1]; exact hkq

theorem query_topmost_witness :
    ∃ r, Returns (fun fuel => RBExactQuery fuel exTree exMemD 5) r ∧
      ∀ a ∈ exTreeD.addrs, exTree.Compare (exMemD a).key 5 = 0 →
        ∃ x, r = some x ∧ x ∈ exTreeD.addrs ∧ exTree.Compare (exMemD x).key 5 = 0 ∧
          (∃ p l d r', exTreeD = fill p (.node l x d r') ∧
            a ∈ (Tree.node l x d r').addrs) ∧
          AncestorOrSelf exTree exMemD x a :=
  query_topmost exTree exMemD exTreeD ex_repD CmpInt64_total ex_sortedD 5

/-- C12, as the code has it: ties are placed to the right.  On a heap that holds a sorted
tree with black real root, `RBTreeInsert` returns and the new node stands in the in-order
sequence after every node whose key is not greater than the new key, the nodes with an
equal key included, and before every node whose key is greater. -/
theorem insert_tie_placement (tree : rb_red_blk_tree) (m : Mem) (T : Tree)
    (h : RepTree tree m T) (hb : T.isRed = false) (hc : TotalPreorder tree.Compare)
    (hs : SortedKeys tree.Compare T.keys)
    (x : Nat) (hxn : x ≠ tree.nil) (hxr : x ≠ tree.root) (hx : x ∉ T.addrs) (key info : Int) :
    ∃ m' T' B A, Returns (fun fuel => RBTreeInsert fuel tree m x key info) (m', x) ∧
      RepTree tree m' T' ∧ T.entries = B ++ A ∧ T'.entries = B ++ (x, key, info) :: A ∧
      (∀ e ∈ B, tree.Compare e.2.1 key ≠ 1) ∧ (∀ e ∈ A, tree.Compare e.2.1 key = 1) := by
  obtain ⟨m', hr, hT'⟩ := RBTreeInsert_returns h hb hxn hxr hx key info
  obtain ⟨h1, h2⟩ := Tree.insert_entries tree.DistFunc tree.Compare T x key info
  exact ⟨m', _, _, _, hr, hT', h1, h2,
    descend_before_le hc key T [] (by simp [Path.before]) hs,
    descend_after_gt hc key T [] (by simp [Path.after]) hs⟩

theorem insert_tie_placement_witness :
    ∃ m' T' B A, Returns (fun fuel => RBTreeInsert fuel exTree exMemB 3 5 0) (m', 3) ∧
      RepTree exTree m' T' ∧ exTreeB.entries = B ++ A ∧ T'.entries = B ++ (3, 5, 0) :: A ∧
      (∀ e ∈ B, exTree.Compare e.2.1 5 ≠ 1) ∧ (∀ e ∈ A, exTree.Compare e.2.1 5 = 1) :=
  insert_tie_placement exTree exMemB exTreeB ex_repB (by decide) CmpInt64_total
    (by unfold SortedKeys; decide) 3 (by decide) (by decide) (by decide) 5 0

/-- C12 fails as stated: on the tree that holds the key 5 in the cell 2, `RBTreeInsert`
of another key 5 into the cell 3 makes the new node the right child of the old one, so in
in-order the new node comes after the existing equal key, not before it. -/
theorem insert_tie_left_counterexample :
    RepTree exTree exMemB exTreeB ∧ exTreeB.entries = [(2, 5, 0)] ∧
      Returns (fun fuel => RBTreeInsert fuel exTree exMemB 3 5 0) (exMemD, 3) ∧
      RepTree exTree exMemD exTreeD ∧ exTreeD.entries = [(2, 5, 0), (3, 5, 0)] ∧
      (exMemD 2).right = 3 ∧ (exMemD 2).left = exTree.nil ∧
      ¬ (∀ e ∈ exTreeB.entries, exTree.Compare e.2.1 5 = 0 →
          List.indexOf 3 exTreeD.addrs < List.indexOf e.1 exTreeD.addrs) :=
  ⟨ex_repB, by decide,
    Returns.of_mono (fun n r hr => RBTreeInsert_mono n exMemB 3 5 0 hr) exD_eq,
    ex_repD, ex_entriesD, rfl, rfl, by decide⟩

/-- C13, as the code has it: with repeated keys the rank is the weight of the strictly
smaller keys plus the weight of the equal keys that precede the node in in-order.  In
every state reached from `RBTreeCreate` by `RBTreeInsert` and `RBDelete` calls, for a
total-preorder comparator, `GetNodeRank` of the `i`-th node `x` of the in-order sequence
returns the sum of `DistFunc` over the live nodes with key strictly less than the key of
`x` plus the sum over the nodes before position `i` whose key compares equal to it. -/
theorem rank_with_ties (tree : rb_red_blk_tree) (m : Mem) (hs : List Nat)
    (hc : TotalPreorder tree.Compare) (hr : Reachable tree m hs) :
    ∃ T, RepTree tree m T ∧ List.Perm T.addrs hs ∧
      ∀ (i : Nat) (hi : i < T.addrs.length),
        Returns (fun fuel => GetNodeRank fuel tree m (T.addrs.get ⟨i, hi⟩))
          (weightOf tree m (strictlySmaller tree m hs (T.addrs.get ⟨i, hi⟩)) +
            weightOf tree m (equalTo tree m (T.addrs.take i) (T.addrs.get ⟨i, hi⟩))) := by
  obtain ⟨T, hT, hpT, -, -, hA, hS⟩ := hr.inv
  refine ⟨T, hT, hpT, fun i hi => ⟨T.size + 1, fun fuel hf => ?_⟩⟩
  have hsorted : T.addrs.Pairwise (fun a b => tree.Compare (m a).key (m b).key ≠ 1) := by
    have := hS hc
    rw [SortedKeys, ← hT.keys_map, List.pairwise_map] at this
    exact this
  simp only
  rw [rank_take hT hA i hi fuel (by omega), weight_take_eq hc hpT hsorted i hi]

theorem rank_with_ties_witness :
    ∃ T, RepTree exTree exMemD T ∧ List.Perm T.addrs [3, 2] ∧
      ∀ (i : Nat) (hi : i < T.addrs.length),
        Returns (fun fuel => GetNodeRank fuel exTree exMemD (T.addrs.get ⟨i, hi⟩))
          (weightOf exTree exMemD (strictlySmaller exTree exMemD [3, 2] (T.addrs.get ⟨i, hi⟩)) +
            weightOf exTree exMemD
              (equalTo exTree exMemD (T.addrs.take i) (T.addrs.get ⟨i, hi⟩))) :=
  rank_with_ties exTree exMemD [3, 2] CmpInt64_total ex_reachD

/-- C13 fails as stated: after `RBTreeInsert` of the key 5 into the cell 2 and of another
key 5 into the cell 3, with the weight of a key being the key, `GetNodeRank` of the node
3 returns 5, while no key in the tree is strictly less than 5, so the sum over the
strictly smaller keys is 0. -/
theorem rank_strictly_smaller_counterexample :
    Reachable exTree exMemD [3, 2] ∧ (exMemD 2).key = 5 ∧ (exMemD 3).key = 5 ∧
      Returns (fun fuel => GetNodeRank fuel exTree exMemD 3) 5 ∧
      weightOf exTree exMemD (strictlySmaller exTree exMemD [3, 2] 3) = 0 := by
  refine ⟨ex_reachD, rfl, rfl, ⟨exTreeD.size + 1, fun fuel hf => ?_⟩, rfl⟩
  simp only
  rw [GetNodeRank_entries ex_repD ex_aggD (by decide) fuel (by omega)]
  rfl

/-- C14: the rank is the in-order prefix weight.  In every state reached from
`RBTreeCreate` by `RBTreeInsert` and `RBDelete` calls (keys may repeat), the heap holds a
tree of the live nodes, sorted when the comparator is a total preorder, and for every
position `i` of its in-order sequence `GetNodeRank` of the `i`-th node returns the sum of
`DistFunc` over the keys of the nodes at the positions before `i`. -/
theorem rank_prefix_weight (tree : rb_red_blk_tree) (m : Mem) (hs : List Nat)
    (hr : Reachable tree m hs) :
    ∃ T, RepTree tree m T ∧ List.Perm T.addrs hs ∧
      (TotalPreorder tree.Compare →
        SortedKeys tree.Compare (T.addrs.map (fun a => (m a).key))) ∧
      ∀ (i : Nat) (hi : i < T.addrs.length),
        Returns (fun fuel => GetNodeRank fuel tree m (T.addrs.get ⟨i, hi⟩))
          (((T.addrs.take i).map (fun a => tree.DistFunc (m a).key)).sum) := by
  obtain ⟨T, hT, hpT, -, -, hA, hS⟩ := hr.inv
  refine ⟨T, hT, hpT, fun hc => ?_, fun i hi => ⟨T.size + 1, fun fuel hf => ?_⟩⟩
  · rw [hT.keys_map]; exact hS hc
  · exact rank_take hT hA i hi fuel (by omega)

theorem rank_prefix_weight_witness :
    ∃ T, RepTree exTree exMemD T ∧ List.Perm T.addrs [3, 2] ∧
      (TotalPreorder exTree.Compare →
        SortedKeys exTree.Compare (T.addrs.map (fun a => (exMemD a).key))) ∧
      ∀ (i : Nat) (hi : i < T.addrs.length),
        Returns (fun fuel => GetNodeRank fuel exTree exMemD (T.addrs.get ⟨i, hi⟩))
          (((T.addrs.take i).map (fun a => exTree.DistFunc (exMemD a).key)).sum) :=
  rank_prefix_weight exTree exMemD [3, 2] ex_reachD

/-- C15: traversal enumerates the sorted contents.  In every state reached from
`RBTreeCreate` by `RBTreeInsert` and `RBDelete` calls, for a total-preorder comparator,
there is a listing of exactly the live nodes, with keys in non-decreasing order, such
that `TreeFirst` returns its first node (`nil` when it is empty), `TreeSuccessor` of each
node returns the next one, and `TreeSuccessor` of the last node returns `nil`, which is
none of the nodes. -/
theorem traversal_enumerates (tree : rb_red_blk_tree) (m : Mem) (hs : List Nat)
    (hc : TotalPreorder tree.Compare) (hr : Reachable tree m hs) :
    ∃ l : List Nat, List.Perm l hs ∧ l.length = hs.length ∧ tree.nil ∉ l ∧
      SortedKeys tree.Compare (l.map (fun a => (m a).key)) ∧
      Returns (fun fuel => TreeFirst fuel tree m) (l.getD 0 tree.nil) ∧
      ∀ (i : Nat) (hi : i < l.length),
        Returns (fun fuel => TreeSuccessor fuel tree m (l.get ⟨i, hi⟩))
          (l.getD (i + 1) tree.nil) := by
  obtain ⟨T, hT, hpT, -, -, -, hS⟩ := hr.inv
  refine ⟨T.addrs, hpT, hpT.length_eq, fun e => (hT.ne_nil e).1 rfl, ?_, ?_, fun i hi => ?_⟩
  · rw [hT.keys_map]; exact hS hc
  · refine ⟨T.size + 1, fun fuel hf => ?_⟩
    simp only
    rw [TreeFirst_spec hT fuel (by omega), List.getD_eq_getElem?_getD, List.head?_eq_getElem?]
  · exact ⟨T.size + 1, fun fuel hf => TreeSuccessor_index hT i hi fuel (by omega)⟩

theorem traversal_enumerates_witness :
    ∃ l : List Nat, List.Perm l [3, 2] ∧ l.length = [3, 2].length ∧ exTree.nil ∉ l ∧
      SortedKeys exTree.Compare (l.map (fun a => (exMemC a).key)) ∧
      Returns (fun fuel => TreeFirst fuel exTree exMemC) (l.getD 0 exTree.nil) ∧
      ∀ (i : Nat) (hi : i < l.length),
        Returns (fun fuel => TreeSuccessor fuel exTree exMemC (l.get ⟨i, hi⟩))
          (l.getD (i + 1) exTree.nil) :=
  traversal_enumerates exTree exMemC [3, 2] CmpInt64_total ex_reachC

end ClaimsSearchRank

end RBTree


namespace RBTree

/-! ## Loop exits of the traversal functions -/

section LoopExits

variable {tree : rb_red_blk_tree} {m : Mem}

theorem succDown_exit (fuel y a : Nat) (h : TreeSuccessor.down tree m fuel y = some a) :
    (m a).left = tree.nil := by
  induction fuel generalizing y with
  | zero => simp [TreeSuccessor.down] at h
  | succ n ih =>
    simp only [TreeSuccessor.down] at h
    split_ifs at h with hc
    · exact ih _ h
    · simp only [Option.some.injEq] at h
      subst h
      exact not_not.1 hc

theorem predDown_exit (fuel y a : Nat) (h : TreePredecessor.down tree m fuel y = some a) :
    (m a).right = tree.nil := by
  induction fuel generalizing y with
  | zero => simp [TreePredecessor.down] at h
  | succ n ih =>
    simp only [TreePredecessor.down] at h
    split_ifs at h with hc
    · exact ih _ h
    · simp only [Option.some.injEq] at h
      subst h
      exact not_not.1 hc

/-- The node that `TreeFirst` returns has no left child. -/
theorem TreeFirst_exit {T : Tree} (h : RepTree tree m T) (fuel a : Nat)
    (hr : TreeFirst fuel tree m = some a) : (m a).left = tree.nil := by
  unfold TreeFirst at hr
  split_ifs at hr with hc
  · simp only [Option.some.injEq] at hr
    subst hr
    exact h.nilc.2.2.1
  · rw [firstLoop_eq] at hr
    exact succDown_exit _ _ _ hr

/-- The node that `TreeLast` returns has no right child. -/
theorem TreeLast_exit {T : Tree} (h : RepTree tree m T) (fuel a : Nat)
    (hr : TreeLast fuel tree m = some a) : (m a).right = tree.nil := by
  unfold TreeLast at hr
  split_ifs at hr with hc
  · simp only [Option.some.injEq] at hr
    subst hr
    exact h.nilc.2.2.2.1
  · rw [lastLoop_eq] at hr
    exact predDown_exit _ _ _ hr

theorem getD_eq_nil_iff {l : List Nat} {nil : Nat} (hn : nil ∉ l) (j : Nat) :
    l.getD j nil = nil ↔ l.length ≤ j := by
  constructor
  · intro e
    by_contra hlt
    have hj : j < l.length := by omega
    rw [List.getD_eq_getElem?_getD, List.getElem?_eq_getElem hj] at e
    exact hn (e ▸ List.getElem_mem hj)
  · intro hle
    rw [List.getD_eq_getElem?_getD, List.getElem?_eq_none hle]
    rfl

theorem getD_eq_get {l : List Nat} (nil : Nat) {j : Nat} (hj : j < l.length) :
    l.getD j nil = l.get ⟨j, hj⟩ := by
  rw [List.getD_eq_getElem?_getD, List.getElem?_eq_getElem hj]
  rfl

end LoopExits

end RBTree


namespace RBTree

section ClaimsTraversal

/-- C16: successor.  On a heap that holds a tree, `TreeSuccessor` of the `i`-th node of
the in-order sequence returns the node at position `i + 1`, and returns the `nil`
sentinel exactly when the node is the last one. -/
theorem successor_spec (tree : rb_red_blk_tree) (m : Mem) (T : Tree) (h : RepTree tree m T)
    (i : Nat) (hi : i < T.addrs.length) :
    ∃ y, Returns (fun fuel => TreeSuccessor fuel tree m (T.addrs.get ⟨i, hi⟩)) y ∧
      (∀ hi' : i + 1 < T.addrs.length, y = T.addrs.get ⟨i + 1, hi'⟩) ∧
      (y = tree.nil ↔ i + 1 = T.addrs.length) := by
  have hn : tree.nil ∉ T.addrs := fun e => (h.ne_nil e).1 rfl
  refine ⟨T.addrs.getD (i + 1) tree.nil,
    ⟨T.size + 1, fun fuel hf => TreeSuccessor_index h i hi fuel (by omega)⟩,
    fun hi' => getD_eq_get _ hi', ?_⟩
  rw [getD_eq_nil_iff hn]
  omega

theorem successor_spec_witness :
    ∃ y, Returns (fun fuel => TreeSuccessor fuel exTree exMemC
        (exTreeC.addrs.get ⟨0, by decide⟩)) y ∧
      (∀ hi' : 0 + 1 < exTreeC.addrs.length, y = exTreeC.addrs.get ⟨0 + 1, hi'⟩) ∧
      (y = exTree.nil ↔ 0 + 1 = exTreeC.addrs.length) :=
  successor_spec exTree exMemC exTreeC ex_repC 0 (by decide)

/-- C17: predecessor.  On a heap that holds a tree, `TreePredecessor` of the `i`-th node
of the in-order sequence returns the node at position `i - 1`, and returns the `nil`
sentinel exactly when the node is the first one; and whenever `TreeSuccessor` of a node
returns a node other than `nil`, `TreePredecessor` of that node returns the node we
started from. -/
theorem predecessor_spec (tree : rb_red_blk_tree) (m : Mem) (T : Tree) (h : RepTree tree m T)
    (i : Nat) (hi : i < T.addrs.length) :
    ∃ y, Returns (fun fuel => TreePredecessor fuel tree m (T.addrs.get ⟨i, hi⟩)) y ∧
      (∀ j (hj : j < T.addrs.length), j + 1 = i → y = T.addrs.get ⟨j, hj⟩) ∧
      (y = tree.nil ↔ i = 0) ∧
      ∀ s, Returns (fun fuel => TreeSuccessor fuel tree m (T.addrs.get ⟨i, hi⟩)) s →
        s ≠ tree.nil → Returns (fun fuel => TreePredecessor fuel tree m s) (T.addrs.get ⟨i, hi⟩) := by
  have hn : tree.nil ∉ T.addrs := fun e => (h.ne_nil e).1 rfl
  refine ⟨if i = 0 then tree.nil else T.addrs.getD (i - 1) tree.nil,
    ⟨T.size + 1, fun fuel hf => TreePredecessor_index h i hi fuel (by omega)⟩, ?_, ?_, ?_⟩
  · intro j hj hji
    rw [if_neg (by omega)]
    have : i - 1 = j := by omega
    rw [this]
    exact getD_eq_get _ hj
  · by_cases h0 : i = 0
    · simp [h0]
    · rw [if_neg h0, getD_eq_nil_iff hn]
      constructor
      · intro hle; omega
      · intro e; exact absurd e h0
  · intro s hs hsn
    have hs' : Returns (fun fuel => TreeSuccessor fuel tree m (T.addrs.get ⟨i, hi⟩))
        (T.addrs.getD (i + 1) tree.nil) :=
      ⟨T.size + 1, fun fuel hf => TreeSuccessor_index h i hi fuel (by omega)⟩
    have hse := Returns.unique hs hs'
    have hi' : i + 1 < T.addrs.length := by
      by_contra hge
      exact hsn (hse.trans ((getD_eq_nil_iff hn (i + 1)).2 (by omega)))
    have hsg : s = T.addrs.get ⟨i + 1, hi'⟩ := hse.trans (getD_eq_get _ hi')
    refine ⟨T.size + 1, fun fuel hf => ?_⟩
    simp only
    rw [hsg, TreePredecessor_index h (i + 1) hi' fuel (by omega), if_neg (by omega)]
    congr 1
    exact getD_eq_get _ hi

theorem predecessor_spec_witness :
    ∃ y, Returns (fun fuel => TreePredecessor fuel exTree exMemC
        (exTreeC.addrs.get ⟨1, by decide⟩)) y ∧
      (∀ j (hj : j < exTreeC.addrs.length), j + 1 = 1 → y = exTreeC.addrs.get ⟨j, hj⟩) ∧
      (y = exTree.nil ↔ 1 = 0) ∧
      ∀ s, Returns (fun fuel => TreeSuccessor fuel exTree exMemC
          (exTreeC.addrs.get ⟨1, by decide⟩)) s →
        s ≠ exTree.nil →
          Returns (fun fuel => TreePredecessor fuel exTree exMemC s)
            (exTreeC.addrs.get ⟨1, by decide⟩) :=
  predecessor_spec exTree exMemC exTreeC ex_repC 1 (by decide)

/-- C18: first and last.  On a heap that holds a tree, `TreeFirst` returns the first node
of the in-order sequence, which has no left child, and `TreeLast` returns the last node
of the in-order sequence, which has no right child; each returns the `nil` sentinel if
and only if the tree holds no node. -/
theorem first_last_spec (tree : rb_red_blk_tree) (m : Mem) (T : Tree) (h : RepTree tree m T) :
    ∃ f l, Returns (fun fuel => TreeFirst fuel tree m) f ∧
      Returns (fun fuel => TreeLast fuel tree m) l ∧
      f = (T.addrs.head?).getD tree.nil ∧ l = (T.addrs.getLast?).getD tree.nil ∧
      (m f).left = tree.nil ∧ (m l).right = tree.nil ∧
      (f = tree.nil ↔ T.addrs = []) ∧ (l = tree.nil ↔ T.addrs = []) := by
  have hn : tree.nil ∉ T.addrs := fun e => (h.ne_nil e).1 rfl
  have h1 := TreeFirst_spec h (T.size + 1) (by omega)
  have h2 := TreeLast_spec h (T.size + 1) (by omega)
  refine ⟨_, _, ⟨T.size + 1, fun fuel hf => TreeFirst_spec h fuel (by omega)⟩,
    ⟨T.size + 1, fun fuel hf => TreeLast_spec h fuel (by omega)⟩, rfl, rfl,
    TreeFirst_exit h _ _ h1, TreeLast_exit h _ _ h2, ?_, ?_⟩
  · constructor
    · intro e
      rcases hh : T.addrs with _ | ⟨b, bs⟩
      · rfl
      · rw [hh] at e hn
        simp only [List.head?_cons, Option.getD_some] at e
        exact absurd (e ▸ List.mem_cons_self _ _) hn
    · intro e; rw [e]; rfl
  · constructor
    · intro e
      rcases hh : T.addrs.getLast? with _ | b
      · exact List.getLast?_eq_none_iff.1 hh
      · rw [hh] at e
        simp only [Option.getD_some] at e
        exact absurd (e ▸ List.mem_of_mem_getLast? hh) hn
    · intro e; rw [e]; rfl

theorem first_last_spec_witness :
    ∃ f l, Returns (fun fuel => TreeFirst fuel exTree exMemC) f ∧
      Returns (fun fuel => TreeLast fuel exTree exMemC) l ∧
      f = (exTreeC.addrs.head?).getD exTree.nil ∧ l = (exTreeC.addrs.getLast?).getD exTree.nil ∧
      (exMemC f).left = exTree.nil ∧ (exMemC l).right = exTree.nil ∧
      (f = exTree.nil ↔ exTreeC.addrs = []) ∧ (l = exTree.nil ↔ exTreeC.addrs = []) :=
  first_last_spec exTree exMemC exTreeC ex_repC

/-- C19: the run with weight 1.  After `RBTreeCreate` with `CmpInt64` and the weight
function that is 1 on every key, the calls `RBTreeInsert` of the keys 5, 1, 3, 8, 2 (into
the cells 2 to 6) return with one resulting heap, and in that heap the cells 4, 3 and 5
hold the keys 3, 1 and 8, are the nodes that `RBExactQuery` finds for these keys, and
`GetNodeRank` returns 2, 0 and 4 for them. -/
theorem scenario_A_ranks :
    ∃ m, InsertAll scTree scKeys scMem0 m ∧ (∀ m', InsertAll scTree scKeys scMem0 m' → m' = m) ∧
      (m 4).key = 3 ∧ (m 3).key = 1 ∧ (m 5).key = 8 ∧
      Returns (fun fuel => RBExactQuery fuel scTree m 3) (some 4) ∧
      Returns (fun fuel => RBExactQuery fuel scTree m 1) (some 3) ∧
      Returns (fun fuel => RBExactQuery fuel scTree m 8) (some 5) ∧
      Returns (fun fuel => GetNodeRank fuel scTree m 4) 2 ∧
      Returns (fun fuel => GetNodeRank fuel scTree m 3) 0 ∧
      Returns (fun fuel => GetNodeRank fuel scTree m 5) 4 := by
  obtain ⟨m, hins, hT⟩ := sc_repA
  have hk : ∀ a k, (a, k, (0 : Int)) ∈ scTreeA.entries → (m a).key = k :=
    fun a k he => (hT.entry_cell he).1
  have hrank : ∀ a r, a ∈ scTreeA.addrs →
      weightBefore (fun _ => 1) scTreeA.entries a = r →
      Returns (fun fuel => GetNodeRank fuel scTree m a) r := by
    intro a r ha hr
    refine ⟨scTreeA.size + 1, fun fuel hf => ?_⟩
    simp only
    rw [GetNodeRank_entries hT sc_aggA ha fuel (by omega)]
    exact congrArg some hr
  have hq : ∀ q a, scTreeA.lookup CmpInt64 q = some a →
      Returns (fun fuel => RBExactQuery fuel scTree m q) (some a) := by
    intro q a hl
    refine ⟨scTreeA.size, fun fuel hf => ?_⟩
    simp only
    rw [RBExactQuery_spec hT q fuel hf]
    exact congrArg some hl
  exact ⟨m, hins, fun m' h' => InsertAll_unique scKeys h' hins, hk 4 3 (by decide),
    hk 3 1 (by decide), hk 5 8 (by decide), hq 3 4 (by decide), hq 1 3 (by decide),
    hq 8 5 (by decide), hrank 4 2 (by decide) (by decide), hrank 3 0 (by decide) (by decide),
    hrank 5 4 (by decide) (by decide)⟩

/-- C20: deletion in the run with weight 1.  From the heap built by inserting the keys 5,
1, 3, 8, 2 with weight 1 on every key, `RBExactQuery` for the key 1 returns a node,
`RBDelete` of that node returns, and in the resulting heap the cell 4 still holds the key
3 and `GetNodeRank` returns 1 for it. -/
theorem scenario_B_rank :
    ∃ m z m', InsertAll scTree scKeys scMem0 m ∧
      (∀ m1, InsertAll scTree scKeys scMem0 m1 → m1 = m) ∧
      Returns (fun fuel => RBExactQuery fuel scTree m 1) (some z) ∧ (m z).key = 1 ∧
      Returns (fun fuel => RBDelete fuel scTree m z) m' ∧
      (m' 4).key = 3 ∧ Returns (fun fuel => GetNodeRank fuel scTree m' 4) 1 := by
  obtain ⟨m, hins, hT⟩ := sc_repA
  obtain ⟨m', T', hdel, hret, hT', hkeys⟩ :=
    RBDelete_returns hT sc_blackA sc_rbA (z := 3) (by decide)
  have hn := hT.addrs_nodup
  have hent : T'.entries = [(6, 2, 0), (4, 3, 0), (2, 5, 0), (5, 8, 0)] := by
    rw [Tree.delete_entries (fun _ => 1) hn hdel, sc_entriesA]
    decide
  have hagg : T'.Agg (fun _ => 1) := Tree.delete_Agg (fun _ => 1) hn sc_aggA hdel
  have hsize : T'.size = 4 := by rw [Tree.size_eq, hent]; rfl
  refine ⟨m, 3, m', hins, fun m1 h1 => InsertAll_unique scKeys h1 hins, ⟨scTreeA.size, fun fuel hf => ?_⟩, (hT.entry_cell
    (a := 3) (k := 1) (i := 0) (by decide)).1, hret, ?_, ⟨5, fun fuel hf => ?_⟩⟩
  · simp only
    rw [RBExactQuery_spec hT 1 fuel hf]
    exact congrArg some (by decide)
  · rw [(hkeys 4).1]
    exact (hT.entry_cell (a := 4) (k := 3) (i := 0) (by decide)).1
  · simp only
    have hmem : 4 ∈ T'.addrs := by rw [Tree.addrs, hent]; decide
    rw [GetNodeRank_entries hT' hagg hmem fuel (by omega), hent]
    exact congrArg some (by decide)

end ClaimsTraversal

end RBTree


namespace RBTree

/-! ## The run with power-law weight, and `GetNodeRank` at the sentinels -/

section PowerRun

variable {tree : rb_red_blk_tree} {m : Mem}

/-- One more `RBTreeInsert` after a sequence of them. -/
theorem InsertAll_snoc (es : List (Nat × Int × Int)) (e : Nat × Int × Int) {m m1 m2 : Mem}
    (h : InsertAll tree es m m1)
    (hr : Returns (fun fuel => RBTreeInsert fuel tree m1 e.1 e.2.1 e.2.2) (m2, e.1)) :
    InsertAll tree (es ++ [e]) m m2 := by
  induction es generalizing m with
  | nil =>
    have e1 : m1 = m := h
    subst e1
    exact ⟨m2, hr, rfl⟩
  | cons a es ih =>
    obtain ⟨m', ha, hrest⟩ := h
    exact ⟨m', ha, ih hrest⟩

theorem pw_rep0 : RepTree pwTree pwMem0 .leaf :=
  RBTreeCreate_spec CmpInt64 (DFInt64 2) 0 1 exMem0 (by decide)

/-- The first two insertions of the run with power-law weight build `pwTree2`. -/
theorem pw_rep2 : ∃ m, InsertAll pwTree pwKeys2 pwMem0 m ∧ RepTree pwTree m pwTree2 :=
  InsertAll_spec pw_rep0 rfl pwKeys2 (by decide) (by decide)

theorem pw_shape2 :
    pwTree2 = Tree.node .leaf 2 ⟨1, 0, false, 5⟩ (Tree.node .leaf 3 ⟨2, 0, true, 4⟩ .leaf) := rfl

theorem pw_shapeA :
    pwTreeA = Tree.node (Tree.node .leaf 2 ⟨1, 0, true, 1⟩ .leaf) 3 ⟨2, 0, false, 14⟩
      (Tree.node .leaf 4 ⟨3, 0, true, 9⟩ .leaf) := rfl

theorem pw_aggA : pwTreeA.Agg (DFInt64 2) :=
  Tree.insertAll_Agg CmpInt64 (DFInt64 2) .leaf pwKeys trivial

/-- With the parent pointer of `nil` at the root sentinel, the loop of `GetNodeRank`
started at `nil` stops at once. -/
theorem GetNodeRank_nil_returns (hn : NilCell tree (m tree.nil))
    (hp : (m tree.nil).parent = tree.root) (fuel : Nat) (hf : 0 < fuel) :
    GetNodeRank fuel tree m tree.nil = some 0 := by
  obtain ⟨n, rfl⟩ : ∃ n, fuel = n + 1 := ⟨fuel - 1, by omega⟩
  simp [GetNodeRank, GetNodeRank.loop, hp, hn.2.2.1, hn.2.2.2.2]

/-- With the parent pointer of `nil` at `nil`, the loop of `GetNodeRank` never leaves
`nil`. -/
theorem rankLoop_nil_diverges (hne : tree.nil ≠ tree.root)
    (hp : (m tree.nil).parent = tree.nil) (fuel : Nat) (ret : Int) :
    GetNodeRank.loop tree m fuel tree.nil ret = none := by
  induction fuel generalizing ret with
  | zero => rfl
  | succ n ih =>
    simp only [GetNodeRank.loop, hp, ne_eq, hne, not_false_eq_true, if_true]
    exact ih _

theorem GetNodeRank_root_diverges (hne : tree.nil ≠ tree.root)
    (hp : (m tree.nil).parent = tree.nil) (hr : (m tree.root).parent = tree.nil) (fuel : Nat) :
    GetNodeRank fuel tree m tree.root = none := by
  cases fuel with
  | zero => rfl
  | succ n =>
    simp only [GetNodeRank, GetNodeRank.loop, hr, ne_eq, hne, not_false_eq_true, if_true]
    exact rankLoop_nil_diverges hne hp n _

theorem pw_eq1 : RBTreeInsert 4 pwTree pwMem0 2 1 0 = some (pwMem1, 2) := rfl

theorem pw_eq2 : RBTreeInsert 5 pwTree pwMem1 3 2 0 = some (pwMem2, 3) := rfl

theorem pw_eqA : RBTreeInsert 6 pwTree pwMem2 4 3 0 = some (pwMemA, 4) := rfl

/-- The concrete heaps of the run with power-law weight are the heaps of the
insertions. -/
theorem pw_insertAll : InsertAll pwTree pwKeys pwMem0 pwMemA :=
  ⟨pwMem1, Returns.of_mono (fun n r hr => RBTreeInsert_mono n pwMem0 2 1 0 hr) pw_eq1,
    pwMem2, Returns.of_mono (fun n r hr => RBTreeInsert_mono n pwMem1 3 2 0 hr) pw_eq2,
    pwMemA, Returns.of_mono (fun n r hr => RBTreeInsert_mono n pwMem2 4 3 0 hr) pw_eqA, rfl⟩

theorem pw_repA : RepTree pwTree pwMemA pwTreeA := by
  obtain ⟨m, h1, h2⟩ := InsertAll_spec pw_rep0 rfl pwKeys (by decide) (by decide)
  rw [InsertAll_unique pwKeys pw_insertAll h1]
  exact h2

theorem pw_validA : pwTreeA.RBValid := by
  rw [Tree.RBValid_iff]
  exact ⟨Tree.insertAll_black CmpInt64 (DFInt64 2) .leaf pwKeys rfl,
    Tree.insertAll_RB CmpInt64 (DFInt64 2) .leaf pwKeys trivial⟩

theorem pw_aggAtA : ∀ a ∈ pwTreeA.addrs, AggAt pwTree pwMemA a :=
  pw_repA.aggAt_iff.1 pw_aggA

theorem pw_reachA : Reachable pwTree pwMemA [4, 3, 2] :=
  Reachable.insert 3 0
    (Reachable.insert 2 0
      (Reachable.insert 1 0
        (Reachable.create CmpInt64 (DFInt64 2) 0 1 exMem0 (by decide))
        (by decide) (by decide) (by simp)
        (Returns.of_mono (fun n r hr => RBTreeInsert_mono n pwMem0 2 1 0 hr) pw_eq1))
      (by decide) (by decide) (by decide)
      (Returns.of_mono (fun n r hr => RBTreeInsert_mono n pwMem1 3 2 0 hr) pw_eq2))
    (by decide) (by decide) (by decide)
    (Returns.of_mono (fun n r hr => RBTreeInsert_mono n pwMem2 4 3 0 hr) pw_eqA)

theorem exE_eq : RBDelete 4 exTree exMemB 2 = some exMemE := rfl

theorem ex_reachE : Reachable exTree exMemE [] :=
  Reachable.delete ex_reachB (List.mem_singleton.2 rfl)
    (Returns.of_mono (fun n r hr => RBDelete_mono n exMemB 2 hr) exE_eq)

end PowerRun

end RBTree


namespace RBTree

section ClaimsRunsSentinels

/-- C21: the run with power-law weight.  After `RBTreeCreate` with `CmpInt64` and the
weight `DFInt64` with exponent 2, the calls `RBTreeInsert` of the keys 1, 2, 3 (into the
cells 2, 3, 4) return with one resulting heap.  Before the third call the real root is
the node of key 1 with the node of key 2 as its right child; after it the real root is
the node of key 2 with the nodes of the keys 1 and 3 as its children (the left rotation at
the root), and `GetNodeRank` of the node with key 3 returns `1^2 + 2^2`, which is 5. -/
theorem scenario_C_rank :
    InsertAll pwTree pwKeys2 pwMem0 pwMem2 ∧
      (pwMem2 pwTree.root).left = 2 ∧ (pwMem2 2).right = 3 ∧
      Returns (fun fuel => RBTreeInsert fuel pwTree pwMem2 4 3 0) (pwMemA, 4) ∧
      InsertAll pwTree pwKeys pwMem0 pwMemA ∧
      (∀ m', InsertAll pwTree pwKeys pwMem0 m' → m' = pwMemA) ∧
      (pwMemA pwTree.root).left = 3 ∧ (pwMemA 3).left = 2 ∧ (pwMemA 3).right = 4 ∧
      (pwMemA 2).key = 1 ∧ (pwMemA 3).key = 2 ∧ (pwMemA 4).key = 3 ∧
      Returns (fun fuel => GetNodeRank fuel pwTree pwMemA 4) (DFInt64 2 1 + DFInt64 2 2) ∧
      DFInt64 2 1 + DFInt64 2 2 = 5 := by
  have h3 : Returns (fun fuel => RBTreeInsert fuel pwTree pwMem2 4 3 0) (pwMemA, 4) :=
    Returns.of_mono (fun n r hr => RBTreeInsert_mono n pwMem2 4 3 0 hr) pw_eqA
  have h2 : InsertAll pwTree pwKeys2 pwMem0 pwMem2 :=
    ⟨pwMem1, Returns.of_mono (fun n r hr => RBTreeInsert_mono n pwMem0 2 1 0 hr) pw_eq1,
      pwMem2, Returns.of_mono (fun n r hr => RBTreeInsert_mono n pwMem1 3 2 0 hr) pw_eq2, rfl⟩
  refine ⟨h2, rfl, rfl, h3, pw_insertAll,
    fun m' h' => InsertAll_unique pwKeys h' pw_insertAll, rfl, rfl, rfl, rfl, rfl, rfl, ?_,
    by decide⟩
  refine ⟨pwTreeA.size + 1, fun fuel hf => ?_⟩
  simp only
  rw [GetNodeRank_entries pw_repA pw_aggA (by decide) fuel (by omega)]
  exact congrArg some (by decide)

/-- C22, as the code has it: the check of the argument of `GetNodeRank` is an assertion
under `DEBUG_ASSERT`, which is not set.  With the assertions compiled, a call with the
`nil` or the root sentinel fails an assertion.  In the build of the sources no call is
rejected: the result is that of the unchecked loop, which for `nil` returns 0 when the
parent pointer of `nil` is the root sentinel, and which returns for neither sentinel when
the parent pointers of `nil` and of the root sentinel are `nil`, as `RBTreeCreate` leaves
them. -/
theorem rank_sentinel_gate (tree : rb_red_blk_tree) (m : Mem) (hne : tree.nil ≠ tree.root)
    (hn : NilCell tree (m tree.nil)) :
    (∀ fuel x, x = tree.nil ∨ x = tree.root →
      GetNodeRank.asserted true fuel tree m x = some RankResult.assertFailed) ∧
    (∀ fuel x, GetNodeRank.asserted DEBUG_ASSERT fuel tree m x =
      (GetNodeRank fuel tree m x).map RankResult.value) ∧
    ((m tree.nil).parent = tree.root →
      Returns (fun fuel => GetNodeRank.asserted DEBUG_ASSERT fuel tree m tree.nil)
        (RankResult.value 0)) ∧
    ((m tree.nil).parent = tree.nil → (m tree.root).parent = tree.nil →
      ∀ fuel, GetNodeRank.asserted DEBUG_ASSERT fuel tree m tree.nil = none ∧
        GetNodeRank.asserted DEBUG_ASSERT fuel tree m tree.root = none) := by
  have hoff : ∀ fuel x, GetNodeRank.asserted DEBUG_ASSERT fuel tree m x =
      (GetNodeRank fuel tree m x).map RankResult.value := by
    intro fuel x
    simp [GetNodeRank.asserted, DEBUG_ASSERT]
  refine ⟨?_, hoff, ?_, ?_⟩
  · rintro fuel x (rfl | rfl)
    · simp [GetNodeRank.asserted]
    · simp [GetNodeRank.asserted]
  · intro hp
    refine ⟨1, fun fuel hf => ?_⟩
    simp only
    rw [hoff, GetNodeRank_nil_returns hn hp fuel (by omega)]
    rfl
  · intro hp hr fuel
    rw [hoff, hoff, GetNodeRank_root_diverges hne hp hr fuel]
    refine ⟨?_, rfl⟩
    unfold GetNodeRank
    rw [rankLoop_nil_diverges hne hp]
    rfl

theorem rank_sentinel_gate_witness :
    (∀ fuel x, x = exTree.nil ∨ x = exTree.root →
      GetNodeRank.asserted true fuel exTree exMemE x = some RankResult.assertFailed) ∧
    (∀ fuel x, GetNodeRank.asserted DEBUG_ASSERT fuel exTree exMemE x =
      (GetNodeRank fuel exTree exMemE x).map RankResult.value) ∧
    ((exMemE exTree.nil).parent = exTree.root →
      Returns (fun fuel => GetNodeRank.asserted DEBUG_ASSERT fuel exTree exMemE exTree.nil)
        (RankResult.value 0)) ∧
    ((exMemE exTree.nil).parent = exTree.nil → (exMemE exTree.root).parent = exTree.nil →
      ∀ fuel, GetNodeRank.asserted DEBUG_ASSERT fuel exTree exMemE exTree.nil = none ∧
        GetNodeRank.asserted DEBUG_ASSERT fuel exTree exMemE exTree.root = none) :=
  rank_sentinel_gate exTree exMemE (by decide) ⟨rfl, rfl, rfl, rfl, rfl⟩

/-- C22 fails as stated: after `RBTreeCreate`, `RBTreeInsert` of the key 5 into the cell 2
and `RBDelete` of that node, which leaves the parent pointer of `nil` at the root
sentinel, `GetNodeRank(tree, nil)` is not rejected but returns the value 0. -/
theorem rank_rejects_sentinel_counterexample :
    Reachable exTree exMemE [] ∧ (exMemE exTree.nil).parent = exTree.root ∧
      Returns (fun fuel => GetNodeRank fuel exTree exMemE exTree.nil) 0 ∧
      Returns (fun fuel => GetNodeRank.asserted DEBUG_ASSERT fuel exTree exMemE exTree.nil)
        (RankResult.value 0) := by
  have hn : NilCell exTree (exMemE exTree.nil) := ⟨rfl, rfl, rfl, rfl, rfl⟩
  refine ⟨ex_reachE, rfl, ⟨1, fun fuel hf => GetNodeRank_nil_returns hn rfl fuel (by omega)⟩,
    ⟨1, fun fuel hf => ?_⟩⟩
  simp only [GetNodeRank.asserted, DEBUG_ASSERT, Bool.false_eq_true, false_and, if_false]
  rw [GetNodeRank_nil_returns hn rfl fuel (by omega)]
  rfl

/-- C23: queries on the empty tree.  In a state reached from `RBTreeCreate` in which no
node is live (right after `RBTreeCreate`, or after every node has been deleted),
`TreeFirst` and `TreeLast` return the `nil` sentinel and `RBExactQuery` returns its
not-found value for every key; and in every state of that tree the `nil` sentinel and the
root sentinel are none of the live handles, while the not-found value is no handle at
all. -/
theorem empty_tree_queries (tree : rb_red_blk_tree) (m : Mem) (hr : Reachable tree m []) :
    Returns (fun fuel => TreeFirst fuel tree m) tree.nil ∧
      Returns (fun fuel => TreeLast fuel tree m) tree.nil ∧
      (∀ q, Returns (fun fuel => RBExactQuery fuel tree m q) none) ∧
      ∀ m' hs', Reachable tree m' hs' →
        tree.nil ∉ hs' ∧ tree.root ∉ hs' ∧ ∀ x ∈ hs', (none : Option Nat) ≠ some x := by
  obtain ⟨T, hT, hp, -⟩ := hr.inv
  have hT0 : T = .leaf := by
    cases T with
    | leaf => rfl
    | node l a d r =>
      have := hp.length_eq
      simp at this
  subst hT0
  refine ⟨⟨1, fun fuel hf => ?_⟩, ⟨0, fun fuel _ => ?_⟩, fun q => ⟨0, fun fuel hf => ?_⟩, ?_⟩
  · exact TreeFirst_spec hT fuel (by simpa [Tree.size] using hf)
  · exact TreeLast_spec hT fuel (by simp [Tree.size])
  · exact RBExactQuery_spec hT q fuel (by simp [Tree.size])
  · intro m' hs' hr'
    obtain ⟨T', hT', hp', -⟩ := hr'.inv
    refine ⟨fun e => (hT'.ne_nil (hp'.mem_iff.2 e)).1 rfl,
      fun e => (hT'.ne_nil (hp'.mem_iff.2 e)).2 rfl, fun x _ => by simp⟩

theorem empty_tree_queries_witness :
    Returns (fun fuel => TreeFirst fuel exTree exMemE) exTree.nil ∧
      Returns (fun fuel => TreeLast fuel exTree exMemE) exTree.nil ∧
      (∀ q, Returns (fun fuel => RBExactQuery fuel exTree exMemE q) none) ∧
      ∀ m' hs', Reachable exTree m' hs' →
        exTree.nil ∉ hs' ∧ exTree.root ∉ hs' ∧ ∀ x ∈ hs', (none : Option Nat) ≠ some x :=
  empty_tree_queries exTree exMemE ex_reachE

end ClaimsRunsSentinels

end RBTree


namespace RBTree

/-! ## What the rotations leave alone -/

section RotationFrame

variable {tree : rb_red_blk_tree} {m : Mem}

/-- `LeftRotate` writes the `children` field of `x` and of its right child only. -/
theorem LeftRotate_children_frame (tree : rb_red_blk_tree) (m : Mem) (x a : Nat)
    (hx : a ≠ x) (hy : a ≠ (m x).right) :
    (LeftRotate tree m x a).children = (m a).children := by
  simp only [LeftRotate, TreeUpdateSum]
  rw [setChildren_children_ne _ _ _ _ hy, setChildren_children_ne _ _ _ _ hx]
  split_ifs <;> simp

/-- `LeftRotate` writes no colour. -/
theorem LeftRotate_red (tree : rb_red_blk_tree) (m : Mem) (x a : Nat) :
    (LeftRotate tree m x a).red = (m a).red := by
  simp only [LeftRotate, TreeUpdateSum, setChildren_red, setParent_red, setLeft_red]
  split_ifs <;> simp

/-- `RightRotate` writes the `children` field of `y` and of its left child only. -/
theorem RightRotate_children_frame (tree : rb_red_blk_tree) (m : Mem) (y a : Nat)
    (hy : a ≠ y) (hx : a ≠ (m y).left) :
    (RightRotate tree m y a).children = (m a).children := by
  simp only [RightRotate, TreeUpdateSum]
  rw [setChildren_children_ne _ _ _ _ hx, setChildren_children_ne _ _ _ _ hy]
  split_ifs <;> simp

/-- `RightRotate` writes no colour. -/
theorem RightRotate_red (tree : rb_red_blk_tree) (m : Mem) (y a : Nat) :
    (RightRotate tree m y a).red = (m a).red := by
  simp only [RightRotate, TreeUpdateSum, setChildren_red, setParent_red, setRight_red]
  split_ifs <;> simp

end RotationFrame

end RBTree


namespace RBTree

/-! ## The rotations on a tree -/

section RotationTree

variable {tree : rb_red_blk_tree} {m : Mem}

/-- `LeftRotate` at a node with a real right child: the tree after it. -/
theorem rotL_contract {T : Tree} (h : RepTree tree m T) {x : Nat} (hx : x ∈ T.addrs)
    (hr : (m x).right ≠ tree.nil) :
    ∃ T', RepTree tree (LeftRotate tree m x) T' ∧ T'.entries = T.entries ∧
      (m x).right ∈ T.addrs ∧ (m x).right ≠ x ∧
      (T.Agg tree.DistFunc → T'.Agg tree.DistFunc ∧
        (LeftRotate tree m x (m x).right).children = (m x).children) := by
  obtain ⟨p, l, dx, r, hz, hfill⟩ := h.focus hx
  have hc := hz.cell
  have hxr : (m x).right = r.addr tree.nil := by rw [hc]; rfl
  cases r with
  | leaf => exact absurd hxr hr
  | node ml y dy rr =>
    simp only [Tree.addr_node] at hxr
    have hz' := hz.rotL
    have hy : y ∈ T.addrs := by
      rw [← hfill, addrs_fill]
      simp
    have hyx : y ≠ x := by
      have hn := hz.nodup'.2.2.1
      simp only [addrs_node, List.nodup_append, List.nodup_cons, List.mem_append,
        List.mem_cons, not_or] at hn
      exact fun e => hn.2.1.1.2.1 e.symm
    refine ⟨fill p (Tree.rotL tree.DistFunc (.node l x dx (.node ml y dy rr))), hz'.top, ?_,
      hxr ▸ hy, hxr ▸ hyx, fun ha => ?_⟩
    · rw [entries_fill, Tree.rotL_entries, ← entries_fill, hfill]
    · rw [← hfill, fill_Agg] at ha
      obtain ⟨h1, h2⟩ := Tree.rotL_Agg (w := tree.DistFunc) ha.1
      refine ⟨(fill_Agg tree.DistFunc p _).2 ⟨h1, h2 ▸ ha.2⟩, ?_⟩
      have hcx : (m x).children = dx.children := by rw [hc]; rfl
      have hch : (Tree.rotL tree.DistFunc (.node l x dx (.node ml y dy rr))).ch =
          dx.children := h2
      rw [hxr, hcx, ← hch]
      simp only [Tree.rotL, Tree.updSum] at hz' ⊢
      rw [hz'.cell]
      rfl

/-- `RightRotate` at a node with a real left child: the tree after it. -/
theorem rotR_contract {T : Tree} (h : RepTree tree m T) {y : Nat} (hy : y ∈ T.addrs)
    (hl : (m y).left ≠ tree.nil) :
    ∃ T', RepTree tree (RightRotate tree m y) T' ∧ T'.entries = T.entries ∧
      (m y).left ∈ T.addrs ∧ (m y).left ≠ y ∧
      (T.Agg tree.DistFunc → T'.Agg tree.DistFunc ∧
        (RightRotate tree m y (m y).left).children = (m y).children) := by
  obtain ⟨p, l, dy, r, hz, hfill⟩ := h.focus hy
  have hc := hz.cell
  have hyl : (m y).left = l.addr tree.nil := by rw [hc]; rfl
  cases l with
  | leaf => exact absurd hyl hl
  | node ll x dx mr =>
    simp only [Tree.addr_node] at hyl
    have hz' := hz.rotR
    have hx : x ∈ T.addrs := by
      rw [← hfill, addrs_fill]
      simp
    have hxy : x ≠ y := by
      have hn := hz.nodup'.2.2.1
      simp only [addrs_node, List.nodup_append, List.nodup_cons, List.mem_append,
        List.mem_cons, not_or, List.disjoint_left] at hn
      exact fun e => (hn.2.2 (Or.inr (Or.inl rfl))).1 e
    refine ⟨fill p (Tree.rotR tree.DistFunc (.node (.node ll x dx mr) y dy r)), hz'.top, ?_,
      hyl ▸ hx, hyl ▸ hxy, fun ha => ?_⟩
    · rw [entries_fill, Tree.rotR_entries, ← entries_fill, hfill]
    · rw [← hfill, fill_Agg] at ha
      obtain ⟨h1, h2⟩ := Tree.rotR_Agg (w := tree.DistFunc) ha.1
      refine ⟨(fill_Agg tree.DistFunc p _).2 ⟨h1, h2 ▸ ha.2⟩, ?_⟩
      have hcy : (m y).children = dy.children := by rw [hc]; rfl
      have hch : (Tree.rotR tree.DistFunc (.node (.node ll x dx mr) y dy r)).ch =
          dy.children := h2
      rw [hyl, hcy, ← hch]
      simp only [Tree.rotR, Tree.updSum] at hz' ⊢
      rw [hz'.cell]
      rfl

end RotationTree

end RBTree


namespace RBTree

section ClaimsRotation

/-- C24: the rotations.  On a heap that holds a tree, `LeftRotate` at a real node `x`
whose right child `y` is real leaves a heap that holds a tree with the same in-order
sequence; the `children` field of every cell other than `x` and `y` is unchanged, those
of `nil` and of the root sentinel included; and if the aggregate equation held at every
node before, it holds at every node afterwards, at `x` and `y` in particular, and the new
`children` of `y` is the old `children` of `x`.  The same holds for `RightRotate` at a
real node whose left child is real. -/
theorem rotation_contract (tree : rb_red_blk_tree) (m : Mem) (T : Tree)
    (h : RepTree tree m T) (x : Nat) (hx : x ∈ T.addrs) :
    ((m x).right ≠ tree.nil →
      ∃ T', RepTree tree (LeftRotate tree m x) T' ∧ T'.entries = T.entries ∧
        (∀ a, a ≠ x → a ≠ (m x).right → (LeftRotate tree m x a).children = (m a).children) ∧
        (LeftRotate tree m x tree.nil).children = (m tree.nil).children ∧
        (LeftRotate tree m x tree.root).children = (m tree.root).children ∧
        ((∀ a ∈ T.addrs, AggAt tree m a) →
          (∀ a ∈ T.addrs, AggAt tree (LeftRotate tree m x) a) ∧
          AggAt tree (LeftRotate tree m x) x ∧ AggAt tree (LeftRotate tree m x) (m x).right ∧
          (LeftRotate tree m x (m x).right).children = (m x).children)) ∧
    ((m x).left ≠ tree.nil →
      ∃ T', RepTree tree (RightRotate tree m x) T' ∧ T'.entries = T.entries ∧
        (∀ a, a ≠ x → a ≠ (m x).left → (RightRotate tree m x a).children = (m a).children) ∧
        (RightRotate tree m x tree.nil).children = (m tree.nil).children ∧
        (RightRotate tree m x tree.root).children = (m tree.root).children ∧
        ((∀ a ∈ T.addrs, AggAt tree m a) →
          (∀ a ∈ T.addrs, AggAt tree (RightRotate tree m x) a) ∧
          AggAt tree (RightRotate tree m x) x ∧ AggAt tree (RightRotate tree m x) (m x).left ∧
          (RightRotate tree m x (m x).left).children = (m x).children)) := by
  have hxn := h.ne_nil hx
  constructor
  · intro hr
    obtain ⟨T', hT', hent, hy, -, hagg⟩ := rotL_contract h hx hr
    have hyn := h.ne_nil hy
    have haddrs : T'.addrs = T.addrs := by rw [Tree.addrs, hent, Tree.addrs]
    refine ⟨T', hT', hent, fun a h1 h2 => LeftRotate_children_frame tree m x a h1 h2,
      LeftRotate_children_frame tree m x _ hxn.1.symm hyn.1.symm,
      LeftRotate_children_frame tree m x _ hxn.2.symm hyn.2.symm, fun ha => ?_⟩
    obtain ⟨hA', hch⟩ := hagg (h.aggAt_iff.2 ha)
    have hall := hT'.aggAt_iff.1 hA'
    rw [haddrs] at hall
    exact ⟨hall, hall x hx, hall _ hy, hch⟩
  · intro hl
    obtain ⟨T', hT', hent, hy, -, hagg⟩ := rotR_contract h hx hl
    have hyn := h.ne_nil hy
    have haddrs : T'.addrs = T.addrs := by rw [Tree.addrs, hent, Tree.addrs]
    refine ⟨T', hT', hent, fun a h1 h2 => RightRotate_children_frame tree m x a h1 h2,
      RightRotate_children_frame tree m x _ hxn.1.symm hyn.1.symm,
      RightRotate_children_frame tree m x _ hxn.2.symm hyn.2.symm, fun ha => ?_⟩
    obtain ⟨hA', hch⟩ := hagg (h.aggAt_iff.2 ha)
    have hall := hT'.aggAt_iff.1 hA'
    rw [haddrs] at hall
    exact ⟨hall, hall x hx, hall _ hy, hch⟩

theorem rotation_contract_witness :
    (∃ T', RepTree pwTree (LeftRotate pwTree pwMemA 3) T' ∧ T'.entries = pwTreeA.entries ∧
        (∀ a, a ≠ 3 → a ≠ (pwMemA 3).right →
          (LeftRotate pwTree pwMemA 3 a).children = (pwMemA a).children) ∧
        (LeftRotate pwTree pwMemA 3 pwTree.nil).children = (pwMemA pwTree.nil).children ∧
        (LeftRotate pwTree pwMemA 3 pwTree.root).children = (pwMemA pwTree.root).children ∧
        ((∀ a ∈ pwTreeA.addrs, AggAt pwTree pwMemA a) →
          (∀ a ∈ pwTreeA.addrs, AggAt pwTree (LeftRotate pwTree pwMemA 3) a) ∧
          AggAt pwTree (LeftRotate pwTree pwMemA 3) 3 ∧
          AggAt pwTree (LeftRotate pwTree pwMemA 3) (pwMemA 3).right ∧
          (LeftRotate pwTree pwMemA 3 (pwMemA 3).right).children = (pwMemA 3).children)) ∧
    (∃ T', RepTree pwTree (RightRotate pwTree pwMemA 3) T' ∧ T'.entries = pwTreeA.entries ∧
        (∀ a, a ≠ 3 → a ≠ (pwMemA 3).left →
          (RightRotate pwTree pwMemA 3 a).children = (pwMemA a).children) ∧
        (RightRotate pwTree pwMemA 3 pwTree.nil).children = (pwMemA pwTree.nil).children ∧
        (RightRotate pwTree pwMemA 3 pwTree.root).children = (pwMemA pwTree.root).children ∧
        ((∀ a ∈ pwTreeA.addrs, AggAt pwTree pwMemA a) →
          (∀ a ∈ pwTreeA.addrs, AggAt pwTree (RightRotate pwTree pwMemA 3) a) ∧
          AggAt pwTree (RightRotate pwTree pwMemA 3) 3 ∧
          AggAt pwTree (RightRotate pwTree pwMemA 3) (pwMemA 3).left ∧
          (RightRotate pwTree pwMemA 3 (pwMemA 3).left).children = (pwMemA 3).children)) :=
  ⟨(rotation_contract pwTree pwMemA pwTreeA pw_repA 3 (by decide)).1 (by decide),
    (rotation_contract pwTree pwMemA pwTreeA pw_repA 3 (by decide)).2 (by decide)⟩

end ClaimsRotation

end RBTree


namespace RBTree

/-! ## The splice candidate of `RBDelete` and the weight of a subtree -/

section SpliceWeight

variable {tree : rb_red_blk_tree} {m : Mem}

/-- `RBDelete` is the choice of `y`, the choice of `x` and the rest of its body. -/
theorem RBDelete_eq_rest (fuel : Nat) (tree : rb_red_blk_tree) (m : Mem) (z : Nat) :
    RBDelete fuel tree m z =
      match RBDelete.candidate fuel tree m z with
      | none => none
      | some y => RBDelete.rest fuel tree m z y (RBDelete.child tree m y) := by
  rfl

/-- The node that `RBDelete` takes out of its position. -/
theorem candidate_spec {T : Tree} (h : RepTree tree m T) {z : Nat} (hz : z ∈ T.addrs) :
    ∃ y, (∀ fuel, T.size < fuel → RBDelete.candidate fuel tree m z = some y) ∧ y ∈ T.addrs ∧
      ((m y).left = tree.nil ∨ (m y).right = tree.nil) ∧
      (y = z ↔ ((m z).left = tree.nil ∨ (m z).right = tree.nil)) ∧
      (y ≠ z → (m y).left = tree.nil ∧ (m z).right ≠ tree.nil ∧
        ∃ p l d r, T = fill p (.node l z d r) ∧ y ∈ r.addrs ∧
          r.addr tree.nil = (m z).right) := by
  obtain ⟨p, l, d, r, hzz, hfill⟩ := h.focus hz
  have hc := hzz.cell
  have hzr : (m z).right = r.addr tree.nil := by rw [hc]; rfl
  by_cases hcase : (m z).left = tree.nil ∨ (m z).right = tree.nil
  · refine ⟨z, fun fuel _ => by simp [RBDelete.candidate, hcase], hz, hcase,
      ⟨fun _ => hcase, fun _ => rfl⟩, fun e => absurd rfl e⟩
  · have hl : (m z).left ≠ tree.nil := fun e => hcase (Or.inl e)
    have hr : (m z).right ≠ tree.nil := fun e => hcase (Or.inr e)
    cases r with
    | leaf => exact absurd hzr hr
    | node rl ra rd rr =>
      have hzr' : (m z).right = ra := hzr
      obtain ⟨-, hnn, hnt, -, -, -, -⟩ := hzz.nodup'
      have hn : tree.nil ∉ (Tree.node rl ra rd rr).addrs := by
        intro e
        exact (hnn tree.nil (Or.inr (Or.inl (by
          rw [addrs_node]; exact List.mem_append_right _ (List.mem_cons_of_mem _ e))))).1 rfl
      obtain ⟨y, hy⟩ : ∃ a0, (Tree.node rl ra rd rr).addrs.head? = some a0 := by
        rcases hh : (Tree.node rl ra rd rr).addrs with _ | ⟨b, bs⟩
        · simp at hh
        · exact ⟨b, rfl⟩
      have hymem : y ∈ (Tree.node rl ra rd rr).addrs := List.mem_of_mem_head? hy
      have hlen := fill_size_le p (.node l z d (.node rl ra rd rr))
      rw [hfill] at hlen
      simp only [Tree.size] at hlen
      have hdown : ∀ fuel, T.size < fuel →
          TreeSuccessor.down tree m fuel ra = some y := by
        intro fuel hf
        have := succDown_first (Tree.node rl ra rd rr) hzz.sub.2.2 hn hy fuel
          (by simp only [Tree.size]; omega)
        simpa only [Tree.addr_node] using this
      have hyT : y ∈ T.addrs := by
        rw [← hfill, addrs_fill]
        refine List.mem_append_left _ (List.mem_append_right _ ?_)
        rw [addrs_node]
        exact List.mem_append_right _ (List.mem_cons_of_mem _ hymem)
      have hyz : y ≠ z := by
        rintro rfl
        simp only [addrs_node, List.nodup_append, List.nodup_cons, List.mem_append,
          List.mem_cons, not_or, List.disjoint_left] at hnt
        have hymem' := hymem
        simp only [addrs_node, List.mem_append, List.mem_cons] at hymem'
        obtain ⟨h1, h2, h3⟩ := hnt.2.1.1
        rcases hymem' with e | e | e
        · exact h1 e
        · exact h2 e
        · exact h3 e
      have hyl : (m y).left = tree.nil := succDown_exit _ _ _ (hdown (T.size + 1) (by omega))
      refine ⟨y, fun fuel hf => ?_, hyT, Or.inl hyl,
        ⟨fun e => absurd e hyz, fun e => absurd e hcase⟩,
        fun _ => ⟨hyl, hr, p, l, d, _, hfill.symm, hymem, hzr.symm⟩⟩
      unfold RBDelete.candidate
      rw [if_neg hcase]
      unfold TreeSuccessor
      rw [if_pos (fun e => hr e.symm), hzr']
      exact hdown fuel hf

end SpliceWeight

end RBTree


namespace RBTree

section ClaimsSpliceWeight

/-- C26: the splice candidate of deletion.  On a heap that holds a tree and for a live
node `z`, `RBDelete` is the choice of `y` (`z` if it has a `nil` child, else
`TreeSuccessor(tree, z)`), the choice of `x` and the rest of its body run with them.  The
choice of `y` returns a live node with a `nil` child; it is `z` exactly when `z` has a
`nil` child, and otherwise its left child is `nil`, it is a node of the right subtree of
`z` (the tree is some context filled with the subtree at `z`, and `y` is among the nodes
of its right part, below the right child of `z`), and the node `x` chosen next is its
right child. -/
theorem splice_candidate (tree : rb_red_blk_tree) (m : Mem) (T : Tree)
    (h : RepTree tree m T) (z : Nat) (hz : z ∈ T.addrs) :
    ∃ y, Returns (fun fuel => RBDelete.candidate fuel tree m z) y ∧
      (∀ fuel, T.size < fuel →
        RBDelete fuel tree m z = RBDelete.rest fuel tree m z y (RBDelete.child tree m y)) ∧
      y ∈ T.addrs ∧
      ((m y).left = tree.nil ∨ (m y).right = tree.nil) ∧
      (y = z ↔ ((m z).left = tree.nil ∨ (m z).right = tree.nil)) ∧
      (y ≠ z → (m y).left = tree.nil ∧ (m z).right ≠ tree.nil ∧
        (∃ p l d r, T = fill p (.node l z d r) ∧ y ∈ r.addrs ∧
          r.addr tree.nil = (m z).right) ∧
        AncestorOrSelf tree m (m z).right y ∧ RBDelete.child tree m y = (m y).right) := by
  obtain ⟨y, h1, h2, h3, h4, h5⟩ := candidate_spec h hz
  refine ⟨y, ⟨T.size + 1, fun fuel hf => h1 fuel (by omega)⟩, fun fuel hf => ?_, h2, h3, h4,
    fun hne => ?_⟩
  · rw [RBDelete_eq_rest, h1 fuel hf]
  · obtain ⟨g1, g2, p, l, d, r, hT, hy, hra⟩ := h5 hne
    refine ⟨g1, g2, ⟨p, l, d, r, hT, hy, hra⟩, ?_, by simp [RBDelete.child, g1]⟩
    cases r with
    | leaf => simp at hy
    | node rl ra rd rr =>
      have hT' : T = fill (.R l z d :: p) (.node rl ra rd rr) := hT
      rw [← hra]
      exact h.ancestor_of_mem hT' hy

theorem splice_candidate_witness :
    ∃ y, Returns (fun fuel => RBDelete.candidate fuel pwTree pwMemA 3) y ∧
      (∀ fuel, pwTreeA.size < fuel →
        RBDelete fuel pwTree pwMemA 3 =
          RBDelete.rest fuel pwTree pwMemA 3 y (RBDelete.child pwTree pwMemA y)) ∧
      y ∈ pwTreeA.addrs ∧
      ((pwMemA y).left = pwTree.nil ∨ (pwMemA y).right = pwTree.nil) ∧
      (y = 3 ↔ ((pwMemA 3).left = pwTree.nil ∨ (pwMemA 3).right = pwTree.nil)) ∧
      (y ≠ 3 → (pwMemA y).left = pwTree.nil ∧ (pwMemA 3).right ≠ pwTree.nil ∧
        (∃ p l d r, pwTreeA = fill p (.node l 3 d r) ∧ y ∈ r.addrs ∧
          r.addr pwTree.nil = (pwMemA 3).right) ∧
        AncestorOrSelf pwTree pwMemA (pwMemA 3).right y ∧
        RBDelete.child pwTree pwMemA y = (pwMemA y).right) :=
  splice_candidate pwTree pwMemA pwTreeA pw_repA 3 (by decide)

end ClaimsSpliceWeight

end RBTree


namespace RBTree

/-! ## The height of a red-black tree -/

section Height

variable {tree : rb_red_blk_tree} {m : Mem}

/-- A red-black subtree is at most twice as high as its black height, plus one when its
root is red. -/
theorem Tree.RB.height_le {t : Tree} (h : t.RB) :
    t.height ≤ 2 * t.bh + (if t.isRed then 1 else 0) := by
  induction t with
  | leaf => simp [Tree.height]
  | node l a d r ihl ihr =>
    obtain ⟨hl, hr, hbh, hred⟩ := h
    have h1 := ihl hl
    have h2 := ihr hr
    simp only [Tree.height, Tree.bh, Tree.isRed]
    have g1 : l.height ≤ 2 * l.bh + 1 := by split at h1 <;> omega
    have g2 : r.height ≤ 2 * l.bh + 1 := by
      rw [hbh]
      split at h2 <;> omega
    by_cases hd : d.red = true
    · obtain ⟨e1, e2⟩ := hred hd
      rw [e1] at h1
      rw [e2, ← hbh] at h2
      simp only [Bool.false_eq_true, if_false, add_zero] at h1 h2
      have := max_le h1 h2
      rw [if_pos hd, if_pos hd]
      omega
    · have := max_le g1 g2
      rw [if_neg hd, if_neg hd]
      omega

/-- A red-black subtree of black height `k` holds at least `2 ^ k - 1` nodes. -/
theorem Tree.RB.pow_bh_le {t : Tree} (h : t.RB) : 2 ^ t.bh ≤ t.size + 1 := by
  induction t with
  | leaf => simp [Tree.bh, Tree.size]
  | node l a d r ihl ihr =>
    obtain ⟨hl, hr, hbh, -⟩ := h
    have h1 := ihl hl
    have h2 := ihr hr
    rw [← hbh] at h2
    simp only [Tree.bh, Tree.size]
    have h3 : 2 ^ (l.bh + (if d.red = true then 0 else 1)) ≤ 2 ^ (l.bh + 1) :=
      Nat.pow_le_pow_right (by decide) (by split <;> omega)
    have h4 : 2 ^ (l.bh + 1) = 2 * 2 ^ l.bh := by rw [pow_succ]; omega
    omega

/-- The height of a red-black tree with black root is logarithmic in its size. -/
theorem Tree.RB.height_le_log {t : Tree} (h : t.RB) (hb : t.isRed = false) :
    t.height ≤ 2 * Nat.log 2 (t.size + 1) := by
  have h1 := h.height_le
  rw [hb] at h1
  simp only [Bool.false_eq_true, if_false, add_zero] at h1
  have h2 : t.bh ≤ Nat.log 2 (t.size + 1) := Nat.le_log_of_pow_le (by decide) h.pow_bh_le
  omega

theorem fill_height_le (p : Path) (t : Tree) : p.length + t.height ≤ (fill p t).height := by
  induction p generalizing t with
  | nil => simp
  | cons f p ih =>
    have := ih (f.plug t)
    cases f with
    | L a d r =>
      simp only [fill_cons, Frame.plug, Tree.height, List.length_cons] at this ⊢
      have := le_max_left t.height r.height
      omega
    | R l a d =>
      simp only [fill_cons, Frame.plug, Tree.height, List.length_cons] at this ⊢
      have := le_max_right l.height t.height
      omega

/-- The loop of `GetNodeRank` returns within as many steps as the tree is high. -/
theorem GetNodeRank_height {T : Tree} (h : RepTree tree m T) {x : Nat} (hx : x ∈ T.addrs)
    (fuel : Nat) (hf : T.height ≤ fuel) :
    GetNodeRank fuel tree m x = GetNodeRank (T.size + 1) tree m x := by
  obtain ⟨p, l, d, r, hz, hfill⟩ := h.focus hx
  have h1 := fill_height_le p (.node l x d r)
  have h2 := fill_size_le p (.node l x d r)
  rw [hfill] at h1 h2
  simp only [Tree.height, Tree.size] at h1 h2
  rw [GetNodeRank_spec p hz fuel (by omega), GetNodeRank_spec p hz (T.size + 1) (by omega)]

/-- The loop of `RBExactQuery` returns within as many steps as the subtree is high. -/
theorem queryLoop_height (q : Int) (t : Tree) :
    ∀ l a d r, t = .node l a d r → ∀ (par fuel : Nat), Rep tree.nil m t par →
      (∀ b ∈ t.addrs, tree.nil ≠ b) → t.height ≤ fuel →
      RBExactQuery.loop tree m q fuel a (tree.Compare d.key q) =
        some (Tree.lookup tree.Compare q t) := by
  induction t with
  | leaf => intro l a d r e; exact absurd e (by simp)
  | node l0 a0 d0 r0 ihl ihr =>
    intro l a d r e par fuel h hn hf
    simp only [Tree.node.injEq] at e
    obtain ⟨rfl, rfl, rfl, rfl⟩ := e
    simp only [Tree.height] at hf
    have hml := le_max_left l0.height r0.height
    have hmr := le_max_right l0.height r0.height
    obtain ⟨n, rfl⟩ : ∃ n, fuel = n + 1 := ⟨fuel - 1, by omega⟩
    have hl : (m a0).left = l0.addr tree.nil := by rw [h.1]; rfl
    have hr : (m a0).right = r0.addr tree.nil := by rw [h.1]; rfl
    by_cases hc0 : tree.Compare d0.key q = 0
    · simp [RBExactQuery.loop, Tree.lookup, hc0]
    · have hc0' : ¬ (0 = tree.Compare d0.key q) := fun e => hc0 e.symm
      by_cases hc1 : tree.Compare d0.key q = 1
      · simp only [RBExactQuery.loop, ne_eq, hc0', not_false_eq_true, if_true, hc1, hl,
          Tree.lookup, one_ne_zero, if_false]
        cases l0 with
        | leaf => simp [Tree.addr, Tree.lookup]
        | node ll la ld lr =>
          have hne : la ≠ tree.nil := fun e => hn la (by simp) e.symm
          simp only [Tree.addr_node, hne, if_false]
          have hk : (m la).key = ld.key := by rw [h.2.1.1]; rfl
          rw [hk]
          exact ihl ll la ld lr rfl a0 n h.2.1
            (fun b hb => hn b (by rw [addrs_node]; exact List.mem_append_left _ hb))
            (by omega)
      · have hc1' : ¬ (1 = tree.Compare d0.key q) := fun e => hc1 e.symm
        simp only [RBExactQuery.loop, ne_eq, hc0', not_false_eq_true, if_true, hc1', if_false,
          hr, Tree.lookup, hc0, hc1]
        cases r0 with
        | leaf => simp [Tree.addr, Tree.lookup]
        | node rl ra rd rr =>
          have hne : ra ≠ tree.nil := fun e => hn ra (by simp) e.symm
          simp only [Tree.addr_node, hne, if_false]
          have hk : (m ra).key = rd.key := by rw [h.2.2.1]; rfl
          rw [hk]
          exact ihr rl ra rd rr rfl a0 n h.2.2
            (fun b hb => hn b (by
              rw [addrs_node]; exact List.mem_append_right _ (List.mem_cons_of_mem _ hb)))
            (by omega)

/-- `RBExactQuery` returns within as many steps as the tree is high. -/
theorem RBExactQuery_height {T : Tree} (h : RepTree tree m T) (q : Int) (fuel : Nat)
    (hf : T.height ≤ fuel) :
    RBExactQuery fuel tree m q = some (T.lookup tree.Compare q) := by
  have hroot : (m tree.root).left = T.addr tree.nil := h.rootc.2.2.1
  obtain ⟨-, hnn, -⟩ := RepZ.nodup' h
  cases T with
  | leaf => simp [RBExactQuery, hroot, Tree.addr, Tree.lookup]
  | node l a d r =>
    have hne : a ≠ tree.nil := fun e => (hnn a (Or.inr (Or.inl (by simp)))).1 e.symm
    have hk : (m a).key = d.key := by rw [h.sub.1]; rfl
    simp only [RBExactQuery, hroot, Tree.addr_node, hne, if_false, hk]
    exact queryLoop_height q _ l a d r rfl _ fuel h.sub
      (fun b hb => (hnn b (Or.inr (Or.inl hb))).1) hf

end Height

end RBTree


namespace RBTree

section ClaimsHeightTest

/-- The reference value of the verification loop of `ranktest.c` at iteration `j` is the
sum over the indices `1` to `j` of the sorted array. -/
theorem ranktest_cdf_eq (w : Int → Int) (array2 : Nat → Int) (j : Nat) :
    ranktest.cdf w array2 j = ((List.range j).map (fun i => w (array2 (i + 1)))).sum := by
  induction j with
  | zero => rfl
  | succ n ih =>
    rw [ranktest.cdf, ih, List.range_succ, List.map_append, List.sum_append]
    simp

/-- C28: logarithmic height.  In every state reached from `RBTreeCreate` by `RBTreeInsert`
and `RBDelete` calls with `n` live nodes, the longest path from the real root down to
`nil` holds at most `2 * log2 (n + 1)` nodes (with the logarithm rounded down), and with
that many evaluations of their loop condition the ascent of `GetNodeRank` from any live
node and the descent of `RBExactQuery` for any key have returned. -/
theorem logarithmic_height (tree : rb_red_blk_tree) (m : Mem) (hs : List Nat)
    (hr : Reachable tree m hs) :
    ∃ T, RepTree tree m T ∧ List.Perm T.addrs hs ∧
      T.height ≤ 2 * Nat.log 2 (hs.length + 1) ∧
      (∀ x ∈ hs, ∃ r, ∀ fuel, 2 * Nat.log 2 (hs.length + 1) ≤ fuel →
        GetNodeRank fuel tree m x = some r) ∧
      (∀ q, ∃ r, ∀ fuel, 2 * Nat.log 2 (hs.length + 1) ≤ fuel →
        RBExactQuery fuel tree m q = some r) := by
  obtain ⟨T, hT, hp, hb, hRB, hA, -⟩ := hr.inv
  have hsize : T.size = hs.length := by
    rw [Tree.size_eq, ← hp.length_eq, Tree.addrs, List.length_map]
  have hh : T.height ≤ 2 * Nat.log 2 (hs.length + 1) := hsize ▸ hRB.height_le_log hb
  refine ⟨T, hT, hp, hh, fun x hx => ?_, fun q => ?_⟩
  · have hx' := hp.mem_iff.2 hx
    refine ⟨weightBefore tree.DistFunc T.entries x, fun fuel hf => ?_⟩
    rw [GetNodeRank_height hT hx' fuel (by omega),
      GetNodeRank_entries hT hA hx' (T.size + 1) (by omega)]
  · exact ⟨T.lookup tree.Compare q, fun fuel hf => RBExactQuery_height hT q fuel (by omega)⟩

theorem logarithmic_height_witness :
    ∃ T, RepTree pwTree pwMemA T ∧ List.Perm T.addrs [4, 3, 2] ∧
      T.height ≤ 2 * Nat.log 2 ([4, 3, 2].length + 1) ∧
      (∀ x ∈ [4, 3, 2], ∃ r, ∀ fuel, 2 * Nat.log 2 ([4, 3, 2].length + 1) ≤ fuel →
        GetNodeRank fuel pwTree pwMemA x = some r) ∧
      (∀ q, ∃ r, ∀ fuel, 2 * Nat.log 2 ([4, 3, 2].length + 1) ≤ fuel →
        RBExactQuery fuel pwTree pwMemA q = some r) :=
  logarithmic_height pwTree pwMemA [4, 3, 2] pw_reachA

/-- C29 at a concrete input: the reference value of the verification loop of `ranktest.c`
is shifted by one index.  On the tree with the keys 3 and 5 and the weight of a key being
the key, the sorted array is 3, 5; `TreeFirst` returns the node of key 3 and `GetNodeRank`
of the node of key 5 returns 3, the weight of the index before it.  The loop compares it
at iteration 1 with the reference value 5, the weight of index 1 itself, and ends with a
wrong-cdf report; in general the reference value at iteration `j` is the sum over the
indices 1 to `j`, not over the indices below `j`. -/
theorem ranktest_reference_shifted :
    TreeFirst 5 exTree exMemC = some 3 ∧ (exMemC 3).key = exArray 0 ∧
      (exMemC 2).key = exArray 1 ∧
      Returns (fun fuel => GetNodeRank fuel exTree exMemC 2) 3 ∧
      ((List.range 1).map (fun i => exTree.DistFunc (exArray i))).sum = 3 ∧
      ranktest.cdf exTree.DistFunc exArray 1 = 5 ∧
      ranktest.verify exTree exMemC exArray 2 5 5 0 0 3 =
        some (ranktest.Outcome.wrongCdf 1 5 3) ∧
      ∀ (w : Int → Int) (array2 : Nat → Int) (j : Nat),
        ranktest.cdf w array2 j = ((List.range j).map (fun i => w (array2 (i + 1)))).sum := by
  refine ⟨rfl, rfl, rfl, ⟨exTreeC.size + 1, fun fuel hf => ?_⟩, rfl, rfl, rfl, ranktest_cdf_eq⟩
  simp only
  rw [GetNodeRank_entries ex_repC
    (Tree.insert_Agg (fun k => k) CmpInt64 exTreeB 3 3 0
      (Tree.insert_Agg (fun k => k) CmpInt64 Tree.leaf 2 5 0 trivial))
    (by decide) fuel (by omega)]
  rfl

end ClaimsHeightTest

end RBTree


namespace RBTree

/-! ## Deletion of a node with two children, on the run with power-law weight -/

section DeleteRuns

theorem delete_preserves_aggregate_witness :
    pwTreeA.addrs.erase 3 = [2, 4] ∧
    ∃ m' T', Returns (fun fuel => RBDelete fuel pwTree pwMemA 3) m' ∧
      RepTree pwTree m' T' ∧ T'.addrs = pwTreeA.addrs.erase 3 ∧
      (∀ a ∈ T'.addrs, AggAt pwTree m' a) ∧
      (m' pwTree.nil).children = 0 ∧ (m' pwTree.root).children = 0 :=
  ⟨by decide,
    delete_preserves_aggregate pwTree pwMemA pwTreeA pw_repA pw_validA pw_aggAtA 3 (by decide)⟩

theorem delete_preserves_redblack_witness :
    pwTreeA.addrs.erase 3 = [2, 4] ∧
    ∃ m' T', Returns (fun fuel => RBDelete fuel pwTree pwMemA 3) m' ∧
      RepTree pwTree m' T' ∧ T'.addrs = pwTreeA.addrs.erase 3 ∧ T'.RBValid :=
  ⟨by decide, delete_preserves_redblack pwTree pwMemA pwTreeA pw_repA pw_validA 3 (by decide)⟩

/-- The cells 2 and 4 are the two children of the root 3 of `pwTreeA`: neither is an
ancestor of the other, although the parent pointers of both lead on to the sentinels. -/
theorem pw_siblings : ¬ AncestorOrSelf pwTree pwMemA 2 4 ∧ ¬ AncestorOrSelf pwTree pwMemA 4 2 ∧
    AncestorOrSelf pwTree pwMemA 3 2 ∧ AncestorOrSelf pwTree pwMemA 3 4 := by
  have h4 : (pwMemA 4).parent = 3 := by rfl
  have h2 : (pwMemA 2).parent = 3 := by rfl
  have h3 : (pwMemA 3).parent = 1 := by rfl
  refine ⟨?_, ?_, ?_, ?_⟩
  · rintro ⟨n, e, hn⟩
    rcases n with _ | _ | n
    · simp at e
    · simp [h4] at e
    · have := (hn 2 (by omega)).1
      simp [h4, h3] at this
      exact this rfl
  · rintro ⟨n, e, hn⟩
    rcases n with _ | _ | n
    · simp at e
    · simp [h2] at e
    · have := (hn 2 (by omega)).1
      simp [h2, h3] at this
      exact this rfl
  · refine ⟨1, by simp [h2], fun k hk => ?_⟩
    interval_cases k
    · exact ⟨by decide, by decide⟩
    · simp only [Function.iterate_succ, Function.iterate_zero, Function.comp, id, h2]
      exact ⟨by decide, by decide⟩
  · refine ⟨1, by simp [h4], fun k hk => ?_⟩
    interval_cases k
    · exact ⟨by decide, by decide⟩
    · simp only [Function.iterate_succ, Function.iterate_zero, Function.comp, id, h4]
      exact ⟨by decide, by decide⟩
end DeleteRuns

end RBTree


namespace RBTree

/-! ## The weight loops leave the sentinels alone -/

section SentinelWeightLoops

variable {tree : rb_red_blk_tree} {m : Mem}

/-- A heap that holds a tree has its sentinels intact. -/
theorem RepZ.sentinels {p : Path} {t : Tree} (h : RepZ tree m p t) :
    SentinelsIntact tree m :=
  ⟨h.nilc.2.1, h.nilc.2.2.2.2, h.rootc.2.1, h.rootc.2.2.2.2.2⟩

theorem TreeInsertHelp_eq_place (fuel : Nat) (tree : rb_red_blk_tree) (m : Mem) (z : Nat) :
    TreeInsertHelp fuel tree m z =
      match TreeInsertHelp.place fuel tree m z with
      | none => none
      | some m1 => TreeInsertHelp.propagate tree z fuel m1 (m1 z).parent := by
  unfold TreeInsertHelp TreeInsertHelp.place
  simp only
  cases TreeInsertHelp.descend tree (setLeft (setRight m z tree.nil) z tree.nil) z fuel tree.root
      ((setLeft (setRight m z tree.nil) z tree.nil) tree.root).left with
  | none => rfl
  | some y => rfl

/-- The last heap written by the weight loop of `TreeInsertHelp` is its result. -/
theorem insPropagate_last (z : Nat) (fuel : Nat) (m : Mem) (w : Nat) {m' : Mem}
    (h : TreeInsertHelp.propagate tree z fuel m w = some m') :
    (m :: TreeInsertHelp.propagate.heaps tree z fuel m w).getLast? = some m' := by
  induction fuel generalizing m w with
  | zero => simp [TreeInsertHelp.propagate] at h
  | succ n ih =>
    by_cases hw : w = tree.root
    · simp only [TreeInsertHelp.propagate, hw, ne_eq, not_true_eq_false, if_false,
        Option.some.injEq] at h
      simp [TreeInsertHelp.propagate.heaps, hw, h]
    · simp only [TreeInsertHelp.propagate, ne_eq, hw, not_false_eq_true, if_true] at h
      simp only [TreeInsertHelp.propagate.heaps, ne_eq, hw, not_false_eq_true, if_true,
        List.getLast?_cons_cons]
      exact ih _ _ h

/-- The last heap written by a weight loop of `RBDelete` is its result. -/
theorem delPropagate_last (d : Int) (fuel : Nat) (m : Mem) (w : Nat) {m' : Mem}
    (h : RBDelete.propagate tree d fuel m w = some m') :
    (m :: RBDelete.propagate.heaps tree d fuel m w).getLast? = some m' := by
  induction fuel generalizing m w with
  | zero => simp [RBDelete.propagate] at h
  | succ n ih =>
    by_cases hw : w = tree.root
    · simp only [RBDelete.propagate, hw, ne_eq, not_true_eq_false, if_false,
        Option.some.injEq] at h
      simp [RBDelete.propagate.heaps, hw, h]
    · simp only [RBDelete.propagate, ne_eq, hw, not_false_eq_true, if_true] at h
      simp only [RBDelete.propagate.heaps, ne_eq, hw, not_false_eq_true, if_true,
        List.getLast?_cons_cons]
      exact ih _ _ h

/-- Every heap written by the weight loop of `TreeInsertHelp` has its sentinels intact. -/
theorem insPropagate_heaps {z : Nat} {v : Int} (P : Path) (t : Tree) (m : Mem)
    (h : RepZ tree m P t) (hz : z ∈ t.addrs) (hv : (m z).children = v) (fuel : Nat) :
    ∀ s ∈ TreeInsertHelp.propagate.heaps tree z fuel m (Path.addr tree.root P),
      SentinelsIntact tree s := by
  induction P generalizing t m fuel with
  | nil =>
    cases fuel with
    | zero => simp [TreeInsertHelp.propagate.heaps]
    | succ n => simp [TreeInsertHelp.propagate.heaps, Path.addr]
  | cons f P ih =>
    cases fuel with
    | zero => simp [TreeInsertHelp.propagate.heaps]
    | succ n =>
      have hfa : f.a ∈ (f.plug t).addrs := by cases f <;> simp [Frame.plug, Frame.a]
      obtain ⟨_, hrf, _⟩ := h.up.sub_ne hfa
      have hzf : z ≠ f.a := ((h.sub_ne hz).2.2).symm
      have key : RepZ tree (setChildren m f.a ((m f.a).children + (m z).children)) P
            ((f.addCh v).plug t) ∧ (m f.a).parent = Path.addr tree.root P ∧
          ((setChildren m f.a ((m f.a).children + (m z).children)) z).children = v := by
        refine ⟨?_, ?_, ?_⟩
        · cases f with
          | L a d r =>
            have hc := h.up.cell
            have := h.up.reweigh (d.children + v)
            simp only [Frame.a, hc, hv, mkCell_children]
            exact this
          | R l a d =>
            have hc := h.up.cell
            have := h.up.reweigh (d.children + v)
            simp only [Frame.a, hc, hv, mkCell_children]
            exact this
        · cases f with
          | L a d r => rw [Frame.a, h.up.cell]; rfl
          | R l a d => rw [Frame.a, h.up.cell]; rfl
        · rw [setChildren_children_ne _ _ _ _ hzf]; exact hv
      obtain ⟨h1, hpar, hv1⟩ := key
      simp only [TreeInsertHelp.propagate.heaps, Path.addr, ne_eq, hrf.symm, not_false_eq_true,
        if_true, hpar, List.mem_cons]
      rintro s (rfl | hs)
      · exact h1.sentinels
      · exact ih _ _ h1 (by cases f <;> simp [Frame.plug, Frame.addCh, hz]) hv1 n s hs

/-- Every heap written by a weight loop of `RBDelete` has its sentinels intact. -/
theorem delPropagate_heaps (d : Int) (P : Path) (t : Tree) (m : Mem)
    (h : RepZ tree m P t) (fuel : Nat) :
    ∀ s ∈ RBDelete.propagate.heaps tree d fuel m (Path.addr tree.root P),
      SentinelsIntact tree s := by
  induction P generalizing t m fuel with
  | nil =>
    cases fuel with
    | zero => simp [RBDelete.propagate.heaps]
    | succ n => simp [RBDelete.propagate.heaps, Path.addr]
  | cons f P ih =>
    cases fuel with
    | zero => simp [RBDelete.propagate.heaps]
    | succ n =>
      have hfa : f.a ∈ (f.plug t).addrs := by cases f <;> simp [Frame.plug]
      obtain ⟨_, hrf, _⟩ := h.up.sub_ne hfa
      have key : RepZ tree (setChildren m f.a ((m f.a).children + d)) P ((f.addCh d).plug t) ∧
          (m f.a).parent = Path.addr tree.root P := by
        cases f with
        | L a dd r =>
          have hc := h.up.cell
          have := h.up.reweigh (dd.children + d)
          simp only [Frame.a_L, hc, mkCell_children, mkCell_parent]
          exact ⟨this, trivial⟩
        | R l a dd =>
          have hc := h.up.cell
          have := h.up.reweigh (dd.children + d)
          simp only [Frame.a_R, hc, mkCell_children, mkCell_parent]
          exact ⟨this, trivial⟩
      obtain ⟨h1, hpar⟩ := key
      simp only [RBDelete.propagate.heaps, Path.addr_cons, ne_eq, hrf.symm, not_false_eq_true,
        if_true, hpar, List.mem_cons]
      rintro s (rfl | hs)
      · exact h1.sentinels
      · exact ih _ _ h1 n s hs

end SentinelWeightLoops

end RBTree


namespace RBTree

/-! ## The repair loop of `RBTreeInsert` leaves the sentinels alone -/

section SentinelInsertLoop

variable {tree : rb_red_blk_tree} {m : Mem}

/-- The last heap written by the repair loop of `RBTreeInsert` is its result. -/
theorem insLoop_last (fuel : Nat) (m : Mem) (x : Nat) {m' : Mem}
    (h : RBTreeInsert.loop tree fuel m x = some m') :
    (m :: RBTreeInsert.loop.heaps tree fuel m x).getLast? = some m' := by
  induction fuel generalizing m x with
  | zero => simp [RBTreeInsert.loop] at h
  | succ n ih =>
    unfold RBTreeInsert.loop at h
    unfold RBTreeInsert.loop.heaps
    by_cases h1 : (m (m x).parent).red = true
    · rw [if_pos h1] at h ⊢
      by_cases h2 : (m x).parent = (m (m (m x).parent).parent).left
      · rw [if_pos h2] at h ⊢
        by_cases h3 : (m (m (m (m x).parent).parent).right).red = true
        · simp only [h3, if_true] at h ⊢
          simp only [List.getLast?_cons_cons]
          exact ih _ _ h
        · simp only [h3, if_false] at h ⊢
          by_cases h4 : x = (m (m x).parent).right
          · simp only [if_pos h4] at h ⊢
            simp only [List.singleton_append, List.getLast?_cons_cons]
            exact ih _ _ h
          · simp only [if_neg h4] at h ⊢
            simp only [List.nil_append, List.getLast?_cons_cons]
            exact ih _ _ h
      · rw [if_neg h2] at h ⊢
        by_cases h3 : (m (m (m (m x).parent).parent).left).red = true
        · simp only [h3, if_true] at h ⊢
          simp only [List.getLast?_cons_cons]
          exact ih _ _ h
        · simp only [h3, if_false] at h ⊢
          by_cases h4 : x = (m (m x).parent).left
          · simp only [if_pos h4] at h ⊢
            simp only [List.singleton_append, List.getLast?_cons_cons]
            exact ih _ _ h
          · simp only [if_neg h4] at h ⊢
            simp only [List.nil_append, List.getLast?_cons_cons]
            exact ih _ _ h
    · rw [if_neg h1] at h ⊢
      simp only [Option.some.injEq] at h
      simp [h]

theorem insHeaps_exit {x : Nat} (n : Nat) (h : (m (m x).parent).red = false) :
    RBTreeInsert.loop.heaps tree (n + 1) m x = [] := by
  simp [RBTreeInsert.loop.heaps, h]

/-- Parent is a left child, uncle red. -/
theorem insHeaps_L1 {x p g u : Nat} (n : Nat) (hp : (m x).parent = p) (hpr : (m p).red = true)
    (hg : (m p).parent = g) (hgl : (m g).left = p) (hgr : (m g).right = u)
    (hur : (m u).red = true) :
    RBTreeInsert.loop.heaps tree (n + 1) m x =
      setRed m p false :: setRed (setRed m p false) u false ::
        setRed (setRed (setRed m p false) u false) g true ::
        RBTreeInsert.loop.heaps tree n (setRed (setRed (setRed m p false) u false) g true) g := by
  simp [RBTreeInsert.loop.heaps, hp, hpr, hg, hgl, hgr, hur]

/-- Parent is a left child, uncle black, `x` is a left child. -/
theorem insHeaps_L3 {x p g u : Nat} (n : Nat) (hp : (m x).parent = p) (hpr : (m p).red = true)
    (hg : (m p).parent = g) (hgl : (m g).left = p) (hgr : (m g).right = u)
    (hur : (m u).red = false) (hx : x ≠ (m p).right) :
    RBTreeInsert.loop.heaps tree (n + 1) m x =
      setRed m p false :: setRed (setRed m p false) g true ::
        RightRotate tree (setRed (setRed m p false) g true) g ::
        RBTreeInsert.loop.heaps tree n (RightRotate tree (setRed (setRed m p false) g true) g)
          x := by
  simp [RBTreeInsert.loop.heaps, hp, hpr, hg, hgl, hgr, hur, hx]

/-- Parent is a left child, uncle black, `x` is a right child. -/
theorem insHeaps_L2 {x p g u : Nat} (n : Nat) (hp : (m x).parent = p) (hpr : (m p).red = true)
    (hg : (m p).parent = g) (hgl : (m g).left = p) (hgr : (m g).right = u)
    (hur : (m u).red = false) (hx : x = (m p).right)
    (hp1 : (LeftRotate tree m p p).parent = x) (hg1 : (LeftRotate tree m p x).parent = g) :
    RBTreeInsert.loop.heaps tree (n + 1) m x =
      LeftRotate tree m p :: setRed (LeftRotate tree m p) x false ::
        setRed (setRed (LeftRotate tree m p) x false) g true ::
        RightRotate tree (setRed (setRed (LeftRotate tree m p) x false) g true) g ::
        RBTreeInsert.loop.heaps tree n
          (RightRotate tree (setRed (setRed (LeftRotate tree m p) x false) g true) g) p := by
  rw [RBTreeInsert.loop.heaps]
  simp only [hp, hpr, hg, hgl, hgr, hur, if_true, Bool.false_eq_true, if_false]
  rw [if_pos hx]
  simp only [hp1, hg1, setRed_parent, List.singleton_append]

/-- Parent is a right child, uncle red. -/
theorem insHeaps_R1 {x p g u : Nat} (n : Nat) (hp : (m x).parent = p) (hpr : (m p).red = true)
    (hg : (m p).parent = g) (hgl : (m g).left = u) (hpu : p ≠ u)
    (hur : (m u).red = true) :
    RBTreeInsert.loop.heaps tree (n + 1) m x =
      setRed m p false :: setRed (setRed m p false) u false ::
        setRed (setRed (setRed m p false) u false) g true ::
        RBTreeInsert.loop.heaps tree n (setRed (setRed (setRed m p false) u false) g true) g := by
  simp [RBTreeInsert.loop.heaps, hp, hpr, hg, hgl, hpu, hur]

/-- Parent is a right child, uncle black, `x` is a right child. -/
theorem insHeaps_R3 {x p g u : Nat} (n : Nat) (hp : (m x).parent = p) (hpr : (m p).red = true)
    (hg : (m p).parent = g) (hgl : (m g).left = u) (hpu : p ≠ u)
    (hur : (m u).red = false) (hx : x ≠ (m p).left) :
    RBTreeInsert.loop.heaps tree (n + 1) m x =
      setRed m p false :: setRed (setRed m p false) g true ::
        LeftRotate tree (setRed (setRed m p false) g true) g ::
        RBTreeInsert.loop.heaps tree n (LeftRotate tree (setRed (setRed m p false) g true) g)
          x := by
  simp [RBTreeInsert.loop.heaps, hp, hpr, hg, hgl, hpu, hur, hx]

/-- Parent is a right child, uncle black, `x` is a left child. -/
theorem insHeaps_R2 {x p g u : Nat} (n : Nat) (hp : (m x).parent = p) (hpr : (m p).red = true)
    (hg : (m p).parent = g) (hgl : (m g).left = u) (hpu : p ≠ u)
    (hur : (m u).red = false) (hx : x = (m p).left)
    (hp1 : (RightRotate tree m p p).parent = x) (hg1 : (RightRotate tree m p x).parent = g) :
    RBTreeInsert.loop.heaps tree (n + 1) m x =
      RightRotate tree m p :: setRed (RightRotate tree m p) x false ::
        setRed (setRed (RightRotate tree m p) x false) g true ::
        LeftRotate tree (setRed (setRed (RightRotate tree m p) x false) g true) g ::
        RBTreeInsert.loop.heaps tree n
          (LeftRotate tree (setRed (setRed (RightRotate tree m p) x false) g true) g) p := by
  rw [RBTreeInsert.loop.heaps]
  simp only [hp, hpr, hg, hgl, hpu, hur, if_true, Bool.false_eq_true, if_false]
  rw [if_pos hx]
  simp only [hp1, hg1, setRed_parent, List.singleton_append]

/-- After the last rotation the loop is left at a node with a black parent and writes
nothing more. -/
theorem insHeaps_done {x : Nat} (n : Nat) (h : (m (m x).parent).red = false) :
    RBTreeInsert.loop.heaps tree n m x = [] := by
  cases n with
  | zero => rfl
  | succ n => exact insHeaps_exit n h

/-- Every heap written by the repair loop of `RBTreeInsert` has its sentinels intact. -/
theorem insLoop_heaps (fuel : Nat) (path : Path) {tl tr : Tree} {x : Nat} {dx : Data} (m : Mem)
    (h : RepZ tree m path (.node tl x dx tr)) (htop : path.topBlack) :
    ∀ s ∈ RBTreeInsert.loop.heaps tree fuel m x, SentinelsIntact tree s := by
  induction fuel generalizing path tl tr x dx m with
  | zero => intro s hs; simp [RBTreeInsert.loop.heaps] at hs
  | succ n ih =>
  have hxp : (m x).parent = Path.addr tree.root path := by rw [h.cell]; rfl
  rcases path with _ | ⟨f1, _ | ⟨f2, rest⟩⟩
  · rw [insHeaps_exit n (by rw [hxp]; exact h.rootc.2.1)]
    simp
  · rw [insHeaps_exit n (by rw [hxp, Path.addr_cons, h.frame_cell.1]; exact htop)]
    simp
  · by_cases hred : f1.d.red = true
    · have hfc := h.frame_cell
      have hgc := h.up.frame_cell
      simp only [Path.addr_cons] at hxp hfc hgc
      have htop' : Path.topBlack rest := Path.topBlack_tail (Path.topBlack_tail htop)
      cases f2 with
      | L g dg u =>
        have hgL := h.up.frame_L
        simp only [Frame.plug_addr, Frame.a_L] at hgL hfc
        have hur := (h.up.up.sub.2.2).red_eq h.nilc
        by_cases hu : u.isRed = true
        · cases u with
          | leaf => simp at hu
          | node ul ua du ur =>
            rw [hu] at hur
            rw [insHeaps_L1 n hxp (hfc.1.trans hred) hfc.2.1 hgL.1 hgL.2 hur]
            have h1 : RepZ tree (setRed m f1.a false) (.L g dg (.node ul ua du ur) :: rest)
                ((f1.setRed false).plug (.node tl x dx tr)) := by
              cases f1 <;> exact h.up.recolor false
            have h2 := (RepZ.down (f := .R ((f1.setRed false).plug (.node tl x dx tr)) g dg)
              h1.up).recolor false
            have h3 := (RepZ.up h2).recolor true
            intro s hs
            simp only [List.mem_cons] at hs
            rcases hs with rfl | rfl | rfl | hs
            · exact h1.sentinels
            · exact h2.sentinels
            · exact h3.sentinels
            · exact ih rest _ h3 htop' s hs
        · have hu' : u.isRed = false := by simpa using hu
          rw [hu'] at hur
          cases f1 with
          | L p dp sp =>
            have hx : x ≠ (m p).right := by
              rw [h.frame_L.2]; exact (h.sib_ne_L).symm
            simp only [Frame.a_L, Frame.d_L] at hfc hxp hgL hred
            rw [insHeaps_L3 n hxp (hfc.1.trans hred) hfc.2.1 hgL.1 hgL.2 hur hx]
            have h1 := h.up.recolor false
            have h2 := h1.up.recolor true
            have h3 := h2.rotR
            have h3' := h3
            simp only [Frame.plug, Tree.rotR, Tree.updSum] at h3'
            have h4 := RepZ.down (f := .L _ _ _) h3'
            rw [insHeaps_done n (by
              rw [h4.cell, mkCell_parent, Path.addr_cons, h4.frame_cell.1]; rfl)]
            intro s hs
            simp only [List.mem_cons, List.mem_nil_iff, or_false] at hs
            rcases hs with rfl | rfl | rfl
            · exact h1.sentinels
            · exact h2.sentinels
            · exact h3.sentinels
          | R sp p dp =>
            have hx : x = (m p).right := by rw [h.frame_R.2]; rfl
            simp only [Frame.a_R, Frame.d_R] at hfc hxp hgL hred
            have h1 := h.up.rotL
            have h1' := h1
            simp only [Frame.plug, Tree.rotL, Tree.updSum] at h1'
            have hp1 : (LeftRotate tree m p p).parent = x := by
              rw [(RepZ.down (f := .L _ _ _) h1').cell]; rfl
            have hg1 : (LeftRotate tree m p x).parent = g := by
              rw [h1'.cell]; rfl
            rw [insHeaps_L2 n hxp (hfc.1.trans hred) hfc.2.1 hgL.1 hgL.2 hur hx hp1 hg1]
            have h2 := h1'.recolor false
            have h2' := h2.up.recolor true
            have h3 := h2'.rotR
            have h3' := h3
            simp only [Frame.plug, Tree.rotR, Tree.updSum] at h3'
            have h4 := RepZ.down (f := .L _ _ _) h3'
            rw [insHeaps_done n (by
              rw [h4.cell, mkCell_parent, Path.addr_cons, h4.frame_cell.1]; rfl)]
            intro s hs
            simp only [List.mem_cons, List.mem_nil_iff, or_false] at hs
            rcases hs with rfl | rfl | rfl | rfl
            · exact h1.sentinels
            · exact h2.sentinels
            · exact h2'.sentinels
            · exact h3.sentinels
      | R u g dg =>
        have hgR := h.up.frame_R
        simp only [Frame.plug_addr, Frame.a_R] at hgR hfc
        have hur := (h.up.up.sub.2.1).red_eq h.nilc
        have hpu : f1.a ≠ u.addr tree.nil := by
          cases f1 <;> exact (RepZ.sib_ne_R h.up).symm
        by_cases hu : u.isRed = true
        · cases u with
          | leaf => simp at hu
          | node ul ua du ur =>
            rw [hu] at hur
            rw [insHeaps_R1 n hxp (hfc.1.trans hred) hfc.2.1 hgR.1 hpu hur]
            have h1 : RepZ tree (setRed m f1.a false) (.R (.node ul ua du ur) g dg :: rest)
                ((f1.setRed false).plug (.node tl x dx tr)) := by
              cases f1 <;> exact h.up.recolor false
            have h2 := (RepZ.down (f := .L g dg ((f1.setRed false).plug (.node tl x dx tr)))
              h1.up).recolor false
            have h3 := (RepZ.up h2).recolor true
            intro s hs
            simp only [List.mem_cons] at hs
            rcases hs with rfl | rfl | rfl | hs
            · exact h1.sentinels
            · exact h2.sentinels
            · exact h3.sentinels
            · exact ih rest _ h3 htop' s hs
        · have hu' : u.isRed = false := by simpa using hu
          rw [hu'] at hur
          cases f1 with
          | R sp p dp =>
            have hx : x ≠ (m p).left := by
              rw [h.frame_R.1]; exact (h.sib_ne_R).symm
            simp only [Frame.a_R, Frame.d_R] at hfc hxp hgR hred hpu
            rw [insHeaps_R3 n hxp (hfc.1.trans hred) hfc.2.1 hgR.1 hpu hur hx]
            have h1 := h.up.recolor false
            have h2 := h1.up.recolor true
            have h3 := h2.rotL
            have h3' := h3
            simp only [Frame.plug, Tree.rotL, Tree.updSum] at h3'
            have h4 := RepZ.down (f := .R _ _ _) h3'
            rw [insHeaps_done n (by
              rw [h4.cell, mkCell_parent, Path.addr_cons, h4.frame_cell.1]; rfl)]
            intro s hs
            simp only [List.mem_cons, List.mem_nil_iff, or_false] at hs
            rcases hs with rfl | rfl | rfl
            · exact h1.sentinels
            · exact h2.sentinels
            · exact h3.sentinels
          | L p dp sp =>
            have hx : x = (m p).left := by rw [h.frame_L.1]; rfl
            simp only [Frame.a_L, Frame.d_L] at hfc hxp hgR hred hpu
            have h1 := h.up.rotR
            have h1' := h1
            simp only [Frame.plug, Tree.rotR, Tree.updSum] at h1'
            have hp1 : (RightRotate tree m p p).parent = x := by
              rw [(RepZ.down (f := .R _ _ _) h1').cell]; rfl
            have hg1 : (RightRotate tree m p x).parent = g := by
              rw [h1'.cell]; rfl
            rw [insHeaps_R2 n hxp (hfc.1.trans hred) hfc.2.1 hgR.1 hpu hur hx hp1 hg1]
            have h2 := h1'.recolor false
            have h2' := h2.up.recolor true
            have h3 := h2'.rotL
            have h3' := h3
            simp only [Frame.plug, Tree.rotL, Tree.updSum] at h3'
            have h4 := RepZ.down (f := .R _ _ _) h3'
            rw [insHeaps_done n (by
              rw [h4.cell, mkCell_parent, Path.addr_cons, h4.frame_cell.1]; rfl)]
            intro s hs
            simp only [List.mem_cons, List.mem_nil_iff, or_false] at hs
            rcases hs with rfl | rfl | rfl | rfl
            · exact h1.sentinels
            · exact h2.sentinels
            · exact h2'.sentinels
            · exact h3.sentinels
    · rw [insHeaps_exit n (by
        rw [hxp, Path.addr_cons, h.frame_cell.1]; simpa using hred)]
      simp

end SentinelInsertLoop

end RBTree


namespace RBTree

/-! ## The stages of `RBTreeInsert` -/

section SentinelInsert

variable {tree : rb_red_blk_tree} {m : Mem}

/-- `TreeInsertHelp` up to its weight loop hangs the cell `z` below the leaf position
chosen by the comparator, with its own weight as aggregate. -/
theorem place_spec {T : Tree} (h : RepTree tree m T) {z : Nat}
    (hzn : z ≠ tree.nil) (hzr : z ≠ tree.root) (hz : z ∉ T.addrs)
    (fuel : Nat) (hf : T.size + 1 ≤ fuel) :
    ∃ m1, TreeInsertHelp.place fuel tree m z = some m1 ∧
      RepZ tree m1 (descend tree.Compare (m z).key T [])
        (.node .leaf z ⟨(m z).key, (m z).info, (m z).red, tree.DistFunc (m z).key⟩ .leaf) ∧
      (m1 z).parent = Path.addr tree.root (descend tree.Compare (m z).key T []) ∧
      (m1 z).children = tree.DistFunc (m z).key := by
  have h1 : RepZ tree (setLeft (setRight m z tree.nil) z tree.nil) [] T :=
    (RepZ.upd_fresh h hzn hzr hz _).upd_fresh hzn hzr hz _
  have hk : ((setLeft (setRight m z tree.nil) z tree.nil) z).key = (m z).key := by simp
  have hroot : ((setLeft (setRight m z tree.nil) z tree.nil) tree.root).left =
      T.addr tree.nil := h1.rootc.2.2.1
  have hd := descend_spec hk T [] h1 fuel (by omega)
  generalize hm2 : setLeft (setRight m z tree.nil) z tree.nil = m2 at h1 hk hroot hd
  have hcell2 : m2 z = ⟨(m z).key, (m z).info, (m z).red, tree.nil, tree.nil, (m z).parent,
      (m z).children⟩ := by
    rw [← hm2]; simp [setLeft, setRight, upd_same]
  set P := descend tree.Compare (m z).key T [] with hP
  have h2 : RepZ tree m2 P .leaf := by
    apply RepZ.ofTop
    rw [hP, descend_fill]
    exact h1
  have hzP : z ∉ (fill P .leaf).addrs := by rw [hP, descend_fill]; exact hz
  have h3 : RepZ tree (setParent m2 z (Path.addr tree.root P)) P .leaf :=
    h2.upd_fresh hzn hzr hzP _
  have hc3 : (setParent m2 z (Path.addr tree.root P)) z =
      mkCell ⟨(m z).key, (m z).info, (m z).red, (m z).children⟩ tree.nil tree.nil
        (Path.addr tree.root P) := by
    simp [setParent, upd_same, hcell2, mkCell]
  have hh : Path.headOK tree.Compare (m z).key P := descend_headOK _ _ _ _ trivial
  have h4 := h3.attach hzn hzr hzP hc3 hh
  generalize hm3 : setParent m2 z (Path.addr tree.root P) = m3 at h3 hc3 h4
  generalize hm4 : (if Path.addr tree.root P = tree.root ∨
      tree.Compare (m3 (Path.addr tree.root P)).key (m3 z).key = 1 then
      setLeft m3 (Path.addr tree.root P) z else setRight m3 (Path.addr tree.root P) z) = m4
    at h4
  have hk4 : (m4 z).key = (m z).key := by rw [h4.cell]; rfl
  have h5 := h4.reweigh (tree.DistFunc (m z).key)
  have hp5 : ((setChildren m4 z (tree.DistFunc (m z).key)) z).parent = Path.addr tree.root P := by
    rw [h5.cell]; rfl
  have hv5 : ((setChildren m4 z (tree.DistFunc (m z).key)) z).children =
      tree.DistFunc (m z).key := by
    rw [h5.cell]; rfl
  refine ⟨_, ?_, h5, hp5, hv5⟩
  simp only [TreeInsertHelp.place, hm2, hroot]
  simp only [Path.addr_nil] at hd
  rw [hd]
  simp only [hm3, hm4, hk4]

/-- The stages of `RBTreeInsert` on a heap that holds a tree with a black root: the heap
`m1` on which the weight loop of `TreeInsertHelp` starts, its result `m2`, the result `m3`
of the repair loop started on `m2` with `x` coloured red, and the final heap; the
sentinels are intact in every heap the two loops start from, write and leave. -/
theorem RBTreeInsert_stages {T : Tree} (h : RepTree tree m T) (hblack : T.isRed = false)
    {x : Nat} (hxn : x ≠ tree.nil) (hxr : x ≠ tree.root) (hx : x ∉ T.addrs)
    (key info : Int) (fuel : Nat) (hf : T.size + 2 ≤ fuel) :
    ∃ m1 m2 m3,
      TreeInsertHelp.place fuel tree (setInfo (setKey m x key) x info) x = some m1 ∧
      TreeInsertHelp.propagate tree x fuel m1 (m1 x).parent = some m2 ∧
      TreeInsertHelp fuel tree (setInfo (setKey m x key) x info) x = some m2 ∧
      RBTreeInsert.loop tree fuel (setRed m2 x true) x = some m3 ∧
      RBTreeInsert fuel tree m x key info = some (setRed m3 (m3 tree.root).left false, x) ∧
      (∀ s ∈ m1 :: TreeInsertHelp.propagate.heaps tree x fuel m1 (m1 x).parent,
        SentinelsIntact tree s) ∧
      (∀ s ∈ setRed m2 x true :: RBTreeInsert.loop.heaps tree fuel (setRed m2 x true) x,
        SentinelsIntact tree s) ∧
      SentinelsIntact tree (setRed m3 (m3 tree.root).left false) := by
  have h0 : RepTree tree (setInfo (setKey m x key) x info) T :=
    (RepZ.upd_fresh h hxn hxr hx _).upd_fresh hxn hxr hx _
  have hk : ((setInfo (setKey m x key) x info) x).key = key := by
    simp [setKey_key_same]
  have hi : ((setInfo (setKey m x key) x info) x).info = info := by
    simp [setInfo_info_same]
  generalize hm0 : setInfo (setKey m x key) x info = m0 at h0 hk hi
  obtain ⟨m1, hm1, h1, hp1, hv1⟩ := place_spec h0 hxn hxr hx fuel (by omega)
  rw [hk] at h1 hp1 hv1
  have hlen : (descend tree.Compare key T []).length < fuel := by
    have := descend_length tree.Compare key T []
    simp only [List.length_nil] at this
    omega
  obtain ⟨m2, hm2, h2⟩ := propagate_spec _ _ _ h1 (by simp) hv1 fuel hlen
  have ht1 := insPropagate_heaps _ _ _ h1 (z := x) (by simp) hv1 fuel
  rw [← hp1] at hm2 ht1
  have hTI : TreeInsertHelp fuel tree m0 x = some m2 := by
    rw [TreeInsertHelp_eq_place, hm1]
    exact hm2
  rw [hi] at h2
  have h3 := h2.recolor true
  have htop : Path.topBlack (Path.addCh (tree.DistFunc key) (descend tree.Compare key T [])) :=
    Path.addCh_topBlack _ _ (descend_topBlack _ _ _ _ (fun _ => hblack) (fun h => absurd rfl h))
  have hlen' : (Path.addCh (tree.DistFunc key) (descend tree.Compare key T [])).length < fuel := by
    rw [Path.addCh_length]; exact hlen
  obtain ⟨m3, hm3, h4⟩ := insLoop_spec _ _ h3 htop fuel hlen'
  have ht3 := insLoop_heaps fuel _ _ h3 htop
  have h5 := RepZ.blacken h4
  have hl := h4.rootc.2.2.1
  simp only [fill_nil] at hl
  rw [← hl] at h5
  refine ⟨m1, m2, m3, hm1, hm2, hTI, hm3, ?_, ?_, ?_, h5.sentinels⟩
  · simp only [RBTreeInsert, hm0, hTI, hm3]
  · intro s hs
    rcases List.mem_cons.1 hs with rfl | hs
    · exact h1.sentinels
    · exact ht1 s hs
  · intro s hs
    rcases List.mem_cons.1 hs with rfl | hs
    · exact h3.sentinels
    · exact ht3 s hs

end SentinelInsert

end RBTree


namespace RBTree

/-! ## The heaps written by the loop of `RBDeleteFixUp`, one iteration at a time -/

section DeleteHeapsSteps

variable {tree : rb_red_blk_tree} {m : Mem}

theorem delHeaps_exit {root x : Nat} (n : Nat) (h : (m x).red = true ∨ root = x) :
    RBDeleteFixUp.loop.heaps tree root (n + 1) m x = [] := by
  rcases h with h | h <;> simp [RBDeleteFixUp.loop.heaps, h]

theorem delHeaps_done {root x : Nat} (n : Nat) (h : (m x).red = true ∨ root = x) :
    RBDeleteFixUp.loop.heaps tree root n m x = [] := by
  cases n with
  | zero => rfl
  | succ n => exact delHeaps_exit n h

theorem delHeaps_L {root x p w : Nat} (n : Nat) (hx : (m x).red = false) (hr : root ≠ x)
    (hp : (m x).parent = p) (hl : (m p).left = x) (hw : (m p).right = w)
    (hwr : (m w).red = false) :
    RBDeleteFixUp.loop.heaps tree root (n + 1) m x =
      RBDeleteFixUp.restL.heaps tree root n m x w := by
  simp [RBDeleteFixUp.loop.heaps, RBDeleteFixUp.restL.heaps, hx, hr, hp, hl, hw, hwr]

theorem delHeaps_L1 {root x p w : Nat} (n : Nat) (hx : (m x).red = false) (hr : root ≠ x)
    (hp : (m x).parent = p) (hl : (m p).left = x) (hw : (m p).right = w)
    (hwr : (m w).red = true)
    {w1 : Nat} (hp1 : (LeftRotate tree (setRed (setRed m w false) p true) p x).parent = p)
    (hw1 : (LeftRotate tree (setRed (setRed m w false) p true) p p).right = w1) :
    RBDeleteFixUp.loop.heaps tree root (n + 1) m x =
      setRed m w false :: setRed (setRed m w false) p true ::
        LeftRotate tree (setRed (setRed m w false) p true) p ::
        RBDeleteFixUp.restL.heaps tree root n
          (LeftRotate tree (setRed (setRed m w false) p true) p) x w1 := by
  simp only [RBDeleteFixUp.loop.heaps, RBDeleteFixUp.restL.heaps, hx, hr, hp, hl, hw, hwr, hp1,
    hw1, setRed_parent, Bool.not_false, ne_eq, not_false_eq_true, and_self, if_true,
    List.cons_append, List.nil_append]
  split_ifs <;> rfl

theorem delHeapsRestL_2 {root x w : Nat} (n : Nat) (h1 : (m (m w).right).red = false)
    (h2 : (m (m w).left).red = false) :
    RBDeleteFixUp.restL.heaps tree root n m x w =
      setRed m w true ::
        RBDeleteFixUp.loop.heaps tree root n (setRed m w true) (m x).parent := by
  simp [RBDeleteFixUp.restL.heaps, h1, h2]

theorem delHeapsRestL_4 {root x w p wr : Nat} (n : Nat) (h1 : (m wr).red = true)
    (hp : (m x).parent = p) (hwr : (m w).right = wr) :
    RBDeleteFixUp.restL.heaps tree root n m x w =
      setRed m w (m p).red :: setRed (setRed m w (m p).red) p false ::
        setRed (setRed (setRed m w (m p).red) p false) wr false ::
        LeftRotate tree (setRed (setRed (setRed m w (m p).red) p false) wr false) p ::
        RBDeleteFixUp.loop.heaps tree root n
          (LeftRotate tree (setRed (setRed (setRed m w (m p).red) p false) wr false) p)
          root := by
  simp [RBDeleteFixUp.restL.heaps, h1, hp, hwr]

theorem delHeapsRestL_3 {root x w wl wr : Nat} (n : Nat) (hwr : (m w).right = wr)
    (hwl : (m w).left = wl) (h1 : (m wr).red = false) (h2 : (m wl).red = true)
    {p1 w1 wr1 : Nat}
    (hp1 : (RightRotate tree (setRed (setRed m wl false) w true) w x).parent = p1)
    (hw1 : (RightRotate tree (setRed (setRed m wl false) w true) w p1).right = w1)
    (hwr1 : (RightRotate tree (setRed (setRed m wl false) w true) w w1).right = wr1) :
    RBDeleteFixUp.restL.heaps tree root n m x w =
      setRed m wl false :: setRed (setRed m wl false) w true ::
        RightRotate tree (setRed (setRed m wl false) w true) w ::
        setRed (RightRotate tree (setRed (setRed m wl false) w true) w) w1
          ((RightRotate tree (setRed (setRed m wl false) w true) w) p1).red ::
        setRed (setRed (RightRotate tree (setRed (setRed m wl false) w true) w) w1
          ((RightRotate tree (setRed (setRed m wl false) w true) w) p1).red) p1 false ::
        setRed (setRed (setRed (RightRotate tree (setRed (setRed m wl false) w true) w) w1
          ((RightRotate tree (setRed (setRed m wl false) w true) w) p1).red) p1 false)
          wr1 false ::
        LeftRotate tree (setRed (setRed (setRed
          (RightRotate tree (setRed (setRed m wl false) w true) w) w1
          ((RightRotate tree (setRed (setRed m wl false) w true) w) p1).red) p1 false)
          wr1 false) p1 ::
        RBDeleteFixUp.loop.heaps tree root n
          (LeftRotate tree (setRed (setRed (setRed
            (RightRotate tree (setRed (setRed m wl false) w true) w) w1
            ((RightRotate tree (setRed (setRed m wl false) w true) w) p1).red) p1 false)
            wr1 false) p1) root := by
  simp [RBDeleteFixUp.restL.heaps, h1, h2, hwr, hwl, hp1, hw1, hwr1]

theorem delHeaps_R {root x p w : Nat} (n : Nat) (hx : (m x).red = false) (hr : root ≠ x)
    (hp : (m x).parent = p) (hl : (m p).left = w) (hxw : x ≠ w)
    (hwr : (m w).red = false) :
    RBDeleteFixUp.loop.heaps tree root (n + 1) m x =
      RBDeleteFixUp.restR.heaps tree root n m x w := by
  simp [RBDeleteFixUp.loop.heaps, RBDeleteFixUp.restR.heaps, hx, hr, hp, hl, hxw, hwr]

theorem delHeaps_R1 {root x p w : Nat} (n : Nat) (hx : (m x).red = false) (hr : root ≠ x)
    (hp : (m x).parent = p) (hl : (m p).left = w) (hxw : x ≠ w)
    (hwr : (m w).red = true)
    {w1 : Nat} (hp1 : (RightRotate tree (setRed (setRed m w false) p true) p x).parent = p)
    (hw1 : (RightRotate tree (setRed (setRed m w false) p true) p p).left = w1) :
    RBDeleteFixUp.loop.heaps tree root (n + 1) m x =
      setRed m w false :: setRed (setRed m w false) p true ::
        RightRotate tree (setRed (setRed m w false) p true) p ::
        RBDeleteFixUp.restR.heaps tree root n
          (RightRotate tree (setRed (setRed m w false) p true) p) x w1 := by
  simp only [RBDeleteFixUp.loop.heaps, RBDeleteFixUp.restR.heaps, hx, hr, hp, hl, hxw, hwr, hp1,
    hw1, setRed_parent, Bool.not_false, ne_eq, not_false_eq_true, and_self, if_true, if_false,
    List.cons_append, List.nil_append]
  split_ifs <;> rfl

theorem delHeapsRestR_2 {root x w : Nat} (n : Nat) (h1 : (m (m w).right).red = false)
    (h2 : (m (m w).left).red = false) :
    RBDeleteFixUp.restR.heaps tree root n m x w =
      setRed m w true ::
        RBDeleteFixUp.loop.heaps tree root n (setRed m w true) (m x).parent := by
  simp [RBDeleteFixUp.restR.heaps, h1, h2]

theorem delHeapsRestR_4 {root x w p wl : Nat} (n : Nat) (h1 : (m wl).red = true)
    (hp : (m x).parent = p) (hwl : (m w).left = wl) :
    RBDeleteFixUp.restR.heaps tree root n m x w =
      setRed m w (m p).red :: setRed (setRed m w (m p).red) p false ::
        setRed (setRed (setRed m w (m p).red) p false) wl false ::
        RightRotate tree (setRed (setRed (setRed m w (m p).red) p false) wl false) p ::
        RBDeleteFixUp.loop.heaps tree root n
          (RightRotate tree (setRed (setRed (setRed m w (m p).red) p false) wl false) p)
          root := by
  simp [RBDeleteFixUp.restR.heaps, h1, hp, hwl]

theorem delHeapsRestR_3 {root x w wl wr : Nat} (n : Nat) (hwr : (m w).right = wr)
    (hwl : (m w).left = wl) (h1 : (m wl).red = false) (h2 : (m wr).red = true)
    {p1 w1 wl1 : Nat}
    (hp1 : (LeftRotate tree (setRed (setRed m wr false) w true) w x).parent = p1)
    (hw1 : (LeftRotate tree (setRed (setRed m wr false) w true) w p1).left = w1)
    (hwl1 : (LeftRotate tree (setRed (setRed m wr false) w true) w w1).left = wl1) :
    RBDeleteFixUp.restR.heaps tree root n m x w =
      setRed m wr false :: setRed (setRed m wr false) w true ::
        LeftRotate tree (setRed (setRed m wr false) w true) w ::
        setRed (LeftRotate tree (setRed (setRed m wr false) w true) w) w1
          ((LeftRotate tree (setRed (setRed m wr false) w true) w) p1).red ::
        setRed (setRed (LeftRotate tree (setRed (setRed m wr false) w true) w) w1
          ((LeftRotate tree (setRed (setRed m wr false) w true) w) p1).red) p1 false ::
        setRed (setRed (setRed (LeftRotate tree (setRed (setRed m wr false) w true) w) w1
          ((LeftRotate tree (setRed (setRed m wr false) w true) w) p1).red) p1 false)
          wl1 false ::
        RightRotate tree (setRed (setRed (setRed
          (LeftRotate tree (setRed (setRed m wr false) w true) w) w1
          ((LeftRotate tree (setRed (setRed m wr false) w true) w) p1).red) p1 false)
          wl1 false) p1 ::
        RBDeleteFixUp.loop.heaps tree root n
          (RightRotate tree (setRed (setRed (setRed
            (LeftRotate tree (setRed (setRed m wr false) w true) w) w1
            ((LeftRotate tree (setRed (setRed m wr false) w true) w) p1).red) p1 false)
            wl1 false) p1) root := by
  simp [RBDeleteFixUp.restR.heaps, h1, h2, hwr, hwl, hp1, hw1, hwl1]

/-- The last heap written by the loop of `RBDeleteFixUp` is its result. -/
theorem delLoop_last (root : Nat) (fuel : Nat) (m : Mem) (x : Nat) {r : Mem × Nat}
    (h : RBDeleteFixUp.loop tree root fuel m x = some r) :
    (m :: RBDeleteFixUp.loop.heaps tree root fuel m x).getLast? = some r.1 := by
  induction fuel generalizing m x with
  | zero => simp [RBDeleteFixUp.loop] at h
  | succ n ih =>
    unfold RBDeleteFixUp.loop at h
    unfold RBDeleteFixUp.loop.heaps
    by_cases h0 : (!(m x).red) = true ∧ root ≠ x
    · rw [if_pos h0] at h ⊢
      by_cases h1 : x = (m (m x).parent).left
      · rw [if_pos h1] at h ⊢
        by_cases h2 : (m (m (m x).parent).right).red = true
        · simp only [h2, if_true] at h ⊢
          split_ifs at h ⊢
          all_goals
            simp only [List.cons_append, List.nil_append, List.getLast?_cons_cons]
            exact ih _ _ h
        · simp only [h2, if_false] at h ⊢
          split_ifs at h ⊢
          all_goals
            simp only [List.cons_append, List.nil_append, List.getLast?_cons_cons]
            exact ih _ _ h
      · rw [if_neg h1] at h ⊢
        by_cases h2 : (m (m (m x).parent).left).red = true
        · simp only [h2, if_true] at h ⊢
          split_ifs at h ⊢
          all_goals
            simp only [List.cons_append, List.nil_append, List.getLast?_cons_cons]
            exact ih _ _ h
        · simp only [h2, if_false] at h ⊢
          split_ifs at h ⊢
          all_goals
            simp only [List.cons_append, List.nil_append, List.getLast?_cons_cons]
            exact ih _ _ h
    · rw [if_neg h0] at h ⊢
      simp only [Option.some.injEq] at h
      simp [← h]
end DeleteHeapsSteps

end RBTree


namespace RBTree

/-! ## Cases 2 to 4 of `RBDeleteFixUp` leave the sentinels alone -/

section SentinelDeleteCases

variable {tree : rb_red_blk_tree} {m : Mem}

/-- The four heaps written by case 4 for a left child. -/
theorem RepZ.case4L_sentinels {rest : Path} {t wl wr : Tree} {p wa : Nat} {dp wd : Data}
    (hw : RepZ tree m (.R t p dp :: rest) (.node wl wa wd wr)) :
    ∀ q ∈ [setRed m wa dp.red, setRed (setRed m wa dp.red) p false,
        setRed (setRed (setRed m wa dp.red) p false) (wr.addr tree.nil) false,
        LeftRotate tree
          (setRed (setRed (setRed m wa dp.red) p false) (wr.addr tree.nil) false) p],
      SentinelsIntact tree q := by
  have h1 := (hw.recolor dp.red).up
  simp only [Frame.plug] at h1
  have h2 := h1.recolor false
  have h3 := RepZ.blacken (RepZ.down (f := .R wl wa (wd.setRed dp.red))
    (RepZ.down (f := .R t p (dp.setRed false)) h2))
  have h4 := h3.up.up
  simp only [Frame.plug] at h4
  have h5 := h4.rotL
  intro q hq
  simp only [List.mem_cons, List.mem_nil_iff, or_false] at hq
  rcases hq with rfl | rfl | rfl | rfl
  · exact h1.sentinels
  · exact h2.sentinels
  · exact h3.sentinels
  · exact h5.sentinels

/-- The four heaps written by case 4 for a right child. -/
theorem RepZ.case4R_sentinels {rest : Path} {t wl wr : Tree} {p wa : Nat} {dp wd : Data}
    (hw : RepZ tree m (.L p dp t :: rest) (.node wl wa wd wr)) :
    ∀ q ∈ [setRed m wa dp.red, setRed (setRed m wa dp.red) p false,
        setRed (setRed (setRed m wa dp.red) p false) (wl.addr tree.nil) false,
        RightRotate tree
          (setRed (setRed (setRed m wa dp.red) p false) (wl.addr tree.nil) false) p],
      SentinelsIntact tree q := by
  have h1 := (hw.recolor dp.red).up
  simp only [Frame.plug] at h1
  have h2 := h1.recolor false
  have h3 := RepZ.blacken (RepZ.down (f := .L wa (wd.setRed dp.red) wr)
    (RepZ.down (f := .L p (dp.setRed false) t) h2))
  have h4 := h3.up.up
  simp only [Frame.plug] at h4
  have h5 := h4.rotR
  intro q hq
  simp only [List.mem_cons, List.mem_nil_iff, or_false] at hq
  rcases hq with rfl | rfl | rfl | rfl
  · exact h1.sentinels
  · exact h2.sentinels
  · exact h3.sentinels
  · exact h5.sentinels

/-- Cases 2 to 4 of one iteration, `x` a left child: the heaps written have their
sentinels intact, and the loop goes on from a heap that holds a tree. -/
theorem delRestL_heaps {rest : Path} {t ws : Tree} {p : Nat} {dp : Data}
    (h : RepZ tree m (.L p dp ws :: rest) t) (hxp : (m (t.addr tree.nil)).parent = p)
    {b : Bool} {s : Tree} (hc : delCaseL tree.DistFunc t p dp ws = some (b, s))
    (r0 n : Nat) :
    ∃ m' log, RepZ tree m' rest s ∧ (∀ q ∈ log, SentinelsIntact tree q) ∧
      (b = true →
        RBDeleteFixUp.restL.heaps tree r0 n m (t.addr tree.nil) (ws.addr tree.nil) =
          log ++ RBDeleteFixUp.loop.heaps tree r0 n m' p ∧ ∃ ws', s = .node t p dp ws') ∧
      (b = false →
        RBDeleteFixUp.restL.heaps tree r0 n m (t.addr tree.nil) (ws.addr tree.nil) =
          log ++ RBDeleteFixUp.loop.heaps tree r0 n m' r0 ∧ (m' p).red = false) := by
  cases ws with
  | leaf => simp [delCaseL] at hc
  | node wl wa wd wr =>
    have hw : RepZ tree m (.R t p dp :: rest) (.node wl wa wd wr) :=
      RepZ.down (f := .R t p dp) h.up
    have hcw := hw.cell
    have hwr : (m wa).right = wr.addr tree.nil := by rw [hcw]; rfl
    have hwl : (m wa).left = wl.addr tree.nil := by rw [hcw]; rfl
    have hrr := (hw.sub.2.2).red_eq hw.nilc
    have hlr := (hw.sub.2.1).red_eq hw.nilc
    have hpr : (m p).red = dp.red := h.frame_cell.1
    simp only [Tree.addr_node]
    by_cases h2 : wr.isRed = false ∧ wl.isRed = false
    · -- case 2
      simp only [delCaseL, h2, and_self, if_true, Option.some.injEq, Prod.mk.injEq] at hc
      obtain ⟨rfl, rfl⟩ := hc
      refine ⟨_, [setRed m wa true], (hw.recolor true).up, ?_, fun _ => ⟨?_, _, rfl⟩,
        fun hb => by simp at hb⟩
      · intro q hq
        rw [List.mem_singleton] at hq
        subst hq
        exact (hw.recolor true).sentinels
      · rw [delHeapsRestL_2 n (by rw [hwr, hrr]; exact h2.1) (by rw [hwl, hlr]; exact h2.2), hxp]
        rfl
    · by_cases h3 : wr.isRed = false
      · -- case 3, then case 4
        have hwlr : wl.isRed = true := by
          by_contra hcon
          exact h2 ⟨h3, by simpa using hcon⟩
        cases wl with
        | leaf => simp at hwlr
        | node wll wla wld wlr =>
          simp only [Tree.isRed_node] at hwlr
          simp only [delCaseL, h3, hwlr, Tree.isRed_node, Bool.true_eq_false, and_false, if_true,
            if_false, Tree.setRed, Tree.rotR, Tree.updSum, Option.some.injEq,
            Prod.mk.injEq] at hc
          obtain ⟨rfl, rfl⟩ := hc
          have hA := ((RepZ.down (f := .L wa wd wr) hw).recolor false).up
          simp only [Frame.plug] at hA
          have hB := hA.recolor true
          have hC0 := hB.rotR
          have hC := hC0
          have hCn := hB.rotR_nil
          simp only [Tree.rotR, Tree.updSum] at hC
          have hnwa : tree.nil ≠ wa := (hw.sub_ne (by simp)).1
          have hnwla : tree.nil ≠ wla := (hw.sub_ne (by simp)).1
          have hp1 : (RightRotate tree (setRed (setRed m wla false) wa true) wa
              (t.addr tree.nil)).parent = p := by
            cases t with
            | leaf =>
              rw [Tree.addr_leaf, hCn]
              simp only [setRed, upd_ne _ _ _ _ hnwa, upd_ne _ _ _ _ hnwla]
              exact hxp
            | node tl ta td tr =>
              rw [Tree.addr_node, (RepZ.down (f := .L _ _ _) hC.up).cell]; rfl
          have hw1 : (RightRotate tree (setRed (setRed m wla false) wa true) wa p).right =
              wla := by
            rw [hC.up.cell]; rfl
          have hwr1 : (RightRotate tree (setRed (setRed m wla false) wa true) wa wla).right =
              wa := by
            rw [hC.cell]; rfl
          have hp1r : (RightRotate tree (setRed (setRed m wla false) wa true) wa p).red =
              dp.red := by
            rw [hC.up.cell]; rfl
          obtain ⟨h4, h4r, _⟩ := hC.case4L
          have h4s := hC.case4L_sentinels
          simp only [Tree.addr_node, Tree.setRed] at h4 h4r h4s
          have hwl' : (m wa).left = wla := hwl
          have hlr' : (m wla).red = true := hlr.trans hwlr
          refine ⟨_, setRed m wla false :: setRed (setRed m wla false) wa true ::
              RightRotate tree (setRed (setRed m wla false) wa true) wa ::
              [setRed (RightRotate tree (setRed (setRed m wla false) wa true) wa) wla dp.red,
                setRed (setRed (RightRotate tree (setRed (setRed m wla false) wa true) wa) wla
                  dp.red) p false,
                setRed (setRed (setRed (RightRotate tree (setRed (setRed m wla false) wa true)
                  wa) wla dp.red) p false) wa false,
                LeftRotate tree (setRed (setRed (setRed (RightRotate tree
                  (setRed (setRed m wla false) wa true) wa) wla dp.red) p false) wa false) p],
            h4, ?_, fun hb => by simp at hb, fun _ => ⟨?_, h4r⟩⟩
          · intro q hq
            rcases List.mem_cons.1 hq with rfl | hq
            · exact hA.sentinels
            rcases List.mem_cons.1 hq with rfl | hq
            · exact hB.sentinels
            rcases List.mem_cons.1 hq with rfl | hq
            · exact hC0.sentinels
            exact h4s q hq
          · rw [delHeapsRestL_3 n hwr hwl' (by rw [hrr]; exact h3) hlr' hp1 hw1 hwr1, hp1r]
            rfl
      · -- case 4
        simp only [delCaseL, h2, h3, if_false, Option.some.injEq, Prod.mk.injEq] at hc
        obtain ⟨rfl, rfl⟩ := hc
        obtain ⟨h4, h4r, _⟩ := hw.case4L
        refine ⟨_, _, h4, hw.case4L_sentinels, fun hb => by simp at hb, fun _ => ⟨?_, h4r⟩⟩
        rw [delHeapsRestL_4 n (by rw [hrr]; simpa using h3) hxp hwr, hpr]
        rfl

/-- Cases 2 to 4 of one iteration, `x` a right child: the heaps written have their
sentinels intact, and the loop goes on from a heap that holds a tree. -/
theorem delRestR_heaps {rest : Path} {t ws : Tree} {p : Nat} {dp : Data}
    (h : RepZ tree m (.R ws p dp :: rest) t) (hxp : (m (t.addr tree.nil)).parent = p)
    {b : Bool} {s : Tree} (hc : delCaseR tree.DistFunc t p dp ws = some (b, s))
    (r0 n : Nat) :
    ∃ m' log, RepZ tree m' rest s ∧ (∀ q ∈ log, SentinelsIntact tree q) ∧
      (b = true →
        RBDeleteFixUp.restR.heaps tree r0 n m (t.addr tree.nil) (ws.addr tree.nil) =
          log ++ RBDeleteFixUp.loop.heaps tree r0 n m' p ∧ ∃ ws', s = .node ws' p dp t) ∧
      (b = false →
        RBDeleteFixUp.restR.heaps tree r0 n m (t.addr tree.nil) (ws.addr tree.nil) =
          log ++ RBDeleteFixUp.loop.heaps tree r0 n m' r0 ∧ (m' p).red = false) := by
  cases ws with
  | leaf => simp [delCaseR] at hc
  | node wl wa wd wr =>
    have hw : RepZ tree m (.L p dp t :: rest) (.node wl wa wd wr) :=
      RepZ.down (f := .L p dp t) h.up
    have hcw := hw.cell
    have hwr : (m wa).right = wr.addr tree.nil := by rw [hcw]; rfl
    have hwl : (m wa).left = wl.addr tree.nil := by rw [hcw]; rfl
    have hrr := (hw.sub.2.2).red_eq hw.nilc
    have hlr := (hw.sub.2.1).red_eq hw.nilc
    have hpr : (m p).red = dp.red := h.frame_cell.1
    simp only [Tree.addr_node]
    by_cases h2 : wr.isRed = false ∧ wl.isRed = false
    · -- case 2
      simp only [delCaseR, h2, and_self, if_true, Option.some.injEq, Prod.mk.injEq] at hc
      obtain ⟨rfl, rfl⟩ := hc
      refine ⟨_, [setRed m wa true], (hw.recolor true).up, ?_, fun _ => ⟨?_, _, rfl⟩,
        fun hb => by simp at hb⟩
      · intro q hq
        rw [List.mem_singleton] at hq
        subst hq
        exact (hw.recolor true).sentinels
      · rw [delHeapsRestR_2 n (by rw [hwr, hrr]; exact h2.1) (by rw [hwl, hlr]; exact h2.2), hxp]
        rfl
    · by_cases h3 : wl.isRed = false
      · -- case 3, then case 4
        have hwrr : wr.isRed = true := by
          by_contra hcon
          exact h2 ⟨by simpa using hcon, h3⟩
        cases wr with
        | leaf => simp at hwrr
        | node wrl wra wrd wrr =>
          simp only [Tree.isRed_node] at hwrr
          simp only [delCaseR, h3, hwrr, Tree.isRed_node, Bool.true_eq_false, false_and, if_true,
            if_false, Tree.setRed, Tree.rotL, Tree.updSum, Option.some.injEq,
            Prod.mk.injEq] at hc
          obtain ⟨rfl, rfl⟩ := hc
          have hA := ((RepZ.down (f := .R wl wa wd) hw).recolor false).up
          simp only [Frame.plug] at hA
          have hB := hA.recolor true
          have hC0 := hB.rotL
          have hC := hC0
          have hCn := hB.rotL_nil
          simp only [Tree.rotL, Tree.updSum] at hC
          have hnwa : tree.nil ≠ wa := (hw.sub_ne (by simp)).1
          have hnwra : tree.nil ≠ wra := (hw.sub_ne (by simp)).1
          have hp1 : (LeftRotate tree (setRed (setRed m wra false) wa true) wa
              (t.addr tree.nil)).parent = p := by
            cases t with
            | leaf =>
              rw [Tree.addr_leaf, hCn]
              simp only [setRed, upd_ne _ _ _ _ hnwa, upd_ne _ _ _ _ hnwra]
              exact hxp
            | node tl ta td tr =>
              rw [Tree.addr_node, (RepZ.down (f := .R _ _ _) hC.up).cell]; rfl
          have hw1 : (LeftRotate tree (setRed (setRed m wra false) wa true) wa p).left =
              wra := by
            rw [hC.up.cell]; rfl
          have hwl1 : (LeftRotate tree (setRed (setRed m wra false) wa true) wa wra).left =
              wa := by
            rw [hC.cell]; rfl
          have hp1r : (LeftRotate tree (setRed (setRed m wra false) wa true) wa p).red =
              dp.red := by
            rw [hC.up.cell]; rfl
          obtain ⟨h4, h4r, _⟩ := hC.case4R
          have h4s := hC.case4R_sentinels
          simp only [Tree.addr_node, Tree.setRed] at h4 h4r h4s
          have hwr' : (m wa).right = wra := hwr
          have hrr' : (m wra).red = true := hrr.trans hwrr
          refine ⟨_, setRed m wra false :: setRed (setRed m wra false) wa true ::
              LeftRotate tree (setRed (setRed m wra false) wa true) wa ::
              [setRed (LeftRotate tree (setRed (setRed m wra false) wa true) wa) wra dp.red,
                setRed (setRed (LeftRotate tree (setRed (setRed m wra false) wa true) wa) wra
                  dp.red) p false,
                setRed (setRed (setRed (LeftRotate tree (setRed (setRed m wra false) wa true)
                  wa) wra dp.red) p false) wa false,
                RightRotate tree (setRed (setRed (setRed (LeftRotate tree
                  (setRed (setRed m wra false) wa true) wa) wra dp.red) p false) wa false) p],
            h4, ?_, fun hb => by simp at hb, fun _ => ⟨?_, h4r⟩⟩
          · intro q hq
            rcases List.mem_cons.1 hq with rfl | hq
            · exact hA.sentinels
            rcases List.mem_cons.1 hq with rfl | hq
            · exact hB.sentinels
            rcases List.mem_cons.1 hq with rfl | hq
            · exact hC0.sentinels
            exact h4s q hq
          · rw [delHeapsRestR_3 n hwr' hwl (by rw [hlr]; exact h3) hrr' hp1 hw1 hwl1, hp1r]
            rfl
      · -- case 4
        simp only [delCaseR, h3, Bool.true_eq_false, and_false, false_and, if_false,
          Option.some.injEq, Prod.mk.injEq] at hc
        obtain ⟨rfl, rfl⟩ := hc
        obtain ⟨h4, h4r, _⟩ := hw.case4R
        refine ⟨_, _, h4, hw.case4R_sentinels, fun hb => by simp at hb, fun _ => ⟨?_, h4r⟩⟩
        rw [delHeapsRestR_4 n (by rw [hlr]; simpa using h3) hxp hwl, hpr]
        rfl

end SentinelDeleteCases

end RBTree


namespace RBTree

/-! ## `RBDeleteFixUp` leaves the sentinels alone -/

section SentinelDeleteLoop

variable {tree : rb_red_blk_tree} {m : Mem}

/-- Every heap written by the loop of `RBDeleteFixUp` has its sentinels intact. -/
theorem delLoop_heaps (fuel : Nat) (path : Path) (t : Tree) (m : Mem) (h : RepZ tree m path t)
    (hxp : (m (t.addr tree.nil)).parent = Path.addr tree.root path)
    (htop : Path.topBlack path) (T' : Tree) (hfix : delFix tree.DistFunc path t = some T') :
    ∀ s ∈ RBDeleteFixUp.loop.heaps tree ((fill path t).addr tree.nil) fuel m (t.addr tree.nil),
      SentinelsIntact tree s := by
  induction fuel generalizing path t m T' with
  | zero => intro s hs; simp [RBDeleteFixUp.loop.heaps] at hs
  | succ n ih =>
  have hxr := h.sub.red_eq h.nilc
  rcases path with _ | ⟨f, rest⟩
  · rw [fill_nil, delHeaps_exit n (Or.inr rfl)]
    simp
  · by_cases hred : t.isRed = true
    · rw [delHeaps_exit n (Or.inl (hxr.trans hred))]
      simp
    · have hred' : t.isRed = false := by simpa using hred
      have hxb : (m (t.addr tree.nil)).red = false := hxr.trans hred'
      have hr0 := h.top_ne_focus
      simp only [Path.addr_cons] at hxp
      have htop' : Path.topBlack rest := Path.topBlack_tail htop
      cases f with
      | L p dp ws =>
        simp only [Frame.a_L] at hxp
        have hfl := h.frame_L
        have hwsr := (h.up.sub.2.2).red_eq h.nilc
        cases ws with
        | leaf => simp [delFix, hred'] at hfix
        | node wl wa wd wr =>
          simp only [Tree.addr_node, Tree.isRed_node] at hfl hwsr
          by_cases hwd : wd.red = true
          · -- case 1 first
            simp only [delFix, hred', hwd, Bool.false_eq_true, if_false, if_true] at hfix
            have hA := (RepZ.down (f := .R t p dp) h.up).recolor false
            have hB := hA.up.recolor true
            have hC0 := hB.rotL
            have hC := hC0
            have hCn := hB.rotL_nil
            simp only [Frame.plug, Tree.rotL, Tree.updSum, Tree.ch_node, Data.recolor_key,
              Data.setCh_children] at hC
            have h1 := RepZ.down (f := .L _ _ _) (RepZ.down (f := .L _ _ _) hC)
            have hnwa : tree.nil ≠ wa := (h.up.sub_ne (by simp [Frame.plug])).1
            have hnp : tree.nil ≠ p := (h.up.sub_ne (by simp [Frame.plug])).1
            have hp1 : (LeftRotate tree (setRed (setRed m wa false) p true) p
                (t.addr tree.nil)).parent = p := by
              cases t with
              | leaf =>
                rw [Tree.addr_leaf, hCn]
                simp only [setRed, upd_ne _ _ _ _ hnwa, upd_ne _ _ _ _ hnp]
                exact hxp
              | node tl ta td tr => rw [Tree.addr_node, h1.cell]; rfl
            have hw1 := h1.frame_L.2
            rw [delHeaps_L1 n hxb hr0 hxp hfl.1 hfl.2 (hwsr.trans hwd) hp1 hw1]
            simp only [Data.recolor_key, Data.setCh_children] at hfix
            cases hc : delCaseL tree.DistFunc t p
                ((dp.setRed true).setCh (t.ch + wl.ch + tree.DistFunc dp.key)) wl with
            | none => simp [hc] at hfix
            | some bs =>
              obtain ⟨b, s⟩ := bs
              obtain ⟨m', log, hm', hlog, hbt, hbf⟩ := delRestL_heaps h1 hp1 hc
                ((fill (Frame.L p dp (.node wl wa wd wr) :: rest) t).addr tree.nil) n
              intro q hq
              rcases List.mem_cons.1 hq with rfl | hq
              · exact hA.sentinels
              rcases List.mem_cons.1 hq with rfl | hq
              · exact hB.sentinels
              rcases List.mem_cons.1 hq with rfl | hq
              · exact hC0.sentinels
              cases b with
              | true =>
                obtain ⟨e1, ws', rfl⟩ := hbt rfl
                rw [e1, delHeaps_done n (Or.inl (by rw [hm'.cell]; rfl)),
                  List.append_nil] at hq
                exact hlog q hq
              | false =>
                obtain ⟨e1, -⟩ := hbf rfl
                rw [e1, delHeaps_done n (Or.inr rfl), List.append_nil] at hq
                exact hlog q hq
          · -- no case 1
            have hwd' : wd.red = false := by simpa using hwd
            simp only [delFix, hred', hwd', Bool.false_eq_true, if_false] at hfix
            rw [delHeaps_L n hxb hr0 hxp hfl.1 hfl.2 (hwsr.trans hwd')]
            cases hc : delCaseL tree.DistFunc t p dp (.node wl wa wd wr) with
            | none => simp [hc] at hfix
            | some bs =>
              obtain ⟨b, s⟩ := bs
              obtain ⟨m', log, hm', hlog, hbt, hbf⟩ := delRestL_heaps h hxp hc
                ((fill (Frame.L p dp (.node wl wa wd wr) :: rest) t).addr tree.nil) n
              intro q hq
              cases b with
              | true =>
                obtain ⟨e1, ws', rfl⟩ := hbt rfl
                simp only [Tree.addr_node] at e1
                simp only [hc] at hfix
                rw [e1] at hq
                rcases List.mem_append.1 hq with hq | hq
                · exact hlog q hq
                have hxp' : (m' ((Tree.node t p dp ws').addr tree.nil)).parent =
                    Path.addr tree.root rest := by
                  rw [Tree.addr_node, hm'.cell]; rfl
                have := ih rest _ m' hm' hxp' htop' _ hfix
                rw [@fill_addr_congr tree.nil rest (.node t p dp ws')
                  ((Frame.L p dp (.node wl wa wd wr)).plug t) rfl] at this
                exact this q hq
              | false =>
                obtain ⟨e1, -⟩ := hbf rfl
                simp only [Tree.addr_node] at e1
                rw [e1, delHeaps_done n (Or.inr rfl), List.append_nil] at hq
                exact hlog q hq
      | R ws p dp =>
        simp only [Frame.a_R] at hxp
        have hfl := h.frame_R
        have hwsr := (h.up.sub.2.1).red_eq h.nilc
        cases ws with
        | leaf => simp [delFix, hred'] at hfix
        | node wl wa wd wr =>
          simp only [Tree.addr_node, Tree.isRed_node] at hfl hwsr
          have hxw : t.addr tree.nil ≠ wa := by
            have hwa : wa ∈ (Tree.node (.node wl wa wd wr) p dp t).addrs := by simp
            have hn := h.up.nodup'.2.2.1
            simp only [Frame.plug, addrs_node, List.nodup_append, List.nodup_cons,
              List.mem_append, List.mem_cons, not_or, List.disjoint_left] at hn
            refine Tree.addr_ne (h.up.sub_ne hwa).1 fun e => ?_
            have := (hn.2.2 (Or.inr (Or.inl rfl))).2
            exact this e
          by_cases hwd : wd.red = true
          · -- case 1 first
            simp only [delFix, hred', hwd, Bool.false_eq_true, if_false, if_true] at hfix
            have hA := (RepZ.down (f := .L p dp t) h.up).recolor false
            have hB := hA.up.recolor true
            have hC0 := hB.rotR
            have hC := hC0
            have hCn := hB.rotR_nil
            simp only [Frame.plug, Tree.rotR, Tree.updSum, Tree.ch_node, Data.recolor_key,
              Data.setCh_children] at hC
            have h1 := RepZ.down (f := .R _ _ _) (RepZ.down (f := .R _ _ _) hC)
            have hnwa : tree.nil ≠ wa := (h.up.sub_ne (by simp [Frame.plug])).1
            have hnp : tree.nil ≠ p := (h.up.sub_ne (by simp [Frame.plug])).1
            have hp1 : (RightRotate tree (setRed (setRed m wa false) p true) p
                (t.addr tree.nil)).parent = p := by
              cases t with
              | leaf =>
                rw [Tree.addr_leaf, hCn]
                simp only [setRed, upd_ne _ _ _ _ hnwa, upd_ne _ _ _ _ hnp]
                exact hxp
              | node tl ta td tr => rw [Tree.addr_node, h1.cell]; rfl
            have hw1 := h1.frame_R.1
            rw [delHeaps_R1 n hxb hr0 hxp hfl.1 hxw (hwsr.trans hwd) hp1 hw1]
            simp only [Data.recolor_key, Data.setCh_children] at hfix
            cases hc : delCaseR tree.DistFunc t p
                ((dp.setRed true).setCh (wr.ch + t.ch + tree.DistFunc dp.key)) wr with
            | none => simp [hc] at hfix
            | some bs =>
              obtain ⟨b, s⟩ := bs
              obtain ⟨m', log, hm', hlog, hbt, hbf⟩ := delRestR_heaps h1 hp1 hc
                ((fill (Frame.R (.node wl wa wd wr) p dp :: rest) t).addr tree.nil) n
              intro q hq
              rcases List.mem_cons.1 hq with rfl | hq
              · exact hA.sentinels
              rcases List.mem_cons.1 hq with rfl | hq
              · exact hB.sentinels
              rcases List.mem_cons.1 hq with rfl | hq
              · exact hC0.sentinels
              cases b with
              | true =>
                obtain ⟨e1, ws', rfl⟩ := hbt rfl
                rw [e1, delHeaps_done n (Or.inl (by rw [hm'.cell]; rfl)),
                  List.append_nil] at hq
                exact hlog q hq
              | false =>
                obtain ⟨e1, -⟩ := hbf rfl
                rw [e1, delHeaps_done n (Or.inr rfl), List.append_nil] at hq
                exact hlog q hq
          · -- no case 1
            have hwd' : wd.red = false := by simpa using hwd
            simp only [delFix, hred', hwd', Bool.false_eq_true, if_false] at hfix
            rw [delHeaps_R n hxb hr0 hxp hfl.1 hxw (hwsr.trans hwd')]
            cases hc : delCaseR tree.DistFunc t p dp (.node wl wa wd wr) with
            | none => simp [hc] at hfix
            | some bs =>
              obtain ⟨b, s⟩ := bs
              obtain ⟨m', log, hm', hlog, hbt, hbf⟩ := delRestR_heaps h hxp hc
                ((fill (Frame.R (.node wl wa wd wr) p dp :: rest) t).addr tree.nil) n
              intro q hq
              cases b with
              | true =>
                obtain ⟨e1, ws', rfl⟩ := hbt rfl
                simp only [Tree.addr_node] at e1
                simp only [hc] at hfix
                rw [e1] at hq
                rcases List.mem_append.1 hq with hq | hq
                · exact hlog q hq
                have hxp' : (m' ((Tree.node ws' p dp t).addr tree.nil)).parent =
                    Path.addr tree.root rest := by
                  rw [Tree.addr_node, hm'.cell]; rfl
                have := ih rest _ m' hm' hxp' htop' _ hfix
                rw [@fill_addr_congr tree.nil rest (.node ws' p dp t)
                  ((Frame.R (.node wl wa wd wr) p dp).plug t) rfl] at this
                exact this q hq
              | false =>
                obtain ⟨e1, -⟩ := hbf rfl
                simp only [Tree.addr_node] at e1
                rw [e1, delHeaps_done n (Or.inr rfl), List.append_nil] at hq
                exact hlog q hq

/-- Every heap written by `RBDeleteFixUp` has its sentinels intact. -/
theorem RBDeleteFixUp_heaps {path : Path} {t : Tree} (h : RepZ tree m path t)
    (hxp : (m (t.addr tree.nil)).parent = Path.addr tree.root path)
    (htop : Path.topBlack path) {T' : Tree} (hfix : delFix tree.DistFunc path t = some T')
    (fuel : Nat) (hf : path.length + 1 < fuel) :
    ∀ s ∈ RBDeleteFixUp.heaps fuel tree m (t.addr tree.nil), SentinelsIntact tree s := by
  obtain ⟨m', x', h1, h2⟩ := delLoop_spec path t m h hxp htop T' hfix fuel hf
  have h3 := delLoop_heaps fuel path t m h hxp htop T' hfix
  intro s hs
  simp only [RBDeleteFixUp.heaps, h.rootc.2.2.1, h1, List.mem_append, List.mem_singleton] at hs
  rcases hs with hs | rfl
  · exact h3 s hs
  · exact h2.sentinels

end SentinelDeleteLoop

end RBTree


namespace RBTree

/-! ## The stages of `RBDelete` -/

section SentinelDelete

variable {tree : rb_red_blk_tree} {m : Mem}

/-- `RBDelete` is the composition of its stages: the choice of `y` and `x`, the first
weight loop, the splice, `RBDeleteFixUp` if `y` was black, and for `y ≠ z` the replacement
of `z` by `y` and the second weight loop. -/
theorem RBDelete_of_stages {fuel : Nat} {z y x : Nat} {m1 m2 m3 m4 m5 : Mem}
    (hy : RBDelete.candidate fuel tree m z = some y) (hx : x = RBDelete.child tree m y)
    (h1 : RBDelete.propagate tree (-(tree.DistFunc (m y).key)) fuel m (m y).parent = some m1)
    (h2 : m2 = RBDelete.splice tree m1 x y)
    (h3 : (if !(m2 y).red then RBDeleteFixUp fuel tree m2 x else some m2) = some m3)
    (h4 : m4 = if y ≠ z then RBDelete.replace tree m3 y z (tree.DistFunc (m y).key) else m3)
    (h5 : (if y ≠ z then
        RBDelete.propagate tree (tree.DistFunc (m y).key - tree.DistFunc (m2 z).key) fuel m4
          (m4 y).parent
      else some m4) = some m5) :
    RBDelete fuel tree m z = some m5 := by
  rw [RBDelete_eq_rest, hy]
  simp only [RBDelete.rest, ← hx, h1, ← h2]
  by_cases hyz : y = z
  · rw [if_neg (by simpa using hyz)] at h4 h5
    rw [if_neg (by simpa using hyz), h3, ← h4]
    exact h5
  · rw [if_pos hyz] at h4 h5
    rw [if_pos hyz, h3]
    simp only
    rw [← h4]
    exact h5

/-- The stages of `RBDelete` of a node with at most one child. -/
theorem RBDelete_leaf_stages {pz : Path} {zl zr : Tree} {z : Nat} {dz : Data}
    (h : RepZ tree m pz (.node zl z dz zr)) (htop : Path.topBlack pz)
    (hl : zl.isLeaf = true ∨ zr.isLeaf = true) {T' : Tree}
    (hfix : spliceFix tree.DistFunc dz.red pz (if zl.isLeaf then zr else zl)
      (tree.DistFunc dz.key) = some T')
    (fuel : Nat) (hf : pz.length + 1 < fuel) :
    ∃ y x m1 m2 m3 m4 m5,
      RBDelete.candidate fuel tree m z = some y ∧ x = RBDelete.child tree m y ∧
      RBDelete.propagate tree (-(tree.DistFunc (m y).key)) fuel m (m y).parent = some m1 ∧
      m2 = RBDelete.splice tree m1 x y ∧
      (if !(m2 y).red then RBDeleteFixUp fuel tree m2 x else some m2) = some m3 ∧
      (m4 = if y ≠ z then RBDelete.replace tree m3 y z (tree.DistFunc (m y).key) else m3) ∧
      (if y ≠ z then
          RBDelete.propagate tree (tree.DistFunc (m y).key - tree.DistFunc (m2 z).key) fuel m4
            (m4 y).parent
        else some m4) = some m5 ∧
      RBDelete fuel tree m z = some m5 ∧
      (∀ s ∈ m :: RBDelete.propagate.heaps tree (-(tree.DistFunc (m y).key)) fuel m
          (m y).parent, SentinelsIntact tree s) ∧
      SentinelsIntact tree m2 ∧
      ((!(m2 y).red) = true →
        ∀ s ∈ RBDeleteFixUp.heaps fuel tree m2 x, SentinelsIntact tree s) ∧
      SentinelsIntact tree m3 ∧
      (y ≠ z →
        ∀ s ∈ m4 :: RBDelete.propagate.heaps tree
          (tree.DistFunc (m y).key - tree.DistFunc (m2 z).key) fuel m4 (m4 y).parent,
          SentinelsIntact tree s) ∧
      SentinelsIntact tree m5 := by
  have hc := h.cell
  obtain ⟨hnr, hnn, hnt, -⟩ := h.nodup'
  have hnl : ∀ a ∈ zl.addrs, tree.nil ≠ a := fun a ha => (hnn a (Or.inr (Or.inl (by simp [ha])))).1
  have hnr' : ∀ a ∈ zr.addrs, tree.nil ≠ a := fun a ha => (hnn a (Or.inr (Or.inl (by simp [ha])))).1
  have hzl : (m z).left = zl.addr tree.nil := by rw [hc]; rfl
  have hzr : (m z).right = zr.addr tree.nil := by rw [hc]; rfl
  have hcond : (m z).left = tree.nil ∨ (m z).right = tree.nil := by
    rw [hzl, hzr, Tree.addr_eq_nil_iff hnl, Tree.addr_eq_nil_iff hnr']
    exact hl
  have hx : RBDelete.child tree m z = (if zl.isLeaf then zr else zl).addr tree.nil := by
    unfold RBDelete.child
    rw [hzl, hzr]
    by_cases e : zl.isLeaf = true
    · rw [if_pos ((Tree.addr_eq_nil_iff hnl).2 e), if_pos e]
    · rw [if_neg (fun e' => e ((Tree.addr_eq_nil_iff hnl).1 e')), if_neg e]
  have hxt : (zl = .leaf ∧ (if zl.isLeaf then zr else zl) = zr) ∨
      (zr = .leaf ∧ (if zl.isLeaf then zr else zl) = zl) := by
    cases zl with
    | leaf => exact Or.inl ⟨rfl, rfl⟩
    | node a b c d =>
      cases zr with
      | leaf => exact Or.inr ⟨rfl, rfl⟩
      | node a b c d => simp [Tree.isLeaf] at hl
  obtain ⟨m1, hp1, h1⟩ := delPropagate_spec (-(tree.DistFunc dz.key)) pz _ m h fuel (by omega)
  have ht1 := delPropagate_heaps (-(tree.DistFunc dz.key)) pz _ m h fuel
  have h1c := h1.cell
  have hzp : (m z).parent = Path.addr tree.root pz := by rw [hc]; rfl
  have hzk : (m z).key = dz.key := by rw [hc]; rfl
  have h1p : (m1 z).parent = Path.addr tree.root pz := by
    rw [h1c]; exact Path.addCh_addr _ _ _
  obtain ⟨h2, h2p, h2z⟩ := h1.splice hxt
  rw [Path.addCh_addr] at h2 h2p h2z
  generalize hxe : (if zl.isLeaf then zr else zl) = xt at *
  have hzx : z ≠ xt.addr tree.nil := by
    rcases hxt with ⟨rfl, rfl⟩ | ⟨rfl, rfl⟩
    · refine (Tree.addr_ne (hnn z (Or.inr (Or.inl (by simp)))).1 ?_).symm
      simp only [addrs_node, addrs_leaf, List.nil_append, List.nodup_cons] at hnt
      exact hnt.1
    · refine (Tree.addr_ne (hnn z (Or.inr (Or.inl (by simp)))).1 ?_).symm
      simp only [addrs_node, addrs_leaf, List.nodup_append, List.nodup_cons,
        List.disjoint_left, List.mem_cons, List.not_mem_nil, or_false] at hnt
      exact fun e => hnt.2.2 e rfl
  have hsplice : RBDelete.splice tree m1 (xt.addr tree.nil) z =
      (if tree.root = Path.addr tree.root pz then
        setLeft (setParent m1 (xt.addr tree.nil) (Path.addr tree.root pz)) tree.root
          (xt.addr tree.nil)
      else if z = (setParent m1 (xt.addr tree.nil) (Path.addr tree.root pz)
          (Path.addr tree.root pz)).left then
        setLeft (setParent m1 (xt.addr tree.nil) (Path.addr tree.root pz))
          (Path.addr tree.root pz) (xt.addr tree.nil)
      else
        setRight (setParent m1 (xt.addr tree.nil) (Path.addr tree.root pz))
          (Path.addr tree.root pz) (xt.addr tree.nil)) := by
    simp only [RBDelete.splice, h1p, setParent_parent_same, setParent_parent_ne _ _ _ _ hzx]
  rw [← hsplice] at h2 h2p h2z
  generalize hM2 : RBDelete.splice tree m1 (xt.addr tree.nil) z = M2 at h2 h2p h2z
  have hred : (M2 z).red = dz.red := by rw [h2z, h1c]; rfl
  rw [← hzk, ← hzp] at hp1 ht1
  have hcand : RBDelete.candidate fuel tree m z = some z := by
    unfold RBDelete.candidate
    exact if_pos hcond
  have key : ∃ m3, (if !(M2 z).red then RBDeleteFixUp fuel tree M2 (xt.addr tree.nil)
        else some M2) = some m3 ∧ RepTree tree m3 T' ∧
      ((!(M2 z).red) = true →
        ∀ s ∈ RBDeleteFixUp.heaps fuel tree M2 (xt.addr tree.nil), SentinelsIntact tree s) := by
    rw [hred]
    unfold spliceFix at hfix
    cases hr : dz.red with
    | true =>
      rw [hr] at hfix
      simp only [if_true, Option.some.injEq] at hfix
      simp only [Bool.not_true, Bool.false_eq_true, if_false]
      exact ⟨M2, rfl, hfix ▸ h2.top, fun e => absurd e (by simp)⟩
    | false =>
      rw [hr] at hfix
      simp only [Bool.false_eq_true, if_false] at hfix
      simp only [Bool.not_false, if_true]
      obtain ⟨m3, h3, h3r⟩ := RBDeleteFixUp_spec h2 (by rw [h2p, Path.addCh_addr])
        (Path.addCh_topBlack _ _ htop) hfix fuel (by rw [Path.addCh_length]; exact hf)
      exact ⟨m3, h3, h3r, fun _ => RBDeleteFixUp_heaps h2 (by rw [h2p, Path.addCh_addr])
        (Path.addCh_topBlack _ _ htop) hfix fuel (by rw [Path.addCh_length]; exact hf)⟩
  obtain ⟨m3, h3, h3r, ht3⟩ := key
  have e4 : m3 = if z ≠ z then RBDelete.replace tree m3 z z (tree.DistFunc (m z).key)
      else m3 := by simp
  have e5 : (if z ≠ z then
        RBDelete.propagate tree (tree.DistFunc (m z).key - tree.DistFunc (M2 z).key) fuel m3
          (m3 z).parent
      else some m3) = some m3 := by simp
  refine ⟨z, xt.addr tree.nil, m1, M2, m3, m3, m3, hcand, hx.symm, hp1, hM2.symm, h3, e4, e5,
    RBDelete_of_stages hcand hx.symm hp1 hM2.symm h3 e4 e5, ?_, h2.sentinels, ht3,
    h3r.sentinels, fun e => absurd rfl e, h3r.sentinels⟩
  intro s hs
  rcases List.mem_cons.1 hs with rfl | hs
  · exact h.sentinels
  · exact ht1 s hs

/-- The stages of `RBDelete` of a node with two children. -/
theorem RBDelete_two_stages {pz : Path} {zl zr : Tree} {z : Nat} {dz : Data}
    (h : RepZ tree m pz (.node zl z dz zr)) (hblack : (fill pz (.node zl z dz zr)).isRed = false)
    (hl : zl.isLeaf = false) (hr : zr.isLeaf = false)
    {py : Path} {y : Nat} {dy : Data} {yr : Tree}
    (hs : splitMin zr (.R zl z dz :: pz) = some (py, y, dy, yr))
    {T2 : Tree} (hfix : spliceFix tree.DistFunc dy.red py yr (tree.DistFunc dy.key) = some T2)
    {pz2 : Path} {l2 r2 : Tree} {z' : Nat} {dz2 : Data}
    (hfind : T2.find z [] = some (pz2, .node l2 z' dz2 r2))
    (fuel : Nat) (hf : (fill pz (.node zl z dz zr)).size + 2 ≤ fuel) :
    ∃ y x m1 m2 m3 m4 m5,
      RBDelete.candidate fuel tree m z = some y ∧ x = RBDelete.child tree m y ∧
      RBDelete.propagate tree (-(tree.DistFunc (m y).key)) fuel m (m y).parent = some m1 ∧
      m2 = RBDelete.splice tree m1 x y ∧
      (if !(m2 y).red then RBDeleteFixUp fuel tree m2 x else some m2) = some m3 ∧
      (m4 = if y ≠ z then RBDelete.replace tree m3 y z (tree.DistFunc (m y).key) else m3) ∧
      (if y ≠ z then
          RBDelete.propagate tree (tree.DistFunc (m y).key - tree.DistFunc (m2 z).key) fuel m4
            (m4 y).parent
        else some m4) = some m5 ∧
      RBDelete fuel tree m z = some m5 ∧
      (∀ s ∈ m :: RBDelete.propagate.heaps tree (-(tree.DistFunc (m y).key)) fuel m
          (m y).parent, SentinelsIntact tree s) ∧
      SentinelsIntact tree m2 ∧
      ((!(m2 y).red) = true →
        ∀ s ∈ RBDeleteFixUp.heaps fuel tree m2 x, SentinelsIntact tree s) ∧
      SentinelsIntact tree m3 ∧
      (y ≠ z →
        ∀ s ∈ m4 :: RBDelete.propagate.heaps tree
          (tree.DistFunc (m y).key - tree.DistFunc (m2 z).key) fuel m4 (m4 y).parent,
          SentinelsIntact tree s) ∧
      SentinelsIntact tree m5 := by
  have hc := h.cell
  obtain ⟨hnr, hnn, hnt, -⟩ := h.nodup'
  have hnl : ∀ a ∈ zl.addrs, tree.nil ≠ a := fun a ha => (hnn a (Or.inr (Or.inl (by simp [ha])))).1
  have hnr' : ∀ a ∈ zr.addrs, tree.nil ≠ a := fun a ha => (hnn a (Or.inr (Or.inl (by simp [ha])))).1
  have hzl : (m z).left = zl.addr tree.nil := by rw [hc]; rfl
  have hzr : (m z).right = zr.addr tree.nil := by rw [hc]; rfl
  have hzk : (m z).key = dz.key := by rw [hc]; rfl
  have hzln : (m z).left ≠ tree.nil := by
    rw [hzl, Ne, Tree.addr_eq_nil_iff hnl, hl]; simp
  have hzrn : (m z).right ≠ tree.nil := by
    rw [hzr, Ne, Tree.addr_eq_nil_iff hnr', hr]; simp
  have hsz := fill_size_le pz (.node zl z dz zr)
  simp only [Tree.size] at hsz
  -- the successor
  obtain ⟨hdown, hy, hylen⟩ := succDown_spec zr (.R zl z dz :: pz) (RepZ.down (f := .R zl z dz) h) hs fuel (by omega)
  obtain ⟨hfy, -⟩ := splitMin_fill _ _ hs
  simp only [fill_cons, Frame.plug] at hfy
  have hcand : RBDelete.candidate fuel tree m z = some y := by
    unfold RBDelete.candidate
    rw [if_neg (by simp [hzln, hzrn])]
    simp only [TreeSuccessor]
    rw [if_pos hzrn.symm, hzr, hdown]
  have hyc := hy.cell
  have hyl : (m y).left = tree.nil := by rw [hyc]; rfl
  have hyr : (m y).right = yr.addr tree.nil := by rw [hyc]; rfl
  have hyp : (m y).parent = Path.addr tree.root py := by rw [hyc]; rfl
  have hyk : (m y).key = dy.key := by rw [hyc]; rfl
  have hyi : (m y).info = dy.info := by rw [hyc]; rfl
  have hx : RBDelete.child tree m y = yr.addr tree.nil := by
    unfold RBDelete.child
    rw [if_pos hyl, hyr]
  have hpylen : py.length + 1 ≤ (fill pz (.node zl z dz zr)).size := by
    have := fill_size_le py (.node .leaf y dy yr)
    rw [hfy] at this
    simp only [Tree.size] at this
    omega
  obtain ⟨m1, hp1, h1⟩ := delPropagate_spec (-(tree.DistFunc dy.key)) py _ m hy fuel (by omega)
  have ht1 := delPropagate_heaps (-(tree.DistFunc dy.key)) py _ m hy fuel
  have h1c := h1.cell
  have hK1 := delPropagate_keys _ _ _ _ hp1
  have h1p : (m1 y).parent = Path.addr tree.root py := by
    rw [h1c]; exact Path.addCh_addr _ _ _
  obtain ⟨h2, h2p, h2y⟩ := h1.splice (u := yr) (Or.inl ⟨rfl, rfl⟩)
  rw [Path.addCh_addr] at h2 h2p h2y
  have hyx : y ≠ yr.addr tree.nil := by
    obtain ⟨-, hnn1, hnt1, -⟩ := hy.nodup'
    refine (Tree.addr_ne (hnn1 y (Or.inr (Or.inl (by simp)))).1 ?_).symm
    simp only [addrs_node, addrs_leaf, List.nil_append, List.nodup_cons] at hnt1
    exact hnt1.1
  have hsplice : RBDelete.splice tree m1 (yr.addr tree.nil) y =
      (if tree.root = Path.addr tree.root py then
        setLeft (setParent m1 (yr.addr tree.nil) (Path.addr tree.root py)) tree.root
          (yr.addr tree.nil)
      else if y = (setParent m1 (yr.addr tree.nil) (Path.addr tree.root py)
          (Path.addr tree.root py)).left then
        setLeft (setParent m1 (yr.addr tree.nil) (Path.addr tree.root py))
          (Path.addr tree.root py) (yr.addr tree.nil)
      else
        setRight (setParent m1 (yr.addr tree.nil) (Path.addr tree.root py))
          (Path.addr tree.root py) (yr.addr tree.nil)) := by
    simp only [RBDelete.splice, h1p, setParent_parent_same, setParent_parent_ne _ _ _ _ hyx]
  have hK2 : KeysEq m1 (RBDelete.splice tree m1 (yr.addr tree.nil) y) := by
    rw [hsplice]
    exact KeysEq_ite _ ((KeysEq_setParent _ _ _).trans (KeysEq_setLeft _ _ _))
      (KeysEq_ite _ ((KeysEq_setParent _ _ _).trans (KeysEq_setLeft _ _ _))
        ((KeysEq_setParent _ _ _).trans (KeysEq_setRight _ _ _)))
  rw [← hsplice] at h2 h2p h2y
  generalize hM2 : RBDelete.splice tree m1 (yr.addr tree.nil) y = M2 at h2 h2p h2y hK2
  have hyz : y ≠ z := by
    have hym : y ∈ zr.addrs := splitMin_mem _ _ hs
    simp only [addrs_node, List.nodup_append, List.nodup_cons] at hnt
    rintro rfl
    exact hnt.2.1.1 hym
  have hred : (M2 y).red = dy.red := by rw [h2y, h1c]; rfl
  have hM2z : (M2 z).key = dz.key := by rw [((hK1.trans hK2) z).1, hzk]
  obtain ⟨m3, hm3, h3, hK3, ht3⟩ : ∃ m3, (if !(M2 y).red then
      RBDeleteFixUp fuel tree M2 (yr.addr tree.nil) else some M2) = some m3 ∧
      RepTree tree m3 T2 ∧ KeysEq M2 m3 ∧
      ((!(M2 y).red) = true →
        ∀ s ∈ RBDeleteFixUp.heaps fuel tree M2 (yr.addr tree.nil), SentinelsIntact tree s) := by
    rw [hred]
    unfold spliceFix at hfix
    cases hr : dy.red with
    | true =>
      rw [hr] at hfix
      simp only [if_true, Option.some.injEq] at hfix
      simp only [Bool.not_true, Bool.false_eq_true, if_false]
      exact ⟨M2, rfl, hfix ▸ h2.top, KeysEq.refl _, fun e => absurd e (by simp)⟩
    | false =>
      rw [hr] at hfix
      simp only [Bool.false_eq_true, if_false] at hfix
      simp only [Bool.not_false, if_true]
      have htop : Path.topBlack py := by
        refine topBlack_of_fill py (.node .leaf y dy yr) (hfy ▸ hblack) ?_
        rintro rfl
        have := splitMin_length _ _ hs
        simp at this
      obtain ⟨m3, h3, h3r⟩ := RBDeleteFixUp_spec h2 (by rw [h2p, Path.addCh_addr])
        (Path.addCh_topBlack _ _ htop) hfix fuel (by rw [Path.addCh_length]; omega)
      exact ⟨m3, h3, h3r, RBDeleteFixUp_keys _ _ _ h3,
        fun _ => RBDeleteFixUp_heaps h2 (by rw [h2p, Path.addCh_addr])
          (Path.addCh_topBlack _ _ htop) hfix fuel (by rw [Path.addCh_length]; omega)⟩
  obtain ⟨hff, l, d, r, e⟩ := Tree.find_fill T2 [] hfind
  simp only [Tree.node.injEq] at e
  obtain ⟨-, rfl, -, -⟩ := e
  simp only [fill_nil] at hff
  have h3z : RepZ tree m3 pz2 (.node l2 z' dz2 r2) := RepZ.ofTop (hff ▸ h3)
  have hT2e := spliceFix_entries _ hfix
  obtain ⟨hyn, hyr0, -⟩ := hy.sub_ne (a := y) (by simp)
  have hyT2 : y ∉ (fill pz2 (.node l2 z' dz2 r2)).addrs := by
    rw [hff, Tree.addrs, hT2e, ← Tree.addrs, addrs_fill]
    have hn := (List.nodup_cons.1 (List.nodup_cons.1 hy.nodup).2).2
    rw [addrs_fill] at hn
    simp only [addrs_node, addrs_leaf, List.nil_append, List.append_assoc,
      List.cons_append] at hn
    have := (List.nodup_middle.1 hn)
    rw [List.nodup_cons] at this
    simpa using this.1
  obtain ⟨hR, hRp, hKR⟩ := replace_spec h3z hyn hyr0 hyT2 (tree.DistFunc dy.key)
  have hlen2 : pz2.length < fuel := by
    have h1 := fill_size_le pz2 (.node l2 z' dz2 r2)
    rw [hff, Tree.size_eq T2, hT2e] at h1
    have h2 := congrArg (fun t => t.entries.length) hfy
    simp only [entries_fill, List.length_append, entries_node, entries_leaf,
      List.length_cons, List.length_nil] at h1 h2
    have h3 := Tree.size_eq (fill pz (.node zl z' dz zr))
    rw [entries_fill] at h3
    simp only [List.length_append, entries_node, List.length_cons] at h3
    simp only [Tree.size] at h1
    omega
  obtain ⟨m9, hp9, h9⟩ := delPropagate_spec (tree.DistFunc dy.key - tree.DistFunc dz.key) pz2 _ _
    hR fuel hlen2
  have ht9 := delPropagate_heaps (tree.DistFunc dy.key - tree.DistFunc dz.key) pz2 _ _ hR fuel
  rw [← hRp, ← hyk, ← hM2z] at hp9 ht9
  rw [← hyk, ← hyp] at hp1 ht1
  have e4 : RBDelete.replace tree m3 y z' (tree.DistFunc (m y).key) =
      if y ≠ z' then RBDelete.replace tree m3 y z' (tree.DistFunc (m y).key) else m3 := by
    rw [if_pos hyz]
  have e5 : (if y ≠ z' then
        RBDelete.propagate tree (tree.DistFunc (m y).key - tree.DistFunc (M2 z').key) fuel
          (RBDelete.replace tree m3 y z' (tree.DistFunc (m y).key))
          ((RBDelete.replace tree m3 y z' (tree.DistFunc (m y).key)) y).parent
      else some (RBDelete.replace tree m3 y z' (tree.DistFunc (m y).key))) = some m9 := by
    rw [if_pos hyz]
    exact hp9
  refine ⟨y, yr.addr tree.nil, m1, M2, m3, _, m9, hcand, hx.symm, hp1, hM2.symm, hm3, e4, e5,
    RBDelete_of_stages hcand hx.symm hp1 hM2.symm hm3 e4 e5, ?_, h2.sentinels, ht3,
    h3.sentinels, fun _ => ?_, h9.sentinels⟩
  · intro s hs
    rcases List.mem_cons.1 hs with rfl | hs
    · exact h.sentinels
    · exact ht1 s hs
  · intro s hs
    rcases List.mem_cons.1 hs with rfl | hs
    · rw [hyk]; exact hR.sentinels
    · exact ht9 s hs

/-- The stages of `RBDelete` of a node of a tree on which the abstract deletion
succeeds: the sentinels are intact in every heap that the two weight loops and
`RBDeleteFixUp` start from, write and leave. -/
theorem RBDelete_stages {T T' : Tree} (h : RepTree tree m T) (hblack : T.isRed = false)
    {z : Nat} (hdel : Tree.delete tree.DistFunc T z = some T') (fuel : Nat)
    (hf : T.size + 2 ≤ fuel) :
    ∃ y x m1 m2 m3 m4 m5,
      RBDelete.candidate fuel tree m z = some y ∧ x = RBDelete.child tree m y ∧
      RBDelete.propagate tree (-(tree.DistFunc (m y).key)) fuel m (m y).parent = some m1 ∧
      m2 = RBDelete.splice tree m1 x y ∧
      (if !(m2 y).red then RBDeleteFixUp fuel tree m2 x else some m2) = some m3 ∧
      (m4 = if y ≠ z then RBDelete.replace tree m3 y z (tree.DistFunc (m y).key) else m3) ∧
      (if y ≠ z then
          RBDelete.propagate tree (tree.DistFunc (m y).key - tree.DistFunc (m2 z).key) fuel m4
            (m4 y).parent
        else some m4) = some m5 ∧
      RBDelete fuel tree m z = some m5 ∧
      (∀ s ∈ m :: RBDelete.propagate.heaps tree (-(tree.DistFunc (m y).key)) fuel m
          (m y).parent, SentinelsIntact tree s) ∧
      SentinelsIntact tree m2 ∧
      ((!(m2 y).red) = true →
        ∀ s ∈ RBDeleteFixUp.heaps fuel tree m2 x, SentinelsIntact tree s) ∧
      SentinelsIntact tree m3 ∧
      (y ≠ z →
        ∀ s ∈ m4 :: RBDelete.propagate.heaps tree
          (tree.DistFunc (m y).key - tree.DistFunc (m2 z).key) fuel m4 (m4 y).parent,
          SentinelsIntact tree s) ∧
      SentinelsIntact tree m5 := by
  unfold Tree.delete at hdel
  split at hdel
  · exact absurd hdel (by simp)
  · exact absurd hdel (by simp)
  · next pz zl a dz zr hfind =>
    obtain ⟨hff, l, d, r, e⟩ := Tree.find_fill T [] hfind
    simp only [Tree.node.injEq] at e
    obtain ⟨-, rfl, -, -⟩ := e
    simp only [fill_nil] at hff
    have hz : RepZ tree m pz (.node zl a dz zr) := RepZ.ofTop (hff ▸ h)
    have hlen := fill_size_le pz (.node zl a dz zr)
    rw [hff] at hlen
    simp only [Tree.size] at hlen
    split at hdel
    · next hl =>
      have htop : Path.topBlack pz := by
        rcases pz with _ | ⟨f, pz⟩
        · trivial
        · exact topBlack_of_fill _ _ (hff ▸ hblack) (by simp)
      exact RBDelete_leaf_stages hz htop hl hdel fuel (by omega)
    · next hl =>
      simp only [not_or, Bool.not_eq_true] at hl
      split at hdel
      · exact absurd hdel (by simp)
      · next py y dy yr hs =>
        split at hdel
        · exact absurd hdel (by simp)
        · next T2 hfix =>
          split at hdel
          · next pz2 l2 z2 dz2 r2 hfind2 =>
            exact RBDelete_two_stages hz (hff ▸ hblack) hl.1 hl.2 hs hfix hfind2 fuel
              (by rw [hff]; exact hf)
          · exact absurd hdel (by simp)

/-- The last heap written by `RBDeleteFixUp` is its result. -/
theorem RBDeleteFixUp_last (fuel : Nat) (m : Mem) (x : Nat) {m' : Mem}
    (h : RBDeleteFixUp fuel tree m x = some m') :
    (m :: RBDeleteFixUp.heaps fuel tree m x).getLast? = some m' := by
  unfold RBDeleteFixUp at h
  unfold RBDeleteFixUp.heaps
  simp only at h ⊢
  cases hl : RBDeleteFixUp.loop tree (m tree.root).left fuel m x with
  | none => rw [hl] at h; exact absurd h (by simp)
  | some r =>
    obtain ⟨m1, x1⟩ := r
    rw [hl] at h
    simp only [Option.some.injEq] at h
    rw [← h, ← List.cons_append, List.getLast?_append_cons]
    rfl

end SentinelDelete

end RBTree


namespace RBTree

section ClaimsSentinel

/-- C25: the sentinels.  In every state reached from `RBTreeCreate` by `RBTreeInsert` and
`RBDelete` calls on live nodes, `nil` is black with `children` 0, the root sentinel is
black with `children` 0, the right child of the root sentinel is `nil` and its left child
is `nil` or a live node.  A rotation writes no colour at all, on any heap, and a rotation
at a live node with a real child on the side that moves up leaves the `children` of both
sentinels at 0.  A call of `RBTreeInsert` with a fresh cell on such a state runs through
the heap `m1` on which the weight loop `TreeInsertHelp.propagate` starts, its result `m2`
and the result `m3` of the repair loop `RBTreeInsert.loop`; a call of `RBDelete` on a live
node `z` runs through the result `m1` of the first weight loop `RBDelete.propagate`, the
heap `m2` after the splice, the heap `m3` after `RBDeleteFixUp` (run if `y` was black), and
for `y ≠ z` the heap `m4` after `y` has replaced `z` and the result `m5` of the second
weight loop.  In every heap that one of these loops starts from, writes (after each of
its assignments and rotations) or leaves, `nil` and the root sentinel are black with
`children` 0.  The last heap that a loop writes is its result. -/
theorem sentinel_invariant (tree : rb_red_blk_tree) (m : Mem) (hs : List Nat)
    (hr : Reachable tree m hs) :
    (m tree.nil).red = false ∧ (m tree.nil).children = 0 ∧
      (m tree.root).red = false ∧ (m tree.root).children = 0 ∧
      (m tree.root).right = tree.nil ∧
      ((m tree.root).left = tree.nil ∨ (m tree.root).left ∈ hs) ∧
      (∀ (m0 : Mem) x a, (LeftRotate tree m0 x a).red = (m0 a).red ∧
        (RightRotate tree m0 x a).red = (m0 a).red) ∧
      (∀ x ∈ hs, (m x).right ≠ tree.nil →
        (LeftRotate tree m x tree.nil).children = 0 ∧
          (LeftRotate tree m x tree.root).children = 0) ∧
      (∀ x ∈ hs, (m x).left ≠ tree.nil →
        (RightRotate tree m x tree.nil).children = 0 ∧
          (RightRotate tree m x tree.root).children = 0) ∧
      (∀ x key info fuel, x ≠ tree.nil → x ≠ tree.root → x ∉ hs → hs.length + 2 ≤ fuel →
        ∃ m1 m2 m3,
          TreeInsertHelp.place fuel tree (setInfo (setKey m x key) x info) x = some m1 ∧
          TreeInsertHelp.propagate tree x fuel m1 (m1 x).parent = some m2 ∧
          TreeInsertHelp fuel tree (setInfo (setKey m x key) x info) x = some m2 ∧
          RBTreeInsert.loop tree fuel (setRed m2 x true) x = some m3 ∧
          RBTreeInsert fuel tree m x key info = some (setRed m3 (m3 tree.root).left false, x) ∧
          (∀ s ∈ m1 :: TreeInsertHelp.propagate.heaps tree x fuel m1 (m1 x).parent,
            SentinelsIntact tree s) ∧
          (∀ s ∈ setRed m2 x true :: RBTreeInsert.loop.heaps tree fuel (setRed m2 x true) x,
            SentinelsIntact tree s) ∧
          SentinelsIntact tree (setRed m3 (m3 tree.root).left false)) ∧
      (∀ z fuel, z ∈ hs → hs.length + 2 ≤ fuel →
        ∃ y x m1 m2 m3 m4 m5,
          RBDelete.candidate fuel tree m z = some y ∧ x = RBDelete.child tree m y ∧
          RBDelete.propagate tree (-(tree.DistFunc (m y).key)) fuel m (m y).parent = some m1 ∧
          m2 = RBDelete.splice tree m1 x y ∧
          (if !(m2 y).red then RBDeleteFixUp fuel tree m2 x else some m2) = some m3 ∧
          (m4 = if y ≠ z then RBDelete.replace tree m3 y z (tree.DistFunc (m y).key) else m3) ∧
          (if y ≠ z then
              RBDelete.propagate tree (tree.DistFunc (m y).key - tree.DistFunc (m2 z).key) fuel
                m4 (m4 y).parent
            else some m4) = some m5 ∧
          RBDelete fuel tree m z = some m5 ∧
          (∀ s ∈ m :: RBDelete.propagate.heaps tree (-(tree.DistFunc (m y).key)) fuel m
              (m y).parent, SentinelsIntact tree s) ∧
          SentinelsIntact tree m2 ∧
          ((!(m2 y).red) = true →
            ∀ s ∈ RBDeleteFixUp.heaps fuel tree m2 x, SentinelsIntact tree s) ∧
          SentinelsIntact tree m3 ∧
          (y ≠ z →
            ∀ s ∈ m4 :: RBDelete.propagate.heaps tree
              (tree.DistFunc (m y).key - tree.DistFunc (m2 z).key) fuel m4 (m4 y).parent,
              SentinelsIntact tree s) ∧
          SentinelsIntact tree m5) ∧
      (∀ z fuel (m0 : Mem) w m', TreeInsertHelp.propagate tree z fuel m0 w = some m' →
        (m0 :: TreeInsertHelp.propagate.heaps tree z fuel m0 w).getLast? = some m') ∧
      (∀ fuel (m0 : Mem) x m', RBTreeInsert.loop tree fuel m0 x = some m' →
        (m0 :: RBTreeInsert.loop.heaps tree fuel m0 x).getLast? = some m') ∧
      (∀ fuel (m0 : Mem) x m', RBDeleteFixUp fuel tree m0 x = some m' →
        (m0 :: RBDeleteFixUp.heaps fuel tree m0 x).getLast? = some m') ∧
      (∀ d fuel (m0 : Mem) w m', RBDelete.propagate tree d fuel m0 w = some m' →
        (m0 :: RBDelete.propagate.heaps tree d fuel m0 w).getLast? = some m') := by
  obtain ⟨T, hT, hp, hb, hRB, -, -⟩ := hr.inv
  obtain ⟨-, hnred, -, -, hnch⟩ := hT.nilc
  obtain ⟨-, hrred, hrl, hrr, -, hrch⟩ := hT.rootc
  have hsize : T.size = hs.length := by
    rw [Tree.size_eq, ← hp.length_eq, Tree.addrs, List.length_map]
  refine ⟨hnred, hnch, hrred, hrch, hrr, ?_,
    fun m0 x a => ⟨LeftRotate_red tree m0 x a, RightRotate_red tree m0 x a⟩, ?_, ?_, ?_, ?_,
    fun z fuel m0 w m' h => insPropagate_last z fuel m0 w h,
    fun fuel m0 x m' h => insLoop_last fuel m0 x h,
    fun fuel m0 x m' h => RBDeleteFixUp_last fuel m0 x h,
    fun d fuel m0 w m' h => delPropagate_last d fuel m0 w h⟩
  · rw [hrl]
    rcases Tree.addr_eq_or tree.nil T with e | e
    · exact Or.inl e
    · exact Or.inr (hp.mem_iff.1 e)
  · intro x hx hright
    have hx' := hp.mem_iff.2 hx
    obtain ⟨T', -, -, hy, -, -⟩ := rotL_contract hT hx' hright
    have hxn := hT.ne_nil hx'
    have hyn := hT.ne_nil hy
    rw [LeftRotate_children_frame tree m x _ hxn.1.symm hyn.1.symm,
      LeftRotate_children_frame tree m x _ hxn.2.symm hyn.2.symm]
    exact ⟨hnch, hrch⟩
  · intro x hx hleft
    have hx' := hp.mem_iff.2 hx
    obtain ⟨T', -, -, hy, -, -⟩ := rotR_contract hT hx' hleft
    have hxn := hT.ne_nil hx'
    have hyn := hT.ne_nil hy
    rw [RightRotate_children_frame tree m x _ hxn.1.symm hyn.1.symm,
      RightRotate_children_frame tree m x _ hxn.2.symm hyn.2.symm]
    exact ⟨hnch, hrch⟩
  · intro x key info fuel hxn hxr hx hf
    exact RBTreeInsert_stages hT hb hxn hxr (fun e => hx (hp.mem_iff.1 e)) key info fuel
      (by omega)
  · intro z fuel hz hf
    obtain ⟨T', hdel, -⟩ := Tree.delete_RB tree.DistFunc hRB (hp.mem_iff.2 hz)
    exact RBDelete_stages hT hb hdel fuel (by omega)

theorem sentinel_invariant_witness :
    (pwMemA pwTree.nil).red = false ∧ (pwMemA pwTree.nil).children = 0 ∧
      (pwMemA pwTree.root).red = false ∧ (pwMemA pwTree.root).children = 0 ∧
      (pwMemA pwTree.root).right = pwTree.nil ∧
      ((pwMemA pwTree.root).left = pwTree.nil ∨ (pwMemA pwTree.root).left ∈ [4, 3, 2]) ∧
      (∀ (m0 : Mem) x a, (LeftRotate pwTree m0 x a).red = (m0 a).red ∧
        (RightRotate pwTree m0 x a).red = (m0 a).red) ∧
      (∀ x ∈ [4, 3, 2], (pwMemA x).right ≠ pwTree.nil →
        (LeftRotate pwTree pwMemA x pwTree.nil).children = 0 ∧
          (LeftRotate pwTree pwMemA x pwTree.root).children = 0) ∧
      (∀ x ∈ [4, 3, 2], (pwMemA x).left ≠ pwTree.nil →
        (RightRotate pwTree pwMemA x pwTree.nil).children = 0 ∧
          (RightRotate pwTree pwMemA x pwTree.root).children = 0) ∧
      (∀ x key info fuel, x ≠ pwTree.nil → x ≠ pwTree.root → x ∉ [4, 3, 2] → [4, 3, 2].length + 2 ≤ fuel →
        ∃ m1 m2 m3,
          TreeInsertHelp.place fuel pwTree (setInfo (setKey pwMemA x key) x info) x = some m1 ∧
          TreeInsertHelp.propagate pwTree x fuel m1 (m1 x).parent = some m2 ∧
          TreeInsertHelp fuel pwTree (setInfo (setKey pwMemA x key) x info) x = some m2 ∧
          RBTreeInsert.loop pwTree fuel (setRed m2 x true) x = some m3 ∧
          RBTreeInsert fuel pwTree pwMemA x key info = some (setRed m3 (m3 pwTree.root).left false, x) ∧
          (∀ s ∈ m1 :: TreeInsertHelp.propagate.heaps pwTree x fuel m1 (m1 x).parent,
            SentinelsIntact pwTree s) ∧
          (∀ s ∈ setRed m2 x true :: RBTreeInsert.loop.heaps pwTree fuel (setRed m2 x true) x,
            SentinelsIntact pwTree s) ∧
          SentinelsIntact pwTree (setRed m3 (m3 pwTree.root).left false)) ∧
      (∀ z fuel, z ∈ [4, 3, 2] → [4, 3, 2].length + 2 ≤ fuel →
        ∃ y x m1 m2 m3 m4 m5,
          RBDelete.candidate fuel pwTree pwMemA z = some y ∧ x = RBDelete.child pwTree pwMemA y ∧
          RBDelete.propagate pwTree (-(pwTree.DistFunc (pwMemA y).key)) fuel pwMemA (pwMemA y).parent = some m1 ∧
          m2 = RBDelete.splice pwTree m1 x y ∧
          (if !(m2 y).red then RBDeleteFixUp fuel pwTree m2 x else some m2) = some m3 ∧
          (m4 = if y ≠ z then RBDelete.replace pwTree m3 y z (pwTree.DistFunc (pwMemA y).key) else m3) ∧
          (if y ≠ z then
              RBDelete.propagate pwTree (pwTree.DistFunc (pwMemA y).key - pwTree.DistFunc (m2 z).key) fuel
                m4 (m4 y).parent
            else some m4) = some m5 ∧
          RBDelete fuel pwTree pwMemA z = some m5 ∧
          (∀ s ∈ pwMemA :: RBDelete.propagate.heaps pwTree (-(pwTree.DistFunc (pwMemA y).key)) fuel pwMemA
              (pwMemA y).parent, SentinelsIntact pwTree s) ∧
          SentinelsIntact pwTree m2 ∧
          ((!(m2 y).red) = true →
            ∀ s ∈ RBDeleteFixUp.heaps fuel pwTree m2 x, SentinelsIntact pwTree s) ∧
          SentinelsIntact pwTree m3 ∧
          (y ≠ z →
            ∀ s ∈ m4 :: RBDelete.propagate.heaps pwTree
              (pwTree.DistFunc (pwMemA y).key - pwTree.DistFunc (m2 z).key) fuel m4 (m4 y).parent,
              SentinelsIntact pwTree s) ∧
          SentinelsIntact pwTree m5) ∧
      (∀ z fuel (m0 : Mem) w m', TreeInsertHelp.propagate pwTree z fuel m0 w = some m' →
        (m0 :: TreeInsertHelp.propagate.heaps pwTree z fuel m0 w).getLast? = some m') ∧
      (∀ fuel (m0 : Mem) x m', RBTreeInsert.loop pwTree fuel m0 x = some m' →
        (m0 :: RBTreeInsert.loop.heaps pwTree fuel m0 x).getLast? = some m') ∧
      (∀ fuel (m0 : Mem) x m', RBDeleteFixUp fuel pwTree m0 x = some m' →
        (m0 :: RBDeleteFixUp.heaps fuel pwTree m0 x).getLast? = some m') ∧
      (∀ d fuel (m0 : Mem) w m', RBDelete.propagate pwTree d fuel m0 w = some m' →
        (m0 :: RBDelete.propagate.heaps pwTree d fuel m0 w).getLast? = some m') :=
  sentinel_invariant pwTree pwMemA [4, 3, 2] pw_reachA

end ClaimsSentinel

end RBTree
